import Mathlib

/-! # pllua-ng `src/jsonb.c`: a shallow embedding

The Lua/jsonb codec of pllua-ng, embedded as pure functions.

* Lua values are trees (`LVal`).  Reference objects (tables, userdata,
  functions, threads) carry their address, and `lua_rawequal` compares
  addresses, as the Lua VM does.  A table is its metatable plus the sequence
  of key/value pairs in the order `lua_next` yields them; containers are plain
  tables (no `__pairs`, `__index` or `__newindex`), the data model of the
  specification.  A Lua float is carried by its exact rational value, or is
  the NaN, which is raw-equal to no value, itself included; the infinities
  are left out, and no float arithmetic is performed by this code.
* C `int` variables are integers wrapped to 32 bits (`wrapInt32`) wherever the
  source narrows a `lua_Integer` or multiplies two `int`s.
* What lives outside the repository (the Lua string/number coercions, the
  server-encoding check, the numeric type's conversions, Lua functions) is the
  parameter `Env`.
* `pllua_jsonb_tosql` and `pllua_jsonb_map` are the explicit-stack loops of the
  source, one `step` per loop iteration.
-/

namespace Pllua

/-! ## Machine integers -/

/-- The value of a C `int` holding the mathematical integer `x` (two's complement, 32 bits). -/
def wrapInt32 (x : Int) : Int := (x + 2147483648) % 4294967296 - 2147483648

/-- LUA_MAXINTEGER, the largest `lua_Integer`. -/
def LUA_MAXINTEGER : Int := 9223372036854775807

/-! ## The binary document -/

/-- A PostgreSQL `numeric` datum, identified by its canonical text. -/
structure Numeric where
  text : String
deriving DecidableEq

/-- A jsonb document: Object and Array containers over Null, Bool, Numeric and String leaves.
A root that is a leaf is a "scalar" document (`JB_ROOT_IS_SCALAR`). -/
inductive Jsonb where
  | null
  | bool (b : Bool)
  | numeric (n : Numeric)
  | string (s : String)
  | array (elems : List Jsonb)
  | object (pairs : List (String × Jsonb))

/-- The C struct `JsonbValue` as this code sees it: a scalar, or an embedded
binary document (`jbvBinary`). -/
inductive JsonbValue where
  | jbvNull
  | jbvString (s : String)
  | jbvNumeric (n : Numeric)
  | jbvBool (b : Bool)
  | jbvBinary (jb : Jsonb)

/-- The tokens of `JsonbIteratorNext` and `pushJsonbValue`, each with the `JsonbValue` that
accompanies it. `WJB_DONE` is the end of the token list. -/
inductive JsonbIteratorToken where
  | WJB_KEY (v : JsonbValue)
  | WJB_VALUE (v : JsonbValue)
  | WJB_ELEM (v : JsonbValue)
  | WJB_BEGIN_ARRAY
  | WJB_END_ARRAY
  | WJB_BEGIN_OBJECT
  | WJB_END_OBJECT

/-! ## Lua values -/

/-- What `luaL_getmetafield(L, idx, "__jsonb_object")` finds. -/
inductive MetaField where
  | absent
  | boolean (b : Bool)
  | other
deriving DecidableEq

/-- The `__tostring` metamethod of a value: absent, or what calling it returns. -/
inductive ToStringMeta where
  | absent
  | returnsString (s : String)
  | returnsOther
deriving DecidableEq

/-- The metatable of a table: none, one of the two marker metatables that
`pllua_open_jsonb` creates (`object_mt`, `array_mt`), or a metatable of the caller. -/
inductive Metatable where
  | none
  | object_mt
  | array_mt
  | user (jsonb_object : MetaField) (tostr : ToStringMeta)
deriving DecidableEq

/-- What `pg_catalog.to_jsonb` returns for a datum: SQL null or a document. -/
inductive ToJsonbResult where
  | sqlNull
  | document (jb : Jsonb)

/-- Whether a full userdata is a pllua datum, and of which type. -/
inductive DatumKind where
  | notDatum
  | numericDatum (n : Numeric)
  | otherDatum (to_jsonb : ToJsonbResult)

/-- A Lua value. A float is a rational number (`flt`) or the NaN (`nan`); the infinities are
left out. -/
inductive LVal where
  | nil
  | bool (b : Bool)
  | int (i : Int)
  | flt (q : Rat)
  | nan
  | str (s : String)
  | table (addr : Nat) (mt : Metatable) (kv : List (LVal × LVal))
  | userdata (addr : Nat) (kind : DatumKind) (tostr : ToStringMeta)
  | function (addr : Nat)
  | lightuserdata (addr : Nat)
  | thread (addr : Nat)

/-- Errors raised by the codec (`luaL_error`, `elog(ERROR)`), by the Lua library it calls, or
by a callback. -/
inductive LuaError where
  | keyLacksTostring
  | keyTostringNotString
  | keyScalarType
  | scalarLacksTostring
  | scalarTostringNotString
  | scalarType
  | invalidEncoding
  | compare
  | index
  | unexpectedKeyType
  | unexpectedIterator
  | callNonFunction
  | badArgument
  | cannotReplaceMetatable
  | internal
  | callback (code : Nat)
deriving DecidableEq

/-- The collaborators outside the repository. -/
structure Env where
  /-- Lua's string to integer coercion, as `lua_tointegerx` applies it to a string. -/
  str2int : String → Option Int
  /-- The text `lua_tostring` gives a float. -/
  fmtFloat : Rat → String
  /-- The server-encoding check `pg_verifymbstr`: true when the string is valid. -/
  pg_verifymbstr : String → Bool
  /-- The numeric type called on a Lua integer. -/
  numericOfInt : Int → Numeric
  /-- The numeric type called on a Lua float. -/
  numericOfFloat : Rat → Numeric
  /-- The `tonumber` method of a numeric datum. -/
  tonumber : Numeric → LVal
  /-- Calling the Lua function at an address with arguments: its results, or the error it raises. -/
  call : Nat → List LVal → Except LuaError (List LVal)

/-! ## Lua primitives -/

/-- The function `lua_tointegerx`: integers, floats with an exact integer value, and strings
convertible to an integer. -/
def lua_tointegerx (E : Env) : LVal → Option Int
  | .int i => some i
  | .flt q => if q.den = 1 ∧ -9223372036854775808 ≤ q.num ∧ q.num ≤ LUA_MAXINTEGER then some q.num else none
  | .str s => E.str2int s
  | _ => none

/-- The function `lua_tointeger`: 0 when the value is not convertible. -/
def lua_tointeger (E : Env) (v : LVal) : Int := (lua_tointegerx E v).getD 0

/-- The function `lua_isinteger`: the value is a number of integer subtype. -/
def lua_isinteger : LVal → Bool
  | .int _ => true
  | _ => false

/-- The function `lua_isnil`. -/
def lua_isnil : LVal → Bool
  | .nil => true
  | _ => false

/-- The function `lua_toboolean`: everything but nil and false is true. -/
def lua_toboolean : LVal → Bool
  | .nil => false
  | .bool b => b
  | _ => true

/-- The function `lua_rawequal`: primitive equality, by address for reference objects. The
float NaN is raw-equal to nothing, itself included. -/
def lua_rawequal : LVal → LVal → Bool
  | .nil, .nil => true
  | .bool a, .bool b => a == b
  | .int a, .int b => a == b
  | .int a, .flt q => (a : Rat) == q
  | .flt q, .int a => q == (a : Rat)
  | .flt p, .flt q => p == q
  | .str a, .str b => a == b
  | .table a _ _, .table b _ _ => a == b
  | .userdata a _ _, .userdata b _ _ => a == b
  | .function a, .function b => a == b
  | .lightuserdata a, .lightuserdata b => a == b
  | .thread a, .thread b => a == b
  | _, _ => false

/-- Raw lookup in the pairs of a table: the value of the first pair whose key is raw-equal
to `k`, nil when there is none. -/
def rawget (kv : List (LVal × LVal)) (k : LVal) : LVal :=
  match kv.find? (fun e => lua_rawequal e.1 k) with
  | some e => e.2
  | none => .nil

/-- The function `lua_gettable` on a plain table; indexing a non-table without `__index` raises. -/
def lua_gettable (t k : LVal) : Except LuaError LVal :=
  match t with
  | .table _ _ kv => .ok (rawget kv k)
  | _ => .error .index

/-- The function `lua_getfield` as the config readers use it: a field of a plain table,
nil for a string, an error for any other value. -/
def lua_getfield (t : LVal) (name : String) : Except LuaError LVal :=
  match t with
  | .table _ _ kv => .ok (rawget kv (.str name))
  | .str _ => .ok .nil
  | _ => .error .index

/-- A float key with an integer value is stored under the integer. -/
def normKey : LVal → LVal
  | .flt q => if q.den = 1 then .int q.num else .flt q
  | k => k

/-- Assignment in the pairs of a table: a nil value removes the key, an existing key keeps
its place, a new key goes last. -/
def rawset (kv : List (LVal × LVal)) (k v : LVal) : List (LVal × LVal) :=
  if lua_isnil v then kv.filter (fun e => !lua_rawequal e.1 k)
  else if kv.any (fun e => lua_rawequal e.1 k) then
    kv.map (fun e => if lua_rawequal e.1 k then (e.1, v) else e)
  else kv ++ [(normKey k, v)]

/-- The functions `lua_settable` and `lua_seti` on a table without `__newindex`: a key that is
nil or NaN raises. -/
def lua_settable (t k v : LVal) : Except LuaError LVal :=
  match t with
  | .table a mt kv =>
    match k with
    | .nil => .error .index
    | .nan => .error .index
    | _ => .ok (.table a mt (rawset kv k v))
  | _ => .error .index

/-- The function `luaL_getmetafield(L, idx, "__jsonb_object")`. -/
def jsonbObjectField : LVal → MetaField
  | .table _ .object_mt _ => .boolean true
  | .table _ .array_mt _ => .boolean false
  | .table _ (.user f _) _ => f
  | _ => .absent

/-- The function `luaL_getmetafield(L, idx, "__tostring")`. -/
def tostringField : LVal → ToStringMeta
  | .table _ (.user _ ts) _ => ts
  | .userdata _ _ ts => ts
  | _ => .absent

/-- Byte-wise order of strings, Lua's `l_strcmp` in the C locale. -/
def charsLess : List Char → List Char → Bool
  | [], [] => false
  | [], _ :: _ => true
  | _ :: _, [] => false
  | a :: as, b :: bs => if a.toNat < b.toNat then true else if b.toNat < a.toNat then false else charsLess as bs

/-- The order `<` of Lua on numbers and strings; any other pair raises "attempt to compare". -/
def lua_lessthan : LVal → LVal → Except LuaError Bool
  | .int a, .int b => .ok (decide (a < b))
  | .int a, .flt q => .ok (decide ((a : Rat) < q))
  | .flt q, .int a => .ok (decide (q < (a : Rat)))
  | .flt p, .flt q => .ok (decide (p < q))
  | .nan, .int _ | .nan, .flt _ | .nan, .nan | .int _, .nan | .flt _, .nan => .ok false
  | .str a, .str b => .ok (charsLess a.data b.data)
  | _, _ => .error .compare

/-- One insertion of the sort below: `x` goes before the first element that is not less than
it. -/
def sortInsert (x : LVal) : List LVal → Except LuaError (List LVal)
  | [] => .ok [x]
  | y :: ys =>
    match lua_lessthan y x with
    | .error e => .error e
    | .ok false => .ok (x :: y :: ys)
    | .ok true =>
      match sortInsert x ys with
      | .error e => .error e
      | .ok r => .ok (y :: r)

/-- Lua's `table.sort` with the default order, as `pllua_open_jsonb` fetches it from the
`table` package: ascending by `<`, raising when two elements cannot be compared. -/
def table_sort : List LVal → Except LuaError (List LVal)
  | [] => .ok []
  | x :: xs =>
    match table_sort xs with
    | .error e => .error e
    | .ok s => sortInsert x s

/-- The text `lua_tostring` gives a number. -/
def numberToString (E : Env) : LVal → String
  | .int i => toString i
  | .flt q => E.fmtFloat q
  | .nan => "nan"
  | _ => ""

/-! ## `pllua_jsonb_pushkeys` -/

/-- The local variables of `pllua_jsonb_pushkeys` while it walks the keys. -/
structure KeyScan where
  min_intkey : Int
  max_intkey : Int
  numintkeys : Int
  numkeys : Int
  keytab : List LVal
  numkeytab : List LVal

/-- The variables before the first key. -/
def KeyScan.init : KeyScan :=
  { min_intkey := LUA_MAXINTEGER, max_intkey := 0, numintkeys := 0, numkeys := 0,
    keytab := [], numkeytab := [] }

/-- The `switch (lua_type(L, -1))` of the key loop: the value stored in the string key table. -/
def keyForObject (E : Env) (known_array : Bool) (key : LVal) : Except LuaError LVal :=
  match key with
  | .userdata _ _ _ | .table _ _ _ =>
    if known_array then .ok key
    else
      match tostringField key with
      | .absent => .error .keyLacksTostring
      | .returnsString s => .ok (.str s)
      | .returnsOther => .error .keyTostringNotString
  | .str _ => .ok key
  | .int _ | .flt _ | .nan => .ok (.str (numberToString E key))
  | _ => .error .keyScalarType

/-- One iteration of the key loop. -/
def scanKey (E : Env) (known_array : Bool) (sc : KeyScan) (key : LVal) : Except LuaError KeyScan :=
  let numkeys := sc.numkeys + 1
  let sc1 : KeyScan :=
    match lua_tointegerx E key with
    | some intval =>
      { sc with
        max_intkey := if intval > sc.max_intkey then intval else sc.max_intkey,
        min_intkey := if intval < sc.min_intkey then intval else sc.min_intkey,
        numintkeys := sc.numintkeys + 1,
        numkeytab := sc.numkeytab ++ [key] }
    | none => sc
  match keyForObject E known_array key with
  | .error e => .error e
  | .ok k => .ok { sc1 with numkeys := numkeys, keytab := sc1.keytab ++ [k] }

/-- The key loop. -/
def scanKeys (E : Env) (known_array : Bool) : KeyScan → List LVal → Except LuaError KeyScan
  | sc, [] => .ok sc
  | sc, key :: rest =>
    match scanKey E known_array sc key with
    | .error e => .error e
    | .ok sc1 => scanKeys E known_array sc1 rest

/-- The condition of the final `if`: true when the container is an object. -/
def classifyObject (known_object known_array empty_object : Bool) (array_thresh array_frac : Int)
    (sc : KeyScan) : Bool :=
  known_object
    || (!known_array
        && ((empty_object && decide (sc.numkeys = 0))
            || decide (sc.numkeys ≠ sc.numintkeys)
            || decide (sc.min_intkey < 1)
            || (decide (sc.numintkeys > 0) && decide (sc.min_intkey > array_thresh))
            || (decide (sc.numintkeys > 0)
                && decide (sc.max_intkey > wrapInt32 (array_frac * sc.numkeys)))))

/-- The string key table of a list of keys, or the first error a key raises. -/
def keysForObject (E : Env) (known_array : Bool) : List LVal → Except LuaError (List LVal)
  | [] => .ok []
  | key :: rest =>
    match keyForObject E known_array key with
    | .error e => .error e
    | .ok k =>
      match keysForObject E known_array rest with
      | .error e => .error e
      | .ok ks => .ok (k :: ks)

/-- What `pllua_jsonb_pushkeys` returns and leaves on the stack: the begin token, the key
table, the previous key (nil for objects, 0 for arrays) and the index 1. -/
structure PushKeys where
  tok : JsonbIteratorToken
  keylist : List LVal
  prevkey : LVal
  index : Nat

/-- The keys of a container in iteration order. -/
def containerKeys : LVal → List LVal
  | .table _ _ kv => kv.map Prod.fst
  | _ => []

/-- The function `pllua_jsonb_pushkeys`, on the container on top of the stack. -/
def pllua_jsonb_pushkeys (E : Env) (container : LVal) (empty_object : Bool)
    (array_thresh array_frac : Int) : Except LuaError PushKeys :=
  let known_object := decide (jsonbObjectField container = .boolean true)
  let known_array := decide (jsonbObjectField container = .boolean false)
  match scanKeys E known_array KeyScan.init (containerKeys container) with
  | .error e => .error e
  | .ok sc =>
    if classifyObject known_object known_array empty_object array_thresh array_frac sc then
      .ok { tok := .WJB_BEGIN_OBJECT, keylist := sc.keytab, prevkey := .nil, index := 1 }
    else
      match table_sort sc.numkeytab with
      | .error e => .error e
      | .ok sorted =>
        .ok { tok := .WJB_BEGIN_ARRAY, keylist := sorted, prevkey := .int 0, index := 1 }

/-! ## The jsonb iterator and builder (PostgreSQL) -/

/-- The macro `JB_ROOT_IS_SCALAR`. -/
def JB_ROOT_IS_SCALAR : Jsonb → Bool
  | .array _ => false
  | .object _ => false
  | _ => true

/-- The macro `JB_ROOT_COUNT`: the number of elements or pairs of the root container; a
scalar document is stored as an array of one element. -/
def JB_ROOT_COUNT : Jsonb → Nat
  | .array xs => xs.length
  | .object ps => ps.length
  | _ => 1

mutual
/-- The tokens `JsonbIteratorNext` (with `skipNested` false) yields for a node in a position
whose scalar token is `leaf`: a scalar is one token, a container is its begin token, its
members and its end token. -/
def nodeTokens (leaf : JsonbValue → JsonbIteratorToken) : Jsonb → List JsonbIteratorToken
  | .null => [leaf .jbvNull]
  | .bool b => [leaf (.jbvBool b)]
  | .numeric n => [leaf (.jbvNumeric n)]
  | .string s => [leaf (.jbvString s)]
  | .array xs => .WJB_BEGIN_ARRAY :: (elemsTokens xs ++ [.WJB_END_ARRAY])
  | .object ps => .WJB_BEGIN_OBJECT :: (pairsTokens ps ++ [.WJB_END_OBJECT])
/-- The tokens of the elements of an array. -/
def elemsTokens : List Jsonb → List JsonbIteratorToken
  | [] => []
  | x :: xs => nodeTokens .WJB_ELEM x ++ elemsTokens xs
/-- The tokens of the pairs of an object. -/
def pairsTokens : List (String × Jsonb) → List JsonbIteratorToken
  | [] => []
  | (k, x) :: ps => .WJB_KEY (.jbvString k) :: (nodeTokens .WJB_VALUE x ++ pairsTokens ps)
end

/-- The token stream of a document, up to `WJB_DONE`: the iterator puts a dummy array around a
scalar root. -/
def JsonbIterator (jb : Jsonb) : List JsonbIteratorToken :=
  if JB_ROOT_IS_SCALAR jb then .WJB_BEGIN_ARRAY :: (nodeTokens .WJB_ELEM jb ++ [.WJB_END_ARRAY])
  else nodeTokens .WJB_ELEM jb

/-- The function `JsonbValueToJsonb` on a scalar or binary value. -/
def JsonbValueToJsonb : JsonbValue → Jsonb
  | .jbvNull => .null
  | .jbvString s => .string s
  | .jbvNumeric n => .numeric n
  | .jbvBool b => .bool b
  | .jbvBinary jb => jb

/-- A container under construction in the `JsonbParseState` stack; an object remembers the key
that awaits its value. -/
inductive BuildFrame where
  | arr (elems : List Jsonb)
  | obj (pairs : List (String × Jsonb)) (key : Option String)

/-- The builder: the parse-state stack and the last result returned. -/
structure BuildState where
  pstate : List BuildFrame
  result : Option Jsonb

/-- The functions `appendElement` and `appendValue`. -/
def appendToFrame (x : Jsonb) : BuildFrame → Option BuildFrame
  | .arr xs => some (.arr (xs ++ [x]))
  | .obj ps (some k) => some (.obj (ps ++ [(k, x)]) none)
  | .obj _ none => none

/-- Closing the top container: it becomes the result and is appended to its parent, if any. -/
def closeFrame (res : Jsonb) (rest : List BuildFrame) : Option BuildState :=
  match rest with
  | [] => some { pstate := [], result := some res }
  | parent :: up =>
    match appendToFrame res parent with
    | some p => some { pstate := p :: up, result := some res }
    | none => none

/-- The function `pushJsonbValue` of PostgreSQL. Elements and pairs are kept in the order
they are pushed; PostgreSQL sorts the pairs of an object by key and drops duplicate keys when
the object is closed, so an object here stands for the stored one when its keys are distinct,
up to the order of its pairs. `none` is a call the builder does not accept. -/
def pushJsonbValue (bs : BuildState) : JsonbIteratorToken → Option BuildState
  | .WJB_BEGIN_ARRAY => some { pstate := .arr [] :: bs.pstate, result := none }
  | .WJB_BEGIN_OBJECT => some { pstate := .obj [] none :: bs.pstate, result := none }
  | .WJB_KEY v =>
    match v, bs.pstate with
    | .jbvString s, .obj ps none :: up => some { pstate := .obj ps (some s) :: up, result := none }
    | _, _ => none
  | .WJB_VALUE v =>
    match bs.pstate with
    | .obj ps (some k) :: up =>
      some { pstate := .obj (ps ++ [(k, JsonbValueToJsonb v)]) none :: up, result := none }
    | _ => none
  | .WJB_ELEM v =>
    match bs.pstate with
    | .arr xs :: up => some { pstate := .arr (xs ++ [JsonbValueToJsonb v]) :: up, result := none }
    | _ => none
  | .WJB_END_ARRAY =>
    match bs.pstate with
    | .arr xs :: up => closeFrame (.array xs) up
    | _ => none
  | .WJB_END_OBJECT =>
    match bs.pstate with
    | .obj ps none :: up => closeFrame (.object ps) up
    | _ => none

/-- Replaying a sequence of `pushJsonbValue` calls. -/
def pushAll : BuildState → List JsonbIteratorToken → Option BuildState
  | bs, [] => some bs
  | bs, t :: ts =>
    match pushJsonbValue bs t with
    | some bs1 => pushAll bs1 ts
    | none => none

/-! ## Scalars -/

/-- Modelled from the spec: `pllua_is_container` is declared outside the sources at hand. The
specification has a container be an associative mapping, and the comment of
`pllua_jsonb_pushkeys` defines it as a Lua table or a value with a `__pairs` metamethod; there
is no `__pairs` here, so the containers are the tables. -/
def pllua_is_container : LVal → Bool
  | .table _ _ _ => true
  | _ => false

/-- The four `JsonbIteratorNext` calls of `pllua_jsonb_from_datum` on a scalar root. -/
def scalarFromTokens : List JsonbIteratorToken → Except LuaError JsonbValue
  | [.WJB_BEGIN_ARRAY, .WJB_ELEM v, .WJB_END_ARRAY] => .ok v
  | _ => .error .unexpectedIterator

/-- The function `pllua_jsonb_from_datum`, on the result of the conversion function. -/
def pllua_jsonb_from_datum (res : ToJsonbResult) : Except LuaError JsonbValue :=
  match res with
  | .sqlNull => .ok .jbvNull
  | .document jb =>
    if JB_ROOT_IS_SCALAR jb then scalarFromTokens (JsonbIterator jb)
    else .ok (.jbvBinary jb)

/-- The `LUA_TSTRING` case of `pllua_jsonb_toscalar`. -/
def stringScalar (E : Env) (s : String) : Except LuaError JsonbValue :=
  if E.pg_verifymbstr s then .ok (.jbvString s) else .error .invalidEncoding

/-- The function `pllua_jsonb_toscalar`, on the scalar on top of the stack. -/
def pllua_jsonb_toscalar (E : Env) : LVal → Except LuaError JsonbValue
  | .nil => .ok .jbvNull
  | .bool b => .ok (.jbvBool b)
  | .int i => .ok (.jbvNumeric (E.numericOfInt i))
  | .flt q => .ok (.jbvNumeric (E.numericOfFloat q))
  | .nan => .ok (.jbvNumeric { text := "NaN" })
  | .userdata _ (.numericDatum n) _ => .ok (.jbvNumeric n)
  | .userdata _ (.otherDatum r) _ => pllua_jsonb_from_datum r
  | .userdata _ .notDatum ts =>
    match ts with
    | .absent => .error .scalarLacksTostring
    | .returnsString s => stringScalar E s
    | .returnsOther => .error .scalarTostringNotString
  | .str s => stringScalar E s
  | _ => .error .scalarType

/-! ## `pllua_jsonb_tosql` -/

/-- The local configuration variables of `pllua_jsonb_tosql`; `funcidx` is the map function. -/
structure TosqlConfig where
  funcidx : Option Nat
  empty_object : Bool
  array_thresh : Int
  array_frac : Int
  nullvalue : LVal

/-- An `int` variable assigned from a config field when `lua_isinteger` holds. -/
def intField (v : LVal) (dflt : Int) : Int :=
  match v with
  | .int i => wrapInt32 i
  | _ => dflt

/-- A config field that must be a function. -/
def funcField : LVal → Option Nat
  | .function a => some a
  | _ => none

/-- Reading the second argument of `pllua_jsonb_tosql`. -/
def tosqlConfig (arg2 : LVal) : Except LuaError TosqlConfig :=
  match arg2 with
  | .nil =>
    .ok { funcidx := none, empty_object := false, array_thresh := 1000, array_frac := 1000,
          nullvalue := .nil }
  | .table _ _ kv =>
    .ok { funcidx := funcField (rawget kv (.str "map")),
          empty_object := lua_toboolean (rawget kv (.str "empty_object")),
          array_thresh := intField (rawget kv (.str "array_thresh")) 1000,
          array_frac := intField (rawget kv (.str "array_frac")) 1000,
          nullvalue := rawget kv (.str "null") }
  | .str _ =>
    .ok { funcidx := none, empty_object := false, array_thresh := 1000, array_frac := 1000,
          nullvalue := .nil }
  | _ => .error .index

/-- The results of a call adjusted to `n` values. -/
def adjustResults (rs : List LVal) (n : Nat) : List LVal := (rs ++ List.replicate n LVal.nil).take n

/-- The map applied to a value as `pllua_jsonb_tosql` does: `lua_call(L, 1, 1)`. -/
def tosqlMap (E : Env) (funcidx : Option Nat) (value : LVal) : Except LuaError LVal :=
  match funcidx with
  | none => .ok value
  | some f =>
    match E.call f [value] with
    | .error e => .error e
    | .ok rs => .ok ((adjustResults rs 1).headD .nil)

/-- The four stack slots of an open container: container, key list, previous key, index. -/
structure TosqlFrame where
  container : LVal
  keylist : List LVal
  prevkey : LVal
  index : Nat

/-- The state of the encode loop: the counter `depth`, the frames on the Lua stack (innermost
first), the calls of `pushJsonbValue` so far, and the arguments of each call of the map. -/
structure TosqlState where
  depth : Int
  frames : List TosqlFrame
  pushed : List JsonbIteratorToken
  calls : List (List LVal)

/-- The number of iterations of `while (++prevkey != key)`, both `int`. -/
def gapCount (key prevkey : Int) : Nat := ((key - prevkey - 1) % 4294967296).toNat

/-- The tokens pushed for a key before its value, the new previous key and the token of the
value: nulls for the skipped positions of an array, the key of an object. -/
def keyTokens (E : Env) (prevkey key : LVal) :
    Except LuaError (List JsonbIteratorToken × LVal × (JsonbValue → JsonbIteratorToken)) :=
  if !lua_isnil prevkey then
    let k := wrapInt32 (lua_tointeger E key)
    let p := wrapInt32 (lua_tointeger E prevkey)
    .ok (List.replicate (gapCount k p) (JsonbIteratorToken.WJB_ELEM .jbvNull), LVal.int k,
         JsonbIteratorToken.WJB_ELEM)
  else
    match key with
    | .str s =>
      if E.pg_verifymbstr s then
        .ok ([JsonbIteratorToken.WJB_KEY (.jbvString s)], prevkey, JsonbIteratorToken.WJB_VALUE)
      else .error .invalidEncoding
    | _ => .error .internal

/-- The calls of the map recorded so far, with one more when a map is configured. -/
def recordCall (funcidx : Option Nat) (calls : List (List LVal)) (args : List LVal) :
    List (List LVal) :=
  match funcidx with
  | none => calls
  | some _ => calls ++ [args]

/-- One iteration of `while (depth > 0)`. -/
def tosqlStep (E : Env) (cfg : TosqlConfig) (st : TosqlState) : Except LuaError TosqlState :=
  match st.frames with
  | [] => .error .internal
  | f :: rest =>
    match (if f.index = 0 then none else f.keylist[f.index - 1]?) with
    | none =>
      let tok : JsonbIteratorToken :=
        if lua_isnil f.prevkey then .WJB_END_OBJECT else .WJB_END_ARRAY
      .ok { st with depth := st.depth - 1, frames := rest, pushed := st.pushed ++ [tok] }
    | some key =>
      match lua_gettable f.container key with
      | .error e => .error e
      | .ok value0 =>
        match keyTokens E f.prevkey key with
        | .error e => .error e
        | .ok (toks, prevkey, tok) =>
          let f1 : TosqlFrame := { f with index := f.index + 1, prevkey := prevkey }
          let value1 := if lua_rawequal value0 cfg.nullvalue then LVal.nil else value0
          match tosqlMap E cfg.funcidx value1 with
          | .error e => .error e
          | .ok value =>
            let calls := recordCall cfg.funcidx st.calls [value1]
            if pllua_is_container value then
              match pllua_jsonb_pushkeys E value cfg.empty_object cfg.array_thresh
                  cfg.array_frac with
              | .error e => .error e
              | .ok pk =>
                .ok { depth := st.depth + 1,
                      frames := { container := value, keylist := pk.keylist,
                                  prevkey := pk.prevkey, index := pk.index } :: f1 :: rest,
                      pushed := st.pushed ++ toks ++ [pk.tok],
                      calls := calls }
            else
              match pllua_jsonb_toscalar E value with
              | .error e => .error e
              | .ok pval =>
                .ok { depth := st.depth, frames := f1 :: rest,
                      pushed := st.pushed ++ toks ++ [tok pval], calls := calls }

/-- The loop `while (depth > 0)`, for at most `fuel` iterations; `none` when they do not
suffice. -/
def tosqlLoop (E : Env) (cfg : TosqlConfig) : Nat → TosqlState → Option (Except LuaError TosqlState)
  | 0, st => if st.depth > 0 then none else some (.ok st)
  | fuel + 1, st =>
    if st.depth > 0 then
      match tosqlStep E cfg st with
      | .error e => some (.error e)
      | .ok st1 => tosqlLoop E cfg fuel st1
    else some (.ok st)

/-- The document built from the recorded `pushJsonbValue` calls: `JsonbValueToJsonb(result)`. -/
def builtDocument (pushed : List JsonbIteratorToken) : Except LuaError Jsonb :=
  match pushAll { pstate := [], result := none } pushed with
  | some bs =>
    match bs.result with
    | some jb => .ok jb
    | none => .error .internal
  | none => .error .internal

/-- The walk of `pllua_jsonb_tosql` over a root, after the config is read: the final state of
the loop for a container, no state for a scalar. -/
def tosqlRun (E : Env) (cfg : TosqlConfig) (fuel : Nat) (arg1 : LVal) :
    Option (Except LuaError (Jsonb × List (List LVal))) :=
  let root1 := if lua_rawequal arg1 cfg.nullvalue then LVal.nil else arg1
  match tosqlMap E cfg.funcidx root1 with
  | .error e => some (.error e)
  | .ok root =>
    let calls := recordCall cfg.funcidx [] [root1]
    if !pllua_is_container root then
      match pllua_jsonb_toscalar E root with
      | .error e => some (.error e)
      | .ok sval => some (.ok (JsonbValueToJsonb sval, calls))
    else
      match pllua_jsonb_pushkeys E root cfg.empty_object cfg.array_thresh cfg.array_frac with
      | .error e => some (.error e)
      | .ok pk =>
        match tosqlLoop E cfg fuel
            { depth := 1,
              frames := [{ container := root, keylist := pk.keylist, prevkey := pk.prevkey,
                           index := pk.index }],
              pushed := [pk.tok], calls := calls } with
        | none => none
        | some (.error e) => some (.error e)
        | some (.ok st) =>
          match builtDocument st.pushed with
          | .error e => some (.error e)
          | .ok jb => some (.ok (jb, st.calls))

/-- Whether `lua_type` is `LUA_TTABLE` or `LUA_TUSERDATA`. -/
def isTableOrUserdata : LVal → Bool
  | .table _ _ _ => true
  | .userdata _ _ _ => true
  | _ => false

/-- The function `pllua_jsonb_tosql` called with the arguments `args`: the values it returns
(none when it declines, else the jsonb datum), an error it raises, or `none` when `fuel`
iterations of the loop do not suffice. -/
def pllua_jsonb_tosql (E : Env) (fuel : Nat) (args : List LVal) :
    Option (Except LuaError (List Jsonb)) :=
  let arg1 := args.headD .nil
  if args.length < 2 && !isTableOrUserdata arg1 then some (.ok [])
  else
    match tosqlConfig ((args.drop 1).headD .nil) with
    | .error e => some (.error e)
    | .ok cfg =>
      match tosqlRun E cfg fuel arg1 with
      | none => none
      | some (.error e) => some (.error e)
      | some (.ok (jb, _)) => some (.ok [jb])

/-! ## `pllua_jsonb_map` -/

/-- The local configuration variables of `pllua_jsonb_map`. -/
structure MapConfig where
  funcidx : Option Nat
  noresult : Bool
  keep_numeric : Bool
  nullvalue : LVal

/-- The `switch (lua_type(L, 2))` of `pllua_jsonb_map`: a config table, the map itself, or the
null value. -/
def mapConfig (arg2 : LVal) : MapConfig :=
  match arg2 with
  | .table _ _ kv =>
    { funcidx := funcField (rawget kv (.str "map")),
      noresult := lua_toboolean (rawget kv (.str "discard")),
      keep_numeric := lua_toboolean (rawget kv (.str "pg_numeric")),
      nullvalue := rawget kv (.str "null") }
  | .function a => { funcidx := some a, noresult := false, keep_numeric := false, nullvalue := .nil }
  | v => { funcidx := none, noresult := false, keep_numeric := false, nullvalue := v }

/-- The state of the decode loop: the Lua stack from the slot of the path table upwards
(top first), the contents of the path table, the counter `patht_len`, the next free address,
and the arguments of each call of the map. -/
structure MapState where
  stack : List LVal
  patht : List (Int × LVal)
  patht_len : Int
  next : Nat
  calls : List (List LVal)

/-- The function `lua_rawseti` on the path table. -/
def pathSet (p : List (Int × LVal)) (i : Int) (v : LVal) : List (Int × LVal) :=
  p.filter (fun e => decide (e.1 ≠ i)) ++ [(i, v)]

/-- The function `lua_rawgeti` on the path table. -/
def pathGet (p : List (Int × LVal)) (i : Int) : LVal :=
  match p.find? (fun e => decide (e.1 = i)) with
  | some e => e.2
  | none => .nil

/-- The values pushed by `for (i = 1; i <= patht_len; ++i) lua_rawgeti(L, patht, i)`, in
the order pushed. -/
def pathEntries (p : List (Int × LVal)) (patht_len : Int) : List LVal :=
  (List.range patht_len.toNat).map (fun (j : Nat) => pathGet p ((j : Int) + 1))

/-- The function `lua_call` on a stack (top first): the stack after the call and the arguments
passed. -/
def lua_call (E : Env) (stack : List LVal) (nargs : Int) (nresults : Nat) :
    Except LuaError (List LVal × List LVal) :=
  if nargs < 0 then .error .internal
  else
    let args := (stack.take nargs.toNat).reverse
    match stack.drop nargs.toNat with
    | .function a :: rest =>
      match E.call a args with
      | .error e => .error e
      | .ok rs => .ok ((adjustResults rs nresults).reverse ++ rest, args)
    | _ :: _ => .error .callNonFunction
    | [] => .error .internal

/-- The call `key, val = mapfunc(key, value, path...)` of the decode loop, when a map is
configured: push the function, insert it below the top two slots, push the path, call. -/
def mapCall (E : Env) (cfg : MapConfig) (st : MapState) : Except LuaError MapState :=
  match cfg.funcidx with
  | none => .ok st
  | some f =>
    match st.stack with
    | v :: k :: rest =>
      match lua_call E ((pathEntries st.patht st.patht_len).reverse ++ v :: k :: .function f :: rest)
          (2 + st.patht_len) 2 with
      | .error e => .error e
      | .ok (stack, args) => .ok { st with stack := stack, calls := st.calls ++ [args] }
    | _ => .error .internal

/-- The function `lua_settable(L, -3)`: assigns in the table two slots below the top and pops
key and value. -/
def settable3 (st : MapState) : Except LuaError MapState :=
  match st.stack with
  | v :: k :: t :: rest =>
    match lua_settable t k v with
    | .error e => .error e
    | .ok t1 => .ok { st with stack := t1 :: rest }
  | _ => .error .internal

/-- The function `lua_seti(L, -3, n)`: assigns the top value at index `n` of the table two
slots below it and pops the value. -/
def seti3 (st : MapState) (n : Int) : Except LuaError MapState :=
  match st.stack with
  | v :: x :: t :: rest =>
    match lua_settable t (.int n) v with
    | .error e => .error e
    | .ok t1 => .ok { st with stack := x :: t1 :: rest }
  | _ => .error .internal

/-- The sequence `lua_pop(L, 1); lua_pushinteger(L, n)`. -/
def replaceTop (st : MapState) (n : Int) : Except LuaError MapState :=
  match st.stack with
  | _ :: rest => .ok { st with stack := .int n :: rest }
  | [] => .error .internal

/-- The value the loop pushes for a `JsonbValue`, and the next free address; nothing is pushed
for a value that is not a scalar. -/
def pushScalar (E : Env) (cfg : MapConfig) (next : Nat) : JsonbValue → Option LVal × Nat
  | .jbvNull => (some cfg.nullvalue, next)
  | .jbvBool b => (some (.bool b), next)
  | .jbvNumeric n =>
    if cfg.keep_numeric then
      (some (.userdata next (.numericDatum n) (.returnsString n.text)), next + 1)
    else (some (E.tonumber n), next + 1)
  | .jbvString s => (some (.str s), next)
  | .jbvBinary _ => (none, next)

/-- The state after the push of the value of a token. -/
def pushValue (E : Env) (cfg : MapConfig) (st : MapState) (v : JsonbValue) : MapState :=
  match pushScalar E cfg st.next v with
  | (some x, next) => { st with stack := x :: st.stack, next := next }
  | (none, next) => { st with next := next }

/-- The cases `WJB_BEGIN_ARRAY` and `WJB_BEGIN_OBJECT`: record the key on top of the stack in
the path unless it is nil, create the tagged table unless discarding, push the index 0 of an
array. -/
def beginContainer (cfg : MapConfig) (st : MapState) (mt : Metatable) (isArray : Bool) :
    Except LuaError MapState :=
  match st.stack with
  | [] => .error .internal
  | top :: _ =>
    let st1 : MapState :=
      if !lua_isnil top then
        { st with patht := pathSet st.patht (st.patht_len + 1) top, patht_len := st.patht_len + 1 }
      else st
    let st2 : MapState :=
      if !cfg.noresult then
        { st1 with stack := .table st1.next mt [] :: st1.stack, next := st1.next + 1 }
      else st1
    .ok (if isArray then { st2 with stack := .int 0 :: st2.stack } else st2)

/-- The case `WJB_END_OBJECT`, which `WJB_END_ARRAY` falls into after popping its index. -/
def endContainer (E : Env) (cfg : MapConfig) (st : MapState) : Except LuaError MapState :=
  match st.stack with
  | _ :: k :: _ =>
    let is_toplevel := lua_isnil k
    let st1 : MapState := if !is_toplevel then { st with patht_len := st.patht_len - 1 } else st
    if !cfg.noresult then
      match mapCall E cfg st1 with
      | .error e => .error e
      | .ok st2 =>
        if !is_toplevel then
          match st2.stack with
          | _ :: k2 :: _ =>
            if lua_isinteger k2 then
              let idx := wrapInt32 (lua_tointeger E k2)
              match seti3 st2 (wrapInt32 (idx + 1)) with
              | .error e => .error e
              | .ok st3 => replaceTop st3 (wrapInt32 (idx + 1))
            else settable3 st2
          | _ => .error .internal
        else .ok st2
    else .ok st1
  | _ => .error .internal

/-- One iteration of the `for (;;)` loop of `pllua_jsonb_map`, on the token the iterator
returned. -/
def mapStep (E : Env) (cfg : MapConfig) (is_scalar : Bool) (st : MapState) :
    JsonbIteratorToken → Except LuaError MapState
  | .WJB_BEGIN_ARRAY => if !is_scalar then beginContainer cfg st .array_mt true else .ok st
  | .WJB_BEGIN_OBJECT => beginContainer cfg st .object_mt false
  | .WJB_KEY v =>
    match v with
    | .jbvString _ => .ok (pushValue E cfg st v)
    | _ => .error .unexpectedKeyType
  | .WJB_VALUE v =>
    match mapCall E cfg (pushValue E cfg st v) with
    | .error e => .error e
    | .ok st1 => if !cfg.noresult then settable3 st1 else .ok st1
  | .WJB_ELEM v =>
    let st0 := pushValue E cfg st v
    match st0.stack with
    | _ :: slot :: _ =>
      let idx := wrapInt32 (lua_tointeger E slot)
      match mapCall E cfg st0 with
      | .error e => .error e
      | .ok st1 =>
        match (if !is_scalar && !cfg.noresult then seti3 st1 (wrapInt32 (idx + 1)) else .ok st1) with
        | .error e => .error e
        | .ok st2 => if !is_scalar then replaceTop st2 (wrapInt32 (idx + 1)) else .ok st2
    | _ => .error .internal
  | .WJB_END_ARRAY =>
    if is_scalar then .ok st
    else
      match st.stack with
      | _ :: rest => endContainer E cfg { st with stack := rest }
      | [] => .error .internal
  | .WJB_END_OBJECT => endContainer E cfg st

/-- The loop over the tokens of the iterator, until `WJB_DONE`. -/
def mapLoop (E : Env) (cfg : MapConfig) (is_scalar : Bool) :
    MapState → List JsonbIteratorToken → Except LuaError MapState
  | st, [] => .ok st
  | st, t :: ts =>
    match mapStep E cfg is_scalar st t with
    | .error e => .error e
    | .ok st1 => mapLoop E cfg is_scalar st1 ts

/-- The stack when the loop starts: the new path table, nil above it. -/
def MapState.init (heap : Nat) : MapState :=
  { stack := [.nil, .table heap .none []], patht := [], patht_len := 0, next := heap + 1,
    calls := [] }

/-- The function `pllua_jsonb_map` on the tokens of a document whose root has `count`
elements: the values returned and the calls of the map made. `heap` is the first free
address. -/
def mapRun (E : Env) (heap : Nat) (cfg : MapConfig) (count : Nat) (is_scalar : Bool)
    (toks : List JsonbIteratorToken) : Except LuaError (List LVal × List (List LVal)) :=
  if count = 0 then .ok (if cfg.noresult then [] else [.table heap .none []], [])
  else
    match mapLoop E cfg is_scalar (MapState.init heap) toks with
    | .error e => .error e
    | .ok st =>
      if cfg.noresult then .ok ([], st.calls)
      else
        match st.stack with
        | top :: _ => .ok ([top], st.calls)
        | [] => .error .internal

/-- The function `pllua_jsonb_map` called on a jsonb datum and a second argument: the values
it returns. -/
def pllua_jsonb_map (E : Env) (heap : Nat) (jb : Jsonb) (arg2 : LVal) :
    Except LuaError (List LVal) :=
  match mapRun E heap (mapConfig arg2) (JB_ROOT_COUNT jb) (JB_ROOT_IS_SCALAR jb)
      (JsonbIterator jb) with
  | .error e => .error e
  | .ok (rs, _) => .ok rs

/-- The function `pllua_jsonb_table_is_object`: the values it returns for a table. -/
def pllua_jsonb_table_is_object (t : LVal) : Except LuaError (List LVal) :=
  match t with
  | .table _ _ _ =>
    match jsonbObjectField t with
    | .boolean b => .ok [.bool b]
    | _ => .ok []
  | _ => .error .badArgument

/-- The function `pllua_jsonb_table_is_array`: the values it returns for a table. -/
def pllua_jsonb_table_is_array (t : LVal) : Except LuaError (List LVal) :=
  match t with
  | .table _ _ _ =>
    match jsonbObjectField t with
    | .boolean b => .ok [.bool (!b)]
    | _ => .ok []
  | _ => .error .badArgument

/-! ## An environment for evaluating examples -/

/-- The value of a string of decimal digits. -/
def digitsValue : List Char → Nat → Option Nat
  | [], acc => some acc
  | c :: cs, acc =>
    if 48 ≤ c.toNat ∧ c.toNat ≤ 57 then digitsValue cs (acc * 10 + (c.toNat - 48)) else none

/-- Lua's string to integer coercion on plain decimal literals with an optional minus sign. -/
def decimalStr2Int (s : String) : Option Int :=
  match s.data with
  | [] => none
  | '-' :: c :: cs => (digitsValue (c :: cs) 0).map (fun n => - (n : Int))
  | '-' :: [] => none
  | cs => (digitsValue cs 0).map (fun n => (n : Int))

/-- An environment for the examples: decimal integer strings, every string valid in the
server encoding, numerics written in decimal, no Lua function. -/
def refEnv : Env :=
  { str2int := decimalStr2Int
    fmtFloat := fun q => toString q.num ++ "/" ++ toString q.den
    pg_verifymbstr := fun _ => true
    numericOfInt := fun i => { text := toString i }
    numericOfFloat := fun q => { text := toString q.num ++ "/" ++ toString q.den }
    tonumber := fun n =>
      match decimalStr2Int n.text with
      | some i => .int i
      | none => .nil
    call := fun _ _ => .error (.callback 0) }

/-! ## The claimed classification -/

/-- The classification as the specification words it, over the list `ints` of the integer
values of the integer-like keys among `n` keys: object when the container is empty and
`empty_object` is set, or some key is not integer-like, or the smallest integer key is below
1 or above `array_thresh`, or the largest integer key is above `array_frac * n`. -/
def claimedObject (empty_object : Bool) (array_thresh array_frac : Int) (n : Nat)
    (ints : List Int) : Prop :=
  (empty_object = true ∧ n = 0) ∨ ints.length ≠ n ∨ (∃ i ∈ ints, i < 1)
    ∨ (0 < ints.length ∧ ∀ i ∈ ints, i > array_thresh)
    ∨ (0 < ints.length ∧ ∃ i ∈ ints, i > array_frac * n)

/-- The integer values of the integer-like keys of a list of keys. -/
def intKeys (E : Env) (keys : List LVal) : List Int := keys.filterMap (lua_tointegerx E)

/-! ## The encoding as a function of the value

What the encode loop computes when no map is configured, by recursion on the value. The
theorems below prove that the loop computes it. -/

/-- What the encode loop pushes for a value: one scalar or embedded-document value, or a
container of such. -/
inductive Built where
  | value (v : JsonbValue)
  | array (xs : List Built)
  | object (ps : List (String × Built))

mutual
/-- The `pushJsonbValue` calls for a node in a position whose scalar token is `leaf`. -/
def Built.tokens (leaf : JsonbValue → JsonbIteratorToken) : Built → List JsonbIteratorToken
  | .value v => [leaf v]
  | .array xs => .WJB_BEGIN_ARRAY :: (Built.elemTokens xs ++ [.WJB_END_ARRAY])
  | .object ps => .WJB_BEGIN_OBJECT :: (Built.pairTokens ps ++ [.WJB_END_OBJECT])
/-- The calls for the elements of an array. -/
def Built.elemTokens : List Built → List JsonbIteratorToken
  | [] => []
  | x :: xs => Built.tokens .WJB_ELEM x ++ Built.elemTokens xs
/-- The calls for the pairs of an object. -/
def Built.pairTokens : List (String × Built) → List JsonbIteratorToken
  | [] => []
  | (k, x) :: ps => .WJB_KEY (.jbvString k) :: (Built.tokens .WJB_VALUE x ++ Built.pairTokens ps)
end

mutual
/-- The document a node stands for. -/
def Built.toJsonb : Built → Jsonb
  | .value v => JsonbValueToJsonb v
  | .array xs => .array (Built.elemsToJsonb xs)
  | .object ps => .object (Built.pairsToJsonb ps)
/-- The documents of the elements of an array. -/
def Built.elemsToJsonb : List Built → List Jsonb
  | [] => []
  | x :: xs => Built.toJsonb x :: Built.elemsToJsonb xs
/-- The documents of the pairs of an object. -/
def Built.pairsToJsonb : List (String × Built) → List (String × Jsonb)
  | [] => []
  | (k, x) :: ps => (k, Built.toJsonb x) :: Built.pairsToJsonb ps
end

/-- The encoding found under a key among the encoded pairs of a container: that of the first
pair whose key is raw-equal, a Null when there is none. -/
def lookupEncoded (children : List (LVal × Except LuaError Built)) (key : LVal) :
    Except LuaError Built :=
  match children.find? (fun c => lua_rawequal c.1 key) with
  | some c => c.2
  | none => .ok (.value .jbvNull)

/-- The calls pushed by the iterations of the loop over one frame, from the key after
`prevkey` to the end token, given the encoding of the value under each key. -/
def frameSpec (E : Env) (lookup : LVal → Except LuaError Built) :
    LVal → List LVal → Except LuaError (List JsonbIteratorToken)
  | prevkey, [] => .ok [if lua_isnil prevkey then .WJB_END_OBJECT else .WJB_END_ARRAY]
  | prevkey, key :: ks =>
    match keyTokens E prevkey key with
    | .error e => .error e
    | .ok (toks, p, tok) =>
      match lookup key with
      | .error e => .error e
      | .ok c =>
        match frameSpec E lookup p ks with
        | .error e => .error e
        | .ok rest => .ok (toks ++ (c.tokens tok ++ rest))

/-- The pairs of an Object frame: one per key of the key list, under the key itself. -/
def encodePairs (E : Env) (lookup : LVal → Except LuaError Built) :
    List LVal → Except LuaError (List (String × Built))
  | [] => .ok []
  | key :: ks =>
    match key with
    | .str s =>
      if E.pg_verifymbstr s then
        match lookup key with
        | .error e => .error e
        | .ok c =>
          match encodePairs E lookup ks with
          | .error e => .error e
          | .ok rest => .ok ((s, c) :: rest)
      else .error .invalidEncoding
    | _ => .error .internal

/-- The elements of an Array frame: for each key of the key list, a Null per iteration of the
gap loop, then the element. -/
def encodeElems (E : Env) (lookup : LVal → Except LuaError Built) :
    LVal → List LVal → Except LuaError (List Built)
  | _, [] => .ok []
  | prevkey, key :: ks =>
    match lookup key with
    | .error e => .error e
    | .ok c =>
      match encodeElems E lookup (.int (wrapInt32 (lua_tointeger E key))) ks with
      | .error e => .error e
      | .ok rest =>
        .ok (List.replicate
              (gapCount (wrapInt32 (lua_tointeger E key)) (wrapInt32 (lua_tointeger E prevkey)))
              (Built.value .jbvNull) ++ c :: rest)

mutual
/-- The encoding of a value: Null for a value raw-equal to the null value, the container
walked in the order of its key list, the scalar coerced. -/
def encodeValue (E : Env) (cfg : TosqlConfig) : LVal → Except LuaError Built
  | .table a mt kv =>
    if lua_rawequal (.table a mt kv) cfg.nullvalue then .ok (.value .jbvNull)
    else
      match pllua_jsonb_pushkeys E (.table a mt kv) cfg.empty_object cfg.array_thresh
          cfg.array_frac with
      | .error e => .error e
      | .ok pk =>
        if lua_isnil pk.prevkey then
          match encodePairs E (lookupEncoded (encodeEntries E cfg kv)) pk.keylist with
          | .error e => .error e
          | .ok ps => .ok (.object ps)
        else
          match encodeElems E (lookupEncoded (encodeEntries E cfg kv)) pk.prevkey pk.keylist with
          | .error e => .error e
          | .ok xs => .ok (.array xs)
  | v =>
    if lua_rawequal v cfg.nullvalue then .ok (.value .jbvNull)
    else
      match pllua_jsonb_toscalar E v with
      | .error e => .error e
      | .ok pv => .ok (.value pv)
/-- The encodings of the values of the pairs of a container, each under its key. -/
def encodeEntries (E : Env) (cfg : TosqlConfig) :
    List (LVal × LVal) → List (LVal × Except LuaError Built)
  | [] => []
  | (k, v) :: rest => (k, encodeValue E cfg v) :: encodeEntries E cfg rest
end

mutual
/-- A number of iterations of the encode loop that suffices for a value. -/
def LVal.fuel : LVal → Nat
  | .table _ _ kv => 1 + kv.length * (1 + entriesFuel kv)
  | _ => 0
/-- The sum of the above over the values of the pairs of a container. -/
def entriesFuel : List (LVal × LVal) → Nat
  | [] => 0
  | (_, v) :: rest => LVal.fuel v + entriesFuel rest
end

/-! ## The decoding as a function of the document

What the decode loop builds when no map is configured and nothing is discarded, by recursion
on the document. The theorems below prove that the loop builds it. -/

/-- The index after `idx` in the running index of an array: `idx` is read into an `int` and
incremented. -/
def nextIndex (idx : Int) : Int := wrapInt32 (wrapInt32 idx + 1)

mutual
/-- The value built for a node when the next free address is `next`, and the next free
address after it. -/
def decodeNode (E : Env) (cfg : MapConfig) : Nat → Jsonb → LVal × Nat
  | next, .null => (cfg.nullvalue, next)
  | next, .bool b => (.bool b, next)
  | next, .numeric n =>
    (if cfg.keep_numeric then .userdata next (.numericDatum n) (.returnsString n.text)
     else E.tonumber n, next + 1)
  | next, .string s => (.str s, next)
  | next, .array xs =>
    (.table next .array_mt (decodeElems E cfg (next + 1) 0 [] xs).1,
     (decodeElems E cfg (next + 1) 0 [] xs).2)
  | next, .object ps =>
    (.table next .object_mt (decodePairs E cfg (next + 1) [] ps).1,
     (decodePairs E cfg (next + 1) [] ps).2)
/-- The pairs of the table of an array after its elements are stored, one after the other,
at the index after `idx`. -/
def decodeElems (E : Env) (cfg : MapConfig) :
    Nat → Int → List (LVal × LVal) → List Jsonb → List (LVal × LVal) × Nat
  | next, _, kv, [] => (kv, next)
  | next, idx, kv, x :: xs =>
    decodeElems E cfg (decodeNode E cfg next x).2 (nextIndex idx)
      (rawset kv (.int (nextIndex idx)) (decodeNode E cfg next x).1) xs
/-- The pairs of the table of an object after its members are stored under their keys. -/
def decodePairs (E : Env) (cfg : MapConfig) :
    Nat → List (LVal × LVal) → List (String × Jsonb) → List (LVal × LVal) × Nat
  | next, kv, [] => (kv, next)
  | next, kv, (k, x) :: ps =>
    decodePairs E cfg (decodeNode E cfg next x).2 (rawset kv (.str k) (decodeNode E cfg next x).1) ps
end

/-- The macro `JB_CMASK`, the mask of the count bits of a container header: no container of
a binary document has more elements or pairs. -/
def JB_CMASK : Nat := 268435455

mutual
/-- The invariants of a binary document: no container exceeds the maximal count, the keys of
an object are distinct, keys and strings are valid in the server encoding. -/
def Jsonb.wellFormed (E : Env) : Jsonb → Bool
  | .string s => E.pg_verifymbstr s
  | .array xs => decide (xs.length ≤ JB_CMASK) && Jsonb.wellFormedElems E xs
  | .object ps =>
    decide (ps.length ≤ JB_CMASK) && decide ((ps.map Prod.fst).Nodup)
      && Jsonb.wellFormedPairs E ps
  | _ => true
/-- The invariants for the elements of an array. -/
def Jsonb.wellFormedElems (E : Env) : List Jsonb → Bool
  | [] => true
  | x :: xs => Jsonb.wellFormed E x && Jsonb.wellFormedElems E xs
/-- The invariants for the pairs of an object. -/
def Jsonb.wellFormedPairs (E : Env) : List (String × Jsonb) → Bool
  | [] => true
  | (k, x) :: ps => E.pg_verifymbstr k && Jsonb.wellFormed E x && Jsonb.wellFormedPairs E ps
end

mutual
/-- A Lua value reconstructs a document: a Null is the configured null value, a Bool and a
String are themselves, a Numeric is the number `tonumber` gives (the numeric datum when
numerics are kept), an Array is a table whose index i (from 1) reads as the reconstruction of
element i, an Object is a table whose key k reads as the reconstruction of member k. -/
def Reconstructs (E : Env) (cfg : MapConfig) : Jsonb → LVal → Prop
  | .null, v => v = cfg.nullvalue
  | .bool b, v => v = .bool b
  | .numeric n, v =>
    if cfg.keep_numeric then ∃ a ts, v = .userdata a (.numericDatum n) ts else v = E.tonumber n
  | .string s, v => v = .str s
  | .array xs, v => ∃ a mt kv, v = .table a mt kv ∧ ReconstructsElems E cfg xs 1 kv
  | .object ps, v => ∃ a mt kv, v = .table a mt kv ∧ ReconstructsPairs E cfg ps kv
/-- The elements of an array read at the indices from `i` on. -/
def ReconstructsElems (E : Env) (cfg : MapConfig) : List Jsonb → Int → List (LVal × LVal) → Prop
  | [], _, _ => True
  | x :: xs, i, kv => Reconstructs E cfg x (rawget kv (.int i)) ∧ ReconstructsElems E cfg xs (i + 1) kv
/-- The members of an object read at their keys. -/
def ReconstructsPairs (E : Env) (cfg : MapConfig) : List (String × Jsonb) → List (LVal × LVal) → Prop
  | [], _ => True
  | (k, x) :: ps, kv => Reconstructs E cfg x (rawget kv (.str k)) ∧ ReconstructsPairs E cfg ps kv
end

/-- The pairs of the table built for the elements of an array, when every element is stored
under a new index: the indices after `idx` in order, each with the value built for its
element. -/
def elemEntries (E : Env) (cfg : MapConfig) : Nat → Int → List Jsonb → List (LVal × LVal)
  | _, _, [] => []
  | next, idx, x :: xs =>
    (.int (idx + 1), (decodeNode E cfg next x).1)
      :: elemEntries E cfg (decodeNode E cfg next x).2 (idx + 1) xs

/-- The pairs of the table built for the members of an object with distinct keys: the keys in
order, each with the value built for its member. -/
def pairEntries (E : Env) (cfg : MapConfig) : Nat → List (String × Jsonb) → List (LVal × LVal)
  | _, [] => []
  | next, (k, x) :: ps =>
    (.str k, (decodeNode E cfg next x).1) :: pairEntries E cfg (decodeNode E cfg next x).2 ps

/-- A value that is not an object allocated at or above the address `heap`: it existed before
the objects allocated from `heap` on. -/
def LVal.allocatedBelow (heap : Nat) : LVal → Bool
  | .table a _ _ => decide (a < heap)
  | .userdata a _ _ => decide (a < heap)
  | _ => true

mutual
/-- Whether some Bool or String leaf of a document decodes to a value raw-equal to `s`. -/
def leafClash (s : LVal) : Jsonb → Bool
  | .bool b => lua_rawequal (.bool b) s
  | .string t => lua_rawequal (.str t) s
  | .array xs => leafClashElems s xs
  | .object ps => leafClashPairs s ps
  | _ => false
/-- The same for the elements of an array. -/
def leafClashElems (s : LVal) : List Jsonb → Bool
  | [] => false
  | x :: xs => leafClash s x || leafClashElems s xs
/-- The same for the members of an object. -/
def leafClashPairs (s : LVal) : List (String × Jsonb) → Bool
  | [] => false
  | (_, x) :: ps => leafClash s x || leafClashPairs s ps
end

/-- The sequence of `n` values `true` at the address `addr`: the table whose keys are 1..n,
in this order, each holding `true`. -/
def trueSequence (addr n : Nat) : LVal :=
  .table addr .none
    ((List.range n).map (fun (i : Nat) => (LVal.int ((i : Int) + 1), LVal.bool true)))

/-! ## The round trip on plain values -/

/-- The integers 1..n in ascending order. -/
def sequenceKeys (n : Nat) : List Int := (List.range n).map (fun (i : Nat) => (i : Int) + 1)

mutual
/-- The values of the round trip: booleans, strings valid in the server encoding, numbers
that the conversion to numeric and back gives again, and tables without metatable whose keys
are either a rearrangement of 1..n, for n below the count from which `array_frac * numkeys`
leaves the C `int`, or distinct strings not convertible to an integer, and whose values are
such values. -/
def PlainValue (E : Env) : LVal → Prop
  | .bool _ => True
  | .int i => E.tonumber (E.numericOfInt i) = .int i
  | .flt q => E.tonumber (E.numericOfFloat q) = .flt q
  | .str s => E.pg_verifymbstr s = true
  | .table _ mt kv =>
    mt = .none ∧
    ((∃ l : List Int, kv.map Prod.fst = l.map LVal.int ∧ l.Perm (sequenceKeys kv.length) ∧
        kv.length < 2147484)
      ∨ (∃ ks : List String, kv.map Prod.fst = ks.map LVal.str ∧ ks.Nodup ∧
          ∀ k ∈ ks, E.str2int k = none ∧ E.pg_verifymbstr k = true)) ∧
    PlainEntries E kv
  | _ => False
/-- The same for the values of the pairs of a table. -/
def PlainEntries (E : Env) : List (LVal × LVal) → Prop
  | [] => True
  | (_, v) :: rest => PlainValue E v ∧ PlainEntries E rest
end

mutual
/-- Structural equality up to addresses and metatables: a scalar is the same scalar, a table
is a table with the same keys, up to their order, under which it holds structurally equal
values. -/
def SameStructure : LVal → LVal → Prop
  | .table _ _ kv, y =>
    ∃ a mt kv2, y = .table a mt kv2 ∧ (kv2.map Prod.fst).Perm (kv.map Prod.fst) ∧
      SameEntries kv kv2
  | .nil, y => y = .nil
  | .bool b, y => y = .bool b
  | .int i, y => y = .int i
  | .flt q, y => y = .flt q
  | .nan, y => y = .nan
  | .str s, y => y = .str s
  | .userdata a k ts, y => y = .userdata a k ts
  | .function a, y => y = .function a
  | .lightuserdata a, y => y = .lightuserdata a
  | .thread a, y => y = .thread a
/-- The values of the pairs of a table read in the pairs of another at the same keys. -/
def SameEntries : List (LVal × LVal) → List (LVal × LVal) → Prop
  | [], _ => True
  | (k, v) :: rest, kv2 => SameStructure v (rawget kv2 k) ∧ SameEntries rest kv2
end

/-- An environment with four Lua functions, for the examples with a map. Function 1 returns
its first two arguments (the decode map `function(k, v, ...) return k, v end`; called with one
argument, the encode map `function(v) return v end`). Function 2 is the decode map that files
every container under the key "k": `function(k, v, ...) if type(v) == "table" then return "k",
v else return k, v end end`. Function 3 is the encode map that turns every value but a table
into the string "N/A". Function 4 is the decode map that replaces what it is given under the
key nil by the string "root": `function(k, v, ...) if k == nil then return nil, "root" else
return k, v end end`. Function 5 is the decode map that returns the key "z" for everything:
`function(k, v, ...) return "z", v end`. Function 6 is the encode map that replaces every
table by the table with the one member `w = true` (at the address 50). Function 7 is the
decode map that files every container under the integer key 5: `function(k, v, ...) if
type(v) == "table" then return 5, v else return k, v end end`. Function 8 is the encode map
that turns every value but a table into `false`. Function 9 is the decode map that replaces
every value but a table by the string "seen": `function(k, v, ...) if type(v) == "table" then
return k, v else return k, "seen" end end`. -/
def mapEnv : Env :=
  { refEnv with
    call := fun f args =>
      match f, args with
      | 1, _ => .ok (args.take 2)
      | 2, _ :: .table a mt kv :: _ => .ok [.str "k", .table a mt kv]
      | 2, _ => .ok (args.take 2)
      | 3, [.table a mt kv] => .ok [.table a mt kv]
      | 3, _ => .ok [.str "N/A"]
      | 4, .nil :: _ => .ok [.nil, .str "root"]
      | 4, _ => .ok (args.take 2)
      | 5, _ => .ok [.str "z", (args.drop 1).headD .nil]
      | 6, [.table _ _ _] => .ok [.table 50 .none [(.str "w", .bool true)]]
      | 6, _ => .ok (args.take 1)
      | 7, _ :: .table a mt kv :: _ => .ok [.int 5, .table a mt kv]
      | 7, _ => .ok (args.take 2)
      | 8, [.table a mt kv] => .ok [.table a mt kv]
      | 8, _ => .ok [.bool false]
      | 9, k :: .table a mt kv :: _ => .ok [k, .table a mt kv]
      | 9, _ => .ok [args.headD .nil, .str "seen"]
      | _, _ => .error (.callback 0) }

/-! ## The decoding with a map, as a function of the document

What the decode loop does when a map is configured and nothing is discarded, by recursion on
the document: the value stored for each node, and the calls of the map in order. The theorems
below prove that the loop does this when the map returns the key it is given. -/

/-- The two results of a call of the decode map, `lua_call(L, 2 + patht_len, 2)`: the key and
the value. -/
def mapResults (rs : List LVal) : LVal × LVal :=
  ((adjustResults rs 2).headD .nil, ((adjustResults rs 2).drop 1).headD .nil)

/-- The entry a container adds to the path of its members: the key it stands under, nothing
for the root. -/
def keyEntry (key : LVal) : List LVal := if lua_isnil key then [] else [key]

mutual
/-- The visit of a node that stands under `key` (a member key, the number of elements before
it in its array, nil for the root) below the ancestors `path`: the map is called with the key,
the decoded scalar or the table built for the container, and the path; the visit gives the
value the map returns, the next free address and the calls made, children first. -/
def visitNode (E : Env) (f : Nat) (cfg : MapConfig) (path : List LVal) (key : LVal) :
    Nat → Jsonb → Except LuaError (LVal × Nat × List (List LVal))
  | next, .array xs =>
    match visitElems E f cfg (path ++ keyEntry key) (next + 1) 0 [] xs with
    | .error e => .error e
    | .ok (kv, next1, calls) =>
      match E.call f (key :: .table next .array_mt kv :: path) with
      | .error e => .error e
      | .ok rs =>
        .ok ((mapResults rs).2, next1, calls ++ [key :: .table next .array_mt kv :: path])
  | next, .object ps =>
    match visitPairs E f cfg (path ++ keyEntry key) (next + 1) [] ps with
    | .error e => .error e
    | .ok (kv, next1, calls) =>
      match E.call f (key :: .table next .object_mt kv :: path) with
      | .error e => .error e
      | .ok rs =>
        .ok ((mapResults rs).2, next1, calls ++ [key :: .table next .object_mt kv :: path])
  | next, .null =>
    match E.call f (key :: cfg.nullvalue :: path) with
    | .error e => .error e
    | .ok rs => .ok ((mapResults rs).2, next, [key :: cfg.nullvalue :: path])
  | next, .bool b =>
    match E.call f (key :: .bool b :: path) with
    | .error e => .error e
    | .ok rs => .ok ((mapResults rs).2, next, [key :: .bool b :: path])
  | next, .numeric n =>
    match E.call f (key :: (decodeNode E cfg next (.numeric n)).1 :: path) with
    | .error e => .error e
    | .ok rs =>
      .ok ((mapResults rs).2, next + 1, [key :: (decodeNode E cfg next (.numeric n)).1 :: path])
  | next, .string s =>
    match E.call f (key :: .str s :: path) with
    | .error e => .error e
    | .ok rs => .ok ((mapResults rs).2, next, [key :: .str s :: path])
/-- The visits of the elements of an array whose table holds `kv` so far and whose running
index is `idx`: each element is visited under the running index, the number of elements before
it, and its value is stored at the index after. -/
def visitElems (E : Env) (f : Nat) (cfg : MapConfig) (path : List LVal) :
    Nat → Int → List (LVal × LVal) → List Jsonb →
      Except LuaError (List (LVal × LVal) × Nat × List (List LVal))
  | next, _, kv, [] => .ok (kv, next, [])
  | next, idx, kv, x :: xs =>
    match visitNode E f cfg path (.int idx) next x with
    | .error e => .error e
    | .ok (v, next1, calls1) =>
      match visitElems E f cfg path next1 (nextIndex idx) (rawset kv (.int (nextIndex idx)) v)
          xs with
      | .error e => .error e
      | .ok (kv2, next2, calls2) => .ok (kv2, next2, calls1 ++ calls2)
/-- The visits of the members of an object whose table holds `kv` so far: each member is
visited under its key and its value is stored under it. -/
def visitPairs (E : Env) (f : Nat) (cfg : MapConfig) (path : List LVal) :
    Nat → List (LVal × LVal) → List (String × Jsonb) →
      Except LuaError (List (LVal × LVal) × Nat × List (List LVal))
  | next, kv, [] => .ok (kv, next, [])
  | next, kv, (k, x) :: ps =>
    match visitNode E f cfg path (.str k) next x with
    | .error e => .error e
    | .ok (v, next1, calls1) =>
      match visitPairs E f cfg path next1 (rawset kv (.str k) v) ps with
      | .error e => .error e
      | .ok (kv2, next2, calls2) => .ok (kv2, next2, calls1 ++ calls2)
end

/-- The table built for a container and the visits of its members, before the map is called
on the container itself. -/
def visitInside (E : Env) (f : Nat) (cfg : MapConfig) (path : List LVal) (next : Nat) :
    Jsonb → Except LuaError (LVal × Nat × List (List LVal))
  | .array xs =>
    match visitElems E f cfg path (next + 1) 0 [] xs with
    | .error e => .error e
    | .ok (kv, next1, calls) => .ok (.table next .array_mt kv, next1, calls)
  | .object ps =>
    match visitPairs E f cfg path (next + 1) [] ps with
    | .error e => .error e
    | .ok (kv, next1, calls) => .ok (.table next .object_mt kv, next1, calls)
  | _ => .error .internal

/-- A decode map that returns, as its first result, the key it is given. -/
def KeepsKey (E : Env) (f : Nat) : Prop :=
  ∀ (k v : LVal) (path rs : List LVal), E.call f (k :: v :: path) = .ok rs → (mapResults rs).1 = k

mutual
/-- The calls of the decode map on the scalar leaves of a node that stands under `key` below
the ancestors `path`, in document order: the key, the decoded scalar, the path. The members of
a container have the key of the container appended to the path (nothing for the root), and
the elements of an array are visited under the running index, from 0. -/
def leafCalls (E : Env) (cfg : MapConfig) (path : List LVal) (key : LVal) :
    Nat → Jsonb → List (List LVal)
  | next, .array xs => elemLeafCalls E cfg (path ++ keyEntry key) (next + 1) 0 xs
  | next, .object ps => pairLeafCalls E cfg (path ++ keyEntry key) (next + 1) ps
  | _, .null => [key :: cfg.nullvalue :: path]
  | _, .bool b => [key :: .bool b :: path]
  | next, .numeric n => [key :: (decodeNode E cfg next (.numeric n)).1 :: path]
  | _, .string s => [key :: .str s :: path]
/-- The calls on the leaves below the elements of an array. -/
def elemLeafCalls (E : Env) (cfg : MapConfig) (path : List LVal) :
    Nat → Int → List Jsonb → List (List LVal)
  | _, _, [] => []
  | next, idx, x :: xs =>
    leafCalls E cfg path (.int idx) next x
      ++ elemLeafCalls E cfg path (decodeNode E cfg next x).2 (nextIndex idx) xs
/-- The calls on the leaves below the members of an object. -/
def pairLeafCalls (E : Env) (cfg : MapConfig) (path : List LVal) :
    Nat → List (String × Jsonb) → List (List LVal)
  | _, [] => []
  | next, (k, x) :: ps =>
    leafCalls E cfg path (.str k) next x
      ++ pairLeafCalls E cfg path (decodeNode E cfg next x).2 ps
end

/-! ## Keys and scalars that have no encoding -/

/-- A key that cannot be made into a string: neither a string nor a number, and not a table or
userdata whose `__tostring` returns a string. -/
def keyUnstringable (k : LVal) : Bool :=
  match k with
  | .str _ | .int _ | .flt _ | .nan => false
  | .table _ _ _ | .userdata _ _ _ =>
    match tostringField k with
    | .returnsString _ => false
    | _ => true
  | _ => true

/-- The errors that `pllua_jsonb_pushkeys` raises for a key that cannot be made into a
string. -/
def LuaError.invalidKeyType : LuaError → Bool
  | .keyLacksTostring | .keyTostringNotString | .keyScalarType => true
  | _ => false

/-- A value with no binary representation and no applicable capability: a function, a thread,
a light userdata, or a full userdata that is no datum and whose `__tostring` is absent or
does not return a string. -/
def unserializable : LVal → Bool
  | .function _ | .thread _ | .lightuserdata _ => true
  | .userdata _ .notDatum ts =>
    match ts with
    | .returnsString _ => false
    | _ => true
  | _ => false

/-- The errors that `pllua_jsonb_toscalar` raises for a value that cannot be serialized. -/
def LuaError.unserializableScalar : LuaError → Bool
  | .scalarLacksTostring | .scalarTostringNotString | .scalarType => true
  | _ => false

/-- The number of containers open after a sequence of tokens: begin tokens less end tokens. -/
def openContainers : List JsonbIteratorToken → Int
  | [] => 0
  | .WJB_BEGIN_ARRAY :: ts => openContainers ts + 1
  | .WJB_BEGIN_OBJECT :: ts => openContainers ts + 1
  | .WJB_END_ARRAY :: ts => openContainers ts - 1
  | .WJB_END_OBJECT :: ts => openContainers ts - 1
  | _ :: ts => openContainers ts

/-! ## Tagging a table (`set_as_object`, `set_as_array`, `set_as_unknown`) -/

/-- The function `pllua_jsonb_table_set_table_mt` on its first argument: the argument after
the call, whose metatable `lua_setmetatable` replaces in place, and the values returned or the
error raised. `mtname` is the marker metatable found under the name given, none for NULL. -/
def pllua_jsonb_table_set_table_mt (t : LVal) (mtname : Option Metatable) :
    LVal × Except LuaError (List LVal) :=
  match t with
  | .table a mt kv =>
    match mt with
    | .user _ _ => (t, .error .cannotReplaceMetatable)
    | _ =>
      let mt1 : Metatable :=
        match mtname with
        | some m => m
        | none => .none
      (.table a mt1 kv, .ok [.table a mt1 kv])
  | _ => (t, .error .badArgument)

/-- The function `pllua_jsonb_table_set_object`. -/
def pllua_jsonb_table_set_object (t : LVal) : LVal × Except LuaError (List LVal) :=
  pllua_jsonb_table_set_table_mt t (some .object_mt)

/-- The function `pllua_jsonb_table_set_array`. -/
def pllua_jsonb_table_set_array (t : LVal) : LVal × Except LuaError (List LVal) :=
  pllua_jsonb_table_set_table_mt t (some .array_mt)

/-- The function `pllua_jsonb_table_set_unknown`. -/
def pllua_jsonb_table_set_unknown (t : LVal) : LVal × Except LuaError (List LVal) :=
  pllua_jsonb_table_set_table_mt t none

/-! ## The interpreter cache (`init.c`) -/

/-- The constant `InvalidOid`. -/
def InvalidOid : Nat := 0

/-- The struct `pllua_interp_desc`, an entry of `pllua_interp_hash`: the key and the
interpreter, an address or NULL. -/
structure pllua_interp_desc where
  user_id : Nat
  interp : Option Nat

/-- The errors `pllua_newstate` raises. -/
inductive InitError where
  | outOfMemory
  | initFailed
deriving DecidableEq

/-- What happens in a call of `pllua_newstate`, decided outside the module: `lua_newstate`
returns NULL, or the protected call of `pllua_init_state` raises, or both succeed. -/
inductive NewstateOutcome where
  | noMemory
  | initRaises
  | succeeds
deriving DecidableEq

/-- The static state of `init.c`: the entries of `pllua_interp_hash`, the address
`lua_newstate` returns next (an address not in use by an interpreter), and the record of the
interpreters that `pllua_newstate` has returned, each with the key it was created for. -/
structure InitState where
  pllua_interp_hash : List pllua_interp_desc
  next : Nat
  created : List (Nat × Nat)

/-- The state `_PG_init` leaves: an empty hash table. -/
def InitState.init (heap : Nat) : InitState :=
  { pllua_interp_hash := [], next := heap, created := [] }

/-- The function `pllua_newstate`: the interpreter created and returned, or the error raised
after the interpreter, if any, was closed (its address is free again). -/
def pllua_newstate (outcome : NewstateOutcome) (user_id : Nat) (s : InitState) :
    InitState × Except InitError Nat :=
  match outcome with
  | .noMemory => (s, .error .outOfMemory)
  | .initRaises => (s, .error .initFailed)
  | .succeeds =>
    ({ s with next := s.next + 1, created := s.created ++ [(user_id, s.next)] }, .ok s.next)

/-- The call `hash_search(pllua_interp_hash, &user_id, HASH_ENTER, &found)`: the table with
an entry for the key, and the interpreter of the entry when it was found. A new entry gets
the interpreter NULL, which `pllua_getstate` assigns when `found` is false. -/
def hash_search_enter (h : List pllua_interp_desc) (user_id : Nat) :
    List pllua_interp_desc × Option pllua_interp_desc :=
  match h.find? (fun d => decide (d.user_id = user_id)) with
  | some d => (h, some d)
  | none => (h ++ [{ user_id := user_id, interp := none }], none)

/-- The assignment `interp_desc->interp = L` on the entry of a key. -/
def setInterp (h : List pllua_interp_desc) (user_id : Nat) (L : Nat) : List pllua_interp_desc :=
  h.map (fun d => if d.user_id = user_id then { d with interp := some L } else d)

/-- The key `pllua_getstate` uses: the current user for a trusted call, else `InvalidOid`. -/
def cacheKey (trusted : Bool) (GetUserId : Nat) : Nat := if trusted then GetUserId else InvalidOid

/-- The function `pllua_getstate`, when the current user is `GetUserId` and a creation of an
interpreter would end as `outcome` says: the state after the call and the interpreter
returned or the error raised. -/
def pllua_getstate (trusted : Bool) (GetUserId : Nat) (outcome : NewstateOutcome)
    (s : InitState) : InitState × Except InitError Nat :=
  let user_id := cacheKey trusted GetUserId
  match hash_search_enter s.pllua_interp_hash user_id with
  | (h, found) =>
    match found.bind (fun d => d.interp) with
    | some L => ({ s with pllua_interp_hash := h }, .ok L)
    | none =>
      match pllua_newstate outcome user_id { s with pllua_interp_hash := h } with
      | (s1, .error e) => (s1, .error e)
      | (s1, .ok L) =>
        ({ s1 with pllua_interp_hash := setInterp s1.pllua_interp_hash user_id L }, .ok L)

/-- The interpreter a list of entries holds for a key: none when there is no entry or the
entry holds NULL. -/
def hashInterp (h : List pllua_interp_desc) (user_id : Nat) : Option Nat :=
  (h.find? (fun d => decide (d.user_id = user_id))).bind (fun d => d.interp)

/-- The interpreter the table holds for a key. -/
def cachedInterp (s : InitState) (user_id : Nat) : Option Nat :=
  hashInterp s.pllua_interp_hash user_id

/-- A call of `pllua_getstate`: whether it is trusted, the current user, and how a creation
would end. -/
structure GetstateCall where
  trusted : Bool
  GetUserId : Nat
  outcome : NewstateOutcome

/-- The state after a sequence of calls of `pllua_getstate`. -/
def runCalls : InitState → List GetstateCall → InitState
  | s, [] => s
  | s, c :: cs => runCalls (pllua_getstate c.trusted c.GetUserId c.outcome s).1 cs

/-- The results of a sequence of calls of `pllua_getstate`, in order. -/
def callResults : InitState → List GetstateCall → List (Except InitError Nat)
  | _, [] => []
  | s, c :: cs =>
    (pllua_getstate c.trusted c.GetUserId c.outcome s).2
      :: callResults (pllua_getstate c.trusted c.GetUserId c.outcome s).1 cs

/-- The invariant of the cache: one entry per key; the entries that hold an interpreter are
the creations recorded, one per key, of distinct interpreters, all below the next address. -/
def CacheInvariant (s : InitState) : Prop :=
  (s.pllua_interp_hash.map (fun d => d.user_id)).Nodup
  ∧ (∀ k L, cachedInterp s k = some L ↔ (k, L) ∈ s.created)
  ∧ (s.created.map (fun c => c.1)).Nodup
  ∧ (s.created.map (fun c => c.2)).Nodup
  ∧ ∀ c ∈ s.created, c.2 < s.next

/-! ## The grammar of the builder event stream -/

/-- The parts of the grammar of an event stream: a document, the elements of an array, the
pairs of an object. -/
inductive StreamPart where
  | doc
  | elems
  | pairs
deriving DecidableEq

/-- The grammar of the calls of `pushJsonbValue` for a container:
doc := BEGIN_ARRAY (ELEM | doc)* END_ARRAY | BEGIN_OBJECT (KEY (VALUE | doc))* END_OBJECT. -/
inductive EventStream : StreamPart → List JsonbIteratorToken → Prop where
  | array (body : List JsonbIteratorToken) : EventStream .elems body →
      EventStream .doc (.WJB_BEGIN_ARRAY :: (body ++ [.WJB_END_ARRAY]))
  | object (body : List JsonbIteratorToken) : EventStream .pairs body →
      EventStream .doc (.WJB_BEGIN_OBJECT :: (body ++ [.WJB_END_OBJECT]))
  | elemsNil : EventStream .elems []
  | elem (v : JsonbValue) (rest : List JsonbIteratorToken) : EventStream .elems rest →
      EventStream .elems (.WJB_ELEM v :: rest)
  | elemDoc (d rest : List JsonbIteratorToken) : EventStream .doc d → EventStream .elems rest →
      EventStream .elems (d ++ rest)
  | pairsNil : EventStream .pairs []
  | value (k v : JsonbValue) (rest : List JsonbIteratorToken) : EventStream .pairs rest →
      EventStream .pairs (.WJB_KEY k :: .WJB_VALUE v :: rest)
  | pairDoc (k : JsonbValue) (d rest : List JsonbIteratorToken) : EventStream .doc d →
      EventStream .pairs rest → EventStream .pairs (.WJB_KEY k :: (d ++ rest))

/-- The part of the grammar that the body of a container follows. -/
def bodyPart (isObject : Bool) : StreamPart := if isObject then .pairs else .elems

/-- The begin token of a container. -/
def beginToken (isObject : Bool) : JsonbIteratorToken :=
  if isObject then .WJB_BEGIN_OBJECT else .WJB_BEGIN_ARRAY

/-- The end token of a container. -/
def endToken (isObject : Bool) : JsonbIteratorToken :=
  if isObject then .WJB_END_OBJECT else .WJB_END_ARRAY

/-- An event stream with open containers, the innermost first (true for an object): every
container is begun, directly in the body of the one that encloses it or after a key when that
one is an object, and its body so far follows the grammar. -/
inductive OpenStream : List Bool → List JsonbIteratorToken → Prop where
  | root (o : Bool) (body : List JsonbIteratorToken) : EventStream (bodyPart o) body →
      OpenStream [o] (beginToken o :: body)
  | inArray (o : Bool) (ks : List Bool) (outer body : List JsonbIteratorToken) :
      OpenStream (false :: ks) outer → EventStream (bodyPart o) body →
      OpenStream (o :: false :: ks) (outer ++ beginToken o :: body)
  | inObject (o : Bool) (ks : List Bool) (outer : List JsonbIteratorToken) (k : JsonbValue)
      (body : List JsonbIteratorToken) :
      OpenStream (true :: ks) outer → EventStream (bodyPart o) body →
      OpenStream (o :: true :: ks) (outer ++ .WJB_KEY k :: beginToken o :: body)

/-- Whether a frame of the encode loop is that of an object: its previous key is nil. -/
def TosqlFrame.isObject (f : TosqlFrame) : Bool := lua_isnil f.prevkey

/-- The invariant of the encode loop while containers are open: `depth` is the number of
frames, and the calls of `pushJsonbValue` so far are an event stream whose open containers
are the frames, in kind and in order. -/
def EncodeInvariant (st : TosqlState) : Prop :=
  st.depth = st.frames.length
  ∧ OpenStream (st.frames.map TosqlFrame.isObject) st.pushed

/-- The state after at most `n` iterations of `while (depth > 0)`. -/
def tosqlIterate (E : Env) (cfg : TosqlConfig) : Nat → TosqlState → Except LuaError TosqlState
  | 0, st => .ok st
  | n + 1, st =>
    if st.depth > 0 then
      match tosqlStep E cfg st with
      | .error e => .error e
      | .ok st1 => tosqlIterate E cfg n st1
    else .ok st

/-- The position (from 0) in the Array of the element pushed for the key at index `i` of a key
list, when the previous key is `prevkey`: the number of Nulls of the gap loops and of elements
pushed before it. -/
def elemPosition (E : Env) : LVal → List LVal → Nat → Nat
  | _, [], _ => 0
  | prevkey, key :: _, 0 =>
    gapCount (wrapInt32 (lua_tointeger E key)) (wrapInt32 (lua_tointeger E prevkey))
  | prevkey, key :: ks, i + 1 =>
    gapCount (wrapInt32 (lua_tointeger E key)) (wrapInt32 (lua_tointeger E prevkey)) + 1
      + elemPosition E (.int (wrapInt32 (lua_tointeger E key))) ks i

/-! # Theorems -/

theorem wrapInt32_eq {x : Int} (h1 : -2147483648 ≤ x) (h2 : x < 2147483648) : wrapInt32 x = x := by
  unfold wrapInt32; omega

theorem wrapInt32_range (x : Int) : -2147483648 ≤ wrapInt32 x ∧ wrapInt32 x < 2147483648 := by
  unfold wrapInt32; omega

/-- the key loop in closed form -/
theorem scanKeys_eq (E : Env) (ka : Bool) (keys : List LVal) : ∀ sc : KeyScan,
    scanKeys E ka sc keys =
      match keysForObject E ka keys with
      | .error e => .error e
      | .ok ks =>
        .ok { min_intkey := (intKeys E keys).foldl min sc.min_intkey,
              max_intkey := (intKeys E keys).foldl max sc.max_intkey,
              numintkeys := sc.numintkeys + (intKeys E keys).length,
              numkeys := sc.numkeys + keys.length,
              keytab := sc.keytab ++ ks,
              numkeytab := sc.numkeytab ++ keys.filter (fun k => (lua_tointegerx E k).isSome) } := by
  induction keys with
  | nil => intro sc; simp [scanKeys, keysForObject, intKeys]
  | cons key rest ih =>
    intro sc
    simp only [scanKeys, keysForObject, scanKey]
    cases hk : keyForObject E ka key with
    | error e => simp
    | ok k =>
      simp only [ih]
      cases hr : keysForObject E ka rest with
      | error e => simp
      | ok ks =>
        cases hi : lua_tointegerx E key with
        | none =>
          simp [intKeys, List.filterMap_cons, hi, List.filter_cons]
          omega
        | some i =>
          simp only [intKeys, List.filterMap_cons, hi, List.filter_cons, List.foldl_cons, Option.isSome_some, if_true, List.length_cons]
          simp only [Except.ok.injEq, KeyScan.mk.injEq]
          refine ⟨?_, ?_, by push_cast; omega, by push_cast; omega, by simp, by simp⟩
          · congr 1
            by_cases h : i < sc.min_intkey
            · simp [h, min_eq_right (le_of_lt h)]
            · simp [h, min_eq_left (not_lt.mp h)]
          · congr 1
            by_cases h : i > sc.max_intkey
            · simp [h, max_eq_right (le_of_lt h)]
            · simp [h, max_eq_left (not_lt.mp h)]

theorem foldl_min_lt (l : List Int) : ∀ a c : Int, l.foldl min a < c ↔ a < c ∨ ∃ i ∈ l, i < c := by
  induction l with
  | nil => intro a c; simp
  | cons x xs ih =>
    intro a c
    simp only [List.foldl_cons, ih, List.mem_cons, exists_eq_or_imp, min_lt_iff]
    tauto

theorem foldl_min_gt (l : List Int) : ∀ a c : Int, l.foldl min a > c ↔ a > c ∧ ∀ i ∈ l, i > c := by
  induction l with
  | nil => intro a c; simp
  | cons x xs ih =>
    intro a c
    simp only [List.foldl_cons, ih, List.mem_cons, forall_eq_or_imp, gt_iff_lt, lt_min_iff]
    tauto

theorem foldl_max_gt (l : List Int) : ∀ a c : Int, l.foldl max a > c ↔ a > c ∨ ∃ i ∈ l, i > c := by
  induction l with
  | nil => intro a c; simp
  | cons x xs ih =>
    intro a c
    simp only [List.foldl_cons, ih, List.mem_cons, exists_eq_or_imp, gt_iff_lt, lt_max_iff]
    tauto

/-- the scan result -/
theorem pushkeys_eq (E : Env) (t : LVal) (eo : Bool) (thr frac : Int) :
    pllua_jsonb_pushkeys E t eo thr frac =
      match keysForObject E (decide (jsonbObjectField t = .boolean false)) (containerKeys t) with
      | .error e => .error e
      | .ok ks =>
        if classifyObject (decide (jsonbObjectField t = .boolean true))
            (decide (jsonbObjectField t = .boolean false)) eo thr frac
            { min_intkey := (intKeys E (containerKeys t)).foldl min LUA_MAXINTEGER,
              max_intkey := (intKeys E (containerKeys t)).foldl max 0,
              numintkeys := (intKeys E (containerKeys t)).length,
              numkeys := (containerKeys t).length,
              keytab := ks,
              numkeytab := (containerKeys t).filter (fun k => (lua_tointegerx E k).isSome) } then
          .ok { tok := .WJB_BEGIN_OBJECT, keylist := ks, prevkey := .nil, index := 1 }
        else
          match table_sort ((containerKeys t).filter (fun k => (lua_tointegerx E k).isSome)) with
          | .error e => .error e
          | .ok sorted =>
            .ok { tok := .WJB_BEGIN_ARRAY, keylist := sorted, prevkey := .int 0, index := 1 } := by
  unfold pllua_jsonb_pushkeys
  simp only [scanKeys_eq, KeyScan.init]
  cases keysForObject E (decide (jsonbObjectField t = .boolean false)) (containerKeys t) with
  | error e => rfl
  | ok ks => simp

theorem classification_formula (E : Env) (t : LVal) (eo : Bool) (thr frac : Int) (pk : PushKeys)
    (hno : ∀ b, jsonbObjectField t ≠ .boolean b)
    (hthr : thr < LUA_MAXINTEGER)
    (hmul : wrapInt32 (frac * (containerKeys t).length) = frac * (containerKeys t).length)
    (hpk : pllua_jsonb_pushkeys E t eo thr frac = .ok pk) :
    (pk.tok = .WJB_BEGIN_OBJECT ↔
        claimedObject eo thr frac (containerKeys t).length (intKeys E (containerKeys t)))
    ∧ (pk.tok = .WJB_BEGIN_ARRAY ↔
        ¬ claimedObject eo thr frac (containerKeys t).length (intKeys E (containerKeys t))) := by
  rw [pushkeys_eq] at hpk
  have h1 : decide (jsonbObjectField t = .boolean true) = false := by simpa using hno true
  have h2 : decide (jsonbObjectField t = .boolean false) = false := by simpa using hno false
  rw [h1, h2] at hpk
  cases hk : keysForObject E false (containerKeys t) with
  | error e => rw [hk] at hpk; cases hpk
  | ok ks =>
    rw [hk] at hpk
    simp only at hpk
    set ints := intKeys E (containerKeys t) with hints
    set n := (containerKeys t).length with hn
    have hcl : classifyObject false false eo thr frac
        { min_intkey := ints.foldl min LUA_MAXINTEGER, max_intkey := ints.foldl max 0,
          numintkeys := ints.length, numkeys := n, keytab := ks,
          numkeytab := (containerKeys t).filter (fun k => (lua_tointegerx E k).isSome) } = true
        ↔ claimedObject eo thr frac n ints := by
      unfold classifyObject claimedObject
      simp only [Bool.false_or, Bool.not_false, Bool.true_and, Bool.or_eq_true, Bool.and_eq_true,
        decide_eq_true_eq, hmul]
      have e1 := foldl_min_lt ints LUA_MAXINTEGER 1
      have e2 := foldl_min_gt ints LUA_MAXINTEGER thr
      have e3 := foldl_max_gt ints 0 (frac * (n : Int))
      have hM : ¬ (LUA_MAXINTEGER < 1) := by unfold LUA_MAXINTEGER; omega
      simp only [gt_iff_lt] at e2 e3 ⊢
      rw [e1, e2, e3]
      have hlen : (0 : Int) < (ints.length : Int) ↔ 0 < ints.length := by omega
      have hne : ((n : Int) ≠ (ints.length : Int)) ↔ ints.length ≠ n := by omega
      have hz : ((n : Int) = 0) ↔ n = 0 := by omega
      rw [hlen, hne, hz]
      constructor
      · rintro ((((h | h) | h) | h) | h)
        · exact Or.inl h
        · exact Or.inr (Or.inl h)
        · rcases h with h | h
          · exact absurd h hM
          · exact Or.inr (Or.inr (Or.inl h))
        · exact Or.inr (Or.inr (Or.inr (Or.inl ⟨h.1, h.2.2⟩)))
        · rcases h with ⟨hl, h | h⟩
          · -- 0 > frac * n, some int key exists
            obtain ⟨i, hi⟩ := List.exists_mem_of_length_pos hl
            by_cases hi1 : i < 1
            · exact Or.inr (Or.inr (Or.inl ⟨i, hi, hi1⟩))
            · exact Or.inr (Or.inr (Or.inr (Or.inr ⟨hl, i, hi, by omega⟩)))
          · exact Or.inr (Or.inr (Or.inr (Or.inr ⟨hl, h⟩)))
      · rintro (h | h | h | h | h)
        · exact Or.inl (Or.inl (Or.inl (Or.inl h)))
        · exact Or.inl (Or.inl (Or.inl (Or.inr h)))
        · exact Or.inl (Or.inl (Or.inr (Or.inr h)))
        · exact Or.inl (Or.inr ⟨h.1, hthr, h.2⟩)
        · exact Or.inr ⟨h.1, Or.inr h.2⟩
    by_cases hc : classifyObject false false eo thr frac
        { min_intkey := ints.foldl min LUA_MAXINTEGER, max_intkey := ints.foldl max 0,
          numintkeys := ints.length, numkeys := n, keytab := ks,
          numkeytab := (containerKeys t).filter (fun k => (lua_tointegerx E k).isSome) } = true
    · rw [if_pos hc] at hpk
      cases hpk
      simp [hcl.mp hc]
    · rw [if_neg hc] at hpk
      cases hs : table_sort ((containerKeys t).filter (fun k => (lua_tointegerx E k).isSome)) with
      | error e => rw [hs] at hpk; cases hpk
      | ok sorted =>
        rw [hs] at hpk
        cases hpk
        have : ¬ claimedObject eo thr frac n ints := fun h => hc (hcl.mpr h)
        simp [this]

theorem sortInsert_int (x : Int) (l : List Int) :
    sortInsert (.int x) (l.map LVal.int) = .ok ((l.orderedInsert (· ≤ ·) x).map LVal.int) := by
  induction l with
  | nil => simp [sortInsert]
  | cons y ys ih =>
    simp only [List.map_cons, sortInsert, lua_lessthan, List.orderedInsert]
    by_cases h : y < x
    · have h2 : ¬ x ≤ y := by omega
      simp [h, h2, ih]
    · have h2 : x ≤ y := by omega
      simp [h, h2]

theorem table_sort_int (l : List Int) :
    table_sort (l.map LVal.int) = .ok ((l.insertionSort (· ≤ ·)).map LVal.int) := by
  induction l with
  | nil => simp [table_sort]
  | cons x xs ih => simp [table_sort, ih, sortInsert_int]

theorem keysForObject_numstr (E : Env) (ka : Bool) (keys : List LVal)
    (h : ∀ k ∈ keys, (∃ s, k = .str s) ∨ (∃ i, k = .int i) ∨ (∃ q, k = .flt q)) :
    ∃ ks, keysForObject E ka keys = .ok ks := by
  induction keys with
  | nil => exact ⟨[], rfl⟩
  | cons k rest ih =>
    obtain ⟨ks, hks⟩ := ih (fun k hk => h k (List.mem_cons_of_mem _ hk))
    rcases h k (List.mem_cons_self _ _) with ⟨s, rfl⟩ | ⟨i, rfl⟩ | ⟨q, rfl⟩ <;>
      simp [keysForObject, keyForObject, hks]

theorem int_keys_list (keys : List LVal) (h : ∀ k ∈ keys, lua_isinteger k = true) :
    ∃ l : List Int, keys = l.map LVal.int := by
  induction keys with
  | nil => exact ⟨[], rfl⟩
  | cons k rest ih =>
    obtain ⟨l, hl⟩ := ih (fun k hk => h k (List.mem_cons_of_mem _ hk))
    have hk := h k (List.mem_cons_self _ _)
    cases k <;> simp [lua_isinteger] at hk
    rename_i i
    exact ⟨i :: l, by simp [hl]⟩

theorem filter_intlike_ints (E : Env) (l : List Int) :
    (l.map LVal.int).filter (fun k => (lua_tointegerx E k).isSome) = l.map LVal.int := by
  induction l with
  | nil => rfl
  | cons x xs ih => simp [List.filter_cons, lua_tointegerx, ih]

/-- C9: a boolean `__jsonb_object` metafield decides the classification. For a container whose
metafield is `true`, `pllua_jsonb_pushkeys` never returns anything but Object, whatever the
keys, `empty_object` and the thresholds, and it does return Object when the keys are strings
or numbers (keys 1..n included). For a container whose metafield is `false` it never returns
anything but Array, and it does return Array when the keys are Lua integers (an empty
container with `empty_object` set and keys beyond the thresholds included). -/
theorem override_short_circuits (E : Env) (a : Nat) (mt : Metatable) (kv : List (LVal × LVal))
    (empty_object : Bool) (array_thresh array_frac : Int) :
    (jsonbObjectField (.table a mt kv) = .boolean true →
      (∀ pk, pllua_jsonb_pushkeys E (.table a mt kv) empty_object array_thresh array_frac = .ok pk →
        pk.tok = .WJB_BEGIN_OBJECT) ∧
      ((∀ e ∈ kv, (∃ s, e.1 = .str s) ∨ (∃ i, e.1 = .int i) ∨ (∃ q, e.1 = .flt q)) →
        ∃ pk, pllua_jsonb_pushkeys E (.table a mt kv) empty_object array_thresh array_frac = .ok pk ∧
          pk.tok = .WJB_BEGIN_OBJECT)) ∧
    (jsonbObjectField (.table a mt kv) = .boolean false →
      (∀ pk, pllua_jsonb_pushkeys E (.table a mt kv) empty_object array_thresh array_frac = .ok pk →
        pk.tok = .WJB_BEGIN_ARRAY) ∧
      ((∀ e ∈ kv, lua_isinteger e.1 = true) →
        ∃ pk, pllua_jsonb_pushkeys E (.table a mt kv) empty_object array_thresh array_frac = .ok pk ∧
          pk.tok = .WJB_BEGIN_ARRAY)) := by
  constructor
  · intro hko
    have h1 : decide (jsonbObjectField (.table a mt kv) = .boolean true) = true := by simp [hko]
    have hcl : ∀ sc, classifyObject (decide (jsonbObjectField (.table a mt kv) = .boolean true))
        (decide (jsonbObjectField (.table a mt kv) = .boolean false)) empty_object array_thresh
        array_frac sc = true := by
      intro sc; rw [h1]; simp [classifyObject]
    constructor
    · intro pk hpk
      rw [pushkeys_eq] at hpk
      cases hk : keysForObject E (decide (jsonbObjectField (.table a mt kv) = .boolean false))
          (containerKeys (.table a mt kv)) with
      | error e => rw [hk] at hpk; cases hpk
      | ok ks =>
        rw [hk] at hpk
        simp only [hcl, if_true] at hpk
        cases hpk; rfl
    · intro hkeys
      have hk2 : ∀ k ∈ containerKeys (.table a mt kv),
          (∃ s, k = .str s) ∨ (∃ i, k = .int i) ∨ (∃ q, k = .flt q) := by
        intro k hk
        simp only [containerKeys, List.mem_map] at hk
        obtain ⟨e, he, rfl⟩ := hk
        exact hkeys e he
      obtain ⟨ks, hks⟩ := keysForObject_numstr E
        (decide (jsonbObjectField (.table a mt kv) = .boolean false)) _ hk2
      refine ⟨{ tok := .WJB_BEGIN_OBJECT, keylist := ks, prevkey := .nil, index := 1 }, ?_, rfl⟩
      rw [pushkeys_eq, hks]
      simp only [hcl, if_true]
  · intro hka
    have h1 : decide (jsonbObjectField (.table a mt kv) = .boolean true) = false := by simp [hka]
    have h2 : decide (jsonbObjectField (.table a mt kv) = .boolean false) = true := by simp [hka]
    have hcl : ∀ sc, classifyObject (decide (jsonbObjectField (.table a mt kv) = .boolean true))
        (decide (jsonbObjectField (.table a mt kv) = .boolean false)) empty_object array_thresh
        array_frac sc = false := by
      intro sc; rw [h1, h2]; simp [classifyObject]
    constructor
    · intro pk hpk
      rw [pushkeys_eq] at hpk
      cases hk : keysForObject E (decide (jsonbObjectField (.table a mt kv) = .boolean false))
          (containerKeys (.table a mt kv)) with
      | error e => rw [hk] at hpk; cases hpk
      | ok ks =>
        rw [hk] at hpk
        simp only [hcl] at hpk
        cases hs : table_sort ((containerKeys (.table a mt kv)).filter
            (fun k => (lua_tointegerx E k).isSome)) with
        | error e => rw [hs] at hpk; simp at hpk
        | ok sorted => rw [hs] at hpk; simp at hpk; rw [← hpk]
    · intro hkeys
      have hk2 : ∀ k ∈ containerKeys (.table a mt kv), lua_isinteger k = true := by
        intro k hk
        simp only [containerKeys, List.mem_map] at hk
        obtain ⟨e, he, rfl⟩ := hk
        exact hkeys e he
      obtain ⟨l, hl⟩ := int_keys_list _ hk2
      obtain ⟨ks, hks⟩ := keysForObject_numstr E
        (decide (jsonbObjectField (.table a mt kv) = .boolean false)) (containerKeys (.table a mt kv))
        (by intro k hk; rw [hl] at hk; simp only [List.mem_map] at hk
            obtain ⟨i, _, rfl⟩ := hk; exact Or.inr (Or.inl ⟨i, rfl⟩))
      refine ⟨{ tok := .WJB_BEGIN_ARRAY, keylist := (l.insertionSort (· ≤ ·)).map LVal.int,
                prevkey := .int 0, index := 1 }, ?_, rfl⟩
      rw [pushkeys_eq, hks]
      simp only [hcl]
      rw [hl, filter_intlike_ints, table_sort_int]
      simp

theorem override_short_circuits_witness :
    (∃ pk, pllua_jsonb_pushkeys refEnv
        (.table 1 .object_mt [(.int 1, .bool true), (.int 2, .bool true)]) false 1000 1000 = .ok pk ∧
      pk.tok = .WJB_BEGIN_OBJECT) ∧
    (∃ pk, pllua_jsonb_pushkeys refEnv (.table 1 .array_mt [(.int 5000, .bool true)]) true 1000 1000
        = .ok pk ∧ pk.tok = .WJB_BEGIN_ARRAY) :=
  ⟨((override_short_circuits refEnv 1 .object_mt [(.int 1, .bool true), (.int 2, .bool true)]
      false 1000 1000).1 rfl).2 (by simp),
   ((override_short_circuits refEnv 1 .array_mt [(.int 5000, .bool true)]
      true 1000 1000).2 rfl).2 (by simp [lua_isinteger])⟩

/-- C1 (the code at a failing input): with `array_frac` = 2^30 and the keys 1, 2, 3, 4 the
product `array_frac * numkeys` = 2^32 does not fit the C `int` it is computed in and wraps to
0, so `pllua_jsonb_pushkeys` returns Object, while the claimed formula (over the integers)
does not hold, that is, the claim has this container be an Array. -/
theorem classification_product_overflow :
    (∃ pk, pllua_jsonb_pushkeys refEnv
        (.table 1 .none [(.int 1, .bool true), (.int 2, .bool true), (.int 3, .bool true),
          (.int 4, .bool true)]) false 1000 1073741824 = .ok pk ∧ pk.tok = .WJB_BEGIN_OBJECT)
    ∧ ¬ claimedObject false 1000 1073741824 4 [1, 2, 3, 4] :=
  ⟨⟨_, rfl, rfl⟩, by unfold claimedObject; decide⟩

/-- C3 (the code at a failing input): the container with key 1 holding "a" and key "x"
holding "b" is an Object, and its member "1" is Null, not the encoding of "a": the value is
looked up under the string "1", which the container does not have. The member "x" carries
"b". -/
theorem object_number_key_loses_value :
    pllua_jsonb_tosql refEnv 100 [.table 1 .none [(.int 1, .str "a"), (.str "x", .str "b")]]
      = some (.ok [.object [("1", .null), ("x", .string "b")]])
    ∧ pllua_jsonb_tosql refEnv 100 [.str "a", .nil] = some (.ok [.string "a"]) :=
  ⟨rfl, rfl⟩

/-- C5 (the code at a failing input): for a document whose root is the empty Object (or the
empty Array) `pllua_jsonb_map` returns a table without metatable, for which `is_object` and
`is_array` return no value; a nested empty Object is tagged. -/
theorem empty_root_is_untagged :
    pllua_jsonb_map refEnv 7 (.object []) .nil = .ok [.table 7 .none []]
    ∧ pllua_jsonb_table_is_object (.table 7 .none []) = .ok []
    ∧ pllua_jsonb_map refEnv 7 (.array []) .nil = .ok [.table 7 .none []]
    ∧ pllua_jsonb_table_is_array (.table 7 .none []) = .ok []
    ∧ pllua_jsonb_map refEnv 7 (.array [.object []]) .nil
        = .ok [.table 8 .array_mt [(.int 1, .table 9 .object_mt [])]] :=
  ⟨rfl, rfl, rfl, rfl, rfl⟩

/-- C10 (the code at a failing input): the container with the string keys "2" and "10" is
an Array, and the key list handed to the encode loop is "10", "2": the sort compares the
strings, so the integer values 10, 2 are not ascending. -/
theorem array_keylist_of_string_keys :
    ∃ pk, pllua_jsonb_pushkeys refEnv
        (.table 1 .none [(.str "2", .bool true), (.str "10", .bool true)]) false 1000 1000 = .ok pk
      ∧ pk.tok = .WJB_BEGIN_ARRAY
      ∧ pk.keylist = [.str "10", .str "2"]
      ∧ pk.keylist.map (lua_tointeger refEnv) = [10, 2] :=
  ⟨_, rfl, rfl, rfl, rfl⟩

theorem sortInsert_length (x : LVal) : ∀ (l r : List LVal), sortInsert x l = .ok r → r.length = l.length + 1 := by
  intro l
  induction l with
  | nil => intro r h; simp [sortInsert] at h; subst h; rfl
  | cons y ys ih =>
    intro r h
    simp only [sortInsert] at h
    cases hlt : lua_lessthan y x with
    | error e => rw [hlt] at h; cases h
    | ok b =>
      rw [hlt] at h
      cases b with
      | false => simp at h; subst h; simp
      | true =>
        simp only at h
        cases hr : sortInsert x ys with
        | error e => rw [hr] at h; cases h
        | ok r2 => rw [hr] at h; simp at h; subst h; simp [ih r2 hr]

theorem table_sort_length : ∀ (l r : List LVal), table_sort l = .ok r → r.length = l.length := by
  intro l
  induction l with
  | nil => intro r h; simp [table_sort] at h; subst h; rfl
  | cons x xs ih =>
    intro r h
    simp only [table_sort] at h
    cases hs : table_sort xs with
    | error e => rw [hs] at h; cases h
    | ok s =>
      rw [hs] at h
      simp only at h
      rw [sortInsert_length x s r h, ih s hs]; rfl

theorem keysForObject_length (E : Env) (ka : Bool) :
    ∀ (keys ks : List LVal), keysForObject E ka keys = .ok ks → ks.length = keys.length := by
  intro keys
  induction keys with
  | nil => intro ks h; simp [keysForObject] at h; subst h; rfl
  | cons k rest ih =>
    intro ks h
    simp only [keysForObject] at h
    cases hk : keyForObject E ka k with
    | error e => rw [hk] at h; cases h
    | ok k2 =>
      rw [hk] at h
      simp only at h
      cases hr : keysForObject E ka rest with
      | error e => rw [hr] at h; cases h
      | ok ks2 => rw [hr] at h; simp at h; subst h; simp [ih ks2 hr]

/-- the two shapes of what pushkeys returns -/
theorem pushkeys_shape (E : Env) (t : LVal) (eo : Bool) (thr frac : Int) (pk : PushKeys)
    (h : pllua_jsonb_pushkeys E t eo thr frac = .ok pk) :
    pk.index = 1 ∧ pk.keylist.length ≤ (containerKeys t).length ∧
      ((pk.tok = .WJB_BEGIN_OBJECT ∧ pk.prevkey = .nil) ∨
       (pk.tok = .WJB_BEGIN_ARRAY ∧ pk.prevkey = .int 0)) := by
  rw [pushkeys_eq] at h
  cases hk : keysForObject E (decide (jsonbObjectField t = .boolean false)) (containerKeys t) with
  | error e => rw [hk] at h; cases h
  | ok ks =>
    rw [hk] at h
    simp only at h
    split at h
    · cases h
      exact ⟨rfl, le_of_eq (keysForObject_length E _ _ _ hk), Or.inl ⟨rfl, rfl⟩⟩
    · cases hs : table_sort ((containerKeys t).filter (fun k => (lua_tointegerx E k).isSome)) with
      | error e => rw [hs] at h; cases h
      | ok sorted =>
        rw [hs] at h
        cases h
        refine ⟨rfl, ?_, Or.inr ⟨rfl, rfl⟩⟩
        simp only
        rw [table_sort_length _ _ hs]
        exact List.length_filter_le _ _

theorem lookupEncoded_eq (E : Env) (cfg : TosqlConfig) (key : LVal) :
    ∀ kv : List (LVal × LVal),
      lookupEncoded (encodeEntries E cfg kv) key = encodeValue E cfg (rawget kv key) := by
  intro kv
  induction kv with
  | nil =>
    simp only [encodeEntries, lookupEncoded, rawget, List.find?_nil, encodeValue]
    split <;> simp [pllua_jsonb_toscalar]
  | cons e rest ih =>
    obtain ⟨k, v⟩ := e
    simp only [encodeEntries, lookupEncoded, rawget, List.find?_cons] at ih ⊢
    cases hkk : lua_rawequal k key with
    | true => simp
    | false => simpa using ih

theorem rawget_fuel_le (key : LVal) : ∀ kv : List (LVal × LVal), (rawget kv key).fuel ≤ entriesFuel kv := by
  intro kv
  induction kv with
  | nil => simp [rawget, LVal.fuel]
  | cons e rest ih =>
    obtain ⟨k, v⟩ := e
    simp only [rawget, List.find?_cons, entriesFuel] at ih ⊢
    cases hkk : lua_rawequal k key with
    | true => simp
    | false => simp only; omega

theorem elemTokens_append (xs ys : List Built) :
    Built.elemTokens (xs ++ ys) = Built.elemTokens xs ++ Built.elemTokens ys := by
  induction xs with
  | nil => simp [Built.elemTokens]
  | cons x xs ih => simp [Built.elemTokens, ih]

theorem elemTokens_replicate_null (n : Nat) :
    Built.elemTokens (List.replicate n (Built.value .jbvNull))
      = List.replicate n (JsonbIteratorToken.WJB_ELEM .jbvNull) := by
  induction n with
  | zero => simp [Built.elemTokens]
  | succ n ih => simp [List.replicate_succ, Built.elemTokens, Built.tokens, ih]

theorem frameSpec_object (E : Env) (lookup : LVal → Except LuaError Built) :
    ∀ ks : List LVal,
      frameSpec E lookup .nil ks =
        match encodePairs E lookup ks with
        | .ok ps => .ok (Built.pairTokens ps ++ [.WJB_END_OBJECT])
        | .error e => .error e := by
  intro ks
  induction ks with
  | nil => simp [frameSpec, encodePairs, Built.pairTokens, lua_isnil]
  | cons key ks ih =>
    simp only [frameSpec, encodePairs, keyTokens, lua_isnil]
    cases key <;> simp
    rename_i s
    by_cases hv : E.pg_verifymbstr s = true
    · simp only [hv, if_true]
      cases lookup (.str s) with
      | error e => simp
      | ok c =>
        simp only [ih]
        cases encodePairs E lookup ks with
        | error e => simp
        | ok rest => simp [Built.pairTokens]
    · simp [hv]

theorem frameSpec_array (E : Env) (lookup : LVal → Except LuaError Built) :
    ∀ (ks : List LVal) (prevkey : LVal), lua_isnil prevkey = false →
      frameSpec E lookup prevkey ks =
        match encodeElems E lookup prevkey ks with
        | .ok xs => .ok (Built.elemTokens xs ++ [.WJB_END_ARRAY])
        | .error e => .error e := by
  intro ks
  induction ks with
  | nil => intro p hp; simp [frameSpec, encodeElems, Built.elemTokens, hp]
  | cons key ks ih =>
    intro p hp
    simp only [frameSpec, encodeElems, keyTokens, hp]
    simp only [Bool.not_false, if_true]
    cases lookup key with
    | error e => simp
    | ok c =>
      simp only
      rw [ih _ (by simp [lua_isnil])]
      cases encodeElems E lookup (.int (wrapInt32 (lua_tointeger E key))) ks with
      | error e => simp
      | ok rest =>
        simp [elemTokens_append, elemTokens_replicate_null, Built.elemTokens]

/-- the pushed calls of a container value -/
theorem encodeValue_table (E : Env) (cfg : TosqlConfig) (a : Nat) (mt : Metatable)
    (kv : List (LVal × LVal)) (pk : PushKeys)
    (hnull : lua_rawequal (.table a mt kv) cfg.nullvalue = false)
    (hpk : pllua_jsonb_pushkeys E (.table a mt kv) cfg.empty_object cfg.array_thresh cfg.array_frac
      = .ok pk) :
    match frameSpec E (fun key => encodeValue E cfg (rawget kv key)) pk.prevkey pk.keylist with
    | .ok ts => ∃ c, encodeValue E cfg (.table a mt kv) = .ok c ∧ ∀ leaf, c.tokens leaf = pk.tok :: ts
    | .error e => encodeValue E cfg (.table a mt kv) = .error e := by
  have hl : lookupEncoded (encodeEntries E cfg kv) = fun key => encodeValue E cfg (rawget kv key) := by
    funext key; exact lookupEncoded_eq E cfg key kv
  simp only [encodeValue, hnull, hpk, hl]
  obtain ⟨_, _, hsh⟩ := pushkeys_shape E _ _ _ _ pk hpk
  rcases hsh with ⟨htok, hprev⟩ | ⟨htok, hprev⟩
  · rw [hprev, frameSpec_object]
    simp only [lua_isnil, if_true]
    cases encodePairs E (fun key => encodeValue E cfg (rawget kv key)) pk.keylist with
    | error e => simp
    | ok ps => simp [Built.tokens, htok]
  · rw [hprev, frameSpec_array _ _ _ _ (by simp [lua_isnil])]
    simp only [lua_isnil]
    cases encodeElems E (fun key => encodeValue E cfg (rawget kv key)) (.int 0) pk.keylist with
    | error e => simp
    | ok xs => simp [Built.tokens, htok]

/-- the encoding of a value that the loop treats as a scalar -/
theorem encodeValue_scalar (E : Env) (cfg : TosqlConfig) (v : LVal)
    (h : pllua_is_container (if lua_rawequal v cfg.nullvalue then LVal.nil else v) = false) :
    encodeValue E cfg v =
      match pllua_jsonb_toscalar E (if lua_rawequal v cfg.nullvalue then LVal.nil else v) with
      | .ok pv => .ok (.value pv)
      | .error e => .error e := by
  by_cases hn : lua_rawequal v cfg.nullvalue = true
  · simp only [hn, if_true, pllua_jsonb_toscalar]
    cases v <;> simp [encodeValue, hn]
  · simp only [hn] at h ⊢
    simp only [Bool.false_eq_true, if_false] at h ⊢
    cases v <;> simp [encodeValue, hn, pllua_is_container] at h ⊢ <;>
      (split <;> simp_all)

theorem tosqlLoop_succ (E : Env) (cfg : TosqlConfig) (fuel : Nat) (st : TosqlState) :
    tosqlLoop E cfg (fuel + 1) st =
      if st.depth > 0 then
        match tosqlStep E cfg st with
        | .error e => some (.error e)
        | .ok st1 => tosqlLoop E cfg fuel st1
      else some (.ok st) := rfl

theorem tosqlLoop_done (E : Env) (cfg : TosqlConfig) (fuel : Nat) (st : TosqlState)
    (h : ¬ st.depth > 0) : tosqlLoop E cfg fuel st = some (.ok st) := by
  cases fuel <;> simp [tosqlLoop, h]

theorem tosqlStep_end (E : Env) (cfg : TosqlConfig) (d : Int) (c : LVal) (keylist : List LVal)
    (prevkey : LVal) (i : Nat) (rest : List TosqlFrame) (P : List JsonbIteratorToken)
    (calls : List (List LVal)) (h : keylist.drop i = []) :
    tosqlStep E cfg ⟨d, ⟨c, keylist, prevkey, i + 1⟩ :: rest, P, calls⟩
      = .ok ⟨d - 1, rest,
              P ++ [if lua_isnil prevkey then .WJB_END_OBJECT else .WJB_END_ARRAY], calls⟩ := by
  have hi : keylist[i]? = none := by
    rw [List.getElem?_eq_none_iff]
    exact List.drop_eq_nil_iff.mp h
  simp [tosqlStep, hi]

theorem tosqlStep_key (E : Env) (cfg : TosqlConfig) (hmap : cfg.funcidx = none) (d : Int)
    (a : Nat) (mt : Metatable) (kv : List (LVal × LVal)) (keylist : List LVal)
    (prevkey : LVal) (i : Nat) (rest : List TosqlFrame) (P : List JsonbIteratorToken)
    (calls : List (List LVal)) (key : LVal) (ks : List LVal) (h : keylist.drop i = key :: ks) :
    tosqlStep E cfg ⟨d, ⟨.table a mt kv, keylist, prevkey, i + 1⟩ :: rest, P, calls⟩
      = match keyTokens E prevkey key with
        | .error e => .error e
        | .ok (toks, p, tok) =>
          if pllua_is_container
              (if lua_rawequal (rawget kv key) cfg.nullvalue then LVal.nil else rawget kv key) then
            match pllua_jsonb_pushkeys E
                (if lua_rawequal (rawget kv key) cfg.nullvalue then LVal.nil else rawget kv key)
                cfg.empty_object cfg.array_thresh cfg.array_frac with
            | .error e => .error e
            | .ok pk =>
              .ok ⟨d + 1,
                   ⟨(if lua_rawequal (rawget kv key) cfg.nullvalue then LVal.nil
                      else rawget kv key), pk.keylist, pk.prevkey, pk.index⟩
                    :: ⟨.table a mt kv, keylist, p, i + 2⟩ :: rest,
                   P ++ toks ++ [pk.tok], calls⟩
          else
            match pllua_jsonb_toscalar E
                (if lua_rawequal (rawget kv key) cfg.nullvalue then LVal.nil else rawget kv key) with
            | .error e => .error e
            | .ok pval =>
              .ok ⟨d, ⟨.table a mt kv, keylist, p, i + 2⟩ :: rest, P ++ toks ++ [tok pval],
                   calls⟩ := by
  have hi : keylist[i]? = some key := by
    have hlt : i < keylist.length := by
      by_contra hc
      rw [List.drop_eq_nil_iff.mpr (by omega)] at h
      cases h
    rw [List.getElem?_eq_getElem hlt]
    rw [List.drop_eq_getElem_cons hlt] at h
    simp only [List.cons.injEq] at h
    rw [h.1]
  simp only [tosqlStep, hi, lua_gettable, Nat.add_sub_cancel, Nat.add_one_ne_zero, if_false,
    tosqlMap, hmap, recordCall]

theorem container_is_table (v : LVal) (h : pllua_is_container v = true) :
    ∃ a mt kv, v = .table a mt kv := by
  cases v <;> simp [pllua_is_container] at h
  exact ⟨_, _, _, rfl⟩

/-- The loop on a frame: from any position in the key list of any open container, the loop runs
to the end token of that container, pushing what `frameSpec` says, or raises its error. -/
theorem frame_run (E : Env) (cfg : TosqlConfig) (hmap : cfg.funcidx = none) :
    ∀ (n : Nat) (a : Nat) (mt : Metatable) (kv : List (LVal × LVal)),
      (LVal.table a mt kv).fuel ≤ n →
      ∀ (keylist ks : List LVal) (i : Nat) (prevkey : LVal) (rest : List TosqlFrame)
        (P : List JsonbIteratorToken) (d : Int) (calls : List (List LVal)),
        keylist.drop i = ks → 0 < d →
        ∃ m, m ≤ 1 + ks.length * (1 + entriesFuel kv) ∧ ∀ fuel,
          tosqlLoop E cfg (fuel + m) ⟨d, ⟨.table a mt kv, keylist, prevkey, i + 1⟩ :: rest, P, calls⟩
            = match frameSpec E (fun key => encodeValue E cfg (rawget kv key)) prevkey ks with
              | .ok ts => tosqlLoop E cfg fuel ⟨d - 1, rest, P ++ ts, calls⟩
              | .error e => some (.error e) := by
  intro n
  induction n using Nat.strong_induction_on with
  | _ n IH =>
    intro a mt kv hfuel keylist ks
    induction ks with
    | nil =>
      intro i prevkey rest P d calls hdrop hd
      refine ⟨1, by omega, fun fuel => ?_⟩
      rw [tosqlLoop_succ, if_pos (by simpa using hd), tosqlStep_end E cfg _ _ _ _ _ _ _ _ hdrop]
      simp [frameSpec]
    | cons key ks ih =>
      intro i prevkey rest P d calls hdrop hd
      have hdrop2 : keylist.drop (i + 1) = ks := by
        rw [← List.drop_drop, hdrop]; rfl
      have hd' : (⟨d, ⟨.table a mt kv, keylist, prevkey, i + 1⟩ :: rest, P, calls⟩ :
          TosqlState).depth > 0 := by simpa using hd
      have step := tosqlStep_key E cfg hmap d a mt kv keylist prevkey i rest P calls key ks hdrop
      have hS : (ks.length + 1) * (1 + entriesFuel kv)
          = ks.length * (1 + entriesFuel kv) + 1 + entriesFuel kv := by ring
      cases hkt : keyTokens E prevkey key with
      | error e =>
        refine ⟨1, by simp only [List.length_cons]; omega, fun fuel => ?_⟩
        rw [tosqlLoop_succ, if_pos hd', step, hkt]
        simp [frameSpec, hkt]
      | ok r =>
        obtain ⟨toks, p, tok⟩ := r
        rw [hkt] at step
        simp only at step
        by_cases hc : pllua_is_container
            (if lua_rawequal (rawget kv key) cfg.nullvalue then LVal.nil else rawget kv key) = true
        · rw [if_pos hc] at step
          have hne : lua_rawequal (rawget kv key) cfg.nullvalue = false := by
            by_contra hcon
            simp only [Bool.not_eq_false] at hcon
            simp [hcon, pllua_is_container] at hc
          simp only [hne, Bool.false_eq_true, if_false] at step hc
          obtain ⟨a2, mt2, kv2, hv0⟩ := container_is_table _ hc
          rw [hv0] at step hne
          cases hpk : pllua_jsonb_pushkeys E (.table a2 mt2 kv2) cfg.empty_object cfg.array_thresh
              cfg.array_frac with
          | error e =>
            refine ⟨1, by simp only [List.length_cons]; omega, fun fuel => ?_⟩
            rw [tosqlLoop_succ, if_pos hd', step, hpk]
            simp [frameSpec, hkt, hv0, encodeValue, hne, hpk]
          | ok pk =>
            rw [hpk] at step
            simp only at step
            obtain ⟨hidx, hlen, _⟩ := pushkeys_shape E _ _ _ _ pk hpk
            have hchild : (LVal.table a2 mt2 kv2).fuel ≤ entriesFuel kv := by
              rw [← hv0]; exact rawget_fuel_le key kv
            have hkvpos : 1 ≤ kv.length := by
              cases kv with
              | nil => simp [rawget] at hv0
              | cons _ _ => simp
            have hparent : (LVal.table a mt kv).fuel
                = 1 + kv.length * (1 + entriesFuel kv) := by simp [LVal.fuel]
            have hmul : 1 * (1 + entriesFuel kv) ≤ kv.length * (1 + entriesFuel kv) :=
              Nat.mul_le_mul_right _ hkvpos
            have hlt : (LVal.table a2 mt2 kv2).fuel < n := by omega
            obtain ⟨mc, hmc, hrunc⟩ := IH _ hlt a2 mt2 kv2 le_rfl pk.keylist pk.keylist 0
              pk.prevkey (⟨.table a mt kv, keylist, p, i + 2⟩ :: rest) (P ++ toks ++ [pk.tok])
              (d + 1) calls rfl (by omega)
            have hmc2 : mc ≤ entriesFuel kv := by
              have h1 : pk.keylist.length * (1 + entriesFuel kv2)
                  ≤ kv2.length * (1 + entriesFuel kv2) := by
                apply Nat.mul_le_mul_right
                simpa [containerKeys] using hlen
              have h2 : (LVal.table a2 mt2 kv2).fuel
                  = 1 + kv2.length * (1 + entriesFuel kv2) := by simp [LVal.fuel]
              omega
            have henc := encodeValue_table E cfg a2 mt2 kv2 pk hne hpk
            rw [hidx] at step
            cases hfs : frameSpec E (fun key => encodeValue E cfg (rawget kv2 key)) pk.prevkey
                pk.keylist with
            | error e =>
              rw [hfs] at henc
              simp only at henc
              refine ⟨mc + 1, by simp only [List.length_cons]; omega, fun fuel => ?_⟩
              rw [← Nat.add_assoc, tosqlLoop_succ, if_pos hd', step]
              simp only
              rw [hrunc, hfs]
              simp [frameSpec, hkt, hv0, henc]
            | ok ts =>
              rw [hfs] at henc
              obtain ⟨c, hc1, hc2⟩ := henc
              obtain ⟨mr, hmr, hrunr⟩ := ih (i + 1) p rest (P ++ toks ++ [pk.tok] ++ ts) d calls
                hdrop2 hd
              refine ⟨mr + mc + 1, by simp only [List.length_cons]; omega, fun fuel => ?_⟩
              rw [← Nat.add_assoc, ← Nat.add_assoc, tosqlLoop_succ, if_pos hd', step]
              simp only
              rw [hrunc, hfs]
              simp only [Int.add_sub_cancel]
              rw [hrunr]
              simp only [frameSpec, hkt, hv0, hc1, hc2]
              cases frameSpec E (fun key => encodeValue E cfg (rawget kv key)) p ks with
              | error e => rfl
              | ok rs => simp [List.append_assoc]
        · rw [if_neg hc] at step
          have hc2 : pllua_is_container
              (if lua_rawequal (rawget kv key) cfg.nullvalue then LVal.nil else rawget kv key)
                = false := by simpa using hc
          have henc := encodeValue_scalar E cfg (rawget kv key) hc2
          cases hts : pllua_jsonb_toscalar E
              (if lua_rawequal (rawget kv key) cfg.nullvalue then LVal.nil else rawget kv key) with
          | error e =>
            rw [hts] at henc step
            refine ⟨1, by simp only [List.length_cons]; omega, fun fuel => ?_⟩
            rw [tosqlLoop_succ, if_pos hd', step]
            simp [frameSpec, hkt, henc]
          | ok pval =>
            rw [hts] at henc step
            simp only at henc step
            obtain ⟨mr, hmr, hrunr⟩ := ih (i + 1) p rest (P ++ toks ++ [tok pval]) d calls
              hdrop2 hd
            refine ⟨mr + 1, by simp only [List.length_cons]; omega, fun fuel => ?_⟩
            rw [← Nat.add_assoc, tosqlLoop_succ, if_pos hd', step]
            simp only
            rw [hrunr]
            simp only [frameSpec, hkt, henc]
            cases frameSpec E (fun key => encodeValue E cfg (rawget kv key)) p ks with
            | error e => rfl
            | ok rs => simp [Built.tokens, List.append_assoc]

mutual
/-- The builder on the calls of a node: a scalar is one call, a container is closed and
appended to its parent. -/
theorem pushAll_node : ∀ (x : Built) (leaf : JsonbValue → JsonbIteratorToken)
    (up : List BuildFrame) (r : Option Jsonb) (rest : List JsonbIteratorToken),
    pushAll ⟨up, r⟩ (x.tokens leaf ++ rest) =
      match x with
      | .value v =>
        (match pushJsonbValue ⟨up, r⟩ (leaf v) with
         | some bs => pushAll bs rest
         | none => none)
      | .array ys =>
        (match closeFrame (.array (Built.elemsToJsonb ys)) up with
         | some bs => pushAll bs rest
         | none => none)
      | .object qs =>
        (match closeFrame (.object (Built.pairsToJsonb qs)) up with
         | some bs => pushAll bs rest
         | none => none)
  | .value v, leaf, up, r, rest => by simp [Built.tokens, pushAll]
  | .array ys, leaf, up, r, rest => by
    obtain ⟨r2, h⟩ := pushAll_elems ys [] up none (.WJB_END_ARRAY :: rest)
    have e : (Built.array ys).tokens leaf ++ rest
        = .WJB_BEGIN_ARRAY :: (Built.elemTokens ys ++ .WJB_END_ARRAY :: rest) := by
      simp [Built.tokens]
    rw [e, pushAll]
    simp only [pushJsonbValue]
    rw [h]
    simp [pushAll, pushJsonbValue]
  | .object qs, leaf, up, r, rest => by
    obtain ⟨r2, h⟩ := pushAll_pairs qs [] up none (.WJB_END_OBJECT :: rest)
    have e : (Built.object qs).tokens leaf ++ rest
        = .WJB_BEGIN_OBJECT :: (Built.pairTokens qs ++ .WJB_END_OBJECT :: rest) := by
      simp [Built.tokens]
    rw [e, pushAll]
    simp only [pushJsonbValue]
    rw [h]
    simp [pushAll, pushJsonbValue]
/-- The builder on the calls of the elements of an array. -/
theorem pushAll_elems : ∀ (ys : List Built) (xs : List Jsonb) (up : List BuildFrame)
    (r : Option Jsonb) (rest : List JsonbIteratorToken),
    ∃ r2, pushAll ⟨.arr xs :: up, r⟩ (Built.elemTokens ys ++ rest)
      = pushAll ⟨.arr (xs ++ Built.elemsToJsonb ys) :: up, r2⟩ rest
  | [], xs, up, r, rest => ⟨r, by simp [Built.elemTokens, Built.elemsToJsonb]⟩
  | y :: ys, xs, up, r, rest => by
    have hn := pushAll_node y .WJB_ELEM (.arr xs :: up) r (Built.elemTokens ys ++ rest)
    have e : Built.elemTokens (y :: ys) ++ rest
        = y.tokens .WJB_ELEM ++ (Built.elemTokens ys ++ rest) := by
      simp [Built.elemTokens]
    rw [e, hn]
    cases y with
    | value v =>
      obtain ⟨r2, h⟩ := pushAll_elems ys (xs ++ [JsonbValueToJsonb v]) up none rest
      exact ⟨r2, by simp [pushJsonbValue, h, Built.elemsToJsonb, Built.toJsonb]⟩
    | array zs =>
      obtain ⟨r2, h⟩ := pushAll_elems ys (xs ++ [.array (Built.elemsToJsonb zs)]) up
        (some (.array (Built.elemsToJsonb zs))) rest
      exact ⟨r2, by simp [closeFrame, appendToFrame, h, Built.elemsToJsonb, Built.toJsonb]⟩
    | object qs =>
      obtain ⟨r2, h⟩ := pushAll_elems ys (xs ++ [.object (Built.pairsToJsonb qs)]) up
        (some (.object (Built.pairsToJsonb qs))) rest
      exact ⟨r2, by simp [closeFrame, appendToFrame, h, Built.elemsToJsonb, Built.toJsonb]⟩
/-- The builder on the calls of the pairs of an object. -/
theorem pushAll_pairs : ∀ (qs : List (String × Built)) (ps : List (String × Jsonb))
    (up : List BuildFrame) (r : Option Jsonb) (rest : List JsonbIteratorToken),
    ∃ r2, pushAll ⟨.obj ps none :: up, r⟩ (Built.pairTokens qs ++ rest)
      = pushAll ⟨.obj (ps ++ Built.pairsToJsonb qs) none :: up, r2⟩ rest
  | [], ps, up, r, rest => ⟨r, by simp [Built.pairTokens, Built.pairsToJsonb]⟩
  | (k, y) :: qs, ps, up, r, rest => by
    have hn := pushAll_node y .WJB_VALUE (.obj ps (some k) :: up) none
      (Built.pairTokens qs ++ rest)
    have e : Built.pairTokens ((k, y) :: qs) ++ rest
        = .WJB_KEY (.jbvString k) :: (y.tokens .WJB_VALUE ++ (Built.pairTokens qs ++ rest)) := by
      simp [Built.pairTokens]
    rw [e, pushAll]
    simp only [pushJsonbValue]
    rw [hn]
    cases y with
    | value v =>
      obtain ⟨r2, h⟩ := pushAll_pairs qs (ps ++ [(k, JsonbValueToJsonb v)]) up none rest
      exact ⟨r2, by simp [pushJsonbValue, h, Built.pairsToJsonb, Built.toJsonb]⟩
    | array zs =>
      obtain ⟨r2, h⟩ := pushAll_pairs qs (ps ++ [(k, .array (Built.elemsToJsonb zs))]) up
        (some (.array (Built.elemsToJsonb zs))) rest
      exact ⟨r2, by simp [closeFrame, appendToFrame, h, Built.pairsToJsonb, Built.toJsonb]⟩
    | object zs =>
      obtain ⟨r2, h⟩ := pushAll_pairs qs (ps ++ [(k, .object (Built.pairsToJsonb zs))]) up
        (some (.object (Built.pairsToJsonb zs))) rest
      exact ⟨r2, by simp [closeFrame, appendToFrame, h, Built.pairsToJsonb, Built.toJsonb]⟩
end

/-- the document built from the calls of a container -/
theorem builtDocument_container (x : Built) (leaf : JsonbValue → JsonbIteratorToken)
    (hx : ∀ v, x ≠ .value v) : builtDocument (x.tokens leaf) = .ok x.toJsonb := by
  have h := pushAll_node x leaf [] none []
  simp only [List.append_nil] at h
  unfold builtDocument
  rw [h]
  cases x with
  | value v => exact absurd rfl (hx v)
  | array ys => simp [closeFrame, pushAll, Built.toJsonb]
  | object qs => simp [closeFrame, pushAll, Built.toJsonb]

/-- The encode loop computes the encoding: without a map, with fuel at least `LVal.fuel` of the
root, the walk of `pllua_jsonb_tosql` returns the document of `encodeValue`, or raises its
error, and calls nothing. -/
theorem tosqlRun_eq (E : Env) (cfg : TosqlConfig) (hmap : cfg.funcidx = none) (v : LVal)
    (fuel : Nat) (hfuel : v.fuel ≤ fuel) :
    tosqlRun E cfg fuel v =
      some (match encodeValue E cfg v with
            | .ok b => .ok (b.toJsonb, [])
            | .error e => .error e) := by
  unfold tosqlRun
  simp only [tosqlMap, hmap, recordCall]
  by_cases hc : pllua_is_container
      (if lua_rawequal v cfg.nullvalue then LVal.nil else v) = true
  · have hne : lua_rawequal v cfg.nullvalue = false := by
      by_contra hcon
      simp only [Bool.not_eq_false] at hcon
      simp [hcon, pllua_is_container] at hc
    simp only [hne, Bool.false_eq_true, if_false] at hc ⊢
    obtain ⟨a, mt, kv, rfl⟩ := container_is_table _ hc
    simp only [hc, Bool.not_true, Bool.false_eq_true, if_false]
    cases hpk : pllua_jsonb_pushkeys E (.table a mt kv) cfg.empty_object cfg.array_thresh
        cfg.array_frac with
    | error e => simp [encodeValue, hne, hpk]
    | ok pk =>
      simp only
      obtain ⟨hidx, hlen, _⟩ := pushkeys_shape E _ _ _ _ pk hpk
      obtain ⟨m, hm, hrun⟩ := frame_run E cfg hmap _ a mt kv le_rfl pk.keylist pk.keylist 0
        pk.prevkey [] [pk.tok] 1 [] rfl (by omega)
      have hm2 : m ≤ fuel := by
        have h1 : pk.keylist.length * (1 + entriesFuel kv) ≤ kv.length * (1 + entriesFuel kv) := by
          apply Nat.mul_le_mul_right
          simpa [containerKeys] using hlen
        have h2 : (LVal.table a mt kv).fuel = 1 + kv.length * (1 + entriesFuel kv) := by
          simp [LVal.fuel]
        omega
      have henc := encodeValue_table E cfg a mt kv pk hne hpk
      rw [hidx, show fuel = (fuel - m) + m by omega, hrun]
      cases hfs : frameSpec E (fun key => encodeValue E cfg (rawget kv key)) pk.prevkey
          pk.keylist with
      | error e =>
        rw [hfs] at henc
        simp only at henc
        simp [henc]
      | ok ts =>
        rw [hfs] at henc
        obtain ⟨c, hc1, hc2⟩ := henc
        simp only
        rw [tosqlLoop_done _ _ _ _ (by simp)]
        simp only [List.singleton_append]
        have hcv : ∀ w, c ≠ .value w := by
          intro w hw
          have := hc2 .WJB_ELEM
          rw [hw] at this
          simp only [Built.tokens, List.cons.injEq] at this
          obtain ⟨_, _, hsh⟩ := pushkeys_shape E _ _ _ _ pk hpk
          rcases hsh with ⟨ht, _⟩ | ⟨ht, _⟩ <;> rw [ht] at this <;> simp at this
        rw [← hc2 .WJB_ELEM, builtDocument_container c _ hcv, hc1]
  · have hc2 : pllua_is_container (if lua_rawequal v cfg.nullvalue then LVal.nil else v)
        = false := by simpa using hc
    have henc := encodeValue_scalar E cfg v hc2
    simp only [hc2, Bool.not_false, if_true]
    rw [henc]
    cases pllua_jsonb_toscalar E (if lua_rawequal v cfg.nullvalue then LVal.nil else v) with
    | error e => rfl
    | ok pv => simp [Built.toJsonb]

/-- Calls with two arguments and no map: `pllua_jsonb_tosql` returns the document of
`encodeValue`. -/
theorem tosql_eq (E : Env) (cfg : TosqlConfig) (hmap : cfg.funcidx = none) (v c : LVal)
    (hcfg : tosqlConfig c = .ok cfg) (fuel : Nat) (hfuel : v.fuel ≤ fuel) :
    pllua_jsonb_tosql E fuel [v, c] =
      some (match encodeValue E cfg v with
            | .ok b => .ok [b.toJsonb]
            | .error e => .error e) := by
  unfold pllua_jsonb_tosql
  simp only [List.length_cons, List.length_nil, List.headD_cons, List.drop_succ_cons,
    List.drop_zero, hcfg]
  rw [tosqlRun_eq E cfg hmap v fuel hfuel]
  cases encodeValue E cfg v <;> simp

theorem gapCount_eq {k p : Int} (h1 : p < k) (h2 : 0 ≤ p) (h3 : k < 2147483648) :
    (gapCount k p : Int) = k - p - 1 := by
  unfold gapCount
  rw [Int.toNat_of_nonneg (Int.emod_nonneg _ (by omega))]
  omega

/-- the elements pushed for an ascending list of integer keys -/
theorem encodeElems_sorted (E : Env) (lookup : LVal → Except LuaError Built) :
    ∀ (l : List Int) (p : Int), 0 ≤ p → p < 2147483648 → List.Chain (· < ·) p l →
      (∀ k ∈ l, k < 2147483648) → (∀ k ∈ l, ∃ c, lookup (.int k) = .ok c) →
      ∃ xs, encodeElems E lookup (.int p) (l.map LVal.int) = .ok xs ∧
        p + (xs.length : Int) = l.foldl max p ∧
        ∀ (j : Nat) (c : Built), xs[j]? = some c →
          ((p + j + 1 ∈ l → lookup (.int (p + j + 1)) = .ok c) ∧
           (p + j + 1 ∉ l → c = .value .jbvNull)) := by
  intro l
  induction l with
  | nil =>
    intro p _ _ _ _ _
    exact ⟨[], by simp [encodeElems], by simp, by simp⟩
  | cons k l ih =>
    intro p hp0 hp1 hch hlt hlk
    rw [List.chain_cons] at hch
    obtain ⟨hpk, hch2⟩ := hch
    have hk1 : k < 2147483648 := hlt k (List.mem_cons_self _ _)
    obtain ⟨c, hc⟩ := hlk k (List.mem_cons_self _ _)
    obtain ⟨rs, hrs, hlen, hpos⟩ := ih k (by omega) hk1 hch2
      (fun x hx => hlt x (List.mem_cons_of_mem _ hx))
      (fun x hx => hlk x (List.mem_cons_of_mem _ hx))
    have hwk : wrapInt32 (lua_tointeger E (.int k)) = k := by
      simp only [lua_tointeger, lua_tointegerx, Option.getD_some]
      exact wrapInt32_eq (by omega) hk1
    have hwp : wrapInt32 (lua_tointeger E (.int p)) = p := by
      simp only [lua_tointeger, lua_tointegerx, Option.getD_some]
      exact wrapInt32_eq (by omega) hp1
    have hgap := gapCount_eq hpk hp0 hk1
    have hgt : ∀ x ∈ l, k < x := by
      intro x hx
      have := List.Chain.rel (R := (· < ·)) hch2 hx
      exact this
    refine ⟨List.replicate (gapCount k p) (Built.value .jbvNull) ++ c :: rs, ?_, ?_, ?_⟩
    · simp only [List.map_cons, encodeElems, hc, hwk, hwp, hrs]
    · simp only [List.length_append, List.length_replicate, List.length_cons, List.foldl_cons,
        max_eq_right (le_of_lt hpk)]
      rw [← hlen]
      push_cast
      omega
    · intro j cj hj
      have hjn : (j : Int) < gapCount k p ∨ (j : Int) = gapCount k p ∨ (gapCount k p : Int) < j := by
        omega
      rcases hjn with h | h | h
      · have hj2 : j < gapCount k p := by omega
        rw [List.getElem?_append_left (by simpa using hj2)] at hj
        simp only [List.getElem?_replicate, hj2, if_true, Option.some.injEq] at hj
        constructor
        · intro hmem
          rcases List.mem_cons.mp hmem with h1 | h1
          · omega
          · have := hgt _ h1; omega
        · intro _; exact hj.symm
      · have hj2 : j = gapCount k p := by omega
        rw [List.getElem?_append_right (by simp [hj2])] at hj
        simp only [List.length_replicate, hj2, Nat.sub_self, List.getElem?_cons_zero,
          Option.some.injEq] at hj
        have hkey : p + (j : Int) + 1 = k := by omega
        constructor
        · intro _; rw [hkey, ← hj]; exact hc
        · intro hn; rw [hkey] at hn; exact absurd (List.mem_cons_self _ _) hn
      · have hj2 : gapCount k p < j := by omega
        rw [List.getElem?_append_right (by simp; omega)] at hj
        simp only [List.length_replicate] at hj
        obtain ⟨j2, hj3⟩ : ∃ j2, j - gapCount k p = j2 + 1 := ⟨j - gapCount k p - 1, by omega⟩
        rw [hj3, List.getElem?_cons_succ] at hj
        have hkey : p + (j : Int) + 1 = k + (j2 : Int) + 1 := by omega
        obtain ⟨h1, h2⟩ := hpos j2 cj hj
        rw [hkey]
        constructor
        · intro hmem
          rcases List.mem_cons.mp hmem with h3 | h3
          · omega
          · exact h1 h3
        · intro hn
          exact h2 (fun h3 => hn (List.mem_cons_of_mem _ h3))

theorem intKeys_ints (E : Env) (l : List Int) : intKeys E (l.map LVal.int) = l := by
  induction l with
  | nil => rfl
  | cons x xs ih =>
    simp only [intKeys, List.map_cons, List.filterMap_cons, lua_tointegerx] at ih ⊢
    rw [ih]

theorem le_foldl_max (l : List Int) : ∀ a : Int, a ≤ l.foldl max a ∧ ∀ i ∈ l, i ≤ l.foldl max a := by
  induction l with
  | nil => intro a; simp
  | cons x xs ih =>
    intro a
    obtain ⟨h1, h2⟩ := ih (max a x)
    simp only [List.foldl_cons, List.mem_cons, forall_eq_or_imp]
    exact ⟨le_trans (le_max_left _ _) h1, le_trans (le_max_right _ _) h1, h2⟩

theorem foldl_max_perm {l1 l2 : List Int} (h : l1.Perm l2) (a : Int) :
    l1.foldl max a = l2.foldl max a := by
  induction h generalizing a with
  | nil => rfl
  | cons x _ ih => simp [ih]
  | swap x y l => simp [max_assoc, max_comm x y]
  | trans _ _ ih1 ih2 => rw [ih1, ih2]

theorem int_keys_of_pairs (kv : List (LVal × LVal))
    (h : ∀ e ∈ kv, ∃ i : Int, 1 ≤ i ∧ e.1 = .int i) :
    ∃ l : List Int, kv.map Prod.fst = l.map LVal.int ∧ ∀ i ∈ l, 1 ≤ i := by
  induction kv with
  | nil => exact ⟨[], rfl, by simp⟩
  | cons e rest ih =>
    obtain ⟨l, hl, hl1⟩ := ih (fun e he => h e (List.mem_cons_of_mem _ he))
    obtain ⟨i, hi, he⟩ := h e (List.mem_cons_self _ _)
    refine ⟨i :: l, by simp [hl, he], ?_⟩
    intro j hj
    rcases List.mem_cons.mp hj with rfl | hj
    · exact hi
    · exact hl1 j hj

theorem rawequal_int_int (i j : Int) : lua_rawequal (.int i) (.int j) = decide (i = j) := by
  simp only [lua_rawequal]
  by_cases h : i = j <;> simp [h]

theorem rawget_int_absent (kv : List (LVal × LVal)) (i : Int)
    (hkeys : ∀ e ∈ kv, ∃ j : Int, e.1 = .int j) (h : ∀ v, (LVal.int i, v) ∉ kv) :
    rawget kv (.int i) = .nil := by
  induction kv with
  | nil => rfl
  | cons e rest ih =>
    obtain ⟨k, v⟩ := e
    obtain ⟨j, hj⟩ := hkeys (k, v) (List.mem_cons_self _ _)
    simp only at hj
    subst hj
    have hne : j ≠ i := by
      intro hji
      exact h v (by rw [← hji]; exact List.mem_cons_self _ _)
    have := ih (fun e he => hkeys e (List.mem_cons_of_mem _ he))
      (fun v hv => h v (List.mem_cons_of_mem _ hv))
    simp only [rawget, List.find?_cons, rawequal_int_int, hne, decide_False] at this ⊢
    exact this

theorem rawget_int_present (kv : List (LVal × LVal)) (i : Int) (v : LVal)
    (hkeys : ∀ e ∈ kv, ∃ j : Int, e.1 = .int j) (hnodup : (kv.map Prod.fst).Nodup)
    (h : (LVal.int i, v) ∈ kv) : rawget kv (.int i) = v := by
  induction kv with
  | nil => cases h
  | cons e rest ih =>
    obtain ⟨k, w⟩ := e
    obtain ⟨j, hj⟩ := hkeys (k, w) (List.mem_cons_self _ _)
    simp only at hj
    subst hj
    simp only [List.map_cons, List.nodup_cons] at hnodup
    rcases List.mem_cons.mp h with heq | hin
    · simp only [Prod.mk.injEq, LVal.int.injEq] at heq
      obtain ⟨rfl, rfl⟩ := heq
      simp [rawget, List.find?_cons, rawequal_int_int]
    · have hne : j ≠ i := by
        intro hji
        apply hnodup.1
        rw [hji]
        exact List.mem_map.mpr ⟨(.int i, v), hin, rfl⟩
      have := ih (fun e he => hkeys e (List.mem_cons_of_mem _ he)) hnodup.2 hin
      simp only [rawget, List.find?_cons, rawequal_int_int, hne, decide_False] at this ⊢
      exact this

theorem mem_fuel_le (kv : List (LVal × LVal)) (e : LVal × LVal) (h : e ∈ kv) :
    e.2.fuel ≤ entriesFuel kv := by
  induction kv with
  | nil => cases h
  | cons x rest ih =>
    obtain ⟨k, v⟩ := x
    simp only [entriesFuel]
    rcases List.mem_cons.mp h with rfl | h
    · simp
    · have := ih h; omega

theorem mem_fuel_le_table (a : Nat) (mt : Metatable) (kv : List (LVal × LVal)) (e : LVal × LVal)
    (h : e ∈ kv) : e.2.fuel ≤ (LVal.table a mt kv).fuel := by
  have h1 := mem_fuel_le kv e h
  have h2 : 1 ≤ kv.length := by
    cases kv with
    | nil => cases h
    | cons _ _ => simp
  have h3 : 1 * (1 + entriesFuel kv) ≤ kv.length * (1 + entriesFuel kv) :=
    Nat.mul_le_mul_right _ h2
  simp only [LVal.fuel]
  omega

theorem elemsToJsonb_getElem? (xs : List Built) (i : Nat) :
    (Built.elemsToJsonb xs)[i]? = (xs[i]?).map Built.toJsonb := by
  induction xs generalizing i with
  | nil => simp [Built.elemsToJsonb]
  | cons x xs ih =>
    cases i with
    | zero => simp [Built.elemsToJsonb]
    | succ i => simp [Built.elemsToJsonb, ih]

theorem elemsToJsonb_length (xs : List Built) : (Built.elemsToJsonb xs).length = xs.length := by
  induction xs with
  | nil => rfl
  | cons x xs ih => simp [Built.elemsToJsonb, ih]

/-- C2: a container whose keys are Lua integers >= 1, without override tag, that
`pllua_jsonb_pushkeys` classifies as Array, is encoded by `pllua_jsonb_tosql` (no map) as an
Array whose length is the largest key, whose element at position i is the encoding of the
value held at key i when key i is present, and Null when it is absent. (The container is not
itself the configured null value, and each of its values can be encoded: otherwise the call
yields Null, or raises.) -/
theorem array_encoding (E : Env) (c : LVal) (cfg : TosqlConfig) (a : Nat) (mt : Metatable)
    (kv : List (LVal × LVal)) (fuel : Nat)
    (hcfg : tosqlConfig c = .ok cfg) (hmap : cfg.funcidx = none)
    (hnotag : ∀ b, jsonbObjectField (.table a mt kv) ≠ .boolean b)
    (hkeys : ∀ e ∈ kv, ∃ i : Int, 1 ≤ i ∧ e.1 = .int i)
    (hnodup : (kv.map Prod.fst).Nodup)
    (hnull : lua_rawequal (.table a mt kv) cfg.nullvalue = false)
    (harr : ∃ pk, pllua_jsonb_pushkeys E (.table a mt kv) cfg.empty_object cfg.array_thresh
      cfg.array_frac = .ok pk ∧ pk.tok = .WJB_BEGIN_ARRAY)
    (hfuel : (LVal.table a mt kv).fuel ≤ fuel)
    (hvals : ∀ e ∈ kv, ∃ jb, pllua_jsonb_tosql E fuel [e.2, c] = some (.ok [jb])) :
    ∃ elems, pllua_jsonb_tosql E fuel [.table a mt kv, c] = some (.ok [.array elems]) ∧
      (elems.length : Int) = (intKeys E (kv.map Prod.fst)).foldl max 0 ∧
      ∀ (i : Nat) (jb : Jsonb), elems[i]? = some jb →
        (∀ v, (LVal.int ((i : Int) + 1), v) ∈ kv →
          pllua_jsonb_tosql E fuel [v, c] = some (.ok [jb])) ∧
        ((∀ v, (LVal.int ((i : Int) + 1), v) ∉ kv) → jb = .null) := by
  obtain ⟨l, hl, hl1⟩ := int_keys_of_pairs kv hkeys
  have hkeys2 : ∀ e ∈ kv, ∃ j : Int, e.1 = .int j := fun e he =>
    let ⟨i, _, hi⟩ := hkeys e he; ⟨i, hi⟩
  obtain ⟨pk, hpk, htok⟩ := harr
  have hpk0 := hpk
  -- what pushkeys returned
  rw [pushkeys_eq] at hpk
  have h1 : decide (jsonbObjectField (.table a mt kv) = .boolean true) = false := by
    simpa using hnotag true
  have h2 : decide (jsonbObjectField (.table a mt kv) = .boolean false) = false := by
    simpa using hnotag false
  have hck : containerKeys (.table a mt kv) = l.map LVal.int := by simp [containerKeys, hl]
  rw [h1, h2, hck, filter_intlike_ints, table_sort_int, intKeys_ints] at hpk
  cases hk : keysForObject E false (l.map LVal.int) with
  | error e => rw [hk] at hpk; cases hpk
  | ok ks =>
    rw [hk] at hpk
    simp only at hpk
    split at hpk
    · cases hpk; cases htok
    · rename_i hcl
      simp only [Except.ok.injEq] at hpk
      -- the keys fit a C int
      have hbound : ∀ i ∈ l, i < 2147483648 := by
        intro i hi
        have hpos : 0 < l.length := List.length_pos_of_mem hi
        have hmax := (le_foldl_max l 0).2 i hi
        have hw := (wrapInt32_range (cfg.array_frac * ((l.map LVal.int).length : Int))).2
        simp only [classifyObject, Bool.false_or, Bool.not_false, Bool.true_and, Bool.or_eq_true,
          Bool.and_eq_true, decide_eq_true_eq, not_or, not_and, not_lt] at hcl
        have := hcl.2 (by exact_mod_cast hpos)
        omega
      -- the sorted key list
      set s := l.insertionSort (· ≤ ·) with hs
      have hperm : s.Perm l := List.perm_insertionSort _ _
      have hnd : l.Nodup := by
        rw [hl] at hnodup
        exact List.Nodup.of_map _ hnodup
      have hsorted : s.Sorted (· < ·) :=
        (List.sorted_insertionSort (· ≤ ·) l).lt_of_le (hperm.nodup_iff.mpr hnd)
      have hchain : List.Chain (· < ·) (0 : Int) s := by
        apply List.Pairwise.chain
        rw [List.pairwise_cons]
        refine ⟨fun x hx => ?_, hsorted⟩
        have := hl1 x (hperm.mem_iff.mp hx)
        omega
      have hlook : ∀ k ∈ s, ∃ b, (fun key => encodeValue E cfg (rawget kv key)) (.int k) = .ok b := by
        intro k hk
        have hkl : k ∈ l := hperm.mem_iff.mp hk
        have : LVal.int k ∈ kv.map Prod.fst := by rw [hl]; exact List.mem_map.mpr ⟨k, hkl, rfl⟩
        obtain ⟨e, he, hek⟩ := List.mem_map.mp this
        obtain ⟨k1, v⟩ := e
        simp only at hek
        subst hek
        obtain ⟨jb, hjb⟩ := hvals _ he
        have hf : v.fuel ≤ fuel := le_trans (mem_fuel_le_table a mt kv _ he) hfuel
        rw [tosql_eq E cfg hmap v c hcfg fuel hf] at hjb
        simp only [rawget_int_present kv k v hkeys2 hnodup he]
        cases hev : encodeValue E cfg v with
        | error e => rw [hev] at hjb; simp at hjb
        | ok b => exact ⟨b, rfl⟩
      obtain ⟨xs, hxs, hlen, hpos⟩ := encodeElems_sorted E
        (fun key => encodeValue E cfg (rawget kv key)) s 0 (le_refl _) (by omega) hchain
        (fun k hk => hbound k (hperm.mem_iff.mp hk)) hlook
      have hl2 : lookupEncoded (encodeEntries E cfg kv)
          = fun key => encodeValue E cfg (rawget kv key) := by
        funext key; exact lookupEncoded_eq E cfg key kv
      have henc : encodeValue E cfg (.table a mt kv) = .ok (.array xs) := by
        simp only [encodeValue, hnull, hpk0, hl2]
        rw [← hpk]
        simp only [lua_isnil, Bool.false_eq_true, if_false, hxs]
      refine ⟨Built.elemsToJsonb xs, ?_, ?_, ?_⟩
      · rw [tosql_eq E cfg hmap _ c hcfg fuel hfuel, henc]
        simp [Built.toJsonb]
      · rw [elemsToJsonb_length, hl, intKeys_ints, ← foldl_max_perm hperm 0, ← hlen]
        simp
      · intro i jb hjb
        rw [elemsToJsonb_getElem?] at hjb
        cases hxi : xs[i]? with
        | none => rw [hxi] at hjb; simp at hjb
        | some b =>
          rw [hxi] at hjb
          simp only [Option.map_some', Option.some.injEq] at hjb
          obtain ⟨hp1, hp2⟩ := hpos i b hxi
          simp only [zero_add] at hp1 hp2
          constructor
          · intro v hv
            have hmem : ((i : Int) + 1) ∈ s := by
              apply hperm.mem_iff.mpr
              have : LVal.int ((i : Int) + 1) ∈ kv.map Prod.fst :=
                List.mem_map.mpr ⟨_, hv, rfl⟩
              rw [hl] at this
              obtain ⟨j, hj, hje⟩ := List.mem_map.mp this
              simp only [LVal.int.injEq] at hje
              rw [← hje]; exact hj
            have hb := hp1 hmem
            simp only [rawget_int_present kv _ v hkeys2 hnodup hv] at hb
            have hf : v.fuel ≤ fuel := le_trans (mem_fuel_le_table a mt kv _ hv) hfuel
            rw [tosql_eq E cfg hmap v c hcfg fuel hf, hb, ← hjb]
          · intro habs
            have hnm : ((i : Int) + 1) ∉ s := by
              intro hmem
              have hkl := hperm.mem_iff.mp hmem
              have : LVal.int ((i : Int) + 1) ∈ kv.map Prod.fst := by
                rw [hl]; exact List.mem_map.mpr ⟨_, hkl, rfl⟩
              obtain ⟨e, he, hek⟩ := List.mem_map.mp this
              obtain ⟨k1, v⟩ := e
              simp only at hek
              subst hek
              exact habs v he
            rw [← hjb, hp2 hnm]
            rfl

theorem array_encoding_witness :
    ∃ elems, pllua_jsonb_tosql refEnv 10 [.table 1 .none [(.int 1, .int 10), (.int 3, .int 30)],
        .nil] = some (.ok [.array elems]) ∧
      (elems.length : Int)
        = (intKeys refEnv ([(LVal.int 1, LVal.int 10), (.int 3, .int 30)].map Prod.fst)).foldl max 0 ∧
      ∀ (i : Nat) (jb : Jsonb), elems[i]? = some jb →
        (∀ v, (LVal.int ((i : Int) + 1), v) ∈ [(LVal.int 1, LVal.int 10), (.int 3, .int 30)] →
          pllua_jsonb_tosql refEnv 10 [v, .nil] = some (.ok [jb])) ∧
        ((∀ v, (LVal.int ((i : Int) + 1), v) ∉ [(LVal.int 1, LVal.int 10), (.int 3, .int 30)]) →
          jb = .null) :=
  array_encoding refEnv .nil
    { funcidx := none, empty_object := false, array_thresh := 1000, array_frac := 1000,
      nullvalue := .nil }
    1 .none [(.int 1, .int 10), (.int 3, .int 30)] 10 rfl rfl
    (by intro b; simp [jsonbObjectField])
    (by simp)
    (by simp)
    rfl
    ⟨_, rfl, rfl⟩
    (by decide)
    (by
      intro e he
      simp only [List.mem_cons, List.mem_singleton, List.not_mem_nil, or_false] at he
      rcases he with rfl | rfl
      · exact ⟨_, rfl⟩
      · exact ⟨_, rfl⟩)

theorem rawequal_refl (k : LVal) (hk : k ≠ .nan) : lua_rawequal k k = true := by
  cases k <;> simp [lua_rawequal] at hk ⊢

theorem rawequal_normKey (k : LVal) (hk : k ≠ .nan) : lua_rawequal (normKey k) k = true := by
  cases k <;> simp [normKey, lua_rawequal] at hk ⊢
  rename_i q
  by_cases h : q.den = 1
  · simp only [h, if_true, lua_rawequal, beq_iff_eq]
    exact (Rat.den_eq_one_iff q).mp h
  · simp [h, lua_rawequal]

/-- The float NaN is raw-equal to nothing. -/
theorem rawequal_nan_left (x : LVal) : lua_rawequal .nan x = false := by
  cases x <;> rfl

theorem rawequal_nan_right (x : LVal) : lua_rawequal x .nan = false := by
  cases x <;> rfl

theorem find?_none_of_any_false {α : Type} (p : α → Bool) (l : List α) (h : l.any p = false) :
    l.find? p = none := by
  rw [List.find?_eq_none]
  intro x hx hpx
  have : l.any p = true := List.any_eq_true.mpr ⟨x, hx, hpx⟩
  rw [h] at this
  cases this

theorem rawget_rawset_self (kv : List (LVal × LVal)) (k v : LVal) (hv : lua_isnil v = false)
    (hk : k ≠ .nan) : rawget (rawset kv k v) k = v := by
  unfold rawset
  simp only [hv, Bool.false_eq_true, if_false]
  by_cases hany : kv.any (fun e => lua_rawequal e.1 k) = true
  · simp only [hany, if_true]
    unfold rawget
    induction kv with
    | nil => simp at hany
    | cons e rest ih =>
      simp only [List.map_cons, List.find?_cons]
      by_cases he : lua_rawequal e.1 k = true
      · simp [he]
      · simp only [he, Bool.false_eq_true, if_false]
        simp only [List.any_cons, he, Bool.false_or] at hany
        exact ih hany
  · simp only [hany, Bool.false_eq_true, if_false]
    unfold rawget
    rw [List.find?_append, find?_none_of_any_false _ _ (by simpa using hany)]
    simp [List.find?_cons, rawequal_normKey k hk]

theorem mapLoop_append (E : Env) (cfg : MapConfig) (sc : Bool) :
    ∀ (ts us : List JsonbIteratorToken) (st : MapState),
      mapLoop E cfg sc st (ts ++ us) =
        match mapLoop E cfg sc st ts with
        | .ok st1 => mapLoop E cfg sc st1 us
        | .error e => .error e := by
  intro ts
  induction ts with
  | nil => intro us st; simp [mapLoop]
  | cons t ts ih =>
    intro us st
    simp only [List.cons_append, mapLoop]
    cases mapStep E cfg sc st t with
    | error e => rfl
    | ok st1 => exact ih us st1

theorem close_elem (E : Env) (cfg : MapConfig) (hm : cfg.funcidx = none)
    (hd : cfg.noresult = false) (st : MapState) (child : LVal) (idx : Int) (a : Nat)
    (mt : Metatable) (kv : List (LVal × LVal)) (below : List LVal)
    (hst : st.stack = child :: .int idx :: .table a mt kv :: below) :
    endContainer E cfg st =
      .ok ⟨.int (nextIndex idx) :: .table a mt (rawset kv (.int (nextIndex idx)) child) :: below,
           st.patht, st.patht_len - 1, st.next, st.calls⟩ := by
  simp [endContainer, hst, lua_isnil, hd, mapCall, hm, lua_isinteger, seti3, replaceTop,
    lua_settable, lua_tointeger, lua_tointegerx, nextIndex]

theorem close_value (E : Env) (cfg : MapConfig) (hm : cfg.funcidx = none)
    (hd : cfg.noresult = false) (st : MapState) (child : LVal) (k : String) (a : Nat)
    (mt : Metatable) (kv : List (LVal × LVal)) (below : List LVal)
    (hst : st.stack = child :: .str k :: .table a mt kv :: below) :
    endContainer E cfg st =
      .ok ⟨.table a mt (rawset kv (.str k) child) :: below,
           st.patht, st.patht_len - 1, st.next, st.calls⟩ := by
  simp [endContainer, hst, lua_isnil, hd, mapCall, hm, lua_isinteger, settable3, lua_settable]

theorem close_root (E : Env) (cfg : MapConfig) (hm : cfg.funcidx = none)
    (hd : cfg.noresult = false) (st : MapState) (child : LVal) (below : List LVal)
    (hst : st.stack = child :: .nil :: below) :
    endContainer E cfg st = .ok st := by
  simp [endContainer, hst, lua_isnil, hd, mapCall, hm]

theorem decode_leaf_elem (E : Env) (cfg : MapConfig) (hm : cfg.funcidx = none)
    (hd : cfg.noresult = false) (x : Jsonb) (hx : JB_ROOT_IS_SCALAR x = true) (st : MapState)
    (idx : Int) (a : Nat) (mt : Metatable) (kv : List (LVal × LVal)) (below : List LVal)
    (hst : st.stack = .int idx :: .table a mt kv :: below) :
    mapLoop E cfg false st (nodeTokens .WJB_ELEM x) =
      .ok ⟨.int (nextIndex idx)
            :: .table a mt (rawset kv (.int (nextIndex idx)) (decodeNode E cfg st.next x).1)
            :: below,
           st.patht, st.patht_len, (decodeNode E cfg st.next x).2, st.calls⟩ := by
  cases x with
  | array xs => simp [JB_ROOT_IS_SCALAR] at hx
  | object ps => simp [JB_ROOT_IS_SCALAR] at hx
  | numeric n =>
    by_cases hk : cfg.keep_numeric = true <;>
    simp [nodeTokens, mapLoop, mapStep, pushValue, pushScalar, mapCall, hm, hd, hst, seti3,
      replaceTop, lua_settable, lua_isnil, lua_tointeger, lua_tointegerx, decodeNode, nextIndex, hk]
  | _ =>
    simp [nodeTokens, mapLoop, mapStep, pushValue, pushScalar, mapCall, hm, hd, hst, seti3,
      replaceTop, lua_settable, lua_isnil, lua_tointeger, lua_tointegerx, decodeNode, nextIndex]

theorem decode_leaf_value (E : Env) (cfg : MapConfig) (hm : cfg.funcidx = none)
    (hd : cfg.noresult = false) (x : Jsonb) (hx : JB_ROOT_IS_SCALAR x = true) (st : MapState)
    (k : String) (a : Nat) (mt : Metatable) (kv : List (LVal × LVal)) (below : List LVal)
    (hst : st.stack = .str k :: .table a mt kv :: below) :
    mapLoop E cfg false st (nodeTokens .WJB_VALUE x) =
      .ok ⟨.table a mt (rawset kv (.str k) (decodeNode E cfg st.next x).1) :: below,
           st.patht, st.patht_len, (decodeNode E cfg st.next x).2, st.calls⟩ := by
  cases x with
  | array xs => simp [JB_ROOT_IS_SCALAR] at hx
  | object ps => simp [JB_ROOT_IS_SCALAR] at hx
  | numeric n =>
    by_cases hk : cfg.keep_numeric = true <;>
    simp [nodeTokens, mapLoop, mapStep, pushValue, pushScalar, mapCall, hm, hd, hst, settable3,
      lua_settable, lua_isnil, decodeNode, hk]
  | _ =>
    simp [nodeTokens, mapLoop, mapStep, pushValue, pushScalar, mapCall, hm, hd, hst, settable3,
      lua_settable, lua_isnil, decodeNode]

theorem begin_step (cfg : MapConfig) (hd : cfg.noresult = false) (st : MapState) (top : LVal)
    (rest : List LVal) (hst : st.stack = top :: rest) (mt : Metatable) :
    ∃ p, beginContainer cfg st mt false =
        .ok ⟨.table st.next mt [] :: st.stack, p,
             (if lua_isnil top then st.patht_len else st.patht_len + 1), st.next + 1, st.calls⟩
      ∧ beginContainer cfg st mt true =
        .ok ⟨.int 0 :: .table st.next mt [] :: st.stack, p,
             (if lua_isnil top then st.patht_len else st.patht_len + 1), st.next + 1, st.calls⟩ := by
  by_cases hn : lua_isnil top = true
  · exact ⟨st.patht, by simp [beginContainer, hst, hn, hd], by simp [beginContainer, hst, hn, hd]⟩
  · exact ⟨pathSet st.patht (st.patht_len + 1) top,
      by simp [beginContainer, hst, hn, hd], by simp [beginContainer, hst, hn, hd]⟩

mutual
/-- The decode loop on the tokens of a container, from any state with a nonempty stack: it
builds the table of `decodeNode` on top of the stack and then closes it. -/
theorem decode_container (E : Env) (cfg : MapConfig) (hm : cfg.funcidx = none)
    (hd : cfg.noresult = false) :
    ∀ (x : Jsonb) (leaf : JsonbValue → JsonbIteratorToken) (st : MapState) (top : LVal)
      (rest : List LVal), st.stack = top :: rest → JB_ROOT_IS_SCALAR x = false →
      ∃ p, mapLoop E cfg false st (nodeTokens leaf x) =
        endContainer E cfg
          ⟨(decodeNode E cfg st.next x).1 :: st.stack, p,
           (if lua_isnil top then st.patht_len else st.patht_len + 1),
           (decodeNode E cfg st.next x).2, st.calls⟩
  | .array xs, leaf, st, top, rest, hst, _ => by
    obtain ⟨p1, _, hb⟩ := begin_step cfg hd st top rest hst .array_mt
    obtain ⟨p2, i2, he⟩ := decode_elems E cfg hm hd xs
      ⟨.int 0 :: .table st.next .array_mt [] :: st.stack, p1,
        (if lua_isnil top then st.patht_len else st.patht_len + 1), st.next + 1, st.calls⟩
      0 st.next .array_mt [] st.stack rfl
    refine ⟨p2, ?_⟩
    simp only [nodeTokens, mapLoop, mapStep, Bool.not_false, if_true, hb]
    rw [mapLoop_append, he]
    simp only [mapLoop, mapStep, decodeNode, Bool.not_false, if_true, Bool.false_eq_true, if_false]
    generalize endContainer E cfg _ = r
    cases r <;> rfl
  | .object ps, leaf, st, top, rest, hst, _ => by
    obtain ⟨p1, hb, _⟩ := begin_step cfg hd st top rest hst .object_mt
    obtain ⟨p2, he⟩ := decode_pairs E cfg hm hd ps
      ⟨.table st.next .object_mt [] :: st.stack, p1,
        (if lua_isnil top then st.patht_len else st.patht_len + 1), st.next + 1, st.calls⟩
      st.next .object_mt [] st.stack rfl
    refine ⟨p2, ?_⟩
    simp only [nodeTokens, mapLoop, mapStep, hb]
    rw [mapLoop_append, he]
    simp only [mapLoop, mapStep, decodeNode, Bool.not_false, if_true, Bool.false_eq_true, if_false]
    generalize endContainer E cfg _ = r
    cases r <;> rfl
  | .null, _, _, _, _, _, h => by simp [JB_ROOT_IS_SCALAR] at h
  | .bool _, _, _, _, _, _, h => by simp [JB_ROOT_IS_SCALAR] at h
  | .numeric _, _, _, _, _, _, h => by simp [JB_ROOT_IS_SCALAR] at h
  | .string _, _, _, _, _, _, h => by simp [JB_ROOT_IS_SCALAR] at h
/-- The decode loop on the tokens of the elements of an array whose table and running index
are on top of the stack. -/
theorem decode_elems (E : Env) (cfg : MapConfig) (hm : cfg.funcidx = none)
    (hd : cfg.noresult = false) :
    ∀ (xs : List Jsonb) (st : MapState) (idx : Int) (a : Nat) (mt : Metatable)
      (kv : List (LVal × LVal)) (below : List LVal),
      st.stack = .int idx :: .table a mt kv :: below →
      ∃ p i2, mapLoop E cfg false st (elemsTokens xs) =
        .ok ⟨.int i2 :: .table a mt (decodeElems E cfg st.next idx kv xs).1 :: below, p,
             st.patht_len, (decodeElems E cfg st.next idx kv xs).2, st.calls⟩
  | [], st, idx, a, mt, kv, below, hst => by
    refine ⟨st.patht, idx, ?_⟩
    simp only [elemsTokens, mapLoop, decodeElems]
    rw [← hst]
  | x :: xs, st, idx, a, mt, kv, below, hst => by
    have hx : ∃ p, mapLoop E cfg false st (nodeTokens .WJB_ELEM x) =
        .ok ⟨.int (nextIndex idx)
              :: .table a mt (rawset kv (.int (nextIndex idx)) (decodeNode E cfg st.next x).1)
              :: below,
             p, st.patht_len, (decodeNode E cfg st.next x).2, st.calls⟩ := by
      by_cases hs : JB_ROOT_IS_SCALAR x = true
      · exact ⟨st.patht, decode_leaf_elem E cfg hm hd x hs st idx a mt kv below hst⟩
      · obtain ⟨p, hp⟩ := decode_container E cfg hm hd x .WJB_ELEM st (.int idx)
          (.table a mt kv :: below) hst (by simpa using hs)
        refine ⟨p, ?_⟩
        rw [hp, close_elem E cfg hm hd _ (decodeNode E cfg st.next x).1 idx a mt kv below
          (by simp [hst])]
        simp [lua_isnil]
    obtain ⟨p1, hx1⟩ := hx
    obtain ⟨p2, i2, he⟩ := decode_elems E cfg hm hd xs
      ⟨.int (nextIndex idx)
          :: .table a mt (rawset kv (.int (nextIndex idx)) (decodeNode E cfg st.next x).1)
          :: below,
        p1, st.patht_len, (decodeNode E cfg st.next x).2, st.calls⟩
      (nextIndex idx) a mt _ below rfl
    refine ⟨p2, i2, ?_⟩
    simp only [elemsTokens]
    rw [mapLoop_append, hx1]
    simp only [he, decodeElems]
/-- The decode loop on the tokens of the pairs of an object whose table is on top of the
stack. -/
theorem decode_pairs (E : Env) (cfg : MapConfig) (hm : cfg.funcidx = none)
    (hd : cfg.noresult = false) :
    ∀ (ps : List (String × Jsonb)) (st : MapState) (a : Nat) (mt : Metatable)
      (kv : List (LVal × LVal)) (below : List LVal),
      st.stack = .table a mt kv :: below →
      ∃ p, mapLoop E cfg false st (pairsTokens ps) =
        .ok ⟨.table a mt (decodePairs E cfg st.next kv ps).1 :: below, p,
             st.patht_len, (decodePairs E cfg st.next kv ps).2, st.calls⟩
  | [], st, a, mt, kv, below, hst => by
    refine ⟨st.patht, ?_⟩
    simp only [pairsTokens, mapLoop, decodePairs]
    rw [← hst]
  | (k, x) :: ps, st, a, mt, kv, below, hst => by
    have hkey : mapStep E cfg false st (.WJB_KEY (.jbvString k)) =
        .ok ⟨.str k :: .table a mt kv :: below, st.patht, st.patht_len, st.next, st.calls⟩ := by
      simp [mapStep, pushValue, pushScalar, hst]
    have hx : ∃ p, mapLoop E cfg false
          ⟨.str k :: .table a mt kv :: below, st.patht, st.patht_len, st.next, st.calls⟩
          (nodeTokens .WJB_VALUE x) =
        .ok ⟨.table a mt (rawset kv (.str k) (decodeNode E cfg st.next x).1) :: below,
             p, st.patht_len, (decodeNode E cfg st.next x).2, st.calls⟩ := by
      by_cases hs : JB_ROOT_IS_SCALAR x = true
      · exact ⟨st.patht, decode_leaf_value E cfg hm hd x hs _ k a mt kv below rfl⟩
      · obtain ⟨p, hp⟩ := decode_container E cfg hm hd x .WJB_VALUE
          ⟨.str k :: .table a mt kv :: below, st.patht, st.patht_len, st.next, st.calls⟩ (.str k)
          (.table a mt kv :: below) rfl (by simpa using hs)
        refine ⟨p, ?_⟩
        rw [hp, close_value E cfg hm hd _ (decodeNode E cfg st.next x).1 k a mt kv below (by simp)]
        simp [lua_isnil]
    obtain ⟨p1, hx1⟩ := hx
    obtain ⟨p2, he⟩ := decode_pairs E cfg hm hd ps
      ⟨.table a mt (rawset kv (.str k) (decodeNode E cfg st.next x).1) :: below,
        p1, st.patht_len, (decodeNode E cfg st.next x).2, st.calls⟩
      a mt _ below rfl
    refine ⟨p2, ?_⟩
    simp only [pairsTokens, mapLoop, hkey]
    rw [mapLoop_append, hx1]
    simp only [he, decodePairs]
end

/-- The decode loop builds the decoding: without a map and without discard,
`pllua_jsonb_map` returns the value of `decodeNode`, and the untagged empty table for a root
without elements. -/
theorem map_eq (E : Env) (heap : Nat) (jb : Jsonb) (arg2 : LVal)
    (hm : (mapConfig arg2).funcidx = none) (hd : (mapConfig arg2).noresult = false) :
    pllua_jsonb_map E heap jb arg2 =
      .ok [if JB_ROOT_COUNT jb = 0 then .table heap .none []
           else (decodeNode E (mapConfig arg2) (heap + 1) jb).1] := by
  unfold pllua_jsonb_map mapRun
  by_cases hc : JB_ROOT_COUNT jb = 0
  · simp [hc, hd]
  · simp only [hc, if_false, hd]
    by_cases hs : JB_ROOT_IS_SCALAR jb = true
    · cases jb with
      | array xs => simp [JB_ROOT_IS_SCALAR] at hs
      | object ps => simp [JB_ROOT_IS_SCALAR] at hs
      | numeric n =>
        by_cases hk : (mapConfig arg2).keep_numeric = true <;>
        simp [JsonbIterator, JB_ROOT_IS_SCALAR, nodeTokens, mapLoop, mapStep, MapState.init,
          pushValue, pushScalar, mapCall, hm, hd, decodeNode, hk]
      | _ =>
        simp [JsonbIterator, JB_ROOT_IS_SCALAR, nodeTokens, mapLoop, mapStep, MapState.init,
          pushValue, pushScalar, mapCall, hm, hd, decodeNode]
    · have hs2 : JB_ROOT_IS_SCALAR jb = false := by simpa using hs
      obtain ⟨p, hp⟩ := decode_container E (mapConfig arg2) hm hd jb .WJB_ELEM
        (MapState.init heap) .nil [.table heap .none []] rfl hs2
      simp only [JsonbIterator, hs2, Bool.false_eq_true, if_false]
      rw [hp, close_root E (mapConfig arg2) hm hd _ (decodeNode E (mapConfig arg2) (heap + 1) jb).1
        [.table heap .none []] (by simp [MapState.init])]
      simp [MapState.init, hd]

theorem rawget_rawset_eq (kv : List (LVal × LVal)) (k v : LVal) (hk : k ≠ .nan) :
    rawget (rawset kv k v) k = v := by
  by_cases hv : lua_isnil v = true
  · have hvn : v = .nil := by cases v <;> simp [lua_isnil] at hv; rfl
    subst hvn
    simp only [rawset, lua_isnil, if_true, rawget]
    have : (kv.filter (fun e => !lua_rawequal e.1 k)).find? (fun e => lua_rawequal e.1 k) = none := by
      rw [List.find?_eq_none]
      intro x hx
      have := (List.mem_filter.mp hx).2
      simpa using this
    rw [this]
  · exact rawget_rawset_self kv k v (by simpa using hv) hk

theorem find_filter_other (k k2 : LVal)
    (h : ∀ x, lua_rawequal x k = true → lua_rawequal x k2 = false) :
    ∀ kv : List (LVal × LVal),
      (kv.filter (fun e => !lua_rawequal e.1 k)).find? (fun e => lua_rawequal e.1 k2)
        = kv.find? (fun e => lua_rawequal e.1 k2) := by
  intro kv
  induction kv with
  | nil => rfl
  | cons e rest ih =>
    simp only [List.filter_cons, List.find?_cons]
    by_cases he : lua_rawequal e.1 k = true
    · simp [he, h e.1 he, ih]
    · simp only [he, Bool.not_false, if_true, List.find?_cons, ih, Bool.false_eq_true]

theorem find_map_other (k k2 v : LVal)
    (h : ∀ x, lua_rawequal x k = true → lua_rawequal x k2 = false) :
    ∀ kv : List (LVal × LVal),
      (kv.map (fun e => if lua_rawequal e.1 k then (e.1, v) else e)).find?
          (fun e => lua_rawequal e.1 k2)
        = kv.find? (fun e => lua_rawequal e.1 k2) := by
  intro kv
  induction kv with
  | nil => rfl
  | cons e rest ih =>
    simp only [List.map_cons, List.find?_cons]
    by_cases he : lua_rawequal e.1 k = true
    · simp only [he, if_true, h e.1 he, ih]
    · simp only [he, Bool.false_eq_true, if_false, ih]

theorem rawget_rawset_other (kv : List (LVal × LVal)) (k k2 v : LVal)
    (h : ∀ x, lua_rawequal x k = true → lua_rawequal x k2 = false) :
    rawget (rawset kv k v) k2 = rawget kv k2 := by
  have hfind : ∀ (l1 l2 : List (LVal × LVal)),
      l1.find? (fun e => lua_rawequal e.1 k2) = l2.find? (fun e => lua_rawequal e.1 k2) →
      rawget l1 k2 = rawget l2 k2 := by
    intro l1 l2 hl; simp only [rawget, hl]
  apply hfind
  unfold rawset
  split
  · exact find_filter_other k k2 h kv
  · split
    · exact find_map_other k k2 v h kv
    · rw [List.find?_append]
      by_cases hk : k = .nan
      · subst hk
        simp [List.find?_cons, normKey, rawequal_nan_left]
      · simp [List.find?_cons, h _ (rawequal_normKey k hk)]

theorem rawequal_int_disjoint (i j : Int) (hij : i ≠ j) (x : LVal)
    (hx : lua_rawequal x (.int i) = true) : lua_rawequal x (.int j) = false := by
  cases x <;> simp [lua_rawequal] at hx ⊢
  · rw [hx]; exact hij
  · rw [hx]; exact_mod_cast hij

theorem rawequal_str_disjoint (s t : String) (hst : s ≠ t) (x : LVal)
    (hx : lua_rawequal x (.str s) = true) : lua_rawequal x (.str t) = false := by
  cases x <;> simp [lua_rawequal] at hx ⊢
  rw [hx]; exact hst

theorem nextIndex_eq {idx : Int} (h1 : 0 ≤ idx) (h2 : idx < 2147483647) : nextIndex idx = idx + 1 := by
  unfold nextIndex
  rw [wrapInt32_eq (x := idx) (by omega) (by omega), wrapInt32_eq (by omega) (by omega)]

mutual
/-- The value of `decodeNode` reconstructs the document. -/
theorem reconstructs_node (E : Env) (cfg : MapConfig) :
    ∀ (x : Jsonb) (next : Nat), x.wellFormed E = true →
      Reconstructs E cfg x (decodeNode E cfg next x).1
  | .null, next, _ => by simp [Reconstructs, decodeNode]
  | .bool b, next, _ => by simp [Reconstructs, decodeNode]
  | .numeric n, next, _ => by
    by_cases hk : cfg.keep_numeric = true <;> simp [Reconstructs, decodeNode, hk]
  | .string s, next, _ => by simp [Reconstructs, decodeNode]
  | .array xs, next, h => by
    simp only [Jsonb.wellFormed, Bool.and_eq_true, decide_eq_true_eq, JB_CMASK] at h
    have := (reconstructs_elems E cfg xs (next + 1) 0 [] (le_refl _) (by omega) h.2).2
    simp only [Reconstructs, decodeNode]
    exact ⟨next, .array_mt, _, rfl, by simpa using this⟩
  | .object ps, next, h => by
    simp only [Jsonb.wellFormed, Bool.and_eq_true, decide_eq_true_eq] at h
    have := (reconstructs_pairs E cfg ps (next + 1) [] h.1.2 h.2).2
    simp only [Reconstructs, decodeNode]
    exact ⟨next, .object_mt, _, rfl, this⟩
/-- The pairs of `decodeElems` read as the reconstructions of the elements, and leave the
other indices as they were. -/
theorem reconstructs_elems (E : Env) (cfg : MapConfig) :
    ∀ (xs : List Jsonb) (next : Nat) (idx : Int) (kv : List (LVal × LVal)), 0 ≤ idx →
      idx + xs.length < 2147483647 → Jsonb.wellFormedElems E xs = true →
      (∀ j : Int, (j ≤ idx ∨ idx + xs.length < j) →
        rawget (decodeElems E cfg next idx kv xs).1 (.int j) = rawget kv (.int j)) ∧
      ReconstructsElems E cfg xs (idx + 1) (decodeElems E cfg next idx kv xs).1
  | [], next, idx, kv, _, _, _ => by simp [decodeElems, ReconstructsElems]
  | x :: xs, next, idx, kv, h0, hlen, hw => by
    simp only [Jsonb.wellFormedElems, Bool.and_eq_true] at hw
    simp only [List.length_cons, Nat.cast_add, Nat.cast_one] at hlen
    have hn : nextIndex idx = idx + 1 := nextIndex_eq h0 (by omega)
    obtain ⟨h1, h2⟩ := reconstructs_elems E cfg xs (decodeNode E cfg next x).2 (idx + 1)
      (rawset kv (.int (idx + 1)) (decodeNode E cfg next x).1) (by omega) (by omega) hw.2
    have hx := reconstructs_node E cfg x next hw.1
    simp only [decodeElems, hn, ReconstructsElems]
    refine ⟨?_, ?_, h2⟩
    · intro j hj
      rw [h1 j (by simp only [List.length_cons, Nat.cast_add, Nat.cast_one] at hj; omega)]
      apply rawget_rawset_other
      apply rawequal_int_disjoint
      simp only [List.length_cons, Nat.cast_add, Nat.cast_one] at hj
      omega
    · rw [h1 (idx + 1) (Or.inl (le_refl _)), rawget_rawset_eq _ _ _ (by simp)]
      exact hx
/-- The pairs of `decodePairs` read as the reconstructions of the members, and leave the
other keys as they were. -/
theorem reconstructs_pairs (E : Env) (cfg : MapConfig) :
    ∀ (ps : List (String × Jsonb)) (next : Nat) (kv : List (LVal × LVal)),
      (ps.map Prod.fst).Nodup → Jsonb.wellFormedPairs E ps = true →
      (∀ k : String, k ∉ ps.map Prod.fst →
        rawget (decodePairs E cfg next kv ps).1 (.str k) = rawget kv (.str k)) ∧
      ReconstructsPairs E cfg ps (decodePairs E cfg next kv ps).1
  | [], next, kv, _, _ => by simp [decodePairs, ReconstructsPairs]
  | (k, x) :: ps, next, kv, hnd, hw => by
    simp only [Jsonb.wellFormedPairs, Bool.and_eq_true] at hw
    simp only [List.map_cons, List.nodup_cons] at hnd
    obtain ⟨h1, h2⟩ := reconstructs_pairs E cfg ps (decodeNode E cfg next x).2
      (rawset kv (.str k) (decodeNode E cfg next x).1) hnd.2 hw.2
    have hx := reconstructs_node E cfg x next hw.1.2
    simp only [decodePairs, ReconstructsPairs]
    refine ⟨?_, ?_, h2⟩
    · intro k2 hk2
      simp only [List.map_cons, List.mem_cons, not_or] at hk2
      rw [h1 k2 hk2.2]
      apply rawget_rawset_other
      apply rawequal_str_disjoint
      exact fun h => hk2.1 h.symm
    · rw [h1 k hnd.1, rawget_rawset_eq _ _ _ (by simp)]
      exact hx
end

/-- C6: for every binary document (well formed: counts within the format's limit, distinct
keys), `pllua_jsonb_map` without discard and without map returns one value that
reconstructs the tree: reading the result of an Object node at a member key gives the decoded
value of that member, reading the result of an Array node with n elements at index i
(1 <= i <= n) gives the decoded value of element i, Bool and String leaves are themselves,
and a Null leaf reads as the configured null value. -/
theorem tree_reconstruction (E : Env) (heap : Nat) (jb : Jsonb) (arg2 : LVal)
    (hm : (mapConfig arg2).funcidx = none) (hd : (mapConfig arg2).noresult = false)
    (hwf : jb.wellFormed E = true) :
    ∃ v, pllua_jsonb_map E heap jb arg2 = .ok [v] ∧ Reconstructs E (mapConfig arg2) jb v := by
  refine ⟨_, map_eq E heap jb arg2 hm hd, ?_⟩
  by_cases hc : JB_ROOT_COUNT jb = 0
  · simp only [hc, if_true]
    cases jb with
    | array xs =>
      simp only [JB_ROOT_COUNT, List.length_eq_zero] at hc
      subst hc
      exact ⟨heap, .none, [], rfl, by simp [ReconstructsElems]⟩
    | object ps =>
      simp only [JB_ROOT_COUNT, List.length_eq_zero] at hc
      subst hc
      exact ⟨heap, .none, [], rfl, by simp [ReconstructsPairs]⟩
    | _ => simp [JB_ROOT_COUNT] at hc
  · simp only [hc, if_false]
    exact reconstructs_node E (mapConfig arg2) jb (heap + 1) hwf

theorem tree_reconstruction_witness :
    ∃ v, pllua_jsonb_map refEnv 10
        (.object [("x", .numeric { text := "1" }), ("y", .array [.bool true, .null])])
        (.lightuserdata 5) = .ok [v] ∧
      Reconstructs refEnv (mapConfig (.lightuserdata 5))
        (.object [("x", .numeric { text := "1" }), ("y", .array [.bool true, .null])]) v :=
  tree_reconstruction refEnv 10
    (.object [("x", .numeric { text := "1" }), ("y", .array [.bool true, .null])])
    (.lightuserdata 5) rfl rfl (by decide)

theorem rawset_fresh (kv : List (LVal × LVal)) (k v : LVal) (hv : lua_isnil v = false)
    (hk : ∀ e ∈ kv, lua_rawequal e.1 k = false) (hn : normKey k = k) :
    rawset kv k v = kv ++ [(k, v)] := by
  have hany : kv.any (fun e => lua_rawequal e.1 k) = false := by
    rw [List.any_eq_false]
    intro e he
    simp [hk e he]
  simp [rawset, hv, hany, hn]

mutual
/-- Addresses are allocated upwards. -/
theorem decodeNode_next_ge (E : Env) (cfg : MapConfig) :
    ∀ (x : Jsonb) (next : Nat), next ≤ (decodeNode E cfg next x).2
  | .null, next => by simp [decodeNode]
  | .bool _, next => by simp [decodeNode]
  | .numeric _, next => by simp [decodeNode]
  | .string _, next => by simp [decodeNode]
  | .array xs, next => by
    have := decodeElems_next_ge E cfg xs (next + 1) 0 []
    simp only [decodeNode]; omega
  | .object ps, next => by
    have := decodePairs_next_ge E cfg ps (next + 1) []
    simp only [decodeNode]; omega
/-- The same for the elements of an array. -/
theorem decodeElems_next_ge (E : Env) (cfg : MapConfig) :
    ∀ (xs : List Jsonb) (next : Nat) (idx : Int) (kv : List (LVal × LVal)),
      next ≤ (decodeElems E cfg next idx kv xs).2
  | [], next, idx, kv => by simp [decodeElems]
  | x :: xs, next, idx, kv => by
    have h1 := decodeNode_next_ge E cfg x next
    have h2 := decodeElems_next_ge E cfg xs (decodeNode E cfg next x).2 (nextIndex idx)
      (rawset kv (.int (nextIndex idx)) (decodeNode E cfg next x).1)
    simp only [decodeElems]; omega
/-- The same for the members of an object. -/
theorem decodePairs_next_ge (E : Env) (cfg : MapConfig) :
    ∀ (ps : List (String × Jsonb)) (next : Nat) (kv : List (LVal × LVal)),
      next ≤ (decodePairs E cfg next kv ps).2
  | [], next, kv => by simp [decodePairs]
  | (k, x) :: ps, next, kv => by
    have h1 := decodeNode_next_ge E cfg x next
    have h2 := decodePairs_next_ge E cfg ps (decodeNode E cfg next x).2
      (rawset kv (.str k) (decodeNode E cfg next x).1)
    simp only [decodePairs]; omega
end

theorem decodeNode_nonnil (E : Env) (cfg : MapConfig) (hs : lua_isnil cfg.nullvalue = false)
    (hk : cfg.keep_numeric = true) (x : Jsonb) (next : Nat) :
    lua_isnil (decodeNode E cfg next x).1 = false := by
  cases x with
  | null => simpa [decodeNode] using hs
  | _ => simp [decodeNode, lua_isnil, hk]

/-- the pairs built for the elements of an array none of which decodes to nil -/
theorem decodeElems_entries_of (E : Env) (cfg : MapConfig) :
    ∀ (xs : List Jsonb) (next : Nat) (idx : Int) (kv : List (LVal × LVal)),
      (∀ x ∈ xs, ∀ n, lua_isnil (decodeNode E cfg n x).1 = false) → 0 ≤ idx →
      idx + xs.length < 2147483647 → (∀ e ∈ kv, ∃ i : Int, i ≤ idx ∧ e.1 = .int i) →
      (decodeElems E cfg next idx kv xs).1 = kv ++ elemEntries E cfg next idx xs := by
  intro xs
  induction xs with
  | nil => intro next idx kv _ _ _ _; simp [decodeElems, elemEntries]
  | cons x xs ih =>
    intro next idx kv hnn h0 hlen hkv
    simp only [List.length_cons, Nat.cast_add, Nat.cast_one] at hlen
    have hn : nextIndex idx = idx + 1 := nextIndex_eq h0 (by omega)
    have hfresh : rawset kv (.int (idx + 1)) (decodeNode E cfg next x).1
        = kv ++ [(.int (idx + 1), (decodeNode E cfg next x).1)] := by
      apply rawset_fresh _ _ _ (hnn x (List.mem_cons_self _ _) next) _ rfl
      intro e he
      obtain ⟨i, hi, hei⟩ := hkv e he
      rw [hei, rawequal_int_int]
      simp only [decide_eq_false_iff_not]
      omega
    simp only [decodeElems, elemEntries, hn, hfresh]
    rw [ih _ (idx + 1) _ (fun y hy => hnn y (List.mem_cons_of_mem _ hy)) (by omega) (by omega)]
    · simp
    · intro e he
      rcases List.mem_append.mp he with h | h
      · obtain ⟨i, hi, hei⟩ := hkv e h
        exact ⟨i, by omega, hei⟩
      · simp only [List.mem_singleton] at h
        exact ⟨idx + 1, le_refl _, by rw [h]⟩

/-- the pairs built for the members of an object none of which decodes to nil -/
theorem decodePairs_entries_of (E : Env) (cfg : MapConfig) :
    ∀ (ps : List (String × Jsonb)) (next : Nat) (kv : List (LVal × LVal)),
      (∀ p ∈ ps, ∀ n, lua_isnil (decodeNode E cfg n p.2).1 = false) →
      (ps.map Prod.fst).Nodup →
      (∀ e ∈ kv, ∃ k : String, k ∉ ps.map Prod.fst ∧ e.1 = .str k) →
      (decodePairs E cfg next kv ps).1 = kv ++ pairEntries E cfg next ps := by
  intro ps
  induction ps with
  | nil => intro next kv _ _ _; simp [decodePairs, pairEntries]
  | cons p ps ih =>
    obtain ⟨k, x⟩ := p
    intro next kv hnn hnd hkv
    simp only [List.map_cons, List.nodup_cons] at hnd
    have hfresh : rawset kv (.str k) (decodeNode E cfg next x).1
        = kv ++ [(.str k, (decodeNode E cfg next x).1)] := by
      apply rawset_fresh _ _ _ (hnn (k, x) (List.mem_cons_self _ _) next) _ rfl
      intro e he
      obtain ⟨k2, hk2, hek⟩ := hkv e he
      rw [hek]
      simp only [lua_rawequal, beq_eq_false_iff_ne, ne_eq]
      intro h
      exact hk2 (by rw [h]; simp)
    simp only [decodePairs, pairEntries, hfresh]
    rw [ih _ _ (fun q hq => hnn q (List.mem_cons_of_mem _ hq)) hnd.2]
    · simp
    · intro e he
      rcases List.mem_append.mp he with h | h
      · obtain ⟨k2, hk2, hek⟩ := hkv e h
        refine ⟨k2, ?_, hek⟩
        intro hmem
        exact hk2 (by simp [hmem])
      · simp only [List.mem_singleton] at h
        exact ⟨k, hnd.1, by rw [h]⟩

/-- the pairs built for the elements of an array -/
theorem decodeElems_entries (E : Env) (cfg : MapConfig) (hs : lua_isnil cfg.nullvalue = false)
    (hk : cfg.keep_numeric = true) :
    ∀ (xs : List Jsonb) (next : Nat) (idx : Int) (kv : List (LVal × LVal)), 0 ≤ idx →
      idx + xs.length < 2147483647 → (∀ e ∈ kv, ∃ i : Int, i ≤ idx ∧ e.1 = .int i) →
      (decodeElems E cfg next idx kv xs).1 = kv ++ elemEntries E cfg next idx xs :=
  fun xs next idx kv =>
    decodeElems_entries_of E cfg xs next idx kv (fun x _ n => decodeNode_nonnil E cfg hs hk x n)

/-- the pairs built for the members of an object -/
theorem decodePairs_entries (E : Env) (cfg : MapConfig) (hs : lua_isnil cfg.nullvalue = false)
    (hk : cfg.keep_numeric = true) :
    ∀ (ps : List (String × Jsonb)) (next : Nat) (kv : List (LVal × LVal)),
      (ps.map Prod.fst).Nodup →
      (∀ e ∈ kv, ∃ k : String, k ∉ ps.map Prod.fst ∧ e.1 = .str k) →
      (decodePairs E cfg next kv ps).1 = kv ++ pairEntries E cfg next ps :=
  fun ps next kv =>
    decodePairs_entries_of E cfg ps next kv (fun p _ n => decodeNode_nonnil E cfg hs hk p.2 n)

theorem encodeValue_null (E : Env) (cfg : TosqlConfig) (v : LVal)
    (h : lua_rawequal v cfg.nullvalue = true) : encodeValue E cfg v = .ok (.value .jbvNull) := by
  cases v <;> simp [encodeValue, h]

theorem keysForObject_ints (E : Env) (ka : Bool) (l : List Int) :
    ∃ ks, keysForObject E ka (l.map LVal.int) = .ok ks :=
  keysForObject_numstr E ka _ (by
    intro k hk
    obtain ⟨i, _, rfl⟩ := List.mem_map.mp hk
    exact Or.inr (Or.inl ⟨i, rfl⟩))

theorem keysForObject_strs (E : Env) (ks : List String) :
    keysForObject E false (ks.map LVal.str) = .ok (ks.map LVal.str) := by
  induction ks with
  | nil => rfl
  | cons k ks ih => simp [keysForObject, keyForObject, ih]

/-- what pushkeys returns for a table tagged Array whose keys are ascending integers -/
theorem pushkeys_array_mt (E : Env) (a : Nat) (kv : List (LVal × LVal)) (l : List Int)
    (eo : Bool) (thr frac : Int) (hl : kv.map Prod.fst = l.map LVal.int)
    (hsorted : l.Sorted (· ≤ ·)) :
    pllua_jsonb_pushkeys E (.table a .array_mt kv) eo thr frac
      = .ok ⟨.WJB_BEGIN_ARRAY, l.map LVal.int, .int 0, 1⟩ := by
  obtain ⟨ks, hks⟩ := keysForObject_ints E true l
  rw [pushkeys_eq]
  simp only [jsonbObjectField, containerKeys, hl, filter_intlike_ints, table_sort_int,
    hsorted.insertionSort_eq]
  simp [hks, classifyObject]

/-- what pushkeys returns for a table tagged Object whose keys are strings -/
theorem pushkeys_object_mt (E : Env) (a : Nat) (kv : List (LVal × LVal)) (ks : List String)
    (eo : Bool) (thr frac : Int) (hl : kv.map Prod.fst = ks.map LVal.str) :
    pllua_jsonb_pushkeys E (.table a .object_mt kv) eo thr frac
      = .ok ⟨.WJB_BEGIN_OBJECT, ks.map LVal.str, .nil, 1⟩ := by
  rw [pushkeys_eq]
  simp only [jsonbObjectField, containerKeys, hl]
  simp [keysForObject_strs, classifyObject]

theorem elemEntries_keys (E : Env) (cfg : MapConfig) :
    ∀ (xs : List Jsonb) (next : Nat) (idx : Int),
      ∃ l : List Int, (elemEntries E cfg next idx xs).map Prod.fst = l.map LVal.int ∧
        List.Chain (· < ·) idx l := by
  intro xs
  induction xs with
  | nil => intro next idx; exact ⟨[], rfl, List.Chain.nil⟩
  | cons x xs ih =>
    intro next idx
    obtain ⟨l, hl, hc⟩ := ih (decodeNode E cfg next x).2 (idx + 1)
    exact ⟨(idx + 1) :: l, by simp [elemEntries, hl], List.Chain.cons (by omega) hc⟩

theorem pairEntries_keys (E : Env) (cfg : MapConfig) :
    ∀ (ps : List (String × Jsonb)) (next : Nat),
      (pairEntries E cfg next ps).map Prod.fst = (ps.map Prod.fst).map LVal.str := by
  intro ps
  induction ps with
  | nil => intro next; rfl
  | cons p ps ih =>
    obtain ⟨k, x⟩ := p
    intro next
    simp [pairEntries, ih]

theorem rawequal_str_str (a b : String) : lua_rawequal (.str a) (.str b) = decide (a = b) := by
  simp only [lua_rawequal]
  by_cases h : a = b <;> simp [h]

theorem rawget_str_present (kv : List (LVal × LVal)) (k : String) (v : LVal)
    (hkeys : ∀ e ∈ kv, ∃ j : String, e.1 = .str j) (hnodup : (kv.map Prod.fst).Nodup)
    (h : (LVal.str k, v) ∈ kv) : rawget kv (.str k) = v := by
  induction kv with
  | nil => cases h
  | cons e rest ih =>
    obtain ⟨k1, w⟩ := e
    obtain ⟨j, hj⟩ := hkeys (k1, w) (List.mem_cons_self _ _)
    simp only at hj
    subst hj
    simp only [List.map_cons, List.nodup_cons] at hnodup
    rcases List.mem_cons.mp h with heq | hin
    · simp only [Prod.mk.injEq, LVal.str.injEq] at heq
      obtain ⟨rfl, rfl⟩ := heq
      simp [rawget, List.find?_cons, rawequal_str_str]
    · have hne : j ≠ k := by
        intro hji
        apply hnodup.1
        rw [hji]
        exact List.mem_map.mpr ⟨(.str k, v), hin, rfl⟩
      have := ih (fun e he => hkeys e (List.mem_cons_of_mem _ he)) hnodup.2 hin
      simp only [rawget, List.find?_cons, rawequal_str_str, hne, decide_False] at this ⊢
      exact this

theorem rawequal_fresh (s : LVal) (heap next : Nat) (hs : s.allocatedBelow heap = true)
    (hn : heap ≤ next) :
    (∀ mt kv, lua_rawequal (.table next mt kv) s = false)
    ∧ (∀ k ts, lua_rawequal (.userdata next k ts) s = false) := by
  constructor
  · intro mt kv
    cases s <;> simp [lua_rawequal, LVal.allocatedBelow] at hs ⊢
    omega
  · intro k ts
    cases s <;> simp [lua_rawequal, LVal.allocatedBelow] at hs ⊢
    omega

theorem gapCount_succ {idx : Int} (h0 : 0 ≤ idx) (h1 : idx < 2147483647) :
    gapCount (idx + 1) idx = 0 := by
  have := gapCount_eq (k := idx + 1) (p := idx) (by omega) h0 (by omega)
  omega

theorem chain_lt_facts {idx : Int} {l : List Int} (h : List.Chain (· < ·) idx l) :
    l.Sorted (· ≤ ·) ∧ l.Nodup := by
  have hp : List.Pairwise (· < ·) (idx :: l) := List.Chain.pairwise h
  have hp2 : List.Pairwise (· < ·) l := (List.pairwise_cons.mp hp).2
  exact ⟨hp2.imp (fun h => le_of_lt h), hp2.imp (fun h => ne_of_lt h)⟩

mutual
/-- Encoding what was decoded: the value built for a node encodes to that node. -/
theorem reencode_node (E : Env) (mcfg : MapConfig) (cfg : TosqlConfig) (s : LVal) (heap : Nat)
    (hs : lua_isnil s = false) (hself : lua_rawequal s s = true) (hm1 : mcfg.nullvalue = s)
    (hm2 : mcfg.keep_numeric = true)
    (hc : cfg.nullvalue = s) (hal : s.allocatedBelow heap = true) :
    ∀ (x : Jsonb) (next : Nat), heap ≤ next → x.wellFormed E = true → leafClash s x = false →
      ∃ b, encodeValue E cfg (decodeNode E mcfg next x).1 = .ok b ∧ b.toJsonb = x
  | .null, next, _, _, _ =>
    ⟨.value .jbvNull, by
      rw [encodeValue_null]
      simp [decodeNode, hm1, hc, hself], rfl⟩
  | .bool b, next, _, _, hcl => by
    simp only [leafClash] at hcl
    exact ⟨.value (.jbvBool b), by
      simp [decodeNode, encodeValue, hc, hcl, pllua_jsonb_toscalar], rfl⟩
  | .numeric n, next, hn, _, _ => by
    have hf := (rawequal_fresh s heap next hal hn).2
    exact ⟨.value (.jbvNumeric n), by
      simp [decodeNode, hm2, encodeValue, hc, hf, pllua_jsonb_toscalar], rfl⟩
  | .string t, next, _, hw, hcl => by
    simp only [leafClash] at hcl
    simp only [Jsonb.wellFormed] at hw
    exact ⟨.value (.jbvString t), by
      simp [decodeNode, encodeValue, hc, hcl, pllua_jsonb_toscalar, stringScalar, hw], rfl⟩
  | .array xs, next, hn, hw, hcl => by
    simp only [Jsonb.wellFormed, Bool.and_eq_true, decide_eq_true_eq, JB_CMASK] at hw
    simp only [leafClash] at hcl
    have hs2 : lua_isnil mcfg.nullvalue = false := by rw [hm1]; exact hs
    have hkv := decodeElems_entries E mcfg hs2 hm2 xs (next + 1) 0 [] (le_refl _) (by omega)
      (by simp)
    obtain ⟨l, hl, hch⟩ := elemEntries_keys E mcfg xs (next + 1) 0
    obtain ⟨hsorted, hnd⟩ := chain_lt_facts hch
    have hpk := pushkeys_array_mt E next (elemEntries E mcfg (next + 1) 0 xs) l cfg.empty_object
      cfg.array_thresh cfg.array_frac hl hsorted
    have hkeys2 : ∀ e ∈ elemEntries E mcfg (next + 1) 0 xs, ∃ j : Int, e.1 = .int j := by
      intro e he
      have : e.1 ∈ (elemEntries E mcfg (next + 1) 0 xs).map Prod.fst :=
        List.mem_map.mpr ⟨e, he, rfl⟩
      rw [hl] at this
      obtain ⟨j, _, hj⟩ := List.mem_map.mp this
      exact ⟨j, hj.symm⟩
    have hnodup : ((elemEntries E mcfg (next + 1) 0 xs).map Prod.fst).Nodup := by
      rw [hl]
      exact hnd.map (fun a b h => by simpa using h)
    have hfind : ∀ e ∈ elemEntries E mcfg (next + 1) 0 xs,
        rawget (elemEntries E mcfg (next + 1) 0 xs) e.1 = e.2 := by
      intro e he
      obtain ⟨j, hj⟩ := hkeys2 e he
      obtain ⟨k, v⟩ := e
      simp only at hj
      subst hj
      exact rawget_int_present _ j v hkeys2 hnodup he
    obtain ⟨bs, hbs, hbj⟩ := reencode_elems E mcfg cfg s heap hs hself hm1 hm2 hc hal xs (next + 1) 0
      (elemEntries E mcfg (next + 1) 0 xs) (by omega) (le_refl _) (by omega) hw.2 hcl hfind
    have hf := (rawequal_fresh s heap next hal hn).1
    have hl2 : lookupEncoded (encodeEntries E cfg (elemEntries E mcfg (next + 1) 0 xs))
        = fun key => encodeValue E cfg (rawget (elemEntries E mcfg (next + 1) 0 xs) key) := by
      funext key; exact lookupEncoded_eq E cfg key _
    refine ⟨.array bs, ?_, by simp [Built.toJsonb, hbj]⟩
    simp only [decodeNode, hkv, List.nil_append]
    rw [hl] at hbs
    simp only [encodeValue, hc, hf, hpk, hl2, lua_isnil, Bool.false_eq_true, if_false, hbs]
  | .object ps, next, hn, hw, hcl => by
    simp only [Jsonb.wellFormed, Bool.and_eq_true, decide_eq_true_eq] at hw
    simp only [leafClash] at hcl
    have hs2 : lua_isnil mcfg.nullvalue = false := by rw [hm1]; exact hs
    have hkv := decodePairs_entries E mcfg hs2 hm2 ps (next + 1) [] hw.1.2 (by simp)
    have hl := pairEntries_keys E mcfg ps (next + 1)
    have hpk := pushkeys_object_mt E next (pairEntries E mcfg (next + 1) ps) (ps.map Prod.fst)
      cfg.empty_object cfg.array_thresh cfg.array_frac hl
    have hkeys2 : ∀ e ∈ pairEntries E mcfg (next + 1) ps, ∃ j : String, e.1 = .str j := by
      intro e he
      have : e.1 ∈ (pairEntries E mcfg (next + 1) ps).map Prod.fst :=
        List.mem_map.mpr ⟨e, he, rfl⟩
      rw [hl] at this
      obtain ⟨j, _, hj⟩ := List.mem_map.mp this
      exact ⟨j, hj.symm⟩
    have hnodup : ((pairEntries E mcfg (next + 1) ps).map Prod.fst).Nodup := by
      rw [hl]
      exact hw.1.2.map (fun a b h => by simpa using h)
    have hfind : ∀ e ∈ pairEntries E mcfg (next + 1) ps,
        rawget (pairEntries E mcfg (next + 1) ps) e.1 = e.2 := by
      intro e he
      obtain ⟨j, hj⟩ := hkeys2 e he
      obtain ⟨k, v⟩ := e
      simp only at hj
      subst hj
      exact rawget_str_present _ j v hkeys2 hnodup he
    obtain ⟨bps, hbs, hbj⟩ := reencode_pairs E mcfg cfg s heap hs hself hm1 hm2 hc hal ps (next + 1)
      (pairEntries E mcfg (next + 1) ps) (by omega) hw.2 hcl hfind
    have hf := (rawequal_fresh s heap next hal hn).1
    have hl2 : lookupEncoded (encodeEntries E cfg (pairEntries E mcfg (next + 1) ps))
        = fun key => encodeValue E cfg (rawget (pairEntries E mcfg (next + 1) ps) key) := by
      funext key; exact lookupEncoded_eq E cfg key _
    refine ⟨.object bps, ?_, by simp [Built.toJsonb, hbj]⟩
    simp only [decodeNode, hkv, List.nil_append]
    rw [hl] at hbs
    simp only [encodeValue, hc, hf, hpk, hl2, lua_isnil, Bool.false_eq_true, if_false, if_true, hbs]
/-- The same for the elements of an array, read in a table that holds their pairs. -/
theorem reencode_elems (E : Env) (mcfg : MapConfig) (cfg : TosqlConfig) (s : LVal) (heap : Nat)
    (hs : lua_isnil s = false) (hself : lua_rawequal s s = true) (hm1 : mcfg.nullvalue = s)
    (hm2 : mcfg.keep_numeric = true)
    (hc : cfg.nullvalue = s) (hal : s.allocatedBelow heap = true) :
    ∀ (xs : List Jsonb) (next : Nat) (idx : Int) (kvAll : List (LVal × LVal)), heap ≤ next →
      0 ≤ idx → idx + xs.length < 2147483647 → Jsonb.wellFormedElems E xs = true →
      leafClashElems s xs = false →
      (∀ e ∈ elemEntries E mcfg next idx xs, rawget kvAll e.1 = e.2) →
      ∃ bs, encodeElems E (fun key => encodeValue E cfg (rawget kvAll key)) (.int idx)
          ((elemEntries E mcfg next idx xs).map Prod.fst) = .ok bs ∧
        Built.elemsToJsonb bs = xs
  | [], next, idx, kvAll, _, _, _, _, _, _ =>
    ⟨[], by simp [elemEntries, encodeElems], rfl⟩
  | x :: xs, next, idx, kvAll, hn, h0, hlen, hw, hcl, hfind => by
    simp only [List.length_cons, Nat.cast_add, Nat.cast_one] at hlen
    simp only [Jsonb.wellFormedElems, Bool.and_eq_true] at hw
    simp only [leafClashElems, Bool.or_eq_false_iff] at hcl
    obtain ⟨b, hb, hbj⟩ := reencode_node E mcfg cfg s heap hs hself hm1 hm2 hc hal x next hn hw.1 hcl.1
    have hn2 : heap ≤ (decodeNode E mcfg next x).2 :=
      le_trans hn (decodeNode_next_ge E mcfg x next)
    obtain ⟨bs, hbs, hbsj⟩ := reencode_elems E mcfg cfg s heap hs hself hm1 hm2 hc hal xs
      (decodeNode E mcfg next x).2 (idx + 1) kvAll hn2 (by omega) (by omega) hw.2 hcl.2
      (fun e he => hfind e (by simp [elemEntries, he]))
    have hhead := hfind (.int (idx + 1), (decodeNode E mcfg next x).1) (by simp [elemEntries])
    simp only at hhead
    have hwk : wrapInt32 (lua_tointeger E (.int (idx + 1))) = idx + 1 := by
      simp only [lua_tointeger, lua_tointegerx, Option.getD_some]
      exact wrapInt32_eq (by omega) (by omega)
    have hwp : wrapInt32 (lua_tointeger E (.int idx)) = idx := by
      simp only [lua_tointeger, lua_tointegerx, Option.getD_some]
      exact wrapInt32_eq (by omega) (by omega)
    refine ⟨b :: bs, ?_, by simp [Built.elemsToJsonb, hbj, hbsj]⟩
    simp only [elemEntries, List.map_cons, encodeElems, hhead, hb, hwk, hwp, hbs,
      gapCount_succ h0 (by omega), List.replicate_zero, List.nil_append]
/-- The same for the members of an object. -/
theorem reencode_pairs (E : Env) (mcfg : MapConfig) (cfg : TosqlConfig) (s : LVal) (heap : Nat)
    (hs : lua_isnil s = false) (hself : lua_rawequal s s = true) (hm1 : mcfg.nullvalue = s)
    (hm2 : mcfg.keep_numeric = true)
    (hc : cfg.nullvalue = s) (hal : s.allocatedBelow heap = true) :
    ∀ (ps : List (String × Jsonb)) (next : Nat) (kvAll : List (LVal × LVal)), heap ≤ next →
      Jsonb.wellFormedPairs E ps = true → leafClashPairs s ps = false →
      (∀ e ∈ pairEntries E mcfg next ps, rawget kvAll e.1 = e.2) →
      ∃ bps, encodePairs E (fun key => encodeValue E cfg (rawget kvAll key))
          ((pairEntries E mcfg next ps).map Prod.fst) = .ok bps ∧
        Built.pairsToJsonb bps = ps
  | [], next, kvAll, _, _, _, _ => ⟨[], by simp [pairEntries, encodePairs], rfl⟩
  | (k, x) :: ps, next, kvAll, hn, hw, hcl, hfind => by
    simp only [Jsonb.wellFormedPairs, Bool.and_eq_true] at hw
    simp only [leafClashPairs, Bool.or_eq_false_iff] at hcl
    obtain ⟨b, hb, hbj⟩ := reencode_node E mcfg cfg s heap hs hself hm1 hm2 hc hal x next hn hw.1.2
      hcl.1
    have hn2 : heap ≤ (decodeNode E mcfg next x).2 :=
      le_trans hn (decodeNode_next_ge E mcfg x next)
    obtain ⟨bps, hbs, hbsj⟩ := reencode_pairs E mcfg cfg s heap hs hself hm1 hm2 hc hal ps
      (decodeNode E mcfg next x).2 kvAll hn2 hw.2 hcl.2
      (fun e he => hfind e (by simp [pairEntries, he]))
    have hhead := hfind (.str k, (decodeNode E mcfg next x).1) (by simp [pairEntries])
    simp only at hhead
    refine ⟨(k, b) :: bps, ?_, by simp [Built.pairsToJsonb, hbj, hbsj]⟩
    simp only [pairEntries, List.map_cons, encodePairs, hw.1.1, if_true, hhead, hb, hbs]
end

/-- C8 (as the code has it): re-encode recovers the document when the sentinel is raw-equal
to itself, that is, is not the float NaN. For every well-formed binary document `d` that is a
scalar or a non-empty container, and every such non-nil sentinel `s` that existed before the
decode and is raw-equal to no decoded Bool or String leaf of `d`, decoding `d` with
`null = s`, exact decimals kept and no map, and encoding the result with `null = s` and no
map, gives back `d`: every Object node is encoded as an Object with the same members, every
Array node as an Array with the same elements, every Null as Null. -/
theorem reencode_recovers (E : Env) (heap : Nat) (d : Jsonb) (s cm cs : LVal)
    (cfg : TosqlConfig) (hs : lua_isnil s = false) (hself : lua_rawequal s s = true)
    (hmapcfg : mapConfig cm = ⟨none, false, true, s⟩) (hcfg : tosqlConfig cs = .ok cfg)
    (hmap : cfg.funcidx = none) (hnull : cfg.nullvalue = s) (hroot : JB_ROOT_COUNT d ≠ 0)
    (hwf : d.wellFormed E = true) (hfresh : s.allocatedBelow heap = true)
    (hclash : leafClash s d = false) :
    ∃ v, pllua_jsonb_map E heap d cm = .ok [v] ∧
      ∀ fuel, v.fuel ≤ fuel → pllua_jsonb_tosql E fuel [v, cs] = some (.ok [d]) := by
  refine ⟨(decodeNode E (mapConfig cm) (heap + 1) d).1, ?_, ?_⟩
  · rw [map_eq E heap d cm (by rw [hmapcfg]) (by rw [hmapcfg])]
    simp [hroot]
  · intro fuel hfuel
    obtain ⟨b, hb, hbj⟩ := reencode_node E (mapConfig cm) cfg s heap hs hself (by rw [hmapcfg])
      (by rw [hmapcfg]) hnull hfresh d (heap + 1) (by omega) hwf hclash
    rw [tosql_eq E cfg hmap _ cs hcfg fuel hfuel, hb]
    simp only [hbj]

theorem reencode_recovers_witness :
    ∃ v, pllua_jsonb_map refEnv 10
        (.object [("x", .numeric { text := "1" }), ("y", .array [.bool true, .null])])
        (.table 1 .none [(.str "null", .lightuserdata 5), (.str "pg_numeric", .bool true)])
        = .ok [v] ∧
      ∀ fuel, v.fuel ≤ fuel →
        pllua_jsonb_tosql refEnv fuel
          [v, .table 2 .none [(.str "null", .lightuserdata 5)]] =
        some (.ok [.object [("x", .numeric { text := "1" }),
          ("y", .array [.bool true, .null])]]) :=
  reencode_recovers refEnv 10
    (.object [("x", .numeric { text := "1" }), ("y", .array [.bool true, .null])])
    (.lightuserdata 5)
    (.table 1 .none [(.str "null", .lightuserdata 5), (.str "pg_numeric", .bool true)])
    (.table 2 .none [(.str "null", .lightuserdata 5)])
    ⟨none, false, 1000, 1000, .lightuserdata 5⟩ rfl rfl rfl rfl rfl rfl (by decide) (by decide)
    rfl rfl

/-- C8 (the claim at a failing input): the sentinel NaN. Decoding the document Null with
`null` = NaN and `pg_numeric` set gives NaN, and encoding NaN with `null` = NaN gives the
numeric NaN, not Null: NaN is not raw-equal to itself, so it is not recognised as the null
value. In the same way the Array of one Null comes back as the Array of the numeric NaN. -/
theorem nan_sentinel_not_recovered :
    lua_isnil .nan = false
    ∧ leafClash .nan (.array [.null]) = false
    ∧ lua_rawequal .nan .nan = false
    ∧ pllua_jsonb_map refEnv 10 .null
        (.table 1 .none [(.str "null", .nan), (.str "pg_numeric", .bool true)]) = .ok [.nan]
    ∧ pllua_jsonb_tosql refEnv 10 [.nan, .table 2 .none [(.str "null", .nan)]]
        = some (.ok [.numeric { text := "NaN" }])
    ∧ pllua_jsonb_map refEnv 10 (.array [.null])
        (.table 1 .none [(.str "null", .nan), (.str "pg_numeric", .bool true)])
        = .ok [.table 11 .array_mt [(.int 1, .nan)]]
    ∧ pllua_jsonb_tosql refEnv 10
        [.table 11 .array_mt [(.int 1, .nan)], .table 2 .none [(.str "null", .nan)]]
        = some (.ok [.array [.numeric { text := "NaN" }]]) :=
  ⟨rfl, rfl, rfl, rfl, rfl, rfl, rfl⟩

theorem keysForObject_ints_eq (E : Env) (l : List Int) :
    keysForObject E false (l.map LVal.int) = .ok (l.map (fun i => LVal.str (toString i))) := by
  induction l with
  | nil => rfl
  | cons k ks ih => simp [keysForObject, keyForObject, numberToString, ih]

/-- What pushkeys returns for an untagged table of integer keys one of which exceeds the
wrapped product. -/
theorem pushkeys_wrapped (E : Env) (a : Nat) (kv : List (LVal × LVal)) (l : List Int)
    (eo : Bool) (thr frac : Int) (hl : kv.map Prod.fst = l.map LVal.int) (m : Int)
    (hm : m ∈ l) (hw : wrapInt32 (frac * l.length) < m) :
    pllua_jsonb_pushkeys E (.table a .none kv) eo thr frac
      = .ok ⟨.WJB_BEGIN_OBJECT, l.map (fun i => LVal.str (toString i)), .nil, 1⟩ := by
  rw [pushkeys_eq]
  simp only [jsonbObjectField, containerKeys, hl, keysForObject_ints_eq, intKeys_ints,
    List.length_map]
  have hmax : m ≤ l.foldl max 0 := (le_foldl_max l 0).2 m hm
  have hlen : 0 < l.length := List.length_pos_of_mem hm
  have hc : ∀ ks nk, classifyObject false false eo thr frac
      ⟨l.foldl min LUA_MAXINTEGER, l.foldl max 0, l.length, l.length, ks, nk⟩ = true := by
    intro ks nk
    have h1 : decide (l.length > 0) = true := by simpa using hlen
    have h2 : decide (l.foldl max 0 > wrapInt32 (frac * (l.length : Int))) = true := by
      simp only [gt_iff_lt, decide_eq_true_eq]; omega
    simp [classifyObject, h1, h2]
  simp [hc, keysForObject_ints_eq]

theorem rawget_str_absent (kv : List (LVal × LVal)) (s : String)
    (hkeys : ∀ e ∈ kv, ∃ j : Int, e.1 = .int j) : rawget kv (.str s) = .nil := by
  have : kv.find? (fun e => lua_rawequal e.1 (.str s)) = none := by
    rw [List.find?_eq_none]
    intro e he
    obtain ⟨j, hj⟩ := hkeys e he
    simp [hj, lua_rawequal]
  simp [rawget, this]

theorem encodePairs_null (E : Env) (lookup : LVal → Except LuaError Built) (l : List Int)
    (hvalid : ∀ i ∈ l, E.pg_verifymbstr (toString i) = true)
    (hlook : ∀ i ∈ l, lookup (.str (toString i)) = .ok (.value .jbvNull)) :
    encodePairs E lookup (l.map (fun i => LVal.str (toString i)))
      = .ok (l.map (fun i => (toString i, Built.value .jbvNull))) := by
  induction l with
  | nil => rfl
  | cons i l ih =>
    have h1 := hvalid i (List.mem_cons_self _ _)
    have h2 := hlook i (List.mem_cons_self _ _)
    have h3 := ih (fun j hj => hvalid j (List.mem_cons_of_mem _ hj))
      (fun j hj => hlook j (List.mem_cons_of_mem _ hj))
    simp only [List.map_cons, encodePairs, h1, if_true, h2, h3]

theorem pairsToJsonb_null (l : List Int) :
    Built.pairsToJsonb (l.map (fun i => (toString i, Built.value .jbvNull)))
      = l.map (fun i => (toString i, Jsonb.null)) := by
  induction l with
  | nil => rfl
  | cons i l ih => simp only [List.map_cons, Built.pairsToJsonb, ih]; rfl

/-- The encoding of an untagged table of integer keys that pushkeys takes for an object
because the product wrapped: every member is Null. -/
theorem encodeValue_wrapped (E : Env) (cfg : TosqlConfig) (a : Nat) (kv : List (LVal × LVal))
    (l : List Int) (hl : kv.map Prod.fst = l.map LVal.int) (m : Int) (hm : m ∈ l)
    (hw : wrapInt32 (cfg.array_frac * l.length) < m) (hnull : cfg.nullvalue = .nil)
    (hvalid : ∀ i ∈ l, E.pg_verifymbstr (toString i) = true) :
    encodeValue E cfg (.table a .none kv)
      = .ok (.object (l.map (fun i => (toString i, Built.value .jbvNull)))) := by
  have hpk := pushkeys_wrapped E a kv l cfg.empty_object cfg.array_thresh cfg.array_frac hl m hm hw
  have hkeys : ∀ e ∈ kv, ∃ j : Int, e.1 = .int j := by
    intro e he
    have : e.1 ∈ kv.map Prod.fst := List.mem_map.mpr ⟨e, he, rfl⟩
    rw [hl] at this
    obtain ⟨j, _, hj⟩ := List.mem_map.mp this
    exact ⟨j, hj.symm⟩
  have hl2 : lookupEncoded (encodeEntries E cfg kv)
      = fun key => encodeValue E cfg (rawget kv key) := by
    funext key; exact lookupEncoded_eq E cfg key _
  have hps := encodePairs_null E (fun key => encodeValue E cfg (rawget kv key)) l hvalid
    (fun i _ => by
      simp only [rawget_str_absent kv _ hkeys]
      exact encodeValue_null E cfg .nil (by rw [hnull]; rfl))
  simp only [encodeValue, hnull, lua_rawequal, Bool.false_eq_true, if_false, hpk, hl2,
    lua_isnil, if_true, hps]

theorem decodePairs_null (E : Env) (cfg : MapConfig) (hnull : cfg.nullvalue = .nil)
    (l : List Int) (next : Nat) :
    decodePairs E cfg next [] (l.map (fun i => (toString i, Jsonb.null))) = ([], next) := by
  induction l with
  | nil => rfl
  | cons i l ih =>
    simp only [List.map_cons, decodePairs, decodeNode, hnull, rawset, lua_isnil, if_true,
      List.filter_nil, ih]

/-- The round trip of a sequence of `n` values `true` for which the product
`array_frac * numkeys` wraps below `n`, with the default configuration on both sides. -/
theorem sequence_wrapped_roundtrip (E : Env) (hE : ∀ s, E.pg_verifymbstr s = true)
    (a heap n : Nat) (hw : wrapInt32 (1000 * (n : Int)) < n) (hn : 0 < n) :
    pllua_jsonb_tosql E (trueSequence a n).fuel [trueSequence a n, .nil]
      = some (.ok [.object ((List.range n).map
          (fun (i : Nat) => (toString ((i : Int) + 1), Jsonb.null)))])
    ∧ pllua_jsonb_map E heap
        (.object ((List.range n).map (fun (i : Nat) => (toString ((i : Int) + 1), Jsonb.null)))) .nil
      = .ok [.table (heap + 1) .object_mt []] := by
  have hmap : (List.range n).map (fun (i : Nat) => (toString ((i : Int) + 1), Jsonb.null))
      = ((List.range n).map (fun (i : Nat) => (i : Int) + 1)).map (fun i => (toString i, Jsonb.null)) := by
    simp [List.map_map, Function.comp]
  constructor
  · rw [tosql_eq E ⟨none, false, 1000, 1000, .nil⟩ rfl (trueSequence a n) .nil rfl _ (le_refl _)]
    have hl : ((List.range n).map (fun (i : Nat) => (LVal.int ((i : Int) + 1), LVal.bool true))).map
        Prod.fst = ((List.range n).map (fun (i : Nat) => (i : Int) + 1)).map LVal.int := by
      simp [List.map_map, Function.comp]
    have hm : (n : Int) ∈ (List.range n).map (fun (i : Nat) => (i : Int) + 1) :=
      List.mem_map.mpr ⟨n - 1, List.mem_range.mpr (by omega), by omega⟩
    have he := encodeValue_wrapped E ⟨none, false, 1000, 1000, .nil⟩ a _ _ hl (n : Int) hm
      (by simpa using hw) rfl (fun i _ => hE _)
    unfold trueSequence
    rw [he]
    simp only [Built.toJsonb, pairsToJsonb_null, hmap]
  · rw [map_eq E heap _ .nil rfl rfl]
    have hc : JB_ROOT_COUNT (.object ((List.range n).map
        (fun (i : Nat) => (toString ((i : Int) + 1), Jsonb.null)))) ≠ 0 := by
      simp [JB_ROOT_COUNT]; omega
    rw [if_neg hc]
    simp only [decodeNode, hmap]
    rw [decodePairs_null E (mapConfig .nil) rfl]

/-- C4 (the code at a failing input): the sequence of 2,147,484 values `true`, an untagged
container with exactly the integer keys 1..n, is not recovered by the round trip with the
default configuration. The product `array_frac * numkeys` = 1000 * 2147484 does not fit the C
`int` it is computed in and wraps to a negative number, so the container is taken for an
Object; its keys are turned into strings, under which no value is found, so every member is
Null; decoding that document gives an empty table, not the 2,147,484 entries. -/
theorem long_sequence_not_recovered :
    pllua_jsonb_tosql refEnv (trueSequence 1 2147484).fuel [trueSequence 1 2147484, .nil]
      = some (.ok [.object ((List.range 2147484).map
          (fun (i : Nat) => (toString ((i : Int) + 1), Jsonb.null)))])
    ∧ pllua_jsonb_map refEnv 10
        (.object ((List.range 2147484).map (fun (i : Nat) => (toString ((i : Int) + 1), Jsonb.null))))
        .nil
      = .ok [.table 11 .object_mt []] :=
  sequence_wrapped_roundtrip refEnv (fun _ => rfl) 1 10 2147484
    (by unfold wrapInt32; omega) (by omega)

theorem sequenceKeys_mem {n : Nat} {i : Int} : i ∈ sequenceKeys n ↔ 1 ≤ i ∧ i ≤ n := by
  simp only [sequenceKeys, List.mem_map, List.mem_range]
  constructor
  · rintro ⟨j, hj, rfl⟩; omega
  · rintro ⟨h1, h2⟩; exact ⟨(i - 1).toNat, by omega, by omega⟩

theorem sequenceKeys_length (n : Nat) : (sequenceKeys n).length = n := by
  simp [sequenceKeys]

theorem sequenceKeys_chain (n : Nat) : ∀ idx : Int,
    List.Chain (· < ·) idx ((List.range n).map (fun (i : Nat) => idx + 1 + (i : Int))) := by
  induction n with
  | zero => intro idx; exact List.Chain.nil
  | succ n ih =>
    intro idx
    rw [List.range_succ_eq_map, List.map_cons, List.map_map]
    refine List.Chain.cons (by simp) ?_
    have := ih (idx + 1)
    have e : (List.range n).map (fun (i : Nat) => idx + 1 + 1 + (i : Int))
        = (List.range n).map ((fun (i : Nat) => idx + 1 + (i : Int)) ∘ Nat.succ) := by
      apply List.map_congr_left
      intro i _
      simp only [Function.comp, Nat.succ_eq_add_one, Nat.cast_add, Nat.cast_one]
      omega
    rw [← e]
    simpa using this

theorem sequenceKeys_sorted (n : Nat) :
    List.Chain (· < ·) 0 (sequenceKeys n) ∧ (sequenceKeys n).Sorted (· ≤ ·)
      ∧ (sequenceKeys n).Nodup := by
  have h := sequenceKeys_chain n 0
  have e : (List.range n).map (fun (i : Nat) => (0 : Int) + 1 + (i : Int)) = sequenceKeys n := by
    unfold sequenceKeys
    apply List.map_congr_left
    intro i _
    omega
  rw [e] at h
  exact ⟨h, chain_lt_facts h⟩

/-- What pushkeys returns, with the default thresholds, for a table without metatable whose
keys are a rearrangement of 1..n, as long as the product does not wrap. -/
theorem pushkeys_sequence (E : Env) (a : Nat) (kv : List (LVal × LVal)) (l : List Int)
    (hl : kv.map Prod.fst = l.map LVal.int) (hp : l.Perm (sequenceKeys kv.length))
    (hn : kv.length < 2147484) :
    pllua_jsonb_pushkeys E (.table a .none kv) false 1000 1000
      = .ok ⟨.WJB_BEGIN_ARRAY, (sequenceKeys kv.length).map LVal.int, .int 0, 1⟩ := by
  have hlen : l.length = kv.length := by
    have := hp.length_eq
    rw [sequenceKeys_length] at this
    exact this
  have hmem : ∀ i ∈ l, 1 ≤ i ∧ i ≤ kv.length := fun i hi => sequenceKeys_mem.mp (hp.subset hi)
  have hsort : l.insertionSort (· ≤ ·) = sequenceKeys kv.length :=
    List.eq_of_perm_of_sorted ((List.perm_insertionSort _ l).trans hp)
      (List.sorted_insertionSort _ l) (sequenceKeys_sorted _).2.1
  rw [pushkeys_eq]
  simp only [jsonbObjectField, containerKeys, hl, keysForObject_ints_eq, intKeys_ints,
    List.length_map, filter_intlike_ints, table_sort_int, hsort]
  have hw : wrapInt32 (1000 * (l.length : Int)) = 1000 * (l.length : Int) :=
    wrapInt32_eq (by omega) (by omega)
  have hc : ∀ ks nk, classifyObject false false false 1000 1000
      ⟨l.foldl min LUA_MAXINTEGER, l.foldl max 0, l.length, l.length, ks, nk⟩ = false := by
    intro ks nk
    have h1 : ¬ (l.foldl min LUA_MAXINTEGER < 1) := by
      rw [foldl_min_lt]
      rintro (h | ⟨i, hi, h⟩)
      · simp [LUA_MAXINTEGER] at h
      · have := hmem i hi; omega
    have h2 : l.length > 0 → ¬ (l.foldl min LUA_MAXINTEGER > 1000) := by
      intro hpos
      rw [foldl_min_gt]
      rintro ⟨_, h⟩
      have h1l : (1 : Int) ∈ l := hp.symm.subset (sequenceKeys_mem.mpr ⟨le_refl _, by omega⟩)
      have := h 1 h1l
      omega
    have h3 : ¬ (l.foldl max 0 > wrapInt32 (1000 * (l.length : Int))) := by
      rw [hw, foldl_max_gt]
      rintro (h | ⟨i, hi, h⟩)
      · omega
      · have := hmem i hi; omega
    by_cases hpos : l.length > 0
    · simp [classifyObject, h1, h2 hpos, h3]
    · simp [classifyObject, h1, hpos]
  simp [hc, keysForObject_ints_eq]

/-- What pushkeys returns for a non-empty table without metatable whose keys are strings not
convertible to an integer. -/
theorem pushkeys_strings (E : Env) (a : Nat) (kv : List (LVal × LVal)) (ks : List String)
    (thr frac : Int) (hl : kv.map Prod.fst = ks.map LVal.str) (hne : kv ≠ [])
    (hk : ∀ k ∈ ks, E.str2int k = none) :
    pllua_jsonb_pushkeys E (.table a .none kv) false thr frac
      = .ok ⟨.WJB_BEGIN_OBJECT, ks.map LVal.str, .nil, 1⟩ := by
  have hik : intKeys E (ks.map LVal.str) = [] := by
    simp only [intKeys, List.filterMap_eq_nil_iff, List.mem_map]
    rintro k ⟨s, hs, rfl⟩
    simpa [lua_tointegerx] using hk s hs
  have hlen : 0 < ks.length := by
    have : (kv.map Prod.fst).length = (ks.map LVal.str).length := by rw [hl]
    simp only [List.length_map] at this
    rw [← this]
    exact List.length_pos.mpr hne
  rw [pushkeys_eq]
  simp only [jsonbObjectField, containerKeys, hl, keysForObject_strs, hik, List.length_map]
  have hc : ∀ mn mx nk, classifyObject false false false thr frac
      ⟨mn, mx, 0, ks.length, ks.map LVal.str, nk⟩ = true := by
    intro mn mx nk
    have : ¬ ((ks.length : Int) = 0) := by omega
    simp [classifyObject, this]
  simp [hc, keysForObject_strs]

theorem elemsToJsonb_eq_map (bs : List Built) :
    Built.elemsToJsonb bs = bs.map Built.toJsonb := by
  induction bs with
  | nil => rfl
  | cons b bs ih => simp [Built.elemsToJsonb, ih]

theorem pairsToJsonb_eq_map (bps : List (String × Built)) :
    Built.pairsToJsonb bps = bps.map (fun p => (p.1, p.2.toJsonb)) := by
  induction bps with
  | nil => rfl
  | cons p bps ih =>
    obtain ⟨k, b⟩ := p
    simp [Built.pairsToJsonb, ih]

/-- the elements pushed for the keys idx+1, .., idx+m when each is found -/
theorem encodeElems_consecutive (E : Env) (lookup : LVal → Except LuaError Built) :
    ∀ (m : Nat) (idx : Int), 0 ≤ idx → idx + m < 2147483647 →
      (∀ j : Nat, j < m → ∃ c, lookup (.int (idx + 1 + (j : Int))) = .ok c) →
      ∃ bs, encodeElems E lookup (.int idx)
          (((List.range m).map (fun (i : Nat) => idx + 1 + (i : Int))).map LVal.int) = .ok bs
        ∧ bs.length = m
        ∧ ∀ (j : Nat) (b : Built), bs[j]? = some b → lookup (.int (idx + 1 + (j : Int))) = .ok b := by
  intro m
  induction m with
  | zero => intro idx _ _ _; exact ⟨[], by simp [encodeElems], rfl, by simp⟩
  | succ m ih =>
    intro idx h0 hlen hlook
    simp only [Nat.cast_add, Nat.cast_one] at hlen
    obtain ⟨c, hc⟩ := hlook 0 (by omega)
    simp only [Nat.cast_zero, add_zero] at hc
    obtain ⟨bs, hbs, hbl, hbj⟩ := ih (idx + 1) (by omega) (by omega) (fun j hj => by
      obtain ⟨c2, hc2⟩ := hlook (j + 1) (by omega)
      refine ⟨c2, ?_⟩
      rw [← hc2]
      congr 2
      push_cast
      omega)
    have e : (List.range (m + 1)).map (fun (i : Nat) => idx + 1 + (i : Int))
        = (idx + 1) :: (List.range m).map (fun (i : Nat) => idx + 1 + 1 + (i : Int)) := by
      rw [List.range_succ_eq_map, List.map_cons, List.map_map]
      simp only [Nat.cast_zero, add_zero, List.cons.injEq, true_and]
      apply List.map_congr_left
      intro i _
      simp only [Function.comp, Nat.succ_eq_add_one, Nat.cast_add, Nat.cast_one]
      omega
    have hwk : wrapInt32 (lua_tointeger E (.int (idx + 1))) = idx + 1 := by
      simp only [lua_tointeger, lua_tointegerx, Option.getD_some]
      exact wrapInt32_eq (by omega) (by omega)
    have hwp : wrapInt32 (lua_tointeger E (.int idx)) = idx := by
      simp only [lua_tointeger, lua_tointegerx, Option.getD_some]
      exact wrapInt32_eq (by omega) (by omega)
    refine ⟨c :: bs, ?_, by simp [hbl], ?_⟩
    · rw [e]
      simp only [List.map_cons, encodeElems, hc, hwk, hwp, hbs, gapCount_succ h0 (by omega),
        List.replicate_zero, List.nil_append]
    · intro j b hj
      cases j with
      | zero =>
        simp only [List.getElem?_cons_zero, Option.some.injEq] at hj
        subst hj
        simpa using hc
      | succ j =>
        simp only [List.getElem?_cons_succ] at hj
        have := hbj j b hj
        rw [← this]
        congr 2
        push_cast
        omega

/-- the members pushed for string keys each of which is valid and found -/
theorem encodePairs_strings (E : Env) (lookup : LVal → Except LuaError Built) :
    ∀ ks : List String,
      (∀ k ∈ ks, E.pg_verifymbstr k = true ∧ ∃ c, lookup (.str k) = .ok c) →
      ∃ bps, encodePairs E lookup (ks.map LVal.str) = .ok bps ∧ bps.map Prod.fst = ks ∧
        ∀ p ∈ bps, lookup (.str p.1) = .ok p.2 := by
  intro ks
  induction ks with
  | nil => intro _; exact ⟨[], rfl, rfl, by simp⟩
  | cons k ks ih =>
    intro h
    obtain ⟨hv, c, hc⟩ := h k (List.mem_cons_self _ _)
    obtain ⟨bps, hb, hk, hp⟩ := ih (fun k2 hk2 => h k2 (List.mem_cons_of_mem _ hk2))
    refine ⟨(k, c) :: bps, by simp only [List.map_cons, encodePairs, hv, if_true, hc, hb],
      by simp [hk], ?_⟩
    intro p hp2
    rcases List.mem_cons.mp hp2 with rfl | hp2
    · exact hc
    · exact hp p hp2

/-- reading the table built for the elements of an array at the index of an element -/
theorem elemEntries_rawget (E : Env) (cfg : MapConfig) :
    ∀ (xs : List Jsonb) (next : Nat) (idx : Int) (j : Nat) (x : Jsonb), xs[j]? = some x →
      ∃ n, rawget (elemEntries E cfg next idx xs) (.int (idx + 1 + (j : Int)))
        = (decodeNode E cfg n x).1 := by
  intro xs
  induction xs with
  | nil => intro next idx j x h; simp at h
  | cons y xs ih =>
    intro next idx j x h
    cases j with
    | zero =>
      simp only [List.getElem?_cons_zero, Option.some.injEq] at h
      subst h
      exact ⟨next, by simp [elemEntries, rawget, rawequal_int_int]⟩
    | succ j =>
      simp only [List.getElem?_cons_succ] at h
      obtain ⟨n, hn⟩ := ih (decodeNode E cfg next y).2 (idx + 1) j x h
      refine ⟨n, ?_⟩
      rw [← hn]
      have hne : ¬ (idx + 1 = idx + 1 + ((j + 1 : Nat) : Int)) := by push_cast; omega
      have hk : idx + 1 + ((j + 1 : Nat) : Int) = idx + 1 + 1 + (j : Int) := by push_cast; omega
      simp only [elemEntries, rawget, List.find?_cons, rawequal_int_int, hne, decide_False]
      rw [hk]

/-- reading the table built for the members of an object at the key of a member -/
theorem pairEntries_rawget (E : Env) (cfg : MapConfig) :
    ∀ (ps : List (String × Jsonb)) (next : Nat) (k : String) (x : Jsonb),
      (ps.map Prod.fst).Nodup → (k, x) ∈ ps →
      ∃ n, rawget (pairEntries E cfg next ps) (.str k) = (decodeNode E cfg n x).1 := by
  intro ps
  induction ps with
  | nil => intro next k x _ h; cases h
  | cons p ps ih =>
    obtain ⟨k1, x1⟩ := p
    intro next k x hnd h
    simp only [List.map_cons, List.nodup_cons] at hnd
    rcases List.mem_cons.mp h with h | h
    · simp only [Prod.mk.injEq] at h
      obtain ⟨rfl, rfl⟩ := h
      exact ⟨next, by simp [pairEntries, rawget, lua_rawequal]⟩
    · obtain ⟨n, hn⟩ := ih (decodeNode E cfg next x1).2 k x hnd.2 h
      refine ⟨n, ?_⟩
      rw [← hn]
      have hne : ¬ (k1 = k) := by
        intro hk
        exact hnd.1 (by rw [hk]; exact List.mem_map.mpr ⟨(k, x), h, rfl⟩)
      simp [pairEntries, rawget, List.find?_cons, lua_rawequal, hne]

theorem same_nonnil (E : Env) (v y : LVal) (hv : PlainValue E v) (h : SameStructure v y) :
    lua_isnil y = false := by
  cases v with
  | table a mt kv =>
    simp only [SameStructure] at h
    obtain ⟨a2, mt2, kv2, rfl, _⟩ := h
    rfl
  | nil => simp [PlainValue] at hv
  | bool b => simp only [SameStructure] at h; rw [h]; rfl
  | int i => simp only [SameStructure] at h; rw [h]; rfl
  | flt q => simp only [SameStructure] at h; rw [h]; rfl
  | nan => simp [PlainValue] at hv
  | str s => simp only [SameStructure] at h; rw [h]; rfl
  | userdata a k ts => simp [PlainValue] at hv
  | function a => simp [PlainValue] at hv
  | lightuserdata a => simp [PlainValue] at hv
  | thread a => simp [PlainValue] at hv

theorem sequenceKeys_eq (n : Nat) :
    (List.range n).map (fun (i : Nat) => (0 : Int) + 1 + (i : Int)) = sequenceKeys n := by
  unfold sequenceKeys
  apply List.map_congr_left
  intro i _
  omega

theorem elemEntries_keys_eq (E : Env) (cfg : MapConfig) :
    ∀ (xs : List Jsonb) (next : Nat) (idx : Int),
      (elemEntries E cfg next idx xs).map Prod.fst
        = ((List.range xs.length).map (fun (i : Nat) => idx + 1 + (i : Int))).map LVal.int := by
  intro xs
  induction xs with
  | nil => intro next idx; rfl
  | cons x xs ih =>
    intro next idx
    rw [List.length_cons, List.range_succ_eq_map]
    simp only [elemEntries, List.map_cons, ih, List.map_map, Nat.cast_zero, add_zero,
      List.cons.injEq, true_and]
    apply List.map_congr_left
    intro i _
    simp only [Function.comp, Nat.succ_eq_add_one, Nat.cast_add, Nat.cast_one]
    congr 1
    omega

theorem sameEntries_of (kv kv2 : List (LVal × LVal))
    (h : ∀ e ∈ kv, SameStructure e.2 (rawget kv2 e.1)) : SameEntries kv kv2 := by
  induction kv with
  | nil => simp [SameEntries]
  | cons e rest ih =>
    obtain ⟨k, v⟩ := e
    simp only [SameEntries]
    exact ⟨h (k, v) (List.mem_cons_self _ _), ih (fun e he => h e (List.mem_cons_of_mem _ he))⟩

/-- The round trip of a table whose keys are a rearrangement of 1..n, given that of its
values. -/
theorem sequence_roundtrip (E : Env) (a : Nat) (kv : List (LVal × LVal)) (l : List Int)
    (hl : kv.map Prod.fst = l.map LVal.int) (hp : l.Perm (sequenceKeys kv.length))
    (hn : kv.length < 2147484)
    (hent : ∀ e ∈ kv, PlainValue E e.2 ∧
      ∃ b, encodeValue E ⟨none, false, 1000, 1000, .nil⟩ e.2 = .ok b ∧
        ∀ next, SameStructure e.2 (decodeNode E (mapConfig .nil) next b.toJsonb).1) :
    ∃ b, encodeValue E ⟨none, false, 1000, 1000, .nil⟩ (.table a .none kv) = .ok b ∧
      ∀ next, SameStructure (.table a .none kv)
        (decodeNode E (mapConfig .nil) next b.toJsonb).1 := by
  have hpk := pushkeys_sequence E a kv l hl hp hn
  have hkeys : ∀ e ∈ kv, ∃ j : Int, e.1 = .int j := by
    intro e he
    have : e.1 ∈ kv.map Prod.fst := List.mem_map.mpr ⟨e, he, rfl⟩
    rw [hl] at this
    obtain ⟨j, _, hj⟩ := List.mem_map.mp this
    exact ⟨j, hj.symm⟩
  have hnodup : (kv.map Prod.fst).Nodup := by
    rw [hl]
    exact (hp.nodup_iff.mpr (sequenceKeys_sorted _).2.2).map (fun a b h => by simpa using h)
  have hval : ∀ j : Nat, j < kv.length → ∃ v, (LVal.int ((j : Int) + 1), v) ∈ kv := by
    intro j hj
    have h1 : ((j : Int) + 1) ∈ l := hp.symm.subset (sequenceKeys_mem.mpr ⟨by omega, by omega⟩)
    have h2 : LVal.int ((j : Int) + 1) ∈ kv.map Prod.fst := by
      rw [hl]; exact List.mem_map.mpr ⟨_, h1, rfl⟩
    obtain ⟨e, he, hek⟩ := List.mem_map.mp h2
    exact ⟨e.2, by rw [← hek]; exact he⟩
  have hlook : ∀ j : Nat, j < kv.length → ∃ c,
      (fun key => encodeValue E ⟨none, false, 1000, 1000, .nil⟩ (rawget kv key))
        (.int (0 + 1 + (j : Int))) = .ok c := by
    intro j hj
    obtain ⟨v, hv⟩ := hval j hj
    obtain ⟨_, b, hb, _⟩ := hent _ hv
    refine ⟨b, ?_⟩
    have e : (0 : Int) + 1 + (j : Int) = (j : Int) + 1 := by omega
    simp only [e, rawget_int_present kv _ v hkeys hnodup hv]
    exact hb
  obtain ⟨bs, hbs, hblen, hbj⟩ := encodeElems_consecutive E
    (fun key => encodeValue E ⟨none, false, 1000, 1000, .nil⟩ (rawget kv key)) kv.length 0
    (le_refl _) (by omega) hlook
  rw [sequenceKeys_eq] at hbs
  have hfact : ∀ (j : Nat) (b : Built), bs[j]? = some b →
      ∃ v, (LVal.int ((j : Int) + 1), v) ∈ kv ∧ PlainValue E v ∧
        ∀ next, SameStructure v (decodeNode E (mapConfig .nil) next b.toJsonb).1 := by
    intro j b hj
    have hjl : j < kv.length := by
      rw [← hblen]
      exact (List.getElem?_eq_some_iff.mp hj).1
    obtain ⟨v, hv⟩ := hval j hjl
    obtain ⟨hpv, b2, hb2, hs2⟩ := hent _ hv
    have h3 := hbj j b hj
    have e : (0 : Int) + 1 + (j : Int) = (j : Int) + 1 := by omega
    simp only [e, rawget_int_present kv _ v hkeys hnodup hv] at h3
    simp only at hb2
    rw [hb2] at h3
    cases h3
    exact ⟨v, hv, hpv, hs2⟩
  have hl2 : lookupEncoded (encodeEntries E ⟨none, false, 1000, 1000, .nil⟩ kv)
      = fun key => encodeValue E ⟨none, false, 1000, 1000, .nil⟩ (rawget kv key) := by
    funext key; exact lookupEncoded_eq E _ key _
  refine ⟨.array bs, ?_, ?_⟩
  · simp only [encodeValue, lua_rawequal, Bool.false_eq_true, if_false, hpk, hl2, lua_isnil,
      hbs]
  · intro next
    have hnn : ∀ x ∈ Built.elemsToJsonb bs, ∀ n,
        lua_isnil (decodeNode E (mapConfig .nil) n x).1 = false := by
      intro x hx n
      rw [elemsToJsonb_eq_map] at hx
      obtain ⟨b, hb, rfl⟩ := List.mem_map.mp hx
      obtain ⟨j, hj⟩ := List.getElem?_of_mem hb
      obtain ⟨v, _, hpv, hs⟩ := hfact j b hj
      exact same_nonnil E v _ hpv (hs n)
    have hdl : (Built.elemsToJsonb bs).length = kv.length := by
      rw [elemsToJsonb_length, hblen]
    have hkv2 := decodeElems_entries_of E (mapConfig .nil) (Built.elemsToJsonb bs) (next + 1) 0
      [] hnn (le_refl _) (by rw [hdl]; omega) (by simp)
    simp only [Built.toJsonb, decodeNode, hkv2, List.nil_append, SameStructure]
    refine ⟨next, .array_mt, _, rfl, ?_, ?_⟩
    · rw [elemEntries_keys_eq, hdl, sequenceKeys_eq, hl]
      exact (hp.symm).map LVal.int
    · apply sameEntries_of
      intro e he
      obtain ⟨i, hi⟩ := hkeys e he
      have hil : i ∈ l := by
        have : e.1 ∈ kv.map Prod.fst := List.mem_map.mpr ⟨e, he, rfl⟩
        rw [hl, hi] at this
        obtain ⟨i2, hi2, h2⟩ := List.mem_map.mp this
        cases h2
        exact hi2
      have hrange := sequenceKeys_mem.mp (hp.subset hil)
      have hjl : (i - 1).toNat < bs.length := by rw [hblen]; omega
      obtain ⟨v, hv, _, hs⟩ := hfact (i - 1).toNat _ (List.getElem?_eq_getElem hjl)
      have hcast : (((i - 1).toNat : Nat) : Int) + 1 = i := by omega
      rw [hcast] at hv
      have hev : e = (LVal.int i, e.2) := by rw [← hi]
      have hve : v = e.2 := by
        rw [← rawget_int_present kv i v hkeys hnodup hv,
          rawget_int_present kv i e.2 hkeys hnodup (by rw [← hev]; exact he)]
      have hd : (Built.elemsToJsonb bs)[(i - 1).toNat]? = some (bs[(i - 1).toNat]).toJsonb := by
        rw [elemsToJsonb_getElem?, List.getElem?_eq_getElem hjl]
        rfl
      obtain ⟨n2, hn2⟩ := elemEntries_rawget E (mapConfig .nil) _ (next + 1) 0 _ _ hd
      have hk : (0 : Int) + 1 + (((i - 1).toNat : Nat) : Int) = i := by omega
      rw [hk] at hn2
      rw [hi, hn2, ← hve]
      exact hs n2

/-- The round trip of a non-empty table whose keys are strings not convertible to an
integer, given that of its values. -/
theorem strings_roundtrip (E : Env) (a : Nat) (kv : List (LVal × LVal)) (ks : List String)
    (hl : kv.map Prod.fst = ks.map LVal.str) (hnd : ks.Nodup) (hne : kv ≠ [])
    (hk : ∀ k ∈ ks, E.str2int k = none ∧ E.pg_verifymbstr k = true)
    (hent : ∀ e ∈ kv, PlainValue E e.2 ∧
      ∃ b, encodeValue E ⟨none, false, 1000, 1000, .nil⟩ e.2 = .ok b ∧
        ∀ next, SameStructure e.2 (decodeNode E (mapConfig .nil) next b.toJsonb).1) :
    ∃ b, encodeValue E ⟨none, false, 1000, 1000, .nil⟩ (.table a .none kv) = .ok b ∧
      ∀ next, SameStructure (.table a .none kv)
        (decodeNode E (mapConfig .nil) next b.toJsonb).1 := by
  have hpk := pushkeys_strings E a kv ks 1000 1000 hl hne (fun k h => (hk k h).1)
  have hkeys : ∀ e ∈ kv, ∃ j : String, e.1 = .str j := by
    intro e he
    have : e.1 ∈ kv.map Prod.fst := List.mem_map.mpr ⟨e, he, rfl⟩
    rw [hl] at this
    obtain ⟨j, _, hj⟩ := List.mem_map.mp this
    exact ⟨j, hj.symm⟩
  have hnodup : (kv.map Prod.fst).Nodup := by
    rw [hl]
    exact hnd.map (fun a b h => by simpa using h)
  have hval : ∀ k ∈ ks, ∃ v, (LVal.str k, v) ∈ kv := by
    intro k hk1
    have h2 : LVal.str k ∈ kv.map Prod.fst := by
      rw [hl]; exact List.mem_map.mpr ⟨_, hk1, rfl⟩
    obtain ⟨e, he, hek⟩ := List.mem_map.mp h2
    exact ⟨e.2, by rw [← hek]; exact he⟩
  obtain ⟨bps, hbs, hbk, hbp⟩ := encodePairs_strings E
    (fun key => encodeValue E ⟨none, false, 1000, 1000, .nil⟩ (rawget kv key)) ks
    (fun k hk1 => by
      refine ⟨(hk k hk1).2, ?_⟩
      obtain ⟨v, hv⟩ := hval k hk1
      obtain ⟨_, b, hb, _⟩ := hent _ hv
      refine ⟨b, ?_⟩
      simp only [rawget_str_present kv _ v hkeys hnodup hv]
      exact hb)
  have hfact : ∀ p ∈ bps, ∃ v, (LVal.str p.1, v) ∈ kv ∧ PlainValue E v ∧
      ∀ next, SameStructure v (decodeNode E (mapConfig .nil) next p.2.toJsonb).1 := by
    intro p hp
    have hpk1 : p.1 ∈ ks := by rw [← hbk]; exact List.mem_map.mpr ⟨p, hp, rfl⟩
    obtain ⟨v, hv⟩ := hval p.1 hpk1
    obtain ⟨hpv, b2, hb2, hs2⟩ := hent _ hv
    have h3 := hbp p hp
    simp only [rawget_str_present kv _ v hkeys hnodup hv] at h3
    simp only at hb2
    rw [hb2] at h3
    cases h3
    exact ⟨v, hv, hpv, hs2⟩
  have hl2 : lookupEncoded (encodeEntries E ⟨none, false, 1000, 1000, .nil⟩ kv)
      = fun key => encodeValue E ⟨none, false, 1000, 1000, .nil⟩ (rawget kv key) := by
    funext key; exact lookupEncoded_eq E _ key _
  have hdk : (Built.pairsToJsonb bps).map Prod.fst = ks := by
    rw [pairsToJsonb_eq_map, List.map_map, ← hbk]
    rfl
  refine ⟨.object bps, ?_, ?_⟩
  · simp only [encodeValue, lua_rawequal, Bool.false_eq_true, if_false, hpk, hl2, lua_isnil,
      if_true, hbs]
  · intro next
    have hnn : ∀ q ∈ Built.pairsToJsonb bps, ∀ n,
        lua_isnil (decodeNode E (mapConfig .nil) n q.2).1 = false := by
      intro q hq n
      rw [pairsToJsonb_eq_map] at hq
      obtain ⟨p, hp, rfl⟩ := List.mem_map.mp hq
      obtain ⟨v, _, hpv, hs⟩ := hfact p hp
      exact same_nonnil E v _ hpv (hs n)
    have hkv2 := decodePairs_entries_of E (mapConfig .nil) (Built.pairsToJsonb bps) (next + 1)
      [] hnn (by rw [hdk]; exact hnd) (by simp)
    simp only [Built.toJsonb, decodeNode, hkv2, List.nil_append, SameStructure]
    refine ⟨next, .object_mt, _, rfl, ?_, ?_⟩
    · rw [pairEntries_keys, hdk, hl]
    · apply sameEntries_of
      intro e he
      obtain ⟨s, hs⟩ := hkeys e he
      have hsk : s ∈ ks := by
        have : e.1 ∈ kv.map Prod.fst := List.mem_map.mpr ⟨e, he, rfl⟩
        rw [hl, hs] at this
        obtain ⟨s2, hs2, h2⟩ := List.mem_map.mp this
        cases h2
        exact hs2
      rw [← hbk] at hsk
      obtain ⟨p, hp, hps⟩ := List.mem_map.mp hsk
      obtain ⟨v, hv, _, hsame⟩ := hfact p hp
      rw [hps] at hv
      have hev : e = (LVal.str s, e.2) := by rw [← hs]
      have hve : v = e.2 := by
        rw [← rawget_str_present kv s v hkeys hnodup hv,
          rawget_str_present kv s e.2 hkeys hnodup (by rw [← hev]; exact he)]
      have hd : (s, p.2.toJsonb) ∈ Built.pairsToJsonb bps := by
        rw [pairsToJsonb_eq_map]
        exact List.mem_map.mpr ⟨p, hp, by rw [hps]⟩
      obtain ⟨n2, hn2⟩ := pairEntries_rawget E (mapConfig .nil) _ (next + 1) s _
        (by rw [hdk]; exact hnd) hd
      rw [hs, hn2, ← hve]
      exact hsame n2

mutual
/-- The round trip of a plain value, on the recursive characterisations of the two loops:
the value is encoded, and what the document decodes to has the structure of the value. -/
theorem plain_value_roundtrip (E : Env) : ∀ (x : LVal), PlainValue E x →
    ∃ b, encodeValue E ⟨none, false, 1000, 1000, .nil⟩ x = .ok b ∧
      ∀ next, SameStructure x (decodeNode E (mapConfig .nil) next b.toJsonb).1
  | .nil, h => by simp [PlainValue] at h
  | .bool c, _ =>
    ⟨.value (.jbvBool c), by simp [encodeValue, lua_rawequal, pllua_jsonb_toscalar],
      fun next => by
        simp [Built.toJsonb, JsonbValueToJsonb, decodeNode, SameStructure]⟩
  | .int i, h => by
    simp only [PlainValue] at h
    exact ⟨.value (.jbvNumeric (E.numericOfInt i)),
      by simp [encodeValue, lua_rawequal, pllua_jsonb_toscalar],
      fun next => by
        simp [Built.toJsonb, JsonbValueToJsonb, decodeNode, SameStructure, mapConfig, h]⟩
  | .flt q, h => by
    simp only [PlainValue] at h
    exact ⟨.value (.jbvNumeric (E.numericOfFloat q)),
      by simp [encodeValue, lua_rawequal, pllua_jsonb_toscalar],
      fun next => by
        simp [Built.toJsonb, JsonbValueToJsonb, decodeNode, SameStructure, mapConfig, h]⟩
  | .str s, h => by
    simp only [PlainValue] at h
    exact ⟨.value (.jbvString s),
      by simp [encodeValue, lua_rawequal, pllua_jsonb_toscalar, stringScalar, h],
      fun next => by
        simp [Built.toJsonb, JsonbValueToJsonb, decodeNode, SameStructure]⟩
  | .table a mt kv, h => by
    simp only [PlainValue] at h
    obtain ⟨rfl, hshape, hpe⟩ := h
    have hent := plain_entries_roundtrip E kv hpe
    rcases hshape with ⟨l, hl, hp, hn⟩ | ⟨ks, hl, hnd, hk⟩
    · exact sequence_roundtrip E a kv l hl hp hn hent
    · by_cases hne : kv = []
      · subst hne
        exact sequence_roundtrip E a [] [] rfl (by simp [sequenceKeys]) (by simp) hent
      · exact strings_roundtrip E a kv ks hl hnd hne hk hent
  | .userdata _ _ _, h => by simp [PlainValue] at h
  | .function _, h => by simp [PlainValue] at h
  | .lightuserdata _, h => by simp [PlainValue] at h
  | .thread _, h => by simp [PlainValue] at h
/-- The same for the values of the pairs of a table. -/
theorem plain_entries_roundtrip (E : Env) : ∀ (kv : List (LVal × LVal)), PlainEntries E kv →
    ∀ e ∈ kv, PlainValue E e.2 ∧
      ∃ b, encodeValue E ⟨none, false, 1000, 1000, .nil⟩ e.2 = .ok b ∧
        ∀ next, SameStructure e.2 (decodeNode E (mapConfig .nil) next b.toJsonb).1
  | [], _ => by simp
  | (k, v) :: rest, h => by
    simp only [PlainEntries] at h
    intro e he
    rcases List.mem_cons.mp he with rfl | he
    · exact ⟨h.1, plain_value_roundtrip E v h.1⟩
    · exact plain_entries_roundtrip E rest h.2 e he
end

theorem same_retag (x : LVal) (a a2 : Nat) (mt mt2 : Metatable) (kv2 : List (LVal × LVal))
    (h : SameStructure x (.table a mt kv2)) : SameStructure x (.table a2 mt2 kv2) := by
  cases x with
  | table a0 mt0 kv0 =>
    simp only [SameStructure] at h ⊢
    obtain ⟨a3, mt3, kv3, h2, h3, h4⟩ := h
    cases h2
    exact ⟨_, _, _, rfl, h3, h4⟩
  | _ => simp [SameStructure] at h

/-- The round trip of a plain value through `pllua_jsonb_tosql` and `pllua_jsonb_map`, both
with the default configuration: as long as no sequence has the 2,147,484 keys from which the
product `array_frac * numkeys` wraps, the result has the structure of the value. -/
theorem plain_roundtrip (E : Env) (x : LVal) (hx : PlainValue E x) (heap fuel : Nat)
    (hfuel : x.fuel ≤ fuel) :
    ∃ d y, pllua_jsonb_tosql E fuel [x, .nil] = some (.ok [d]) ∧
      pllua_jsonb_map E heap d .nil = .ok [y] ∧ SameStructure x y := by
  obtain ⟨b, hb, hs⟩ := plain_value_roundtrip E x hx
  refine ⟨b.toJsonb, _, ?_, map_eq E heap b.toJsonb .nil rfl rfl, ?_⟩
  · rw [tosql_eq E ⟨none, false, 1000, 1000, .nil⟩ rfl x .nil rfl fuel hfuel, hb]
  · by_cases hc : JB_ROOT_COUNT b.toJsonb = 0
    · rw [if_pos hc]
      have h1 := hs (heap + 1)
      cases hj : b.toJsonb with
      | array xs =>
        rw [hj] at hc h1
        simp only [JB_ROOT_COUNT, List.length_eq_zero] at hc
        subst hc
        simp only [decodeNode, decodeElems] at h1
        exact same_retag x _ _ _ _ _ h1
      | object ps =>
        rw [hj] at hc h1
        simp only [JB_ROOT_COUNT, List.length_eq_zero] at hc
        subst hc
        simp only [decodeNode, decodePairs] at h1
        exact same_retag x _ _ _ _ _ h1
      | null => rw [hj] at hc; simp [JB_ROOT_COUNT] at hc
      | bool _ => rw [hj] at hc; simp [JB_ROOT_COUNT] at hc
      | numeric _ => rw [hj] at hc; simp [JB_ROOT_COUNT] at hc
      | string _ => rw [hj] at hc; simp [JB_ROOT_COUNT] at hc
    · rw [if_neg hc]
      exact hs (heap + 1)

/-- The round trip at the value `{true, {a = "b"}, 7}`. -/
theorem plain_roundtrip_example :
    ∃ d y, pllua_jsonb_tosql refEnv 100
        [.table 1 .none [(.int 1, .bool true), (.int 2, .table 2 .none [(.str "a", .str "b")]),
          (.int 3, .int 7)], .nil] = some (.ok [d]) ∧
      pllua_jsonb_map refEnv 10 d .nil = .ok [y] ∧
      SameStructure (.table 1 .none [(.int 1, .bool true),
        (.int 2, .table 2 .none [(.str "a", .str "b")]), (.int 3, .int 7)]) y := by
  have hinner : PlainValue refEnv (.table 2 .none [(.str "a", .str "b")]) := by
    simp only [PlainValue, PlainEntries]
    refine ⟨trivial, Or.inr ⟨["a"], rfl, by decide, ?_⟩, rfl, trivial⟩
    intro k hk
    simp only [List.mem_singleton] at hk
    subst hk
    exact ⟨rfl, rfl⟩
  have hx : PlainValue refEnv (.table 1 .none [(.int 1, .bool true),
      (.int 2, .table 2 .none [(.str "a", .str "b")]), (.int 3, .int 7)]) := by
    rw [PlainValue]
    refine ⟨rfl, Or.inl ⟨[1, 2, 3], rfl, List.Perm.refl _, by decide⟩, ?_⟩
    simp only [PlainEntries]
    exact ⟨by simp [PlainValue], hinner, by rw [PlainValue]; rfl, trivial⟩
  exact plain_roundtrip refEnv _ hx 10 100 (by decide)

theorem mapResults_reverse (rs : List LVal) :
    (adjustResults rs 2).reverse = [(mapResults rs).2, (mapResults rs).1] := by
  rcases rs with _ | ⟨a, _ | ⟨b, rs⟩⟩ <;> simp [adjustResults, mapResults]

theorem find_filter_ne (p : List (Int × LVal)) (i j : Int) (h : ¬ j = i) :
    (p.filter (fun e => decide (e.1 ≠ i))).find? (fun e => decide (e.1 = j))
      = p.find? (fun e => decide (e.1 = j)) := by
  induction p with
  | nil => rfl
  | cons e p ih =>
    by_cases hej : e.1 = j
    · have he : ¬ e.1 = i := fun hi => h (hej ▸ hi)
      rw [List.filter_cons_of_pos (by simpa using he), List.find?_cons_of_pos _ (by simpa using hej),
        List.find?_cons_of_pos _ (by simpa using hej)]
    · by_cases he : e.1 = i
      · rw [List.filter_cons_of_neg (by simpa using he), List.find?_cons_of_neg _ (by simpa using hej),
          ih]
      · rw [List.filter_cons_of_pos (by simpa using he), List.find?_cons_of_neg _ (by simpa using hej),
          List.find?_cons_of_neg _ (by simpa using hej), ih]

theorem pathGet_pathSet (p : List (Int × LVal)) (i j : Int) (v : LVal) :
    pathGet (pathSet p i v) j = if j = i then v else pathGet p j := by
  unfold pathGet pathSet
  rw [List.find?_append]
  by_cases h : j = i
  · subst h
    have : (p.filter (fun e => decide (e.1 ≠ j))).find? (fun e => decide (e.1 = j)) = none := by
      rw [List.find?_eq_none]
      intro e he
      have := (List.mem_filter.mp he).2
      simpa using this
    rw [this]
    simp
  · rw [find_filter_ne p i j h]
    have hij : ¬ i = j := fun hh => h hh.symm
    cases hf : p.find? (fun e => decide (e.1 = j)) with
    | none => simp [List.find?_cons, hij, h]
    | some e => simp [h]

theorem pathEntries_congr (p q : List (Int × LVal)) (L : Int)
    (h : ∀ j : Int, j ≤ L → pathGet q j = pathGet p j) : pathEntries q L = pathEntries p L := by
  unfold pathEntries
  apply List.map_congr_left
  intro j hj
  have := List.mem_range.mp hj
  exact h _ (by omega)

theorem pathEntries_pathSet (p : List (Int × LVal)) (L : Int) (h0 : 0 ≤ L) (v : LVal) :
    pathEntries (pathSet p (L + 1) v) (L + 1) = pathEntries p L ++ [v] := by
  unfold pathEntries
  have e : (L + 1).toNat = L.toNat + 1 := by omega
  rw [e, List.range_succ, List.map_append]
  congr 1
  · apply List.map_congr_left
    intro j hj
    have := List.mem_range.mp hj
    rw [pathGet_pathSet]
    have : ¬ ((j : Int) + 1 = L + 1) := by omega
    simp [this]
  · have hL : ((L.toNat : Nat) : Int) + 1 = L + 1 := by omega
    simp only [List.map_cons, List.map_nil, hL, pathGet_pathSet, if_true]

theorem pathEntries_length (p : List (Int × LVal)) (L : Int) :
    (pathEntries p L).length = L.toNat := by
  simp [pathEntries]

/-- The call of the map on the two top slots, in closed form. -/
theorem mapCall_eq (E : Env) (cfg : MapConfig) (f : Nat) (hf : cfg.funcidx = some f)
    (st : MapState) (v k : LVal) (rest : List LVal) (hst : st.stack = v :: k :: rest)
    (h0 : 0 ≤ st.patht_len) :
    mapCall E cfg st =
      match E.call f (k :: v :: pathEntries st.patht st.patht_len) with
      | .error e => .error e
      | .ok rs =>
        .ok ⟨(mapResults rs).2 :: (mapResults rs).1 :: rest, st.patht, st.patht_len, st.next,
             st.calls ++ [k :: v :: pathEntries st.patht st.patht_len]⟩ := by
  have hn : (2 + st.patht_len).toNat = (pathEntries st.patht st.patht_len).reverse.length + 2 := by
    rw [List.length_reverse, pathEntries_length]; omega
  have htake : ((pathEntries st.patht st.patht_len).reverse ++ v :: k :: .function f :: rest).take
      ((pathEntries st.patht st.patht_len).reverse.length + 2)
      = (pathEntries st.patht st.patht_len).reverse ++ [v, k] := by
    rw [List.take_append_eq_append_take]
    simp
  have hdrop : ((pathEntries st.patht st.patht_len).reverse ++ v :: k :: .function f :: rest).drop
      ((pathEntries st.patht st.patht_len).reverse.length + 2) = .function f :: rest := by
    rw [List.drop_append_eq_append_drop]
    simp
  have hneg : ¬ (2 + st.patht_len < 0) := by omega
  simp only [mapCall, hf, hst, lua_call, hneg, if_false, hn, htake, hdrop]
  have hargs : ((pathEntries st.patht st.patht_len).reverse ++ [v, k]).reverse
      = k :: v :: pathEntries st.patht st.patht_len := by simp
  rw [hargs]
  cases E.call f (k :: v :: pathEntries st.patht st.patht_len) with
  | error e => rfl
  | ok rs => simp [mapResults_reverse]

/-- The case `WJB_ELEM` of the loop with a map, on an array whose table and running index are
on top of the stack. -/
theorem elem_step (E : Env) (cfg : MapConfig) (f : Nat) (hf : cfg.funcidx = some f)
    (hd : cfg.noresult = false) (st : MapState) (jv : JsonbValue) (v : LVal) (n1 : Nat)
    (hps : pushScalar E cfg st.next jv = (some v, n1))
    (idx : Int) (a : Nat) (mt : Metatable) (kv : List (LVal × LVal)) (below : List LVal)
    (hst : st.stack = .int idx :: .table a mt kv :: below) (h0 : 0 ≤ st.patht_len) :
    mapStep E cfg false st (.WJB_ELEM jv) =
      match E.call f (.int idx :: v :: pathEntries st.patht st.patht_len) with
      | .error e => .error e
      | .ok rs =>
        .ok ⟨.int (nextIndex idx)
              :: .table a mt (rawset kv (.int (nextIndex idx)) (mapResults rs).2) :: below,
             st.patht, st.patht_len, n1,
             st.calls ++ [.int idx :: v :: pathEntries st.patht st.patht_len]⟩ := by
  simp only [mapStep, pushValue, hps, hst]
  rw [mapCall_eq E cfg f hf
    ⟨v :: .int idx :: .table a mt kv :: below, st.patht, st.patht_len, n1, st.calls⟩ v (.int idx)
    (.table a mt kv :: below) rfl h0]
  cases E.call f (.int idx :: v :: pathEntries st.patht st.patht_len) with
  | error e => rfl
  | ok rs =>
    simp [hd, seti3, replaceTop, lua_settable, lua_isnil, lua_tointeger, lua_tointegerx,
      nextIndex]

/-- The case `WJB_VALUE` of the loop with a map that keeps keys, on an object whose table and
the key of the member are on top of the stack. -/
theorem value_step (E : Env) (cfg : MapConfig) (f : Nat) (hf : cfg.funcidx = some f)
    (hd : cfg.noresult = false) (hkeep : KeepsKey E f) (st : MapState) (jv : JsonbValue)
    (v : LVal) (n1 : Nat) (hps : pushScalar E cfg st.next jv = (some v, n1))
    (k : String) (a : Nat) (mt : Metatable) (kv : List (LVal × LVal)) (below : List LVal)
    (hst : st.stack = .str k :: .table a mt kv :: below) (h0 : 0 ≤ st.patht_len) :
    mapStep E cfg false st (.WJB_VALUE jv) =
      match E.call f (.str k :: v :: pathEntries st.patht st.patht_len) with
      | .error e => .error e
      | .ok rs =>
        .ok ⟨.table a mt (rawset kv (.str k) (mapResults rs).2) :: below,
             st.patht, st.patht_len, n1,
             st.calls ++ [.str k :: v :: pathEntries st.patht st.patht_len]⟩ := by
  simp only [mapStep, pushValue, hps, hst]
  rw [mapCall_eq E cfg f hf
    ⟨v :: .str k :: .table a mt kv :: below, st.patht, st.patht_len, n1, st.calls⟩ v (.str k)
    (.table a mt kv :: below) rfl h0]
  cases hc : E.call f (.str k :: v :: pathEntries st.patht st.patht_len) with
  | error e => rfl
  | ok rs =>
    have := hkeep _ _ _ _ hc
    simp [hd, settable3, lua_settable, lua_isnil, this]

theorem pushScalar_leaf (E : Env) (cfg : MapConfig) (next : Nat) (x : Jsonb)
    (hx : JB_ROOT_IS_SCALAR x = true) :
    ∃ jv, (∀ leaf, nodeTokens leaf x = [leaf jv]) ∧
      pushScalar E cfg next jv = (some (decodeNode E cfg next x).1, (decodeNode E cfg next x).2) := by
  cases x with
  | array xs => simp [JB_ROOT_IS_SCALAR] at hx
  | object ps => simp [JB_ROOT_IS_SCALAR] at hx
  | null => exact ⟨.jbvNull, fun _ => rfl, rfl⟩
  | bool b => exact ⟨.jbvBool b, fun _ => rfl, rfl⟩
  | string s => exact ⟨.jbvString s, fun _ => rfl, rfl⟩
  | numeric n =>
    refine ⟨.jbvNumeric n, fun _ => rfl, ?_⟩
    by_cases hk : cfg.keep_numeric = true <;> simp [pushScalar, decodeNode, hk]

theorem visitNode_leaf (E : Env) (f : Nat) (cfg : MapConfig) (path : List LVal) (key : LVal)
    (next : Nat) (x : Jsonb) (hx : JB_ROOT_IS_SCALAR x = true) :
    visitNode E f cfg path key next x =
      match E.call f (key :: (decodeNode E cfg next x).1 :: path) with
      | .error e => .error e
      | .ok rs =>
        .ok ((mapResults rs).2, (decodeNode E cfg next x).2,
          [key :: (decodeNode E cfg next x).1 :: path]) := by
  cases x with
  | array xs => simp [JB_ROOT_IS_SCALAR] at hx
  | object ps => simp [JB_ROOT_IS_SCALAR] at hx
  | null => simp only [visitNode, decodeNode]
  | bool b => simp only [visitNode, decodeNode]
  | string s => simp only [visitNode, decodeNode]
  | numeric n => simp only [visitNode, decodeNode]

theorem visitNode_container (E : Env) (f : Nat) (cfg : MapConfig) (path : List LVal)
    (key : LVal) (next : Nat) (x : Jsonb) (hx : JB_ROOT_IS_SCALAR x = false) :
    visitNode E f cfg path key next x =
      match visitInside E f cfg (path ++ keyEntry key) next x with
      | .error e => .error e
      | .ok (tbl, n1, c1) =>
        match E.call f (key :: tbl :: path) with
        | .error e => .error e
        | .ok rs => .ok ((mapResults rs).2, n1, c1 ++ [key :: tbl :: path]) := by
  cases x with
  | array xs =>
    simp only [visitNode, visitInside]
    cases visitElems E f cfg (path ++ keyEntry key) (next + 1) 0 [] xs <;> rfl
  | object ps =>
    simp only [visitNode, visitInside]
    cases visitPairs E f cfg (path ++ keyEntry key) (next + 1) [] ps <;> rfl
  | null => simp [JB_ROOT_IS_SCALAR] at hx
  | bool b => simp [JB_ROOT_IS_SCALAR] at hx
  | string s => simp [JB_ROOT_IS_SCALAR] at hx
  | numeric n => simp [JB_ROOT_IS_SCALAR] at hx

/-- Closing a container that is an element of an array, with a map that keeps keys. -/
theorem close_elem_map (E : Env) (cfg : MapConfig) (f : Nat) (hf : cfg.funcidx = some f)
    (hd : cfg.noresult = false) (hkeep : KeepsKey E f) (child : LVal) (idx : Int) (a : Nat)
    (mt : Metatable) (kv : List (LVal × LVal)) (below : List LVal) (p : List (Int × LVal))
    (L : Int) (h0 : 0 ≤ L) (next : Nat) (calls : List (List LVal)) :
    endContainer E cfg ⟨child :: .int idx :: .table a mt kv :: below, p, L + 1, next, calls⟩ =
      match E.call f (.int idx :: child :: pathEntries p L) with
      | .error e => .error e
      | .ok rs =>
        .ok ⟨.int (nextIndex idx)
              :: .table a mt (rawset kv (.int (nextIndex idx)) (mapResults rs).2) :: below,
             p, L, next, calls ++ [.int idx :: child :: pathEntries p L]⟩ := by
  simp only [endContainer, lua_isnil, Bool.not_false, if_true, hd, add_sub_cancel_right]
  rw [mapCall_eq E cfg f hf
    ⟨child :: .int idx :: .table a mt kv :: below, p, L, next, calls⟩ child (.int idx)
    (.table a mt kv :: below) rfl h0]
  cases hc : E.call f (.int idx :: child :: pathEntries p L) with
  | error e => rfl
  | ok rs =>
    have := hkeep _ _ _ _ hc
    simp [this, lua_isinteger, seti3, replaceTop, lua_settable, lua_isnil, lua_tointeger,
      lua_tointegerx, nextIndex]

/-- Closing a container that is a member of an object, with a map that keeps keys. -/
theorem close_value_map (E : Env) (cfg : MapConfig) (f : Nat) (hf : cfg.funcidx = some f)
    (hd : cfg.noresult = false) (hkeep : KeepsKey E f) (child : LVal) (k : String) (a : Nat)
    (mt : Metatable) (kv : List (LVal × LVal)) (below : List LVal) (p : List (Int × LVal))
    (L : Int) (h0 : 0 ≤ L) (next : Nat) (calls : List (List LVal)) :
    endContainer E cfg ⟨child :: .str k :: .table a mt kv :: below, p, L + 1, next, calls⟩ =
      match E.call f (.str k :: child :: pathEntries p L) with
      | .error e => .error e
      | .ok rs =>
        .ok ⟨.table a mt (rawset kv (.str k) (mapResults rs).2) :: below,
             p, L, next, calls ++ [.str k :: child :: pathEntries p L]⟩ := by
  simp only [endContainer, lua_isnil, Bool.not_false, if_true, hd, add_sub_cancel_right]
  rw [mapCall_eq E cfg f hf
    ⟨child :: .str k :: .table a mt kv :: below, p, L, next, calls⟩ child (.str k)
    (.table a mt kv :: below) rfl h0]
  cases hc : E.call f (.str k :: child :: pathEntries p L) with
  | error e => rfl
  | ok rs =>
    have := hkeep _ _ _ _ hc
    simp [this, lua_isinteger, settable3, lua_settable, lua_isnil]

/-- Closing the root container with a map: the map is called on it with the key nil, and its
two results stay on the stack. -/
theorem close_root_map (E : Env) (cfg : MapConfig) (f : Nat) (hf : cfg.funcidx = some f)
    (hd : cfg.noresult = false) (child : LVal) (below : List LVal) (p : List (Int × LVal))
    (L : Int) (h0 : 0 ≤ L) (next : Nat) (calls : List (List LVal)) :
    endContainer E cfg ⟨child :: .nil :: below, p, L, next, calls⟩ =
      match E.call f (.nil :: child :: pathEntries p L) with
      | .error e => .error e
      | .ok rs =>
        .ok ⟨(mapResults rs).2 :: (mapResults rs).1 :: below, p, L, next,
             calls ++ [.nil :: child :: pathEntries p L]⟩ := by
  simp only [endContainer, lua_isnil, Bool.not_true, hd, Bool.not_false, if_true,
    Bool.false_eq_true, if_false]
  rw [mapCall_eq E cfg f hf ⟨child :: .nil :: below, p, L, next, calls⟩ child .nil below rfl h0]
  cases hc : E.call f (.nil :: child :: pathEntries p L) with
  | error e => rfl
  | ok rs => simp

/-- The cases `WJB_BEGIN_ARRAY` and `WJB_BEGIN_OBJECT` when nothing is discarded, with the
path they leave. -/
theorem begin_step_path (cfg : MapConfig) (hd : cfg.noresult = false) (st : MapState)
    (top : LVal) (rest : List LVal) (hst : st.stack = top :: rest) (h0 : 0 ≤ st.patht_len)
    (mt : Metatable) :
    ∃ p, (∀ j : Int, j ≤ st.patht_len → pathGet p j = pathGet st.patht j)
      ∧ pathEntries p (if lua_isnil top then st.patht_len else st.patht_len + 1)
          = pathEntries st.patht st.patht_len ++ keyEntry top
      ∧ beginContainer cfg st mt false =
        .ok ⟨.table st.next mt [] :: st.stack, p,
             (if lua_isnil top then st.patht_len else st.patht_len + 1), st.next + 1, st.calls⟩
      ∧ beginContainer cfg st mt true =
        .ok ⟨.int 0 :: .table st.next mt [] :: st.stack, p,
             (if lua_isnil top then st.patht_len else st.patht_len + 1), st.next + 1, st.calls⟩ := by
  by_cases hn : lua_isnil top = true
  · exact ⟨st.patht, fun _ _ => rfl, by simp [hn, keyEntry],
      by simp [beginContainer, hst, hn, hd], by simp [beginContainer, hst, hn, hd]⟩
  · refine ⟨pathSet st.patht (st.patht_len + 1) top, ?_, ?_,
      by simp [beginContainer, hst, hn, hd], by simp [beginContainer, hst, hn, hd]⟩
    · intro j hj
      rw [pathGet_pathSet]
      have : ¬ j = st.patht_len + 1 := by omega
      simp [this]
    · simp only [hn, Bool.false_eq_true, if_false, keyEntry]
      exact pathEntries_pathSet _ _ h0 _

theorem mapLoop_single (E : Env) (cfg : MapConfig) (sc : Bool) (st : MapState)
    (t : JsonbIteratorToken) : mapLoop E cfg sc st [t] = mapStep E cfg sc st t := by
  simp only [mapLoop]
  cases mapStep E cfg sc st t <;> rfl

mutual
/-- The decode loop with a map that keeps keys, on the tokens of a container, from any state
with a nonempty stack: it builds the table of `visitInside` on top of the stack, calling the
map as `visitInside` does, and then closes it. -/
theorem visit_container (E : Env) (cfg : MapConfig) (f : Nat) (hf : cfg.funcidx = some f)
    (hd : cfg.noresult = false) (hkeep : KeepsKey E f) :
    ∀ (x : Jsonb) (leaf : JsonbValue → JsonbIteratorToken) (st : MapState) (top : LVal)
      (rest : List LVal), st.stack = top :: rest → JB_ROOT_IS_SCALAR x = false →
      0 ≤ st.patht_len →
      ∃ p, (∀ j : Int, j ≤ st.patht_len → pathGet p j = pathGet st.patht j) ∧
        mapLoop E cfg false st (nodeTokens leaf x) =
          match visitInside E f cfg (pathEntries st.patht st.patht_len ++ keyEntry top) st.next
              x with
          | .error e => .error e
          | .ok (tbl, n1, c1) =>
            endContainer E cfg
              ⟨tbl :: st.stack, p, (if lua_isnil top then st.patht_len else st.patht_len + 1),
               n1, st.calls ++ c1⟩
  | .array xs, leaf, st, top, rest, hst, _, h0 => by
    obtain ⟨p1, hp1, hpath, _, hb⟩ := begin_step_path cfg hd st top rest hst h0 .array_mt
    have hL : 0 ≤ (if lua_isnil top then st.patht_len else st.patht_len + 1) := by
      split <;> omega
    obtain ⟨p2, i2, hp2, he⟩ := visit_elems E cfg f hf hd hkeep xs
      ⟨.int 0 :: .table st.next .array_mt [] :: st.stack, p1,
        (if lua_isnil top then st.patht_len else st.patht_len + 1), st.next + 1, st.calls⟩
      0 st.next .array_mt [] st.stack rfl hL
    refine ⟨p2, ?_, ?_⟩
    · intro j hj
      rw [hp2 j (by simp only; split <;> omega), hp1 j hj]
    · simp only [nodeTokens, mapLoop, mapStep, Bool.not_false, if_true, hb]
      rw [mapLoop_append, he]
      simp only [hpath, visitInside]
      cases visitElems E f cfg (pathEntries st.patht st.patht_len ++ keyEntry top) (st.next + 1)
          0 [] xs with
      | error e => rfl
      | ok r =>
        obtain ⟨kv2, n2, c2⟩ := r
        simp only [mapLoop, mapStep, Bool.false_eq_true, if_false]
        generalize endContainer E cfg _ = r
        cases r <;> rfl
  | .object ps, leaf, st, top, rest, hst, _, h0 => by
    obtain ⟨p1, hp1, hpath, hb, _⟩ := begin_step_path cfg hd st top rest hst h0 .object_mt
    have hL : 0 ≤ (if lua_isnil top then st.patht_len else st.patht_len + 1) := by
      split <;> omega
    obtain ⟨p2, hp2, he⟩ := visit_pairs E cfg f hf hd hkeep ps
      ⟨.table st.next .object_mt [] :: st.stack, p1,
        (if lua_isnil top then st.patht_len else st.patht_len + 1), st.next + 1, st.calls⟩
      st.next .object_mt [] st.stack rfl hL
    refine ⟨p2, ?_, ?_⟩
    · intro j hj
      rw [hp2 j (by simp only; split <;> omega), hp1 j hj]
    · simp only [nodeTokens, mapLoop, mapStep, hb]
      rw [mapLoop_append, he]
      simp only [hpath, visitInside]
      cases visitPairs E f cfg (pathEntries st.patht st.patht_len ++ keyEntry top) (st.next + 1)
          [] ps with
      | error e => rfl
      | ok r =>
        obtain ⟨kv2, n2, c2⟩ := r
        simp only [mapLoop, mapStep]
        generalize endContainer E cfg _ = r
        cases r <;> rfl
  | .null, _, _, _, _, _, h, _ => by simp [JB_ROOT_IS_SCALAR] at h
  | .bool _, _, _, _, _, _, h, _ => by simp [JB_ROOT_IS_SCALAR] at h
  | .numeric _, _, _, _, _, _, h, _ => by simp [JB_ROOT_IS_SCALAR] at h
  | .string _, _, _, _, _, _, h, _ => by simp [JB_ROOT_IS_SCALAR] at h
/-- The decode loop with a map that keeps keys, on the tokens of the elements of an array
whose table and running index are on top of the stack. -/
theorem visit_elems (E : Env) (cfg : MapConfig) (f : Nat) (hf : cfg.funcidx = some f)
    (hd : cfg.noresult = false) (hkeep : KeepsKey E f) :
    ∀ (xs : List Jsonb) (st : MapState) (idx : Int) (a : Nat) (mt : Metatable)
      (kv : List (LVal × LVal)) (below : List LVal),
      st.stack = .int idx :: .table a mt kv :: below → 0 ≤ st.patht_len →
      ∃ p i2, (∀ j : Int, j ≤ st.patht_len → pathGet p j = pathGet st.patht j) ∧
        mapLoop E cfg false st (elemsTokens xs) =
          match visitElems E f cfg (pathEntries st.patht st.patht_len) st.next idx kv xs with
          | .error e => .error e
          | .ok (kv2, n2, c2) =>
            .ok ⟨.int i2 :: .table a mt kv2 :: below, p, st.patht_len, n2, st.calls ++ c2⟩
  | [], st, idx, a, mt, kv, below, hst, _ => by
    refine ⟨st.patht, idx, fun _ _ => rfl, ?_⟩
    simp only [elemsTokens, mapLoop, visitElems, List.append_nil]
    rw [← hst]
  | x :: xs, st, idx, a, mt, kv, below, hst, h0 => by
    have hx : ∃ p1, (∀ j : Int, j ≤ st.patht_len → pathGet p1 j = pathGet st.patht j) ∧
        mapLoop E cfg false st (nodeTokens .WJB_ELEM x) =
          match visitNode E f cfg (pathEntries st.patht st.patht_len) (.int idx) st.next x with
          | .error e => .error e
          | .ok (v, n1, c1) =>
            .ok ⟨.int (nextIndex idx) :: .table a mt (rawset kv (.int (nextIndex idx)) v)
                  :: below, p1, st.patht_len, n1, st.calls ++ c1⟩ := by
      by_cases hs : JB_ROOT_IS_SCALAR x = true
      · obtain ⟨jv, htok, hps⟩ := pushScalar_leaf E cfg st.next x hs
        refine ⟨st.patht, fun _ _ => rfl, ?_⟩
        rw [htok, mapLoop_single, elem_step E cfg f hf hd st jv _ _ hps idx a mt kv below hst h0,
          visitNode_leaf E f cfg _ _ _ x hs]
        cases E.call f _ <;> rfl
      · have hs2 : JB_ROOT_IS_SCALAR x = false := by simpa using hs
        obtain ⟨p, hp, hm⟩ := visit_container E cfg f hf hd hkeep x .WJB_ELEM st (.int idx)
          (.table a mt kv :: below) hst hs2 h0
        refine ⟨p, hp, ?_⟩
        rw [hm, visitNode_container E f cfg _ _ _ x hs2]
        cases visitInside E f cfg (pathEntries st.patht st.patht_len ++ keyEntry (.int idx))
            st.next x with
        | error e => rfl
        | ok r =>
          obtain ⟨tbl, n1, c1⟩ := r
          simp only [lua_isnil, Bool.false_eq_true, if_false, hst]
          rw [close_elem_map E cfg f hf hd hkeep tbl idx a mt kv below p st.patht_len h0,
            pathEntries_congr _ _ _ hp]
          cases E.call f _ <;> simp
    obtain ⟨p1, hp1, hx1⟩ := hx
    cases hv : visitNode E f cfg (pathEntries st.patht st.patht_len) (.int idx) st.next x with
    | error e =>
      refine ⟨st.patht, idx, fun _ _ => rfl, ?_⟩
      simp only [elemsTokens, visitElems, hv]
      rw [mapLoop_append, hx1, hv]
    | ok r =>
      obtain ⟨v, n1, c1⟩ := r
      obtain ⟨p2, i2, hp2, he⟩ := visit_elems E cfg f hf hd hkeep xs
        ⟨.int (nextIndex idx) :: .table a mt (rawset kv (.int (nextIndex idx)) v) :: below,
          p1, st.patht_len, n1, st.calls ++ c1⟩
        (nextIndex idx) a mt _ below rfl h0
      refine ⟨p2, i2, fun j hj => by rw [hp2 j hj, hp1 j hj], ?_⟩
      simp only [elemsTokens, visitElems, hv]
      rw [mapLoop_append, hx1, hv]
      simp only [he, pathEntries_congr _ _ _ hp1]
      cases visitElems E f cfg (pathEntries st.patht st.patht_len) n1 (nextIndex idx)
          (rawset kv (.int (nextIndex idx)) v) xs with
      | error e => rfl
      | ok r2 =>
        obtain ⟨kv2, n2, c2⟩ := r2
        simp [List.append_assoc]
/-- The decode loop with a map that keeps keys, on the tokens of the pairs of an object whose
table is on top of the stack. -/
theorem visit_pairs (E : Env) (cfg : MapConfig) (f : Nat) (hf : cfg.funcidx = some f)
    (hd : cfg.noresult = false) (hkeep : KeepsKey E f) :
    ∀ (ps : List (String × Jsonb)) (st : MapState) (a : Nat) (mt : Metatable)
      (kv : List (LVal × LVal)) (below : List LVal),
      st.stack = .table a mt kv :: below → 0 ≤ st.patht_len →
      ∃ p, (∀ j : Int, j ≤ st.patht_len → pathGet p j = pathGet st.patht j) ∧
        mapLoop E cfg false st (pairsTokens ps) =
          match visitPairs E f cfg (pathEntries st.patht st.patht_len) st.next kv ps with
          | .error e => .error e
          | .ok (kv2, n2, c2) =>
            .ok ⟨.table a mt kv2 :: below, p, st.patht_len, n2, st.calls ++ c2⟩
  | [], st, a, mt, kv, below, hst, _ => by
    refine ⟨st.patht, fun _ _ => rfl, ?_⟩
    simp only [pairsTokens, mapLoop, visitPairs, List.append_nil]
    rw [← hst]
  | (k, x) :: ps, st, a, mt, kv, below, hst, h0 => by
    have hkey : mapStep E cfg false st (.WJB_KEY (.jbvString k)) =
        .ok ⟨.str k :: .table a mt kv :: below, st.patht, st.patht_len, st.next, st.calls⟩ := by
      simp [mapStep, pushValue, pushScalar, hst]
    have hx : ∃ p1, (∀ j : Int, j ≤ st.patht_len → pathGet p1 j = pathGet st.patht j) ∧
        mapLoop E cfg false
          ⟨.str k :: .table a mt kv :: below, st.patht, st.patht_len, st.next, st.calls⟩
          (nodeTokens .WJB_VALUE x) =
          match visitNode E f cfg (pathEntries st.patht st.patht_len) (.str k) st.next x with
          | .error e => .error e
          | .ok (v, n1, c1) =>
            .ok ⟨.table a mt (rawset kv (.str k) v) :: below, p1, st.patht_len, n1,
                 st.calls ++ c1⟩ := by
      by_cases hs : JB_ROOT_IS_SCALAR x = true
      · obtain ⟨jv, htok, hps⟩ := pushScalar_leaf E cfg st.next x hs
        refine ⟨st.patht, fun _ _ => rfl, ?_⟩
        rw [htok, mapLoop_single, value_step E cfg f hf hd hkeep
          ⟨.str k :: .table a mt kv :: below, st.patht, st.patht_len, st.next, st.calls⟩
          jv _ _ hps k a mt kv below rfl h0,
          visitNode_leaf E f cfg _ _ _ x hs]
        cases E.call f _ <;> rfl
      · have hs2 : JB_ROOT_IS_SCALAR x = false := by simpa using hs
        obtain ⟨p, hp, hm⟩ := visit_container E cfg f hf hd hkeep x .WJB_VALUE
          ⟨.str k :: .table a mt kv :: below, st.patht, st.patht_len, st.next, st.calls⟩
          (.str k) (.table a mt kv :: below) rfl hs2 h0
        refine ⟨p, hp, ?_⟩
        rw [hm, visitNode_container E f cfg _ _ _ x hs2]
        cases visitInside E f cfg (pathEntries st.patht st.patht_len ++ keyEntry (.str k))
            st.next x with
        | error e => rfl
        | ok r =>
          obtain ⟨tbl, n1, c1⟩ := r
          simp only [lua_isnil, Bool.false_eq_true, if_false]
          rw [close_value_map E cfg f hf hd hkeep tbl k a mt kv below p st.patht_len h0,
            pathEntries_congr _ _ _ hp]
          cases E.call f _ <;> simp
    obtain ⟨p1, hp1, hx1⟩ := hx
    cases hv : visitNode E f cfg (pathEntries st.patht st.patht_len) (.str k) st.next x with
    | error e =>
      refine ⟨st.patht, fun _ _ => rfl, ?_⟩
      simp only [pairsTokens, visitPairs, hv, mapLoop, hkey]
      rw [mapLoop_append, hx1, hv]
    | ok r =>
      obtain ⟨v, n1, c1⟩ := r
      obtain ⟨p2, hp2, he⟩ := visit_pairs E cfg f hf hd hkeep ps
        ⟨.table a mt (rawset kv (.str k) v) :: below, p1, st.patht_len, n1, st.calls ++ c1⟩
        a mt _ below rfl h0
      refine ⟨p2, fun j hj => by rw [hp2 j hj, hp1 j hj], ?_⟩
      simp only [pairsTokens, visitPairs, hv, mapLoop, hkey]
      rw [mapLoop_append, hx1, hv]
      simp only [he, pathEntries_congr _ _ _ hp1]
      cases visitPairs E f cfg (pathEntries st.patht st.patht_len) n1 (rawset kv (.str k) v)
          ps with
      | error e => rfl
      | ok r2 =>
        obtain ⟨kv2, n2, c2⟩ := r2
        simp [List.append_assoc]
end

/-- The decode loop with a map that keeps keys is the visit of the document: the value
returned is the one the map returns for the root, and the calls of the map are those of
`visitNode`, in order. -/
theorem mapRun_visits (E : Env) (heap : Nat) (cfg : MapConfig) (f : Nat)
    (hf : cfg.funcidx = some f) (hd : cfg.noresult = false) (hkeep : KeepsKey E f) (jb : Jsonb)
    (hc : JB_ROOT_COUNT jb ≠ 0) :
    mapRun E heap cfg (JB_ROOT_COUNT jb) (JB_ROOT_IS_SCALAR jb) (JsonbIterator jb) =
      match visitNode E f cfg [] .nil (heap + 1) jb with
      | .error e => .error e
      | .ok (v, _, calls) => .ok ([v], calls) := by
  unfold mapRun
  simp only [hc, if_false, hd]
  by_cases hs : JB_ROOT_IS_SCALAR jb = true
  · obtain ⟨jv, htok, hps⟩ := pushScalar_leaf E cfg (heap + 1) jb hs
    rw [visitNode_leaf E f cfg _ _ _ jb hs]
    simp only [JsonbIterator, hs, if_true, htok, List.singleton_append, mapLoop, mapStep,
      Bool.not_true, Bool.false_eq_true, if_false, MapState.init, pushValue, hps]
    rw [mapCall_eq E cfg f hf
      ⟨[(decodeNode E cfg (heap + 1) jb).1, .nil, .table heap .none []], [], 0,
        (decodeNode E cfg (heap + 1) jb).2, []⟩
      (decodeNode E cfg (heap + 1) jb).1 .nil [.table heap .none []] rfl (le_refl _)]
    simp only [pathEntries, Int.toNat_zero, List.range_zero, List.map_nil, List.nil_append]
    cases E.call f [.nil, (decodeNode E cfg (heap + 1) jb).1] with
    | error e => rfl
    | ok rs => simp
  · have hs2 : JB_ROOT_IS_SCALAR jb = false := by simpa using hs
    obtain ⟨p, _, hm⟩ := visit_container E cfg f hf hd hkeep jb .WJB_ELEM (MapState.init heap)
      .nil [.table heap .none []] rfl hs2 (le_refl _)
    simp only [JsonbIterator, hs2, Bool.false_eq_true, if_false]
    rw [hm, visitNode_container E f cfg _ _ _ jb hs2]
    simp only [MapState.init, pathEntries, Int.toNat_zero, List.range_zero, List.map_nil,
      keyEntry, lua_isnil, if_true, List.nil_append, List.append_nil]
    cases visitInside E f cfg [] (heap + 1) jb with
    | error e => rfl
    | ok r =>
      obtain ⟨tbl, n1, c1⟩ := r
      simp only
      rw [close_root_map E cfg f hf hd tbl [.table heap .none []] p 0 (le_refl _)]
      simp only [pathEntries, Int.toNat_zero, List.range_zero, List.map_nil]
      cases E.call f [.nil, tbl] with
      | error e => rfl
      | ok rs => simp

/-- The addresses the decoding allocates do not depend on the pairs stored so far nor on the
running index. -/
theorem decodeElems_next (E : Env) (cfg : MapConfig) :
    ∀ (xs : List Jsonb) (next : Nat) (idx idx2 : Int) (kv kv2 : List (LVal × LVal)),
      (decodeElems E cfg next idx kv xs).2 = (decodeElems E cfg next idx2 kv2 xs).2
  | [], next, idx, idx2, kv, kv2 => by simp [decodeElems]
  | x :: xs, next, idx, idx2, kv, kv2 => by
    simp only [decodeElems]
    exact decodeElems_next E cfg xs _ _ _ _ _

theorem decodePairs_next (E : Env) (cfg : MapConfig) :
    ∀ (ps : List (String × Jsonb)) (next : Nat) (kv kv2 : List (LVal × LVal)),
      (decodePairs E cfg next kv ps).2 = (decodePairs E cfg next kv2 ps).2 := by
  intro ps
  induction ps with
  | nil => intro next kv kv2; simp [decodePairs]
  | cons p ps ih =>
    obtain ⟨k, x⟩ := p
    intro next kv kv2
    simp only [decodePairs]
    exact ih _ _ _
mutual
/-- The visit of a node allocates the addresses the decoding without a map does, and its
calls contain the calls on the scalar leaves, in order. -/
theorem visitNode_leaves (E : Env) (f : Nat) (cfg : MapConfig) :
    ∀ (x : Jsonb) (path : List LVal) (key : LVal) (next : Nat) (v : LVal) (n1 : Nat)
      (c : List (List LVal)), visitNode E f cfg path key next x = .ok (v, n1, c) →
      n1 = (decodeNode E cfg next x).2 ∧ List.Sublist (leafCalls E cfg path key next x) c
  | .null, path, key, next, v, n1, c, h => by
    simp only [visitNode] at h
    cases hc : E.call f (key :: cfg.nullvalue :: path) with
    | error e => rw [hc] at h; cases h
    | ok rs =>
      rw [hc] at h
      cases h
      exact ⟨rfl, by simp [leafCalls]⟩
  | .bool b, path, key, next, v, n1, c, h => by
    simp only [visitNode] at h
    cases hc : E.call f (key :: .bool b :: path) with
    | error e => rw [hc] at h; cases h
    | ok rs =>
      rw [hc] at h
      cases h
      exact ⟨rfl, by simp [leafCalls]⟩
  | .string s, path, key, next, v, n1, c, h => by
    simp only [visitNode] at h
    cases hc : E.call f (key :: .str s :: path) with
    | error e => rw [hc] at h; cases h
    | ok rs =>
      rw [hc] at h
      cases h
      exact ⟨rfl, by simp [leafCalls]⟩
  | .numeric n, path, key, next, v, n1, c, h => by
    simp only [visitNode] at h
    cases hc : E.call f (key :: (decodeNode E cfg next (.numeric n)).1 :: path) with
    | error e => rw [hc] at h; cases h
    | ok rs =>
      rw [hc] at h
      cases h
      exact ⟨by simp [decodeNode], by simp [leafCalls]⟩
  | .array xs, path, key, next, v, n1, c, h => by
    simp only [visitNode] at h
    cases he : visitElems E f cfg (path ++ keyEntry key) (next + 1) 0 [] xs with
    | error e => rw [he] at h; cases h
    | ok r =>
      obtain ⟨kv, n2, c2⟩ := r
      rw [he] at h
      simp only at h
      cases hc : E.call f (key :: .table next .array_mt kv :: path) with
      | error e => rw [hc] at h; cases h
      | ok rs =>
        rw [hc] at h
        cases h
        obtain ⟨hn, hs⟩ := visitElems_leaves E f cfg xs _ _ _ _ _ _ _ he
        refine ⟨?_, ?_⟩
        · rw [hn]
          simp only [decodeNode]
        · simp only [leafCalls]
          exact hs.trans (List.sublist_append_left _ _)
  | .object ps, path, key, next, v, n1, c, h => by
    simp only [visitNode] at h
    cases he : visitPairs E f cfg (path ++ keyEntry key) (next + 1) [] ps with
    | error e => rw [he] at h; cases h
    | ok r =>
      obtain ⟨kv, n2, c2⟩ := r
      rw [he] at h
      simp only at h
      cases hc : E.call f (key :: .table next .object_mt kv :: path) with
      | error e => rw [hc] at h; cases h
      | ok rs =>
        rw [hc] at h
        cases h
        obtain ⟨hn, hs⟩ := visitPairs_leaves E f cfg ps _ _ _ _ _ _ he
        refine ⟨?_, ?_⟩
        · rw [hn]
          simp only [decodeNode]
        · simp only [leafCalls]
          exact hs.trans (List.sublist_append_left _ _)
/-- The same for the elements of an array. -/
theorem visitElems_leaves (E : Env) (f : Nat) (cfg : MapConfig) :
    ∀ (xs : List Jsonb) (path : List LVal) (next : Nat) (idx : Int) (kv kv2 : List (LVal × LVal))
      (n2 : Nat) (c : List (List LVal)),
      visitElems E f cfg path next idx kv xs = .ok (kv2, n2, c) →
      n2 = (decodeElems E cfg next idx [] xs).2 ∧
        List.Sublist (elemLeafCalls E cfg path next idx xs) c
  | [], path, next, idx, kv, kv2, n2, c, h => by
    simp only [visitElems] at h
    cases h
    exact ⟨by simp [decodeElems], by simp [elemLeafCalls]⟩
  | x :: xs, path, next, idx, kv, kv2, n2, c, h => by
    simp only [visitElems] at h
    cases hv : visitNode E f cfg path (.int idx) next x with
    | error e => rw [hv] at h; cases h
    | ok r =>
      obtain ⟨v, n1, c1⟩ := r
      rw [hv] at h
      simp only at h
      cases he : visitElems E f cfg path n1 (nextIndex idx) (rawset kv (.int (nextIndex idx)) v)
          xs with
      | error e => rw [he] at h; cases h
      | ok r2 =>
        obtain ⟨kv3, n3, c3⟩ := r2
        rw [he] at h
        cases h
        obtain ⟨hn1, hs1⟩ := visitNode_leaves E f cfg x _ _ _ _ _ _ hv
        obtain ⟨hn3, hs3⟩ := visitElems_leaves E f cfg xs _ _ _ _ _ _ _ he
        subst hn1
        refine ⟨?_, ?_⟩
        · rw [hn3]
          simp only [decodeElems]
          exact decodeElems_next E cfg xs _ _ _ _ _
        · simp only [elemLeafCalls]
          exact hs1.append hs3
/-- The same for the members of an object. -/
theorem visitPairs_leaves (E : Env) (f : Nat) (cfg : MapConfig) :
    ∀ (ps : List (String × Jsonb)) (path : List LVal) (next : Nat) (kv kv2 : List (LVal × LVal))
      (n2 : Nat) (c : List (List LVal)),
      visitPairs E f cfg path next kv ps = .ok (kv2, n2, c) →
      n2 = (decodePairs E cfg next [] ps).2 ∧
        List.Sublist (pairLeafCalls E cfg path next ps) c
  | [], path, next, kv, kv2, n2, c, h => by
    simp only [visitPairs] at h
    cases h
    exact ⟨by simp [decodePairs], by simp [pairLeafCalls]⟩
  | (k, x) :: ps, path, next, kv, kv2, n2, c, h => by
    simp only [visitPairs] at h
    cases hv : visitNode E f cfg path (.str k) next x with
    | error e => rw [hv] at h; cases h
    | ok r =>
      obtain ⟨v, n1, c1⟩ := r
      rw [hv] at h
      simp only at h
      cases he : visitPairs E f cfg path n1 (rawset kv (.str k) v) ps with
      | error e => rw [he] at h; cases h
      | ok r2 =>
        obtain ⟨kv3, n3, c3⟩ := r2
        rw [he] at h
        cases h
        obtain ⟨hn1, hs1⟩ := visitNode_leaves E f cfg x _ _ _ _ _ _ hv
        obtain ⟨hn3, hs3⟩ := visitPairs_leaves E f cfg ps _ _ _ _ _ _ he
        subst hn1
        refine ⟨?_, ?_⟩
        · rw [hn3]
          simp only [decodePairs]
          exact decodePairs_next E cfg ps _ _ _
        · simp only [pairLeafCalls]
          exact hs1.append hs3
end

theorem mapEnv_keeps_1 : KeepsKey mapEnv 1 := by
  intro k v path rs h
  simp only [mapEnv, List.take_succ_cons, List.take_zero, Except.ok.injEq] at h
  subst h
  rfl

theorem mapEnv_keeps_4 : KeepsKey mapEnv 4 := by
  intro k v path rs h
  cases k <;>
    simp only [mapEnv, List.take_succ_cons, List.take_zero, Except.ok.injEq] at h <;>
    subst h <;> rfl

theorem visitNode_last_call (E : Env) (f : Nat) (cfg : MapConfig) (path : List LVal)
    (key : LVal) (next : Nat) (x : Jsonb) (hx : JB_ROOT_IS_SCALAR x = false) (v : LVal)
    (n1 : Nat) (c : List (List LVal)) (h : visitNode E f cfg path key next x = .ok (v, n1, c)) :
    ∃ tbl c1 rs, visitInside E f cfg (path ++ keyEntry key) next x = .ok (tbl, n1, c1) ∧
      E.call f (key :: tbl :: path) = .ok rs ∧ v = (mapResults rs).2 ∧
      c = c1 ++ [key :: tbl :: path] := by
  rw [visitNode_container E f cfg path key next x hx] at h
  cases hi : visitInside E f cfg (path ++ keyEntry key) next x with
  | error e => rw [hi] at h; cases h
  | ok r =>
    obtain ⟨tbl, n2, c1⟩ := r
    rw [hi] at h
    simp only at h
    cases hc : E.call f (key :: tbl :: path) with
    | error e => rw [hc] at h; cases h
    | ok rs =>
      rw [hc] at h
      cases h
      exact ⟨tbl, c1, rs, rfl, hc, rfl, rfl⟩

/-- C13 (as the code has it): during decoding with a map that returns the key it is given,
discard not set, the calls of the map are those of the visit of the document, in order. In
particular the map is called once for every scalar leaf, in document order, with the key of
the member or, for the element at position i (from 1) of an array, with i - 1, then the
decoded value, then the path: the keys of the Object ancestors and the positions from 0 of the
Array ancestors below the root, the outermost first. -/
theorem map_call_sequence (E : Env) (heap : Nat) (jb : Jsonb) (arg2 : LVal) (f : Nat)
    (hf : (mapConfig arg2).funcidx = some f) (hd : (mapConfig arg2).noresult = false)
    (hkeep : KeepsKey E f) (hc : JB_ROOT_COUNT jb ≠ 0) :
    mapRun E heap (mapConfig arg2) (JB_ROOT_COUNT jb) (JB_ROOT_IS_SCALAR jb) (JsonbIterator jb) =
        (match visitNode E f (mapConfig arg2) [] .nil (heap + 1) jb with
         | .error e => .error e
         | .ok (v, _, calls) => .ok ([v], calls))
    ∧ ∀ rs calls,
        mapRun E heap (mapConfig arg2) (JB_ROOT_COUNT jb) (JB_ROOT_IS_SCALAR jb)
            (JsonbIterator jb) = .ok (rs, calls) →
        List.Sublist (leafCalls E (mapConfig arg2) [] .nil (heap + 1) jb) calls := by
  have h := mapRun_visits E heap (mapConfig arg2) f hf hd hkeep jb hc
  refine ⟨h, ?_⟩
  intro rs calls hr
  rw [h] at hr
  cases hv : visitNode E f (mapConfig arg2) [] .nil (heap + 1) jb with
  | error e => rw [hv] at hr; cases hr
  | ok r =>
    obtain ⟨v, n1, c⟩ := r
    rw [hv] at hr
    cases hr
    exact (visitNode_leaves E f (mapConfig arg2) jb _ _ _ _ _ _ hv).2

theorem map_call_sequence_witness :
    mapRun mapEnv 10 (mapConfig (.function 1)) 2 false
        (JsonbIterator (.object [("x", .numeric ⟨"1"⟩), ("y", .array [.bool true, .null])])) =
      (match visitNode mapEnv 1 (mapConfig (.function 1)) [] .nil 11
          (.object [("x", .numeric ⟨"1"⟩), ("y", .array [.bool true, .null])]) with
       | .error e => .error e
       | .ok (v, _, calls) => .ok ([v], calls))
    ∧ ∀ rs calls,
        mapRun mapEnv 10 (mapConfig (.function 1)) 2 false
            (JsonbIterator (.object [("x", .numeric ⟨"1"⟩), ("y", .array [.bool true, .null])]))
          = .ok (rs, calls) →
        List.Sublist
          [[.str "x", .int 1], [.int 0, .bool true, .str "y"], [.int 1, .nil, .str "y"]] calls :=
  map_call_sequence mapEnv 10 (.object [("x", .numeric ⟨"1"⟩), ("y", .array [.bool true, .null])])
    (.function 1) 1 rfl rfl mapEnv_keeps_1 (by decide)

/-- C13 (the claim at a failing input): decoding `{"x":1,"y":[true,null]}` with the map
`function(k, v, ...) return k, v end`, the two elements of the array are visited under 0 and
1, not under 1 and 2 (then the array is visited under "y", and the root under nil). -/
theorem array_elements_visited_from_zero :
    mapRun mapEnv 10 (mapConfig (.function 1)) 2 false
        (JsonbIterator (.object [("x", .numeric ⟨"1"⟩), ("y", .array [.bool true, .null])])) =
      .ok ([.table 11 .object_mt [(.str "x", .int 1),
              (.str "y", .table 13 .array_mt [(.int 1, .bool true)])]],
           [[.str "x", .int 1],
            [.int 0, .bool true, .str "y"],
            [.int 1, .nil, .str "y"],
            [.str "y", .table 13 .array_mt [(.int 1, .bool true)]],
            [.nil, .table 11 .object_mt [(.str "x", .int 1),
              (.str "y", .table 13 .array_mt [(.int 1, .bool true)])]]]) :=
  rfl

/-- C14 (as the code has it): during decoding with a map that returns the key it is given,
discard not set, the map is called on every container when it closes, the root included: the
last call of the visit of a container is the call on its table, under its key and path. A
root container that is not empty is visited under the key nil with no path, after all the
other calls, and the value `pllua_jsonb_map` returns is the second result of that call. A
root container that is empty is returned as a new empty table, and the map is not called. -/
theorem map_called_on_root (E : Env) (heap : Nat) (jb : Jsonb) (arg2 : LVal) (f : Nat)
    (hf : (mapConfig arg2).funcidx = some f) (hd : (mapConfig arg2).noresult = false)
    (hkeep : KeepsKey E f) (hs : JB_ROOT_IS_SCALAR jb = false) :
    (JB_ROOT_COUNT jb ≠ 0 →
      ∀ (tbl : LVal) (n1 : Nat) (c1 : List (List LVal)) (rs : List LVal),
        visitInside E f (mapConfig arg2) [] (heap + 1) jb = .ok (tbl, n1, c1) →
        E.call f [.nil, tbl] = .ok rs →
        mapRun E heap (mapConfig arg2) (JB_ROOT_COUNT jb) (JB_ROOT_IS_SCALAR jb)
            (JsonbIterator jb) = .ok ([(mapResults rs).2], c1 ++ [[.nil, tbl]])
          ∧ pllua_jsonb_map E heap jb arg2 = .ok [(mapResults rs).2])
    ∧ (∀ (path : List LVal) (key : LVal) (next : Nat) (x : Jsonb) (v : LVal) (n1 : Nat)
          (c : List (List LVal)), JB_ROOT_IS_SCALAR x = false →
        visitNode E f (mapConfig arg2) path key next x = .ok (v, n1, c) →
        ∃ tbl c1 rs, E.call f (key :: tbl :: path) = .ok rs ∧ v = (mapResults rs).2 ∧
          c = c1 ++ [key :: tbl :: path])
    ∧ (JB_ROOT_COUNT jb = 0 →
        mapRun E heap (mapConfig arg2) (JB_ROOT_COUNT jb) (JB_ROOT_IS_SCALAR jb)
            (JsonbIterator jb) = .ok ([.table heap .none []], [])
          ∧ pllua_jsonb_map E heap jb arg2 = .ok [.table heap .none []]) := by
  refine ⟨?_, ?_, ?_⟩
  · intro hc tbl n1 c1 rs hin hcall
    have h := mapRun_visits E heap (mapConfig arg2) f hf hd hkeep jb hc
    rw [visitNode_container E f (mapConfig arg2) [] .nil (heap + 1) jb hs] at h
    simp only [keyEntry, lua_isnil, if_true, List.append_nil, hin, hcall] at h
    refine ⟨h, ?_⟩
    unfold pllua_jsonb_map
    rw [h]
  · intro path key next x v n1 c hx h
    obtain ⟨tbl, c1, rs, _, h2, h3, h4⟩ := visitNode_last_call E f _ path key next x hx v n1 c h
    exact ⟨tbl, c1, rs, h2, h3, h4⟩
  · intro hc
    have h : mapRun E heap (mapConfig arg2) (JB_ROOT_COUNT jb) (JB_ROOT_IS_SCALAR jb)
        (JsonbIterator jb) = .ok ([.table heap .none []], []) := by
      simp [mapRun, hc, hd]
    refine ⟨h, ?_⟩
    unfold pllua_jsonb_map
    rw [h]

/-- An example of C14 with the map that replaces what it is given under the key nil by the
string "root": decoding `[true]`, the last call is the call on the table of the root, and
"root" is returned. -/
theorem map_called_on_root_witness :
    mapRun mapEnv 10 (mapConfig (.function 4)) 1 false (JsonbIterator (.array [.bool true])) =
        .ok ([.str "root"],
             [[.int 0, .bool true], [.nil, .table 11 .array_mt [(.int 1, .bool true)]]])
      ∧ pllua_jsonb_map mapEnv 10 (.array [.bool true]) (.function 4) = .ok [.str "root"] :=
  (map_called_on_root mapEnv 10 (.array [.bool true]) (.function 4) 4 rfl rfl mapEnv_keeps_4
    rfl).1 (by decide) (.table 11 .array_mt [(.int 1, .bool true)]) 12 [[.int 0, .bool true]]
    [.nil, .str "root"] rfl rfl

/-- C14 (the claim at a failing input): decoding `{"x":1,"y":[true,null]}` with a map that
replaces what it is given under the key nil by the string "root", `pllua_jsonb_map` returns
"root", not the table built for the root: the map is called on the root, last. -/
theorem root_replaced_by_map :
    pllua_jsonb_map mapEnv 10
        (.object [("x", .numeric ⟨"1"⟩), ("y", .array [.bool true, .null])]) (.function 4)
      = .ok [.str "root"]
    ∧ (mapRun mapEnv 10 (mapConfig (.function 4)) 2 false
        (JsonbIterator (.object [("x", .numeric ⟨"1"⟩), ("y", .array [.bool true, .null])]))).map
          (fun r => r.2.getLast?)
      = .ok (some [.nil, .table 11 .object_mt [(.str "x", .int 1),
              (.str "y", .table 13 .array_mt [(.int 1, .bool true)])]]) :=
  ⟨rfl, rfl⟩

/-- One iteration of the encode loop on a key of the key list, with a map. -/
theorem tosqlStep_key_map (E : Env) (cfg : TosqlConfig) (f : Nat) (hf : cfg.funcidx = some f)
    (d : Int) (a : Nat) (mt : Metatable) (kv : List (LVal × LVal)) (keylist : List LVal)
    (prevkey : LVal) (i : Nat) (rest : List TosqlFrame) (P : List JsonbIteratorToken)
    (calls : List (List LVal)) (key : LVal) (ks : List LVal) (h : keylist.drop i = key :: ks) :
    tosqlStep E cfg ⟨d, ⟨.table a mt kv, keylist, prevkey, i + 1⟩ :: rest, P, calls⟩
      = match keyTokens E prevkey key with
        | .error e => .error e
        | .ok (toks, p, tok) =>
          match E.call f
              [if lua_rawequal (rawget kv key) cfg.nullvalue then LVal.nil else rawget kv key] with
          | .error e => .error e
          | .ok rs =>
            if pllua_is_container ((adjustResults rs 1).headD .nil) then
              match pllua_jsonb_pushkeys E ((adjustResults rs 1).headD .nil)
                  cfg.empty_object cfg.array_thresh cfg.array_frac with
              | .error e => .error e
              | .ok pk =>
                .ok ⟨d + 1,
                     ⟨(adjustResults rs 1).headD .nil, pk.keylist, pk.prevkey, pk.index⟩
                      :: ⟨.table a mt kv, keylist, p, i + 2⟩ :: rest,
                     P ++ toks ++ [pk.tok],
                     calls ++ [[if lua_rawequal (rawget kv key) cfg.nullvalue then LVal.nil
                                else rawget kv key]]⟩
            else
              match pllua_jsonb_toscalar E ((adjustResults rs 1).headD .nil) with
              | .error e => .error e
              | .ok pval =>
                .ok ⟨d, ⟨.table a mt kv, keylist, p, i + 2⟩ :: rest, P ++ toks ++ [tok pval],
                     calls ++ [[if lua_rawequal (rawget kv key) cfg.nullvalue then LVal.nil
                                else rawget kv key]]⟩ := by
  have hi : keylist[i]? = some key := by
    have hlt : i < keylist.length := by
      by_contra hc
      rw [List.drop_eq_nil_iff.mpr (by omega)] at h
      cases h
    rw [List.getElem?_eq_getElem hlt]
    rw [List.drop_eq_getElem_cons hlt] at h
    simp only [List.cons.injEq] at h
    rw [h.1]
  simp only [tosqlStep, hi, lua_gettable, Nat.add_sub_cancel, Nat.add_one_ne_zero, if_false,
    tosqlMap, hf, recordCall]
  cases keyTokens E prevkey key with
  | error e => rfl
  | ok r =>
    obtain ⟨toks, p, tok⟩ := r
    simp only
    cases E.call f
      [if lua_rawequal (rawget kv key) cfg.nullvalue then LVal.nil else rawget kv key] with
    | error e => rfl
    | ok rs => rfl

/-- C11 (as the code has it): when a map is configured for encoding, `pllua_jsonb_tosql`
calls it with one argument, the value, and takes one result. For the root the argument is the
root, nil if the root is raw-equal to the null value; for every member or element the
argument is the value looked up under the key of the key list, nil if it is raw-equal to the
null value; no key or index is passed. The result of the map is what is encoded, for the root
as for a member or element: a result that is a scalar is coerced (and is the document, for
the root), a result that is a container is the container whose keys are collected and that
the loop walks, in place of the value the map was given. -/
theorem encode_map_gets_value (E : Env) (cfg : TosqlConfig) (f : Nat)
    (hf : cfg.funcidx = some f) :
    (∀ (fuel : Nat) (root : LVal) (rs : List LVal),
        E.call f [if lua_rawequal root cfg.nullvalue then LVal.nil else root] = .ok rs →
        (∀ sval, pllua_is_container ((adjustResults rs 1).headD .nil) = false →
          pllua_jsonb_toscalar E ((adjustResults rs 1).headD .nil) = .ok sval →
          tosqlRun E cfg fuel root =
            some (.ok (JsonbValueToJsonb sval,
              [[if lua_rawequal root cfg.nullvalue then LVal.nil else root]])))
        ∧ (∀ pk, pllua_is_container ((adjustResults rs 1).headD .nil) = true →
          pllua_jsonb_pushkeys E ((adjustResults rs 1).headD .nil) cfg.empty_object
            cfg.array_thresh cfg.array_frac = .ok pk →
          tosqlRun E cfg fuel root =
            match tosqlLoop E cfg fuel
                ⟨1, [⟨(adjustResults rs 1).headD .nil, pk.keylist, pk.prevkey, pk.index⟩],
                 [pk.tok], [[if lua_rawequal root cfg.nullvalue then LVal.nil else root]]⟩ with
            | none => none
            | some (.error e) => some (.error e)
            | some (.ok st) =>
              match builtDocument st.pushed with
              | .error e => some (.error e)
              | .ok jb => some (.ok (jb, st.calls))))
    ∧ (∀ (d : Int) (a : Nat) (mt : Metatable) (kv : List (LVal × LVal)) (keylist : List LVal)
        (prevkey : LVal) (i : Nat) (rest : List TosqlFrame) (P : List JsonbIteratorToken)
        (calls : List (List LVal)) (key : LVal) (ks : List LVal)
        (toks : List JsonbIteratorToken) (p : LVal) (tok : JsonbValue → JsonbIteratorToken)
        (rs : List LVal),
        keylist.drop i = key :: ks → keyTokens E prevkey key = .ok (toks, p, tok) →
        E.call f [if lua_rawequal (rawget kv key) cfg.nullvalue then LVal.nil
                  else rawget kv key] = .ok rs →
        (∀ pval, pllua_is_container ((adjustResults rs 1).headD .nil) = false →
          pllua_jsonb_toscalar E ((adjustResults rs 1).headD .nil) = .ok pval →
          tosqlStep E cfg ⟨d, ⟨.table a mt kv, keylist, prevkey, i + 1⟩ :: rest, P, calls⟩ =
            .ok ⟨d, ⟨.table a mt kv, keylist, p, i + 2⟩ :: rest, P ++ toks ++ [tok pval],
                 calls ++ [[if lua_rawequal (rawget kv key) cfg.nullvalue then LVal.nil
                            else rawget kv key]]⟩)
        ∧ (∀ pk, pllua_is_container ((adjustResults rs 1).headD .nil) = true →
          pllua_jsonb_pushkeys E ((adjustResults rs 1).headD .nil) cfg.empty_object
            cfg.array_thresh cfg.array_frac = .ok pk →
          tosqlStep E cfg ⟨d, ⟨.table a mt kv, keylist, prevkey, i + 1⟩ :: rest, P, calls⟩ =
            .ok ⟨d + 1,
                 ⟨(adjustResults rs 1).headD .nil, pk.keylist, pk.prevkey, pk.index⟩
                  :: ⟨.table a mt kv, keylist, p, i + 2⟩ :: rest,
                 P ++ toks ++ [pk.tok],
                 calls ++ [[if lua_rawequal (rawget kv key) cfg.nullvalue then LVal.nil
                            else rawget kv key]]⟩)) := by
  refine ⟨?_, ?_⟩
  · intro fuel root rs hcall
    refine ⟨?_, ?_⟩
    · intro sval hnc hsc
      simp only [tosqlRun, tosqlMap, hf, hcall, recordCall, hnc, hsc, Bool.not_false, if_true,
        List.nil_append]
    · intro pk hc hpk
      simp only [tosqlRun, tosqlMap, hf, hcall, recordCall, hc, hpk, Bool.not_true,
        Bool.false_eq_true, if_false, List.nil_append]
  · intro d a mt kv keylist prevkey i rest P calls key ks toks p tok rs hdrop hkt hcall
    rw [tosqlStep_key_map E cfg f hf d a mt kv keylist prevkey i rest P calls key ks hdrop, hkt]
    simp only [hcall]
    refine ⟨?_, ?_⟩
    · intro pval hnc hsc
      simp only [hnc, hsc, Bool.false_eq_true, if_false]
    · intro pk hc hpk
      simp only [hc, hpk, if_true]

/-- An example of C11: with the identity map the root 5 is passed to the map and encoded;
with the map that replaces every table by the table `{w = true}` the root `{10}` is passed to
the map, and the document is that of the table the map returned, whose member `true` is
passed to the map in turn. -/
theorem encode_map_gets_value_witness :
    tosqlRun mapEnv ⟨some 1, false, 1000, 1000, .nil⟩ 0 (.int 5) =
      some (.ok (.numeric ⟨"5"⟩, [[.int 5]]))
    ∧ tosqlRun mapEnv ⟨some 6, false, 1000, 1000, .nil⟩ 10 (.table 1 .none [(.int 1, .int 10)]) =
      some (.ok (.object [("w", .bool true)],
        [[.table 1 .none [(.int 1, .int 10)]], [.bool true]])) :=
  ⟨((encode_map_gets_value mapEnv ⟨some 1, false, 1000, 1000, .nil⟩ 1 rfl).1 0 (.int 5) [.int 5]
      rfl).1 (.jbvNumeric ⟨"5"⟩) rfl rfl,
   (((encode_map_gets_value mapEnv ⟨some 6, false, 1000, 1000, .nil⟩ 6 rfl).1 10
      (.table 1 .none [(.int 1, .int 10)]) [.table 50 .none [(.str "w", .bool true)]]
      rfl).2 ⟨.WJB_BEGIN_OBJECT, [.str "w"], .nil, 1⟩ rfl rfl).trans rfl⟩

/-- C11 (the claim at a failing input): encoding the table `{10, 20}` and the table
`{a = 10}` with the map `function(v) return v end`, every call of the map has one argument,
the value (the root table, then 10 and 20, or 10), not a key or an index and the value. -/
theorem encode_map_called_without_key :
    tosqlConfig (.table 2 .none [(.str "map", .function 1)])
      = .ok ⟨some 1, false, 1000, 1000, .nil⟩
    ∧ tosqlRun mapEnv ⟨some 1, false, 1000, 1000, .nil⟩ 10
        (.table 1 .none [(.int 1, .int 10), (.int 2, .int 20)])
      = some (.ok (.array [.numeric ⟨"10"⟩, .numeric ⟨"20"⟩],
          [[.table 1 .none [(.int 1, .int 10), (.int 2, .int 20)]], [.int 10], [.int 20]]))
    ∧ tosqlRun mapEnv ⟨some 1, false, 1000, 1000, .nil⟩ 10 (.table 1 .none [(.str "a", .int 10)])
      = some (.ok (.object [("a", .numeric ⟨"10"⟩)],
          [[.table 1 .none [(.str "a", .int 10)]], [.int 10]])) :=
  ⟨rfl, rfl, rfl⟩

/-- C12 (as the code has it): during encoding with a map, the value looked up is compared
with the null value before the map is called, and the map receives nil in its place; the
result of the map is not compared with the null value. Whatever the null value is, a result
that is not a container is coerced by `pllua_jsonb_toscalar` and pushed as what the coercion
gives (an error of the coercion is raised), and a result that is a container is opened. The
coercion gives Null exactly for nil and for a datum that the conversion function turns into
SQL null or into the scalar document null: a result raw-equal to a null value that is not nil
is pushed as what it is. -/
theorem map_result_not_compared (E : Env) (cfg : TosqlConfig) (f : Nat)
    (hf : cfg.funcidx = some f) (d : Int) (a : Nat) (mt : Metatable) (kv : List (LVal × LVal))
    (keylist : List LVal) (prevkey : LVal) (i : Nat) (rest : List TosqlFrame)
    (P : List JsonbIteratorToken) (calls : List (List LVal)) (key : LVal) (ks : List LVal)
    (toks : List JsonbIteratorToken) (p : LVal) (tok : JsonbValue → JsonbIteratorToken)
    (hdrop : keylist.drop i = key :: ks) (hkt : keyTokens E prevkey key = .ok (toks, p, tok)) :
    (∀ rs,
        E.call f [if lua_rawequal (rawget kv key) cfg.nullvalue then LVal.nil
                  else rawget kv key] = .ok rs →
        (pllua_is_container ((adjustResults rs 1).headD .nil) = false →
          tosqlStep E cfg ⟨d, ⟨.table a mt kv, keylist, prevkey, i + 1⟩ :: rest, P, calls⟩ =
            match pllua_jsonb_toscalar E ((adjustResults rs 1).headD .nil) with
            | .error e => .error e
            | .ok pval =>
              .ok ⟨d, ⟨.table a mt kv, keylist, p, i + 2⟩ :: rest, P ++ toks ++ [tok pval],
                   calls ++ [[if lua_rawequal (rawget kv key) cfg.nullvalue then LVal.nil
                              else rawget kv key]]⟩)
        ∧ (pllua_is_container ((adjustResults rs 1).headD .nil) = true →
          tosqlStep E cfg ⟨d, ⟨.table a mt kv, keylist, prevkey, i + 1⟩ :: rest, P, calls⟩ =
            match pllua_jsonb_pushkeys E ((adjustResults rs 1).headD .nil) cfg.empty_object
                cfg.array_thresh cfg.array_frac with
            | .error e => .error e
            | .ok pk =>
              .ok ⟨d + 1,
                   ⟨(adjustResults rs 1).headD .nil, pk.keylist, pk.prevkey, pk.index⟩
                    :: ⟨.table a mt kv, keylist, p, i + 2⟩ :: rest,
                   P ++ toks ++ [pk.tok],
                   calls ++ [[if lua_rawequal (rawget kv key) cfg.nullvalue then LVal.nil
                              else rawget kv key]]⟩))
    ∧ (∀ (r : LVal) (pval : JsonbValue), pllua_jsonb_toscalar E r = .ok pval →
        (pval = .jbvNull ↔
          r = .nil ∨ ∃ ad res ts, r = .userdata ad (.otherDatum res) ts
            ∧ (res = .sqlNull ∨ res = .document .null)))
    ∧ (∀ rs, lua_rawequal (rawget kv key) cfg.nullvalue = true → E.call f [.nil] = .ok rs →
        (adjustResults rs 1).headD .nil = .nil →
        tosqlStep E cfg ⟨d, ⟨.table a mt kv, keylist, prevkey, i + 1⟩ :: rest, P, calls⟩ =
          .ok ⟨d, ⟨.table a mt kv, keylist, p, i + 2⟩ :: rest, P ++ toks ++ [tok .jbvNull],
               calls ++ [[.nil]]⟩)
    ∧ (∀ rs, lua_rawequal (rawget kv key) cfg.nullvalue = false →
        E.call f [rawget kv key] = .ok rs → (adjustResults rs 1).headD .nil = .nil →
        tosqlStep E cfg ⟨d, ⟨.table a mt kv, keylist, prevkey, i + 1⟩ :: rest, P, calls⟩ =
          .ok ⟨d, ⟨.table a mt kv, keylist, p, i + 2⟩ :: rest, P ++ toks ++ [tok .jbvNull],
               calls ++ [[rawget kv key]]⟩)
    ∧ (∀ rs s, lua_rawequal (rawget kv key) cfg.nullvalue = false →
        E.call f [rawget kv key] = .ok rs → (adjustResults rs 1).headD .nil = .str s →
        E.pg_verifymbstr s = true →
        tosqlStep E cfg ⟨d, ⟨.table a mt kv, keylist, prevkey, i + 1⟩ :: rest, P, calls⟩ =
          .ok ⟨d, ⟨.table a mt kv, keylist, p, i + 2⟩ :: rest,
               P ++ toks ++ [tok (.jbvString s)], calls ++ [[rawget kv key]]⟩) := by
  have hstep := tosqlStep_key_map E cfg f hf d a mt kv keylist prevkey i rest P calls key ks
    hdrop
  rw [hkt] at hstep
  refine ⟨?_, ?_, ?_, ?_, ?_⟩
  · intro rs hcall
    refine ⟨?_, ?_⟩
    · intro hnc
      rw [hstep]
      simp only [hcall, hnc, Bool.false_eq_true, if_false]
    · intro hc
      rw [hstep]
      simp only [hcall, hc, if_true]
  · intro r pval h
    cases r with
    | nil => simp only [pllua_jsonb_toscalar, Except.ok.injEq] at h; simp [← h]
    | bool b => simp only [pllua_jsonb_toscalar, Except.ok.injEq] at h; simp [← h]
    | int n => simp only [pllua_jsonb_toscalar, Except.ok.injEq] at h; simp [← h]
    | flt q => simp only [pllua_jsonb_toscalar, Except.ok.injEq] at h; simp [← h]
    | nan => simp only [pllua_jsonb_toscalar, Except.ok.injEq] at h; simp [← h]
    | str s =>
      simp only [pllua_jsonb_toscalar, stringScalar] at h
      split at h
      · simp only [Except.ok.injEq] at h; simp [← h]
      · cases h
    | table ad mt2 kv2 => simp [pllua_jsonb_toscalar] at h
    | function ad => simp [pllua_jsonb_toscalar] at h
    | lightuserdata ad => simp [pllua_jsonb_toscalar] at h
    | thread ad => simp [pllua_jsonb_toscalar] at h
    | userdata ad kind ts =>
      cases kind with
      | numericDatum n => simp only [pllua_jsonb_toscalar, Except.ok.injEq] at h; simp [← h]
      | notDatum =>
        cases ts with
        | absent => simp [pllua_jsonb_toscalar] at h
        | returnsOther => simp [pllua_jsonb_toscalar] at h
        | returnsString s =>
          simp only [pllua_jsonb_toscalar, stringScalar] at h
          split at h
          · simp only [Except.ok.injEq] at h; simp [← h]
          · cases h
      | otherDatum res =>
        simp only [pllua_jsonb_toscalar] at h
        cases res with
        | sqlNull =>
          have hp : pval = .jbvNull := by cases h; rfl
          subst hp
          exact ⟨fun _ => Or.inr ⟨ad, .sqlNull, ts, rfl, Or.inl rfl⟩, fun _ => rfl⟩
        | document jb =>
          cases jb with
          | null =>
            have hp : pval = .jbvNull := by cases h; rfl
            subst hp
            exact ⟨fun _ => Or.inr ⟨ad, .document .null, ts, rfl, Or.inr rfl⟩, fun _ => rfl⟩
          | bool b =>
            have hp : pval = .jbvBool b := by cases h; rfl
            subst hp
            refine ⟨fun h2 => (by cases h2), ?_⟩
            rintro (h2 | ⟨_, _, _, h3, h4 | h4⟩)
            · cases h2
            · cases h3; cases h4
            · cases h3; cases h4
          | numeric n =>
            have hp : pval = .jbvNumeric n := by cases h; rfl
            subst hp
            refine ⟨fun h2 => (by cases h2), ?_⟩
            rintro (h2 | ⟨_, _, _, h3, h4 | h4⟩)
            · cases h2
            · cases h3; cases h4
            · cases h3; cases h4
          | string s =>
            have hp : pval = .jbvString s := by cases h; rfl
            subst hp
            refine ⟨fun h2 => (by cases h2), ?_⟩
            rintro (h2 | ⟨_, _, _, h3, h4 | h4⟩)
            · cases h2
            · cases h3; cases h4
            · cases h3; cases h4
          | array xs =>
            have hp : pval = .jbvBinary (.array xs) := by cases h; rfl
            subst hp
            refine ⟨fun h2 => (by cases h2), ?_⟩
            rintro (h2 | ⟨_, _, _, h3, h4 | h4⟩)
            · cases h2
            · cases h3; cases h4
            · cases h3; cases h4
          | object ps =>
            have hp : pval = .jbvBinary (.object ps) := by cases h; rfl
            subst hp
            refine ⟨fun h2 => (by cases h2), ?_⟩
            rintro (h2 | ⟨_, _, _, h3, h4 | h4⟩)
            · cases h2
            · cases h3; cases h4
            · cases h3; cases h4
  · intro rs hv hcall hres
    rw [hstep]
    simp only [hv, if_true, hcall, hres, pllua_is_container, pllua_jsonb_toscalar,
      Bool.false_eq_true, if_false]
  · intro rs hv hcall hres
    rw [hstep]
    simp only [hv, hcall, hres, pllua_is_container, pllua_jsonb_toscalar, Bool.false_eq_true,
      if_false]
  · intro rs s hv hcall hres hvalid
    rw [hstep]
    simp only [hv, hcall, hres, pllua_is_container, pllua_jsonb_toscalar, stringScalar, hvalid,
      Bool.false_eq_true, if_false, if_true]

/-- An example of C12 with the null value `false` and the map that turns every value but a
table into `false`: the element 10 is passed to the map, the result `false` is raw-equal to
the null value, and it is pushed as the Bool false, not as Null. -/
theorem map_result_not_compared_witness :
    lua_rawequal (.bool false) (.bool false) = true
    ∧ tosqlStep mapEnv ⟨some 8, false, 1000, 1000, .bool false⟩
        ⟨1, [⟨.table 1 .none [(.int 1, .int 10)], [.int 1], .int 0, 1⟩], [.WJB_BEGIN_ARRAY], []⟩ =
      .ok ⟨1, [⟨.table 1 .none [(.int 1, .int 10)], [.int 1], .int 1, 2⟩],
           [.WJB_BEGIN_ARRAY, .WJB_ELEM (.jbvBool false)], [[.int 10]]⟩ :=
  ⟨rfl,
   (((map_result_not_compared mapEnv ⟨some 8, false, 1000, 1000, .bool false⟩ 8 rfl 1 1 .none
      [(.int 1, .int 10)] [.int 1] (.int 0) 0 [] [.WJB_BEGIN_ARRAY] [] (.int 1) [] [] (.int 1)
      JsonbIteratorToken.WJB_ELEM rfl rfl).1 [.bool false] rfl).1 rfl).trans rfl⟩

/-- C12 (the claim at a failing input): encoding the table `{10, "N/A"}` with the null value
"N/A" and a map that turns every scalar into "N/A": the result of the map is raw-equal to the
null value, and both elements are encoded as the String "N/A", not as Null. (For the second
element, itself raw-equal to the null value, the map is called with nil.) Likewise with the
null value `false` and a map that turns every scalar into `false`: the table `{10, false}` is
encoded as the Array of two Bool false. -/
theorem map_result_equal_to_null_value :
    tosqlConfig (.table 2 .none [(.str "map", .function 3), (.str "null", .str "N/A")])
      = .ok ⟨some 3, false, 1000, 1000, .str "N/A"⟩
    ∧ pllua_jsonb_tosql mapEnv 10
        [.table 1 .none [(.int 1, .int 10), (.int 2, .str "N/A")],
         .table 2 .none [(.str "map", .function 3), (.str "null", .str "N/A")]]
      = some (.ok [.array [.string "N/A", .string "N/A"]])
    ∧ tosqlRun mapEnv ⟨some 3, false, 1000, 1000, .str "N/A"⟩ 10
        (.table 1 .none [(.int 1, .int 10), (.int 2, .str "N/A")])
      = some (.ok (.array [.string "N/A", .string "N/A"],
          [[.table 1 .none [(.int 1, .int 10), (.int 2, .str "N/A")]], [.int 10], [.nil]]))
    ∧ lua_rawequal (.bool false) (.bool false) = true
    ∧ tosqlRun mapEnv ⟨some 8, false, 1000, 1000, .bool false⟩ 10
        (.table 1 .none [(.int 1, .int 10), (.int 2, .bool false)])
      = some (.ok (.array [.bool false, .bool false],
          [[.table 1 .none [(.int 1, .int 10), (.int 2, .bool false)]], [.int 10], [.nil]])) :=
  ⟨rfl, rfl, rfl, rfl, rfl⟩

/-- C15 (the code at a failing input): a table tagged Array that holds the elements 10 under
1 and 20 under the key `true`: `pllua_jsonb_pushkeys` raises for the boolean key, which the
claim has ignored. A string key and a table key without `__tostring` are ignored: the key
list is 1 alone. -/
theorem known_array_boolean_key_raises :
    pllua_jsonb_pushkeys refEnv
        (.table 1 .array_mt [(.int 1, .int 10), (.bool true, .int 20)]) false 1000 1000
      = .error .keyScalarType
    ∧ pllua_jsonb_pushkeys refEnv
        (.table 1 .array_mt [(.int 1, .int 10), (.function 7, .int 20)]) false 1000 1000
      = .error .keyScalarType
    ∧ pllua_jsonb_pushkeys refEnv
        (.table 1 .array_mt
          [(.int 1, .int 10), (.str "a", .int 20), (.table 2 .none [], .int 30)]) false 1000 1000
      = .ok ⟨.WJB_BEGIN_ARRAY, [.int 1], .int 0, 1⟩ :=
  ⟨rfl, rfl, rfl⟩

/-- C19 (the code at a failing input): decoding `{"a":{},"b":1}` with the map
`function(k, v, ...) return k, v end`. With discard set the leaf "b" is visited with the path
"a", the key of the object closed before it; with discard not set it is visited with the
empty path (after the visit of the object under "a", before that of the root). -/
theorem discard_changes_leaf_path :
    mapConfig (.table 2 .none [(.str "map", .function 1), (.str "discard", .bool true)])
      = ⟨some 1, true, false, .nil⟩
    ∧ mapRun mapEnv 10 ⟨some 1, true, false, .nil⟩ 2 false
        (JsonbIterator (.object [("a", .object []), ("b", .numeric ⟨"1"⟩)]))
      = .ok ([], [[.str "b", .int 1, .str "a"]])
    ∧ mapRun mapEnv 10 ⟨some 1, false, false, .nil⟩ 2 false
        (JsonbIterator (.object [("a", .object []), ("b", .numeric ⟨"1"⟩)]))
      = .ok ([.table 11 .object_mt [(.str "a", .table 12 .object_mt []), (.str "b", .int 1)]],
          [[.str "a", .table 12 .object_mt []],
           [.str "b", .int 1],
           [.nil, .table 11 .object_mt
              [(.str "a", .table 12 .object_mt []), (.str "b", .int 1)]]])
    ∧ leafCalls mapEnv ⟨some 1, false, false, .nil⟩ [] .nil 11
        (.object [("a", .object []), ("b", .numeric ⟨"1"⟩)]) = [[.str "b", .int 1]] :=
  ⟨rfl, rfl, rfl, rfl⟩

/-- C20 (the code at a failing input): decoding `[[],[[]]]`, discard not set, with a map that
files every container under the key "k". After the first seven tokens, the last of which
closes the second element of the root, the root alone is open, yet `patht_len` is 1: the
running index of the root, and then that of its second element, left the stack when a
container was stored under "k", and the end of the second element found nil where its key
should be and took it for the root. -/
theorem path_length_drifts_with_rewritten_keys :
    (JsonbIterator (.array [.array [], .array [.array []]])).take 7
      = [.WJB_BEGIN_ARRAY, .WJB_BEGIN_ARRAY, .WJB_END_ARRAY, .WJB_BEGIN_ARRAY, .WJB_BEGIN_ARRAY,
         .WJB_END_ARRAY, .WJB_END_ARRAY]
    ∧ openContainers ((JsonbIterator (.array [.array [], .array [.array []]])).take 7) = 1
    ∧ (mapLoop mapEnv (mapConfig (.function 2)) false (MapState.init 10)
        ((JsonbIterator (.array [.array [], .array [.array []]])).take 7)).map
          (fun st => st.patht_len) = .ok 1
    ∧ (mapLoop mapEnv (mapConfig (.function 2)) false (MapState.init 10)
        ((JsonbIterator (.array [.array [], .array [.array []]])).take 6)).map
          (fun st => st.patht_len) = .ok 1 :=
  ⟨rfl, rfl, rfl, rfl⟩

theorem keyForObject_error_iff (E : Env) (k : LVal) :
    (∃ e, keyForObject E false k = .error e) ↔ keyUnstringable k = true := by
  cases k with
  | table a mt kv =>
    simp only [keyForObject, keyUnstringable, Bool.false_eq_true, if_false]
    cases tostringField (.table a mt kv) <;> simp
  | userdata a kind ts =>
    simp only [keyForObject, keyUnstringable, Bool.false_eq_true, if_false]
    cases tostringField (.userdata a kind ts) <;> simp
  | _ => simp [keyForObject, keyUnstringable]

theorem keyForObject_error_kind (E : Env) (ka : Bool) (k : LVal) (e : LuaError)
    (h : keyForObject E ka k = .error e) : e.invalidKeyType = true := by
  cases k with
  | table a mt kv =>
    simp only [keyForObject] at h
    split at h
    · cases h
    · cases ht : tostringField (.table a mt kv) <;> rw [ht] at h <;> simp at h <;>
        subst h <;> rfl
  | userdata a kind ts =>
    simp only [keyForObject] at h
    split at h
    · cases h
    · cases ht : tostringField (.userdata a kind ts) <;> rw [ht] at h <;> simp at h <;>
        subst h <;> rfl
  | nil => simp [keyForObject] at h; subst h; rfl
  | bool b => simp [keyForObject] at h; subst h; rfl
  | function a => simp [keyForObject] at h; subst h; rfl
  | lightuserdata a => simp [keyForObject] at h; subst h; rfl
  | thread a => simp [keyForObject] at h; subst h; rfl
  | int i => simp [keyForObject] at h
  | flt q => simp [keyForObject] at h
  | nan => simp [keyForObject] at h
  | str s => simp [keyForObject] at h

theorem keyForObject_string (E : Env) (k r : LVal) (h : keyForObject E false k = .ok r) :
    ∃ s, r = .str s := by
  cases k with
  | table a mt kv =>
    simp only [keyForObject, Bool.false_eq_true, if_false] at h
    cases ht : tostringField (.table a mt kv) <;> rw [ht] at h <;> simp at h
    exact ⟨_, h.symm⟩
  | userdata a kind ts =>
    simp only [keyForObject, Bool.false_eq_true, if_false] at h
    cases ht : tostringField (.userdata a kind ts) <;> rw [ht] at h <;> simp at h
    exact ⟨_, h.symm⟩
  | int i => simp [keyForObject] at h; exact ⟨_, h.symm⟩
  | flt q => simp [keyForObject] at h; exact ⟨_, h.symm⟩
  | nan => simp [keyForObject] at h; exact ⟨_, h.symm⟩
  | str s => simp [keyForObject] at h; exact ⟨_, h.symm⟩
  | nil => simp [keyForObject] at h
  | bool b => simp [keyForObject] at h
  | function a => simp [keyForObject] at h
  | lightuserdata a => simp [keyForObject] at h
  | thread a => simp [keyForObject] at h

/-- The string key table exists exactly when every key can be made into a string; then it
holds strings, and otherwise the error is one of the key errors. -/
theorem keysForObject_cases (E : Env) (keys : List LVal) :
    ((∃ k ∈ keys, keyUnstringable k = true) ∧
      ∃ e, keysForObject E false keys = .error e ∧ e.invalidKeyType = true)
    ∨ ((∀ k ∈ keys, keyUnstringable k = false) ∧
      ∃ ks, keysForObject E false keys = .ok ks ∧ ∀ k ∈ ks, ∃ s, k = .str s) := by
  induction keys with
  | nil => exact Or.inr ⟨by simp, [], rfl, by simp⟩
  | cons k rest ih =>
    cases hk : keyForObject E false k with
    | error e =>
      left
      refine ⟨⟨k, List.mem_cons_self _ _, (keyForObject_error_iff E k).mp ⟨e, hk⟩⟩, e, ?_,
        keyForObject_error_kind E false k e hk⟩
      simp [keysForObject, hk]
    | ok r =>
      have hkf : keyUnstringable k = false := by
        cases hu : keyUnstringable k with
        | false => rfl
        | true =>
          obtain ⟨e, he⟩ := (keyForObject_error_iff E k).mpr hu
          rw [hk] at he
          cases he
      rcases ih with ⟨⟨k2, hk2, hb⟩, e, he, hek⟩ | ⟨hall, ks, hks, hstr⟩
      · left
        exact ⟨⟨k2, List.mem_cons_of_mem _ hk2, hb⟩, e, by simp [keysForObject, hk, he], hek⟩
      · right
        refine ⟨?_, r :: ks, by simp [keysForObject, hk, hks], ?_⟩
        · intro k3 hk3
          rcases List.mem_cons.mp hk3 with rfl | hk3
          · exact hkf
          · exact hall k3 hk3
        · intro k3 hk3
          rcases List.mem_cons.mp hk3 with rfl | hk3
          · exact keyForObject_string E k _ hk
          · exact hstr k3 hk3

theorem sortInsert_error (x : LVal) : ∀ (l : List LVal) (e : LuaError),
    sortInsert x l = .error e → e = .compare := by
  intro l
  induction l with
  | nil => intro e h; simp [sortInsert] at h
  | cons y ys ih =>
    intro e h
    simp only [sortInsert] at h
    cases hlt : lua_lessthan y x with
    | error e2 =>
      rw [hlt] at h
      simp only [Except.error.injEq] at h
      subst h
      cases y <;> cases x <;> simp [lua_lessthan] at hlt <;> exact hlt.symm
    | ok b =>
      rw [hlt] at h
      cases b with
      | false => simp at h
      | true =>
        simp only at h
        cases hr : sortInsert x ys with
        | error e3 =>
          rw [hr] at h
          simp only [Except.error.injEq] at h
          subst h
          exact ih _ hr
        | ok r => rw [hr] at h; simp at h

theorem table_sort_error : ∀ (l : List LVal) (e : LuaError),
    table_sort l = .error e → e = .compare := by
  intro l
  induction l with
  | nil => intro e h; simp [table_sort] at h
  | cons x xs ih =>
    intro e h
    simp only [table_sort] at h
    cases hs : table_sort xs with
    | error e2 =>
      rw [hs] at h
      simp only [Except.error.injEq] at h
      subst h
      exact ih _ hs
    | ok s =>
      rw [hs] at h
      exact sortInsert_error x s e h

/-- C16: for a container that is not known to be an Array, `pllua_jsonb_pushkeys` raises a
key error if and only if some key cannot be made into a string: a key that is neither a
string nor a number and that is not a table or userdata (a boolean, a function), or is one
without `__tostring`, or one whose `__tostring` does not return a string. When no key is
such, no key error is raised and every key of the key list of an Object is a string. -/
theorem key_error_iff_unstringable (E : Env) (t : LVal) (empty_object : Bool)
    (array_thresh array_frac : Int) (hna : jsonbObjectField t ≠ .boolean false) :
    ((∃ e, pllua_jsonb_pushkeys E t empty_object array_thresh array_frac = .error e
        ∧ e.invalidKeyType = true)
      ↔ ∃ k ∈ containerKeys t, keyUnstringable k = true)
    ∧ ((∀ k ∈ containerKeys t, keyUnstringable k = false) →
        ∀ pk, pllua_jsonb_pushkeys E t empty_object array_thresh array_frac = .ok pk →
          pk.tok = .WJB_BEGIN_OBJECT → ∀ k ∈ pk.keylist, ∃ s, k = .str s) := by
  have h2 : decide (jsonbObjectField t = .boolean false) = false := by simpa using hna
  have hpk := pushkeys_eq E t empty_object array_thresh array_frac
  rw [h2] at hpk
  rcases keysForObject_cases E (containerKeys t) with ⟨hbad, e, he, hek⟩ | ⟨hall, ks, hks, hstr⟩
  · rw [he] at hpk
    refine ⟨⟨fun _ => hbad, fun _ => ⟨e, hpk, hek⟩⟩, ?_⟩
    intro hall
    obtain ⟨k, hk, hb⟩ := hbad
    rw [hall k hk] at hb
    cases hb
  · rw [hks] at hpk
    simp only at hpk
    refine ⟨⟨?_, ?_⟩, ?_⟩
    · rintro ⟨e, he, hek⟩
      rw [hpk] at he
      split at he
      · cases he
      · cases hs : table_sort ((containerKeys t).filter (fun k => (lua_tointegerx E k).isSome)) with
        | error e2 =>
          rw [hs] at he
          simp only [Except.error.injEq] at he
          subst he
          rw [table_sort_error _ _ hs] at hek
          cases hek
        | ok s => rw [hs] at he; cases he
    · rintro ⟨k, hk, hb⟩
      rw [hall k hk] at hb
      cases hb
    · intro _ pk hp htok k hk
      rw [hpk] at hp
      split at hp
      · cases hp
        exact hstr k hk
      · cases hs : table_sort ((containerKeys t).filter (fun k => (lua_tointegerx E k).isSome)) with
        | error e2 => rw [hs] at hp; cases hp
        | ok s =>
          rw [hs] at hp
          cases hp
          cases htok

theorem key_error_iff_unstringable_witness :
    ((∃ e, pllua_jsonb_pushkeys refEnv
          (.table 1 .none [(.str "a", .int 1), (.bool true, .int 2)]) false 1000 1000 = .error e
        ∧ e.invalidKeyType = true)
      ↔ ∃ k ∈ containerKeys (.table 1 .none [(.str "a", .int 1), (.bool true, .int 2)]),
          keyUnstringable k = true)
    ∧ ((∀ k ∈ containerKeys (.table 1 .none [(.str "a", .int 1), (.bool true, .int 2)]),
          keyUnstringable k = false) →
        ∀ pk, pllua_jsonb_pushkeys refEnv
            (.table 1 .none [(.str "a", .int 1), (.bool true, .int 2)]) false 1000 1000 = .ok pk →
          pk.tok = .WJB_BEGIN_OBJECT → ∀ k ∈ pk.keylist, ∃ s, k = .str s) :=
  key_error_iff_unstringable refEnv (.table 1 .none [(.str "a", .int 1), (.bool true, .int 2)])
    false 1000 1000 (by decide)

/-- C17: `pllua_jsonb_toscalar` maps nil to Null, a boolean to Bool with the same truth value
and a string that passes the encoding check to String with the same content; on a value that
is not a container it raises one of its "cannot serialize" errors exactly when the value is a
function, a thread, a light userdata, or a full userdata that is no datum and whose
`__tostring` is absent or does not return a string. -/
theorem toscalar_cases (E : Env) (b : Bool) (s : String) (v : LVal)
    (hs : E.pg_verifymbstr s = true) (hv : pllua_is_container v = false) :
    pllua_jsonb_toscalar E .nil = .ok .jbvNull
    ∧ pllua_jsonb_toscalar E (.bool b) = .ok (.jbvBool b)
    ∧ pllua_jsonb_toscalar E (.str s) = .ok (.jbvString s)
    ∧ ((∃ e, pllua_jsonb_toscalar E v = .error e ∧ e.unserializableScalar = true)
        ↔ unserializable v = true) := by
  refine ⟨rfl, rfl, by simp [pllua_jsonb_toscalar, stringScalar, hs], ?_⟩
  cases v with
  | nil => simp [pllua_jsonb_toscalar, unserializable]
  | bool b => simp [pllua_jsonb_toscalar, unserializable]
  | int i => simp [pllua_jsonb_toscalar, unserializable]
  | flt q => simp [pllua_jsonb_toscalar, unserializable]
  | nan => simp [pllua_jsonb_toscalar, unserializable]
  | str s2 =>
    simp only [pllua_jsonb_toscalar, stringScalar, unserializable]
    cases E.pg_verifymbstr s2 <;> simp [LuaError.unserializableScalar]
  | table a mt kv => simp [pllua_is_container] at hv
  | function a => simp [pllua_jsonb_toscalar, unserializable, LuaError.unserializableScalar]
  | lightuserdata a => simp [pllua_jsonb_toscalar, unserializable, LuaError.unserializableScalar]
  | thread a => simp [pllua_jsonb_toscalar, unserializable, LuaError.unserializableScalar]
  | userdata a kind ts =>
    cases kind with
    | numericDatum n => simp [pllua_jsonb_toscalar, unserializable]
    | otherDatum r =>
      simp only [pllua_jsonb_toscalar, unserializable]
      cases r with
      | sqlNull => simp [pllua_jsonb_from_datum]
      | document jb =>
        simp only [pllua_jsonb_from_datum]
        split
        · constructor
          · rintro ⟨e, he, hk⟩
            unfold scalarFromTokens at he
            split at he
            · cases he
            · cases he
              cases hk
          · intro h; cases h
        · simp
    | notDatum =>
      cases ts with
      | absent => simp [pllua_jsonb_toscalar, unserializable, LuaError.unserializableScalar]
      | returnsOther => simp [pllua_jsonb_toscalar, unserializable, LuaError.unserializableScalar]
      | returnsString s2 =>
        simp only [pllua_jsonb_toscalar, stringScalar, unserializable]
        cases E.pg_verifymbstr s2 <;> simp [LuaError.unserializableScalar]

theorem toscalar_cases_witness :
    pllua_jsonb_toscalar refEnv .nil = .ok .jbvNull
    ∧ pllua_jsonb_toscalar refEnv (.bool true) = .ok (.jbvBool true)
    ∧ pllua_jsonb_toscalar refEnv (.str "a") = .ok (.jbvString "a")
    ∧ ((∃ e, pllua_jsonb_toscalar refEnv (.function 1) = .error e
          ∧ e.unserializableScalar = true)
        ↔ unserializable (.function 1) = true) :=
  toscalar_cases refEnv true "a" (.function 1) rfl rfl

/-- C18: `pllua_jsonb_tosql` called with a single argument that is neither a table nor a
userdata declines and returns no value. Called with a second argument (nil included) that
reads as a config, the root is first replaced by nil if it is raw-equal to the null value and
then, if a map is configured, by the first result of the call of the map on it; when the root
so obtained is not a container and its coercion succeeds, the function returns exactly one
value, the scalar document of the coerced root, whatever the number of loop iterations
allowed (none included): the container walk is not entered, and the only call made is the
call of the map on the root. -/
theorem scalar_root_document (E : Env) (v c : LVal) (more : List LVal) (cfg : TosqlConfig)
    (hcfg : tosqlConfig c = .ok cfg) :
    (∀ (fuel : Nat) (w : LVal), isTableOrUserdata w = false →
        pllua_jsonb_tosql E fuel [w] = some (.ok []))
    ∧ (∀ sval : JsonbValue, cfg.funcidx = none →
        pllua_is_container (if lua_rawequal v cfg.nullvalue then LVal.nil else v) = false →
        pllua_jsonb_toscalar E (if lua_rawequal v cfg.nullvalue then LVal.nil else v)
          = .ok sval →
        (∀ fuel : Nat, pllua_jsonb_tosql E fuel (v :: c :: more)
            = some (.ok [JsonbValueToJsonb sval]))
        ∧ tosqlRun E cfg 0 v = some (.ok (JsonbValueToJsonb sval, [])))
    ∧ (∀ (f : Nat) (rs : List LVal) (sval : JsonbValue), cfg.funcidx = some f →
        E.call f [if lua_rawequal v cfg.nullvalue then LVal.nil else v] = .ok rs →
        pllua_is_container ((adjustResults rs 1).headD .nil) = false →
        pllua_jsonb_toscalar E ((adjustResults rs 1).headD .nil) = .ok sval →
        (∀ fuel : Nat, pllua_jsonb_tosql E fuel (v :: c :: more)
            = some (.ok [JsonbValueToJsonb sval]))
        ∧ tosqlRun E cfg 0 v
            = some (.ok (JsonbValueToJsonb sval,
                [[if lua_rawequal v cfg.nullvalue then LVal.nil else v]]))) := by
  refine ⟨?_, ?_, ?_⟩
  · intro fuel w hw
    simp [pllua_jsonb_tosql, hw]
  · intro sval hf hnc hs
    have hrun : ∀ fuel : Nat, tosqlRun E cfg fuel v
        = some (.ok (JsonbValueToJsonb sval, [])) := by
      intro fuel
      simp only [tosqlRun, tosqlMap, hf, recordCall, hnc, hs, Bool.not_false, if_true]
    refine ⟨?_, hrun 0⟩
    intro fuel
    simp [pllua_jsonb_tosql, hcfg, hrun fuel]
  · intro f rs sval hf hcall hnc hs
    have hrun : ∀ fuel : Nat, tosqlRun E cfg fuel v
        = some (.ok (JsonbValueToJsonb sval,
            [[if lua_rawequal v cfg.nullvalue then LVal.nil else v]])) := by
      intro fuel
      simp only [tosqlRun, tosqlMap, hf, hcall, recordCall, hnc, hs, Bool.not_false, if_true,
        List.nil_append]
    refine ⟨?_, hrun 0⟩
    intro fuel
    simp [pllua_jsonb_tosql, hcfg, hrun fuel]

/-- An example of C18: the root 5 with the config nil gives the document of the number 5; the
root 5 with the map that turns every value but a table into "N/A" gives the document of the
string "N/A", the result of the map, and the one call made is the call of the map on 5. -/
theorem scalar_root_document_witness :
    (∀ (fuel : Nat) (w : LVal), isTableOrUserdata w = false →
        pllua_jsonb_tosql refEnv fuel [w] = some (.ok []))
    ∧ ((∀ fuel : Nat, pllua_jsonb_tosql refEnv fuel [.int 5, .nil]
          = some (.ok [JsonbValueToJsonb (.jbvNumeric (refEnv.numericOfInt 5))]))
        ∧ tosqlRun refEnv
            { funcidx := none, empty_object := false, array_thresh := 1000, array_frac := 1000,
              nullvalue := .nil } 0 (.int 5)
          = some (.ok (JsonbValueToJsonb (.jbvNumeric (refEnv.numericOfInt 5)), [])))
    ∧ ((∀ fuel : Nat, pllua_jsonb_tosql mapEnv fuel
            [.int 5, .table 2 .none [(.str "map", .function 3)]]
          = some (.ok [.string "N/A"]))
        ∧ tosqlRun mapEnv ⟨some 3, false, 1000, 1000, .nil⟩ 0 (.int 5)
          = some (.ok (.string "N/A", [[.int 5]]))) :=
  ⟨(scalar_root_document refEnv (.int 5) .nil []
      { funcidx := none, empty_object := false, array_thresh := 1000, array_frac := 1000,
        nullvalue := .nil } rfl).1,
   (scalar_root_document refEnv (.int 5) .nil []
      { funcidx := none, empty_object := false, array_thresh := 1000, array_frac := 1000,
        nullvalue := .nil } rfl).2.1 (.jbvNumeric (refEnv.numericOfInt 5)) rfl rfl rfl,
   (scalar_root_document mapEnv (.int 5) (.table 2 .none [(.str "map", .function 3)]) []
      ⟨some 3, false, 1000, 1000, .nil⟩ rfl).2.2 3 [.str "N/A"] (.jbvString "N/A") rfl rfl rfl
      rfl⟩

theorem prefix_cons_cases {α : Type} (ts : List α) (x : α) (l : List α) (h : ts <+: x :: l) :
    ts = [] ∨ ∃ r, ts = x :: r ∧ r <+: l := by
  cases ts with
  | nil => exact Or.inl rfl
  | cons t r =>
    right
    obtain ⟨u, hu⟩ := h
    simp only [List.cons_append, List.cons.injEq] at hu
    exact ⟨r, by rw [hu.1], ⟨u, hu.2⟩⟩

theorem prefix_append_cases {α : Type} (a b : List α) : ∀ ts : List α, ts <+: a ++ b →
    ts <+: a ∨ ∃ r, ts = a ++ r ∧ r <+: b := by
  induction a with
  | nil => intro ts h; exact Or.inr ⟨ts, rfl, by simpa using h⟩
  | cons x a ih =>
    intro ts h
    rcases prefix_cons_cases ts x (a ++ b) h with rfl | ⟨r, rfl, hr⟩
    · exact Or.inl List.nil_prefix
    · rcases ih r hr with h1 | ⟨r2, rfl, h2⟩
      · exact Or.inl ((List.prefix_cons_inj x).mpr h1)
      · exact Or.inr ⟨r2, rfl, h2⟩

theorem prefix_singleton {α : Type} (ts : List α) (x : α) (h : ts <+: [x]) :
    ts = [] ∨ ts = [x] := by
  rcases prefix_cons_cases ts x [] h with h0 | ⟨r, rfl, hr⟩
  · exact Or.inl h0
  · right
    rw [List.prefix_nil.mp hr]

theorem scalar_tokens (leaf : JsonbValue → JsonbIteratorToken) (x : Jsonb)
    (hx : JB_ROOT_IS_SCALAR x = true) : ∃ v, nodeTokens leaf x = [leaf v] := by
  cases x with
  | array xs => simp [JB_ROOT_IS_SCALAR] at hx
  | object ps => simp [JB_ROOT_IS_SCALAR] at hx
  | null => exact ⟨.jbvNull, by simp [nodeTokens]⟩
  | bool b => exact ⟨.jbvBool b, by simp [nodeTokens]⟩
  | numeric n => exact ⟨.jbvNumeric n, by simp [nodeTokens]⟩
  | string s => exact ⟨.jbvString s, by simp [nodeTokens]⟩

theorem openContainers_append (ts us : List JsonbIteratorToken) :
    openContainers (ts ++ us) = openContainers ts + openContainers us := by
  induction ts with
  | nil => simp [openContainers]
  | cons t ts ih => cases t <;> simp [openContainers, ih] <;> omega

mutual
/-- the tokens of a node open as many containers as they close -/
theorem openContainers_node (leaf : JsonbValue → JsonbIteratorToken)
    (hl : ∀ v, openContainers [leaf v] = 0) : ∀ x : Jsonb, openContainers (nodeTokens leaf x) = 0
  | .null => by simp [nodeTokens, hl]
  | .bool _ => by simp [nodeTokens, hl]
  | .numeric _ => by simp [nodeTokens, hl]
  | .string _ => by simp [nodeTokens, hl]
  | .array xs => by
    simp [nodeTokens, openContainers, openContainers_append, openContainers_elems xs]
  | .object ps => by
    simp [nodeTokens, openContainers, openContainers_append, openContainers_pairs ps]
theorem openContainers_elems : ∀ xs : List Jsonb, openContainers (elemsTokens xs) = 0
  | [] => by simp [elemsTokens, openContainers]
  | x :: xs => by
    simp [elemsTokens, openContainers_append, openContainers_node .WJB_ELEM (fun _ => rfl) x,
      openContainers_elems xs]
theorem openContainers_pairs : ∀ ps : List (String × Jsonb), openContainers (pairsTokens ps) = 0
  | [] => by simp [pairsTokens, openContainers]
  | (k, x) :: ps => by
    simp [pairsTokens, openContainers, openContainers_append,
      openContainers_node .WJB_VALUE (fun _ => rfl) x, openContainers_pairs ps]
end

mutual
/-- The decode loop without a map, stopped inside a container: the path is one longer than
before the container for each container open, the root apart. -/
theorem prefix_container (E : Env) (cfg : MapConfig) (hm : cfg.funcidx = none)
    (hd : cfg.noresult = false) :
    ∀ (x : Jsonb) (leaf : JsonbValue → JsonbIteratorToken) (st : MapState) (top : LVal)
      (rest : List LVal) (ts : List JsonbIteratorToken), st.stack = top :: rest →
      ts <+: nodeTokens leaf x → ts ≠ [] → ts ≠ nodeTokens leaf x →
      JB_ROOT_IS_SCALAR x = false →
      ∃ st2, mapLoop E cfg false st ts = .ok st2
        ∧ st2.patht_len = (if lua_isnil top then st.patht_len else st.patht_len + 1)
            + (openContainers ts - 1)
        ∧ 1 ≤ openContainers ts
  | .array xs, leaf, st, top, rest, ts, hst, hp, hne, hnf, _ => by
    simp only [nodeTokens] at hp hnf
    rcases prefix_cons_cases ts _ _ hp with h0 | ⟨r, rfl, hr⟩
    · exact absurd h0 hne
    · have h1 : r <+: elemsTokens xs := by
        rcases prefix_append_cases _ _ r hr with h1 | ⟨r2, rfl, h2⟩
        · exact h1
        · rcases prefix_singleton r2 _ h2 with rfl | rfl
          · simp
          · exact absurd rfl hnf
      obtain ⟨p1, _, hb⟩ := begin_step cfg hd st top rest hst .array_mt
      obtain ⟨st2, e1, e2, e3⟩ := prefix_elems E cfg hm hd xs
        ⟨.int 0 :: .table st.next .array_mt [] :: st.stack, p1,
          (if lua_isnil top then st.patht_len else st.patht_len + 1), st.next + 1, st.calls⟩
        0 st.next .array_mt [] st.stack r rfl h1
      refine ⟨st2, ?_, ?_, ?_⟩
      · simp only [mapLoop, mapStep, Bool.not_false, if_true, hb]
        exact e1
      · rw [e2]
        simp only [openContainers]
        omega
      · simp only [openContainers]
        omega
  | .object ps, leaf, st, top, rest, ts, hst, hp, hne, hnf, _ => by
    simp only [nodeTokens] at hp hnf
    rcases prefix_cons_cases ts _ _ hp with h0 | ⟨r, rfl, hr⟩
    · exact absurd h0 hne
    · have h1 : r <+: pairsTokens ps := by
        rcases prefix_append_cases _ _ r hr with h1 | ⟨r2, rfl, h2⟩
        · exact h1
        · rcases prefix_singleton r2 _ h2 with rfl | rfl
          · simp
          · exact absurd rfl hnf
      obtain ⟨p1, hb, _⟩ := begin_step cfg hd st top rest hst .object_mt
      obtain ⟨st2, e1, e2, e3⟩ := prefix_pairs E cfg hm hd ps
        ⟨.table st.next .object_mt [] :: st.stack, p1,
          (if lua_isnil top then st.patht_len else st.patht_len + 1), st.next + 1, st.calls⟩
        st.next .object_mt [] st.stack r rfl h1
      refine ⟨st2, ?_, ?_, ?_⟩
      · simp only [mapLoop, mapStep, hb]
        exact e1
      · rw [e2]
        simp only [openContainers]
        omega
      · simp only [openContainers]
        omega
  | .null, _, _, _, _, _, _, _, _, _, h => by simp [JB_ROOT_IS_SCALAR] at h
  | .bool _, _, _, _, _, _, _, _, _, _, h => by simp [JB_ROOT_IS_SCALAR] at h
  | .numeric _, _, _, _, _, _, _, _, _, _, h => by simp [JB_ROOT_IS_SCALAR] at h
  | .string _, _, _, _, _, _, _, _, _, _, h => by simp [JB_ROOT_IS_SCALAR] at h
/-- The decode loop without a map, stopped among the elements of an array. -/
theorem prefix_elems (E : Env) (cfg : MapConfig) (hm : cfg.funcidx = none)
    (hd : cfg.noresult = false) :
    ∀ (xs : List Jsonb) (st : MapState) (idx : Int) (a : Nat) (mt : Metatable)
      (kv : List (LVal × LVal)) (below : List LVal) (ts : List JsonbIteratorToken),
      st.stack = .int idx :: .table a mt kv :: below → ts <+: elemsTokens xs →
      ∃ st2, mapLoop E cfg false st ts = .ok st2
        ∧ st2.patht_len = st.patht_len + openContainers ts ∧ 0 ≤ openContainers ts
  | [], st, idx, a, mt, kv, below, ts, hst, hp => by
    simp only [elemsTokens] at hp
    have h0 : ts = [] := List.prefix_nil.mp hp
    subst h0
    exact ⟨st, rfl, by simp [openContainers], by simp [openContainers]⟩
  | x :: xs, st, idx, a, mt, kv, below, ts, hst, hp => by
    simp only [elemsTokens] at hp
    obtain ⟨p1, i1, hfull⟩ := decode_elems E cfg hm hd [x] st idx a mt kv below hst
    simp only [elemsTokens, List.append_nil] at hfull
    have hz := openContainers_node .WJB_ELEM (fun _ => rfl) x
    rcases prefix_append_cases _ _ ts hp with h1 | ⟨r, rfl, h2⟩
    · by_cases h0 : ts = []
      · subst h0
        exact ⟨st, rfl, by simp [openContainers], by simp [openContainers]⟩
      · by_cases hf : ts = nodeTokens .WJB_ELEM x
        · subst hf
          exact ⟨_, hfull, by simp [hz], by simp [hz]⟩
        · have hs : JB_ROOT_IS_SCALAR x = false := by
            cases hsc : JB_ROOT_IS_SCALAR x with
            | false => rfl
            | true =>
              obtain ⟨v, hv⟩ := scalar_tokens .WJB_ELEM x hsc
              rw [hv] at h1 hf
              rcases prefix_singleton ts _ h1 with h | h
              · exact absurd h h0
              · exact absurd h hf
          obtain ⟨st2, e1, e2, e3⟩ := prefix_container E cfg hm hd x .WJB_ELEM st (.int idx)
            (.table a mt kv :: below) ts hst h1 h0 hf hs
          refine ⟨st2, e1, ?_, by omega⟩
          rw [e2]
          simp only [lua_isnil, Bool.false_eq_true, if_false]
          omega
    · obtain ⟨st2, e1, e2, e3⟩ := prefix_elems E cfg hm hd xs
        ⟨.int i1 :: .table a mt (decodeElems E cfg st.next idx kv [x]).1 :: below, p1,
          st.patht_len, (decodeElems E cfg st.next idx kv [x]).2, st.calls⟩
        i1 a mt _ below r rfl h2
      refine ⟨st2, ?_, ?_, ?_⟩
      · rw [mapLoop_append, hfull]
        exact e1
      · rw [e2, openContainers_append, hz]
        simp
      · rw [openContainers_append, hz]
        omega
/-- The decode loop without a map, stopped among the pairs of an object. -/
theorem prefix_pairs (E : Env) (cfg : MapConfig) (hm : cfg.funcidx = none)
    (hd : cfg.noresult = false) :
    ∀ (ps : List (String × Jsonb)) (st : MapState) (a : Nat) (mt : Metatable)
      (kv : List (LVal × LVal)) (below : List LVal) (ts : List JsonbIteratorToken),
      st.stack = .table a mt kv :: below → ts <+: pairsTokens ps →
      ∃ st2, mapLoop E cfg false st ts = .ok st2
        ∧ st2.patht_len = st.patht_len + openContainers ts ∧ 0 ≤ openContainers ts
  | [], st, a, mt, kv, below, ts, hst, hp => by
    simp only [pairsTokens] at hp
    have h0 : ts = [] := List.prefix_nil.mp hp
    subst h0
    exact ⟨st, rfl, by simp [openContainers], by simp [openContainers]⟩
  | (k, x) :: ps, st, a, mt, kv, below, ts, hst, hp => by
    simp only [pairsTokens] at hp
    obtain ⟨p1, hfull⟩ := decode_pairs E cfg hm hd [(k, x)] st a mt kv below hst
    simp only [pairsTokens, List.append_nil] at hfull
    have hz := openContainers_node .WJB_VALUE (fun _ => rfl) x
    have hkey : mapStep E cfg false st (.WJB_KEY (.jbvString k)) =
        .ok ⟨.str k :: .table a mt kv :: below, st.patht, st.patht_len, st.next, st.calls⟩ := by
      simp [mapStep, pushValue, pushScalar, hst]
    rcases prefix_cons_cases ts _ _ hp with h0 | ⟨r0, rfl, hr0⟩
    · subst h0
      exact ⟨st, rfl, by simp [openContainers], by simp [openContainers]⟩
    · rcases prefix_append_cases _ _ r0 hr0 with h1 | ⟨r, rfl, h2⟩
      · by_cases h0 : r0 = []
        · subst h0
          exact ⟨⟨.str k :: .table a mt kv :: below, st.patht, st.patht_len, st.next, st.calls⟩,
            by simp only [mapLoop, hkey], by simp [openContainers], by simp [openContainers]⟩
        · by_cases hf : r0 = nodeTokens .WJB_VALUE x
          · subst hf
            exact ⟨_, hfull, by simp [openContainers, hz], by simp [openContainers, hz]⟩
          · have hs : JB_ROOT_IS_SCALAR x = false := by
              cases hsc : JB_ROOT_IS_SCALAR x with
              | false => rfl
              | true =>
                obtain ⟨v, hv⟩ := scalar_tokens .WJB_VALUE x hsc
                rw [hv] at h1 hf
                rcases prefix_singleton r0 _ h1 with h | h
                · exact absurd h h0
                · exact absurd h hf
            obtain ⟨st2, e1, e2, e3⟩ := prefix_container E cfg hm hd x .WJB_VALUE
              ⟨.str k :: .table a mt kv :: below, st.patht, st.patht_len, st.next, st.calls⟩
              (.str k) (.table a mt kv :: below) r0 rfl h1 h0 hf hs
            refine ⟨st2, by simp only [mapLoop, hkey]; exact e1, ?_, ?_⟩
            · rw [e2]
              simp only [lua_isnil, Bool.false_eq_true, if_false, openContainers]
              omega
            · simp only [openContainers]
              omega
      · obtain ⟨st2, e1, e2, e3⟩ := prefix_pairs E cfg hm hd ps
          ⟨.table a mt (decodePairs E cfg st.next kv [(k, x)]).1 :: below, p1,
            st.patht_len, (decodePairs E cfg st.next kv [(k, x)]).2, st.calls⟩
          a mt _ below r rfl h2
        refine ⟨st2, ?_, ?_, ?_⟩
        · have happ : .WJB_KEY (.jbvString k) :: (nodeTokens .WJB_VALUE x ++ r)
              = (.WJB_KEY (.jbvString k) :: nodeTokens .WJB_VALUE x) ++ r := rfl
          rw [happ, mapLoop_append, hfull]
          exact e1
        · rw [e2]
          simp only [openContainers, openContainers_append, hz]
          simp
        · simp only [openContainers, openContainers_append, hz]
          omega
end

/-- The path length without a map: after any number of tokens of the stream of a document,
decoded without a map and without discard, the loop has not failed and `patht_len` is the
number of containers open less the root (0 before the root opens and after it closes). -/
theorem path_length_without_map (E : Env) (heap : Nat) (cfg : MapConfig)
    (hm : cfg.funcidx = none) (hd : cfg.noresult = false) (jb : Jsonb)
    (ts : List JsonbIteratorToken) (hp : ts <+: JsonbIterator jb) :
    ∃ st, mapLoop E cfg (JB_ROOT_IS_SCALAR jb) (MapState.init heap) ts = .ok st
      ∧ st.patht_len = max 0 (openContainers ts - 1) := by
  cases hsc : JB_ROOT_IS_SCALAR jb with
  | false =>
    simp only [JsonbIterator, hsc, Bool.false_eq_true, if_false] at hp
    by_cases h0 : ts = []
    · subst h0
      exact ⟨MapState.init heap, rfl, by simp [MapState.init, openContainers]⟩
    · by_cases hf : ts = nodeTokens .WJB_ELEM jb
      · subst hf
        obtain ⟨p, hfull⟩ := decode_container E cfg hm hd jb .WJB_ELEM
          (MapState.init heap) .nil [.table heap .none []] rfl hsc
        rw [hfull, close_root E cfg hm hd _ (decodeNode E cfg (heap + 1) jb).1
          [.table heap .none []] (by simp [MapState.init])]
        refine ⟨_, rfl, ?_⟩
        simp [MapState.init, lua_isnil, openContainers_node .WJB_ELEM (fun _ => rfl) jb]
      · obtain ⟨st2, e1, e2, e3⟩ := prefix_container E cfg hm hd jb .WJB_ELEM
          (MapState.init heap) .nil [.table heap .none []] ts rfl hp h0 hf hsc
        refine ⟨st2, e1, ?_⟩
        rw [e2]
        simp only [lua_isnil, if_true, MapState.init]
        omega
  | true =>
    obtain ⟨v, hv⟩ := scalar_tokens .WJB_ELEM jb hsc
    simp only [JsonbIterator, hsc, if_true, hv, List.singleton_append] at hp
    have hstep : ∃ st1, mapStep E cfg true (MapState.init heap) (.WJB_ELEM v) = .ok st1
        ∧ st1.patht_len = 0 := by
      cases v with
      | jbvNumeric n =>
        by_cases hk : cfg.keep_numeric = true <;>
        exact ⟨_, by simp [mapStep, pushValue, pushScalar, mapCall, hm, MapState.init, hk]; rfl,
          rfl⟩
      | _ =>
        exact ⟨_, by simp [mapStep, pushValue, pushScalar, mapCall, hm, MapState.init]; rfl,
          rfl⟩
    obtain ⟨st1, hs1, hl1⟩ := hstep
    have hb : mapStep E cfg true (MapState.init heap) .WJB_BEGIN_ARRAY
        = .ok (MapState.init heap) := by simp [mapStep]
    have he : mapStep E cfg true st1 .WJB_END_ARRAY = .ok st1 := by simp [mapStep]
    rcases prefix_cons_cases ts _ _ hp with rfl | ⟨r, rfl, hr⟩
    · exact ⟨MapState.init heap, rfl, by simp [MapState.init, openContainers]⟩
    · rcases prefix_cons_cases r _ _ hr with rfl | ⟨r2, rfl, hr2⟩
      · exact ⟨MapState.init heap, by simp only [mapLoop, hb],
          by simp [MapState.init, openContainers]⟩
      · rcases prefix_singleton r2 _ hr2 with rfl | rfl
        · exact ⟨st1, by simp only [mapLoop, hb, hs1], by simp [hl1, openContainers]⟩
        · exact ⟨st1, by simp only [mapLoop, hb, hs1, he], by simp [hl1, openContainers]⟩

/-- C22: `pllua_jsonb_from_datum` on the result of the conversion function. SQL null becomes
the Null leaf. A document whose root is a scalar becomes exactly that scalar: the iterator
yields the begin of the dummy array, the scalar as its one element and the end of the array,
the value taken is that element, and it is the value whose document is the root. Any other
sequence of tokens raises "unexpected return from jsonb iterator". A document whose root is a
container becomes a binary value that holds the whole document. -/
theorem from_datum_cases :
    pllua_jsonb_from_datum .sqlNull = .ok .jbvNull
    ∧ (∀ jb, JB_ROOT_IS_SCALAR jb = true →
        pllua_jsonb_from_datum (.document jb) = scalarFromTokens (JsonbIterator jb)
        ∧ ∃ v, JsonbIterator jb = [.WJB_BEGIN_ARRAY, .WJB_ELEM v, .WJB_END_ARRAY]
            ∧ pllua_jsonb_from_datum (.document jb) = .ok v
            ∧ JsonbValueToJsonb v = jb
            ∧ ∀ sub, v ≠ .jbvBinary sub)
    ∧ (∀ toks, (∀ v, toks ≠ [.WJB_BEGIN_ARRAY, .WJB_ELEM v, .WJB_END_ARRAY]) →
        scalarFromTokens toks = .error .unexpectedIterator)
    ∧ (∀ jb, JB_ROOT_IS_SCALAR jb = false →
        pllua_jsonb_from_datum (.document jb) = .ok (.jbvBinary jb)) := by
  refine ⟨rfl, ?_, ?_, ?_⟩
  · intro jb hs
    refine ⟨by simp [pllua_jsonb_from_datum, hs], ?_⟩
    cases jb with
    | array xs => simp [JB_ROOT_IS_SCALAR] at hs
    | object ps => simp [JB_ROOT_IS_SCALAR] at hs
    | null =>
      exact ⟨.jbvNull, rfl, rfl, rfl, by intro sub h; cases h⟩
    | bool b =>
      exact ⟨.jbvBool b, rfl, rfl, rfl, by intro sub h; cases h⟩
    | numeric n =>
      exact ⟨.jbvNumeric n, rfl, rfl, rfl, by intro sub h; cases h⟩
    | string s =>
      exact ⟨.jbvString s, rfl, rfl, rfl, by intro sub h; cases h⟩
  · intro toks h
    unfold scalarFromTokens
    split
    · rename_i v
      exact absurd rfl (h v)
    · rfl
  · intro jb hs
    simp [pllua_jsonb_from_datum, hs]

/-- C24 (the code at failing inputs): a table tagged Array that holds one element under the
key 0. The key list is 0, the previous key starts at 0, and the loop
`while (++prevkey != key)` has 4294967295 iterations, each pushing a Null, before prevkey
comes back to 0 through the wraparound of the `int`. The same happens for a container classified by
the formula: with the string keys "2" and "10" the key list is "10", "2", and the gap loop
before the key 2, from the previous key 10, has 4294967287 iterations. -/
theorem gap_fill_runs_past_key :
    pllua_jsonb_pushkeys refEnv (.table 1 .array_mt [(.int 0, .bool true)]) false 1000 1000
      = .ok ⟨.WJB_BEGIN_ARRAY, [.int 0], .int 0, 1⟩
    ∧ keyTokens refEnv (.int 0) (.int 0)
      = .ok (List.replicate 4294967295 (.WJB_ELEM .jbvNull), .int 0, .WJB_ELEM)
    ∧ pllua_jsonb_pushkeys refEnv
        (.table 1 .none [(.str "2", .bool true), (.str "10", .bool true)]) false 1000 1000
      = .ok ⟨.WJB_BEGIN_ARRAY, [.str "10", .str "2"], .int 0, 1⟩
    ∧ keyTokens refEnv (.int 0) (.str "10")
      = .ok (List.replicate 9 (.WJB_ELEM .jbvNull), .int 10, .WJB_ELEM)
    ∧ keyTokens refEnv (.int 10) (.str "2")
      = .ok (List.replicate 4294967287 (.WJB_ELEM .jbvNull), .int 2, .WJB_ELEM) :=
  ⟨rfl, rfl, rfl, rfl, rfl⟩

/-- C25 (the code at failing inputs): the config value `array_thresh` = 2^32 + 1 is narrowed
to the `int` 1, so the container with the keys 2 and 3 has its smallest key above the
threshold and is an Object, while over the integers 2 is not above 2^32 + 1 and the claimed
formula has it be an Array. With `array_frac` = 2^31 - 1 and the keys 1 and 2 the product
`array_frac * numkeys` wraps to -2 in the `int`, the largest key 2 is above it and the
container is an Object, while over the integers 2 is not above 2^32 - 2. -/
theorem narrowing_changes_classification :
    tosqlConfig (.table 2 .none [(.str "array_thresh", .int 4294967297)])
      = .ok ⟨none, false, 1, 1000, .nil⟩
    ∧ (pllua_jsonb_pushkeys refEnv (.table 1 .none [(.int 2, .bool true), (.int 3, .bool true)])
        false 1 1000).map (fun pk => pk.tok) = .ok .WJB_BEGIN_OBJECT
    ∧ ¬ claimedObject false 4294967297 1000 2 [2, 3]
    ∧ tosqlConfig (.table 2 .none [(.str "array_frac", .int 2147483647)])
      = .ok ⟨none, false, 1000, 2147483647, .nil⟩
    ∧ wrapInt32 (2147483647 * 2) = -2
    ∧ (pllua_jsonb_pushkeys refEnv (.table 1 .none [(.int 1, .bool true), (.int 2, .bool true)])
        false 1000 2147483647).map (fun pk => pk.tok) = .ok .WJB_BEGIN_OBJECT
    ∧ ¬ claimedObject false 1000 2147483647 2 [1, 2] :=
  ⟨rfl, rfl, by unfold claimedObject; decide, rfl, by decide, rfl,
    by unfold claimedObject; decide⟩

/-- C26: `set_as_object`, `set_as_array` and `set_as_unknown` on a table. When the table has a
metatable that is neither the object marker nor the array marker, each raises "cannot replace
existing metatable" and the table is as before. In every other case (no metatable, or one of
the two markers) each returns the table itself with the requested metatable, after which
`is_object` and `is_array` return true and false for `set_as_object`, false and true for
`set_as_array`, and no value for `set_as_unknown`. -/
theorem set_table_mt_cases (a : Nat) (mt : Metatable) (kv : List (LVal × LVal)) :
    ((∃ f ts, mt = .user f ts) ↔
        pllua_jsonb_table_set_object (.table a mt kv)
          = (.table a mt kv, .error .cannotReplaceMetatable))
    ∧ ((∃ f ts, mt = .user f ts) ↔
        pllua_jsonb_table_set_array (.table a mt kv)
          = (.table a mt kv, .error .cannotReplaceMetatable))
    ∧ ((∃ f ts, mt = .user f ts) ↔
        pllua_jsonb_table_set_unknown (.table a mt kv)
          = (.table a mt kv, .error .cannotReplaceMetatable))
    ∧ ((∀ f ts, mt ≠ .user f ts) →
        pllua_jsonb_table_set_object (.table a mt kv)
            = (.table a .object_mt kv, .ok [.table a .object_mt kv])
        ∧ pllua_jsonb_table_set_array (.table a mt kv)
            = (.table a .array_mt kv, .ok [.table a .array_mt kv])
        ∧ pllua_jsonb_table_set_unknown (.table a mt kv)
            = (.table a .none kv, .ok [.table a .none kv]))
    ∧ pllua_jsonb_table_is_object (.table a .object_mt kv) = .ok [.bool true]
    ∧ pllua_jsonb_table_is_array (.table a .object_mt kv) = .ok [.bool false]
    ∧ pllua_jsonb_table_is_object (.table a .array_mt kv) = .ok [.bool false]
    ∧ pllua_jsonb_table_is_array (.table a .array_mt kv) = .ok [.bool true]
    ∧ pllua_jsonb_table_is_object (.table a .none kv) = .ok []
    ∧ pllua_jsonb_table_is_array (.table a .none kv) = .ok [] := by
  refine ⟨?_, ?_, ?_, ?_, rfl, rfl, rfl, rfl, rfl, rfl⟩
  · cases mt <;>
      simp [pllua_jsonb_table_set_object, pllua_jsonb_table_set_table_mt]
  · cases mt <;>
      simp [pllua_jsonb_table_set_array, pllua_jsonb_table_set_table_mt]
  · cases mt <;>
      simp [pllua_jsonb_table_set_unknown, pllua_jsonb_table_set_table_mt]
  · intro h
    cases mt with
    | user f ts => exact absurd rfl (h f ts)
    | _ => exact ⟨rfl, rfl, rfl⟩

theorem hashInterp_enter (h : List pllua_interp_desc) (key k : Nat) :
    hashInterp (h ++ [{ user_id := key, interp := none }]) k = hashInterp h k := by
  unfold hashInterp
  rw [List.find?_append]
  cases hf : h.find? (fun d => decide (d.user_id = k)) with
  | some d => simp
  | none =>
    by_cases hk : key = k
    · simp [List.find?, hk]
    · simp [List.find?, hk]

theorem setInterp_keys (h : List pllua_interp_desc) (key L : Nat) :
    (setInterp h key L).map (fun d => d.user_id) = h.map (fun d => d.user_id) := by
  induction h with
  | nil => rfl
  | cons d ds ih =>
    simp only [setInterp, List.map_cons] at ih ⊢
    rw [ih]
    by_cases hd : d.user_id = key <;> simp [hd]

theorem hashInterp_cons (d : pllua_interp_desc) (ds : List pllua_interp_desc) (k : Nat) :
    hashInterp (d :: ds) k = if d.user_id = k then d.interp else hashInterp ds k := by
  by_cases hd : d.user_id = k <;> simp [hashInterp, List.find?, hd]

theorem setInterp_cons (d : pllua_interp_desc) (ds : List pllua_interp_desc) (key L : Nat) :
    setInterp (d :: ds) key L
      = (if d.user_id = key then { d with interp := some L } else d) :: setInterp ds key L := rfl

theorem hashInterp_setInterp_self (h : List pllua_interp_desc) (key L : Nat)
    (hmem : key ∈ h.map (fun d => d.user_id)) : hashInterp (setInterp h key L) key = some L := by
  induction h with
  | nil => simp at hmem
  | cons d ds ih =>
    rw [setInterp_cons, hashInterp_cons]
    by_cases hd : d.user_id = key
    · simp [hd]
    · have hmem2 : key ∈ ds.map (fun d => d.user_id) := by
        simp only [List.map_cons, List.mem_cons] at hmem
        rcases hmem with h1 | h1
        · exact absurd h1.symm hd
        · exact h1
      simp [hd, ih hmem2]

theorem hashInterp_setInterp_other (h : List pllua_interp_desc) (key L k : Nat) (hk : k ≠ key) :
    hashInterp (setInterp h key L) k = hashInterp h k := by
  induction h with
  | nil => rfl
  | cons d ds ih =>
    rw [setInterp_cons, hashInterp_cons, hashInterp_cons, ih]
    by_cases hd : d.user_id = key
    · have hkk : ¬ key = k := fun h => hk h.symm
      simp [hd, hkk]
    · simp [hd]

theorem hashInterp_some_mem (h : List pllua_interp_desc) (k L : Nat)
    (hc : hashInterp h k = some L) : k ∈ h.map (fun d => d.user_id) := by
  unfold hashInterp at hc
  cases hf : h.find? (fun d => decide (d.user_id = k)) with
  | none => rw [hf] at hc; cases hc
  | some d =>
    have h1 := List.find?_some hf
    have h2 := List.mem_of_find?_eq_some hf
    simp only [decide_eq_true_eq] at h1
    exact List.mem_map.mpr ⟨d, h2, h1⟩

/-- The entries after `hash_search` with `HASH_ENTER`: the key has an entry, the keys stay
distinct, and every key holds the interpreter it held. -/
theorem hash_search_enter_facts (h : List pllua_interp_desc) (key : Nat)
    (hnd : (h.map (fun d => d.user_id)).Nodup) :
    key ∈ ((hash_search_enter h key).1).map (fun d => d.user_id)
    ∧ (((hash_search_enter h key).1).map (fun d => d.user_id)).Nodup
    ∧ (∀ k, hashInterp (hash_search_enter h key).1 k = hashInterp h k)
    ∧ ((hash_search_enter h key).2).bind (fun d => d.interp) = hashInterp h key := by
  unfold hash_search_enter
  cases hf : h.find? (fun d => decide (d.user_id = key)) with
  | some d =>
    have h1 := List.find?_some hf
    have h2 := List.mem_of_find?_eq_some hf
    simp only [decide_eq_true_eq] at h1
    refine ⟨List.mem_map.mpr ⟨d, h2, h1⟩, hnd, fun _ => rfl, ?_⟩
    simp [hashInterp, hf]
  | none =>
    have hnot : key ∉ h.map (fun d => d.user_id) := by
      intro hmem
      obtain ⟨d, hd, hdk⟩ := List.mem_map.mp hmem
      have := List.find?_eq_none.mp hf d hd
      simp [hdk] at this
    refine ⟨by simp, ?_, fun k => hashInterp_enter h key k, ?_⟩
    · simp only [List.map_append, List.map_cons, List.map_nil]
      rw [List.nodup_append]
      refine ⟨hnd, List.nodup_singleton _, ?_⟩
      intro x hx hx2
      simp only [List.mem_singleton] at hx2
      subst hx2
      exact hnot hx
    · simp [hashInterp, hf]

theorem hash_search_enter_found (h : List pllua_interp_desc) (key L : Nat)
    (hc : hashInterp h key = some L) : (hash_search_enter h key).1 = h := by
  unfold hash_search_enter
  cases hf : h.find? (fun d => decide (d.user_id = key)) with
  | some d => rfl
  | none => simp [hashInterp, hf] at hc

/-- One call of `pllua_getstate` from a state that satisfies the invariant of the cache. -/
theorem getstate_step (trusted : Bool) (uid : Nat) (outcome : NewstateOutcome) (s : InitState)
    (hinv : CacheInvariant s) :
    CacheInvariant (pllua_getstate trusted uid outcome s).1
    ∧ (∀ L, cachedInterp s (cacheKey trusted uid) = some L →
        pllua_getstate trusted uid outcome s = (s, .ok L))
    ∧ (cachedInterp s (cacheKey trusted uid) = none → outcome = .succeeds →
        (pllua_getstate trusted uid outcome s).2 = .ok s.next
        ∧ cachedInterp (pllua_getstate trusted uid outcome s).1 (cacheKey trusted uid)
            = some s.next
        ∧ (pllua_getstate trusted uid outcome s).1.created
            = s.created ++ [(cacheKey trusted uid, s.next)])
    ∧ (cachedInterp s (cacheKey trusted uid) = none → outcome ≠ .succeeds →
        (∃ e, (pllua_getstate trusted uid outcome s).2 = .error e)
        ∧ cachedInterp (pllua_getstate trusted uid outcome s).1 (cacheKey trusted uid) = none
        ∧ (pllua_getstate trusted uid outcome s).1.created = s.created)
    ∧ (∀ k L, cachedInterp s k = some L →
        cachedInterp (pllua_getstate trusted uid outcome s).1 k = some L) := by
  obtain ⟨hnd, hcr, hck, hci, hlt⟩ := hinv
  obtain ⟨hmem, hnd2, hsame, hfound⟩ :=
    hash_search_enter_facts s.pllua_interp_hash (cacheKey trusted uid) hnd
  cases hc : cachedInterp s (cacheKey trusted uid) with
  | some L =>
    have hc2 : hashInterp s.pllua_interp_hash (cacheKey trusted uid) = some L := hc
    have hh := hash_search_enter_found s.pllua_interp_hash (cacheKey trusted uid) L hc2
    have hres : pllua_getstate trusted uid outcome s = (s, .ok L) := by
      unfold pllua_getstate
      rw [hc2] at hfound
      simp only [hfound, hh]
    rw [hres]
    refine ⟨⟨hnd, hcr, hck, hci, hlt⟩, ?_, ?_, ?_, ?_⟩
    · intro L2 h2
      cases h2
      rfl
    · intro h; cases h
    · intro h; cases h
    · intro k L2 h; exact h
  | none =>
    have hc2 : hashInterp s.pllua_interp_hash (cacheKey trusted uid) = none := hc
    rw [hc2] at hfound
    have hnotin : ∀ L, (cacheKey trusted uid, L) ∉ s.created := by
      intro L hm
      have := (hcr _ _).mpr hm
      rw [hc] at this
      cases this
    by_cases ho : outcome = .succeeds
    · subst ho
      have hres : pllua_getstate trusted uid .succeeds s
          = (⟨setInterp (hash_search_enter s.pllua_interp_hash (cacheKey trusted uid)).1
                (cacheKey trusted uid) s.next, s.next + 1,
              s.created ++ [(cacheKey trusted uid, s.next)]⟩, .ok s.next) := by
        unfold pllua_getstate
        simp only [hfound, pllua_newstate]
      rw [hres]
      have hself := hashInterp_setInterp_self _ _ s.next hmem
      refine ⟨⟨?_, ?_, ?_, ?_, ?_⟩, ?_, ?_, ?_, ?_⟩
      · simp only [setInterp_keys]
        exact hnd2
      · intro k L
        simp only [cachedInterp, List.mem_append, List.mem_singleton, Prod.mk.injEq]
        by_cases hk : k = cacheKey trusted uid
        · subst hk
          rw [hself]
          constructor
          · intro h
            cases h
            exact Or.inr ⟨rfl, rfl⟩
          · rintro (h | ⟨_, h⟩)
            · exact absurd h (hnotin L)
            · rw [h]
        · rw [hashInterp_setInterp_other _ _ _ _ hk, hsame]
          constructor
          · intro h
            exact Or.inl ((hcr k L).mp h)
          · rintro (h | ⟨h, _⟩)
            · exact (hcr k L).mpr h
            · exact absurd h hk
      · simp only [List.map_append, List.map_cons, List.map_nil]
        rw [List.nodup_append]
        refine ⟨hck, List.nodup_singleton _, ?_⟩
        intro x hx hx2
        simp only [List.mem_singleton] at hx2
        subst hx2
        obtain ⟨c, hcm, hce⟩ := List.mem_map.mp hx
        exact hnotin c.2 (by rw [← hce]; exact hcm)
      · simp only [List.map_append, List.map_cons, List.map_nil]
        rw [List.nodup_append]
        refine ⟨hci, List.nodup_singleton _, ?_⟩
        intro x hx hx2
        simp only [List.mem_singleton] at hx2
        subst hx2
        obtain ⟨c, hcm, hce⟩ := List.mem_map.mp hx
        have := hlt c hcm
        omega
      · intro c hcm
        simp only [List.mem_append, List.mem_singleton] at hcm
        rcases hcm with h | h
        · have := hlt c h
          show c.2 < s.next + 1
          omega
        · subst h
          show s.next < s.next + 1
          omega
      · intro L h; cases h
      · intro _ _
        exact ⟨rfl, hself, rfl⟩
      · intro _ h
        exact absurd rfl h
      · intro k L h
        have hk : k ≠ cacheKey trusted uid := by
          intro hk
          subst hk
          rw [hc] at h
          cases h
        show hashInterp _ k = some L
        rw [hashInterp_setInterp_other _ _ _ _ hk, hsame]
        exact h
    · have hres : ∃ e, pllua_getstate trusted uid outcome s
          = (⟨(hash_search_enter s.pllua_interp_hash (cacheKey trusted uid)).1, s.next,
              s.created⟩, .error e) := by
        unfold pllua_getstate
        cases outcome with
        | succeeds => exact absurd rfl ho
        | noMemory => exact ⟨.outOfMemory, by simp only [hfound, pllua_newstate]⟩
        | initRaises => exact ⟨.initFailed, by simp only [hfound, pllua_newstate]⟩
      obtain ⟨e, hres⟩ := hres
      rw [hres]
      refine ⟨⟨hnd2, ?_, hck, hci, hlt⟩, ?_, ?_, ?_, ?_⟩
      · intro k L
        simp only [cachedInterp]
        rw [hsame]
        exact hcr k L
      · intro L h; cases h
      · intro _ h
        exact absurd h ho
      · intro _ _
        refine ⟨⟨e, rfl⟩, ?_, rfl⟩
        show hashInterp _ _ = none
        rw [hsame]
        exact hc2
      · intro k L h
        show hashInterp _ k = some L
        rw [hsame]
        exact h

theorem init_invariant (heap : Nat) : CacheInvariant (InitState.init heap) := by
  refine ⟨by simp [InitState.init], ?_, by simp [InitState.init], by simp [InitState.init],
    by simp [InitState.init]⟩
  intro k L
  simp [InitState.init, cachedInterp, hashInterp]

theorem runCalls_invariant : ∀ (cs : List GetstateCall) (s : InitState),
    CacheInvariant s → CacheInvariant (runCalls s cs)
  | [], _, h => h
  | c :: cs, s, h =>
    runCalls_invariant cs _ (getstate_step c.trusted c.GetUserId c.outcome s h).1

theorem runCalls_keeps : ∀ (cs : List GetstateCall) (s : InitState), CacheInvariant s →
    ∀ k L, cachedInterp s k = some L → cachedInterp (runCalls s cs) k = some L
  | [], _, _, _, _, h => h
  | c :: cs, s, hinv, k, L, h =>
    runCalls_keeps cs _ (getstate_step c.trusted c.GetUserId c.outcome s hinv).1 k L
      ((getstate_step c.trusted c.GetUserId c.outcome s hinv).2.2.2.2 k L h)

theorem filter_key_length (k : Nat) : ∀ (l : List (Nat × Nat)), (l.map (fun c => c.1)).Nodup →
    (l.filter (fun c => decide (c.1 = k))).length ≤ 1
  | [], _ => by simp
  | x :: xs, h => by
    simp only [List.map_cons, List.nodup_cons] at h
    by_cases hx : x.1 = k
    · have hnone : xs.filter (fun c => decide (c.1 = k)) = [] := by
        rw [List.filter_eq_nil_iff]
        intro c hc
        simp only [decide_eq_true_eq]
        intro hck
        exact h.1 (List.mem_map.mpr ⟨c, hc, by rw [hck, hx]⟩)
      simp [List.filter, hx, hnone]
    · have := filter_key_length k xs h.2
      simp [List.filter, hx]
      exact this

/-- The result of a call that returns an interpreter is the interpreter the cache holds for
the key afterwards. -/
theorem getstate_ok_cached (trusted : Bool) (uid : Nat) (outcome : NewstateOutcome)
    (s : InitState) (hinv : CacheInvariant s) (L : Nat)
    (hr : (pllua_getstate trusted uid outcome s).2 = .ok L) :
    cachedInterp (pllua_getstate trusted uid outcome s).1 (cacheKey trusted uid) = some L := by
  obtain ⟨_, h1, h2, h3, _⟩ := getstate_step trusted uid outcome s hinv
  cases hc : cachedInterp s (cacheKey trusted uid) with
  | some L0 =>
    have := h1 L0 hc
    rw [this] at hr ⊢
    cases hr
    exact hc
  | none =>
    by_cases ho : outcome = .succeeds
    · obtain ⟨e1, e2, _⟩ := h2 hc ho
      rw [e1] at hr
      cases hr
      exact e2
    · obtain ⟨⟨e, he⟩, _, _⟩ := h3 hc ho
      rw [he] at hr
      cases hr

/-- C27: the interpreter cache of `pllua_getstate`. The key is the current user for a trusted
call and `InvalidOid` for an untrusted one. After every sequence of calls from the empty
table the invariant of the cache holds: the entries that hold an interpreter are exactly the
successful creations, at most one per key, of distinct interpreters. A further call whose key
holds an interpreter returns it and changes nothing; one whose key holds none creates the
interpreter, stores and returns it when the creation succeeds, and when it fails raises and
leaves the key without interpreter, so that the next call for the key creates again. Once a
call has returned an interpreter, every later call with the same key returns the same one
without creating. -/
theorem interpreter_cache_invariant (heap : Nat) (cs : List GetstateCall) (c : GetstateCall) :
    (∀ u, cacheKey true u = u ∧ cacheKey false u = InvalidOid)
    ∧ CacheInvariant (runCalls (InitState.init heap) cs)
    ∧ (∀ L, cachedInterp (runCalls (InitState.init heap) cs) (cacheKey c.trusted c.GetUserId)
          = some L →
        pllua_getstate c.trusted c.GetUserId c.outcome (runCalls (InitState.init heap) cs)
          = (runCalls (InitState.init heap) cs, .ok L))
    ∧ (cachedInterp (runCalls (InitState.init heap) cs) (cacheKey c.trusted c.GetUserId) = none →
        c.outcome = .succeeds →
        (pllua_getstate c.trusted c.GetUserId c.outcome (runCalls (InitState.init heap) cs)).2
          = .ok (runCalls (InitState.init heap) cs).next
        ∧ cachedInterp
            (pllua_getstate c.trusted c.GetUserId c.outcome
              (runCalls (InitState.init heap) cs)).1 (cacheKey c.trusted c.GetUserId)
          = some (runCalls (InitState.init heap) cs).next
        ∧ (pllua_getstate c.trusted c.GetUserId c.outcome
              (runCalls (InitState.init heap) cs)).1.created
          = (runCalls (InitState.init heap) cs).created
              ++ [(cacheKey c.trusted c.GetUserId, (runCalls (InitState.init heap) cs).next)])
    ∧ (cachedInterp (runCalls (InitState.init heap) cs) (cacheKey c.trusted c.GetUserId) = none →
        c.outcome ≠ .succeeds →
        (∃ e, (pllua_getstate c.trusted c.GetUserId c.outcome
            (runCalls (InitState.init heap) cs)).2 = .error e)
        ∧ cachedInterp
            (pllua_getstate c.trusted c.GetUserId c.outcome
              (runCalls (InitState.init heap) cs)).1 (cacheKey c.trusted c.GetUserId) = none
        ∧ (pllua_getstate c.trusted c.GetUserId c.outcome
              (runCalls (InitState.init heap) cs)).1.created
          = (runCalls (InitState.init heap) cs).created
        ∧ ∀ c2 : GetstateCall, cacheKey c2.trusted c2.GetUserId = cacheKey c.trusted c.GetUserId →
            c2.outcome = .succeeds →
            (pllua_getstate c2.trusted c2.GetUserId c2.outcome
              (pllua_getstate c.trusted c.GetUserId c.outcome
                (runCalls (InitState.init heap) cs)).1).2
              = .ok (pllua_getstate c.trusted c.GetUserId c.outcome
                  (runCalls (InitState.init heap) cs)).1.next)
    ∧ (∀ (L : Nat) (cs2 : List GetstateCall) (c2 : GetstateCall),
        (pllua_getstate c.trusted c.GetUserId c.outcome (runCalls (InitState.init heap) cs)).2
          = .ok L →
        cacheKey c2.trusted c2.GetUserId = cacheKey c.trusted c.GetUserId →
        pllua_getstate c2.trusted c2.GetUserId c2.outcome
            (runCalls (pllua_getstate c.trusted c.GetUserId c.outcome
              (runCalls (InitState.init heap) cs)).1 cs2)
          = (runCalls (pllua_getstate c.trusted c.GetUserId c.outcome
              (runCalls (InitState.init heap) cs)).1 cs2, .ok L))
    ∧ (∀ k1 k2 L1 L2, cachedInterp (runCalls (InitState.init heap) cs) k1 = some L1 →
        cachedInterp (runCalls (InitState.init heap) cs) k2 = some L2 → k1 ≠ k2 → L1 ≠ L2)
    ∧ (∀ k, ((runCalls (InitState.init heap) cs).created.filter
          (fun x => decide (x.1 = k))).length ≤ 1) := by
  have hinv := runCalls_invariant cs _ (init_invariant heap)
  obtain ⟨hinv1, h1, h2, h3, _⟩ :=
    getstate_step c.trusted c.GetUserId c.outcome _ hinv
  refine ⟨fun u => ⟨rfl, rfl⟩, hinv, h1, h2, ?_, ?_, ?_, ?_⟩
  · intro hc ho
    obtain ⟨e1, e2, e3⟩ := h3 hc ho
    refine ⟨e1, e2, e3, ?_⟩
    intro c2 hk ho2
    obtain ⟨_, _, g2, _, _⟩ := getstate_step c2.trusted c2.GetUserId c2.outcome _ hinv1
    rw [hk] at g2
    exact (g2 e2 ho2).1
  · intro L cs2 c2 hr hk
    have hcached := getstate_ok_cached c.trusted c.GetUserId c.outcome _ hinv L hr
    have hlater := runCalls_keeps cs2 _ hinv1 _ _ hcached
    have hinv2 := runCalls_invariant cs2 _ hinv1
    obtain ⟨_, g1, _, _, _⟩ := getstate_step c2.trusted c2.GetUserId c2.outcome _ hinv2
    rw [hk] at g1
    exact g1 L hlater
  · intro k1 k2 L1 L2 hc1 hc2 hne heq
    obtain ⟨_, hcr, _, hci, _⟩ := hinv
    have m1 := (hcr k1 L1).mp hc1
    have m2 := (hcr k2 L2).mp hc2
    have := List.inj_on_of_nodup_map hci m1 m2 heq
    exact hne (congrArg Prod.fst this)
  · intro k
    exact filter_key_length k _ hinv.2.2.1

/-- An example of C27: a trusted call of user 7 whose creation fails, a trusted call of user 7
that creates the interpreter 100, an untrusted call that creates the interpreter 101, and a
trusted call of user 7 that finds the interpreter 100. -/
theorem interpreter_cache_invariant_witness :
    callResults (InitState.init 100)
        [⟨true, 7, .initRaises⟩, ⟨true, 7, .succeeds⟩, ⟨false, 7, .succeeds⟩,
         ⟨true, 7, .noMemory⟩]
      = [.error .initFailed, .ok 100, .ok 101, .ok 100]
    ∧ pllua_getstate true 7 .succeeds
        (runCalls (InitState.init 100) [⟨true, 7, .initRaises⟩, ⟨true, 7, .succeeds⟩])
      = (runCalls (InitState.init 100) [⟨true, 7, .initRaises⟩, ⟨true, 7, .succeeds⟩], .ok 100) :=
  ⟨rfl, (interpreter_cache_invariant 100 [⟨true, 7, .initRaises⟩, ⟨true, 7, .succeeds⟩]
    ⟨true, 7, .succeeds⟩).2.2.1 100 rfl⟩

/-- The case `WJB_VALUE` of the loop with any map, on an object whose table and the key of the
member are on top of the stack: the pair the map returns is assigned. -/
theorem value_step_any (E : Env) (cfg : MapConfig) (f : Nat) (hf : cfg.funcidx = some f)
    (hd : cfg.noresult = false) (st : MapState) (jv : JsonbValue)
    (v : LVal) (n1 : Nat) (hps : pushScalar E cfg st.next jv = (some v, n1))
    (k : String) (a : Nat) (mt : Metatable) (kv : List (LVal × LVal)) (below : List LVal)
    (hst : st.stack = .str k :: .table a mt kv :: below) (h0 : 0 ≤ st.patht_len) :
    mapStep E cfg false st (.WJB_VALUE jv) =
      match E.call f (.str k :: v :: pathEntries st.patht st.patht_len) with
      | .error e => .error e
      | .ok rs =>
        match lua_settable (.table a mt kv) (mapResults rs).1 (mapResults rs).2 with
        | .error e => .error e
        | .ok t1 =>
          .ok ⟨t1 :: below, st.patht, st.patht_len, n1,
               st.calls ++ [.str k :: v :: pathEntries st.patht st.patht_len]⟩ := by
  simp only [mapStep, pushValue, hps, hst]
  rw [mapCall_eq E cfg f hf
    ⟨v :: .str k :: .table a mt kv :: below, st.patht, st.patht_len, n1, st.calls⟩ v (.str k)
    (.table a mt kv :: below) rfl h0]
  cases hc : E.call f (.str k :: v :: pathEntries st.patht st.patht_len) with
  | error e => rfl
  | ok rs =>
    simp only [hd, Bool.not_false, if_true, settable3]

/-- The decode loop with any map over the scalar elements of an array whose table and running
index are on top of the stack: the index advances by one per element, the map is called once
per element, with the number of elements before it, and the value it returns is what the
table holds at the position of the element; the other entries of the table are as before. -/
theorem scalar_elems_stored (E : Env) (cfg : MapConfig) (f : Nat) (hf : cfg.funcidx = some f)
    (hd : cfg.noresult = false) :
    ∀ (xs : List Jsonb), (∀ x ∈ xs, JB_ROOT_IS_SCALAR x = true) →
    ∀ (st : MapState) (idx : Int) (a : Nat) (mt : Metatable) (kv : List (LVal × LVal))
      (below : List LVal) (st2 : MapState),
      st.stack = .int idx :: .table a mt kv :: below → 0 ≤ st.patht_len → 0 ≤ idx →
      idx + xs.length ≤ 2147483647 →
      mapLoop E cfg false st (elemsTokens xs) = .ok st2 →
      ∃ kv2 more,
        st2.stack = .int (idx + xs.length) :: .table a mt kv2 :: below
        ∧ st2.patht = st.patht ∧ st2.patht_len = st.patht_len
        ∧ st2.calls = st.calls ++ more ∧ more.length = xs.length
        ∧ (∀ i : Int, (i ≤ idx ∨ idx + xs.length < i) →
            rawget kv2 (.int i) = rawget kv (.int i))
        ∧ (∀ (j : Nat) (x : Jsonb), xs[j]? = some x →
            ∃ nj rs,
              more[j]? = some (.int (idx + j) :: (decodeNode E cfg nj x).1
                                :: pathEntries st.patht st.patht_len)
              ∧ E.call f (.int (idx + j) :: (decodeNode E cfg nj x).1
                            :: pathEntries st.patht st.patht_len) = .ok rs
              ∧ rawget kv2 (.int (idx + j + 1)) = (mapResults rs).2) := by
  intro xs
  induction xs with
  | nil =>
    intro _ st idx a mt kv below st2 hst _ _ _ hrun
    simp only [elemsTokens, mapLoop, Except.ok.injEq] at hrun
    subst hrun
    refine ⟨kv, [], by simp [hst], rfl, rfl, by simp, rfl, fun _ _ => rfl, ?_⟩
    intro j x hx
    simp at hx
  | cons x xs ih =>
    intro hsc st idx a mt kv below st2 hst h0 hidx hlen hrun
    have hx : JB_ROOT_IS_SCALAR x = true := hsc x (List.mem_cons_self _ _)
    obtain ⟨jv, htok, hps⟩ := pushScalar_leaf E cfg st.next x hx
    simp only [List.length_cons, Nat.cast_add, Nat.cast_one] at hlen
    have hni : nextIndex idx = idx + 1 := nextIndex_eq hidx (by omega)
    simp only [elemsTokens, htok, List.singleton_append, mapLoop] at hrun
    rw [elem_step E cfg f hf hd st jv _ _ hps idx a mt kv below hst h0] at hrun
    cases hcall : E.call f (.int idx :: (decodeNode E cfg st.next x).1
        :: pathEntries st.patht st.patht_len) with
    | error e => rw [hcall] at hrun; cases hrun
    | ok rs =>
      rw [hcall] at hrun
      simp only [hni] at hrun
      obtain ⟨kv2, more, e1, e2, e3, e4, e5, e6, e7⟩ := ih
        (fun y hy => hsc y (List.mem_cons_of_mem _ hy))
        ⟨.int (idx + 1) :: .table a mt (rawset kv (.int (idx + 1)) (mapResults rs).2) :: below,
          st.patht, st.patht_len, (decodeNode E cfg st.next x).2,
          st.calls ++ [.int idx :: (decodeNode E cfg st.next x).1
            :: pathEntries st.patht st.patht_len]⟩
        (idx + 1) a mt _ below st2 rfl h0 (by omega) (by omega) hrun
      refine ⟨kv2, (.int idx :: (decodeNode E cfg st.next x).1
          :: pathEntries st.patht st.patht_len) :: more, ?_, e2, e3, ?_, ?_, ?_, ?_⟩
      · rw [e1]
        simp only [List.length_cons, Nat.cast_add, Nat.cast_one]
        have : idx + 1 + (xs.length : Int) = idx + ((xs.length : Int) + 1) := by omega
        rw [this]
      · rw [e4]
        simp
      · simp [e5]
      · intro i hi
        rw [e6 i (by simp only [List.length_cons, Nat.cast_add, Nat.cast_one] at hi; omega)]
        apply rawget_rawset_other
        intro y hy
        exact rawequal_int_disjoint (idx + 1) i
          (by simp only [List.length_cons, Nat.cast_add, Nat.cast_one] at hi; omega) y hy
      · intro j y hj
        cases j with
        | zero =>
          simp only [List.getElem?_cons_zero, Option.some.injEq] at hj
          subst hj
          refine ⟨st.next, rs, by simp, by simpa using hcall, ?_⟩
          simp only [Nat.cast_zero, add_zero]
          rw [e6 (idx + 1) (Or.inl le_rfl)]
          exact rawget_rawset_eq _ _ _ (by simp)
        | succ j =>
          simp only [List.getElem?_cons_succ] at hj
          obtain ⟨nj, rs2, g1, g2, g3⟩ := e7 j y hj
          have harith : idx + 1 + (j : Int) = idx + ((j + 1 : Nat) : Int) := by
            push_cast; omega
          rw [harith] at g1 g2 g3
          exact ⟨nj, rs2, by simpa using g1, g2, g3⟩

/-- The decode loop with any map over the scalar members of an object whose table is on top of
the stack: the map is called once per member, with the key and the decoded value, and the
pairs it returns are assigned in the table one after the other, in the order of the members;
the table at the end is the table at the start with these assignments made. -/
theorem scalar_pairs_stored (E : Env) (cfg : MapConfig) (f : Nat) (hf : cfg.funcidx = some f)
    (hd : cfg.noresult = false) :
    ∀ (ps : List (String × Jsonb)), (∀ p ∈ ps, JB_ROOT_IS_SCALAR p.2 = true) →
    ∀ (st : MapState) (a : Nat) (mt : Metatable) (kv : List (LVal × LVal))
      (below : List LVal) (st2 : MapState),
      st.stack = .table a mt kv :: below → 0 ≤ st.patht_len →
      mapLoop E cfg false st (pairsTokens ps) = .ok st2 →
      ∃ (results : List (LVal × LVal)) (more : List (List LVal)),
        st2.stack = .table a mt (results.foldl (fun t p => rawset t p.1 p.2) kv) :: below
        ∧ st2.patht = st.patht ∧ st2.patht_len = st.patht_len
        ∧ st2.calls = st.calls ++ more ∧ results.length = ps.length
        ∧ (∀ (j : Nat) (k : String) (x : Jsonb), ps[j]? = some (k, x) →
            ∃ nj rs,
              more[j]? = some (.str k :: (decodeNode E cfg nj x).1
                                :: pathEntries st.patht st.patht_len)
              ∧ E.call f (.str k :: (decodeNode E cfg nj x).1
                            :: pathEntries st.patht st.patht_len) = .ok rs
              ∧ (mapResults rs).1 ≠ .nil ∧ (mapResults rs).1 ≠ .nan
              ∧ results[j]? = some (mapResults rs)) := by
  intro ps
  induction ps with
  | nil =>
    intro _ st a mt kv below st2 hst _ hrun
    simp only [pairsTokens, mapLoop, Except.ok.injEq] at hrun
    subst hrun
    refine ⟨[], [], by simp [hst], rfl, rfl, by simp, rfl, ?_⟩
    intro j k x hx
    simp at hx
  | cons p ps ih =>
    obtain ⟨k0, x0⟩ := p
    intro hsc st a mt kv below st2 hst h0 hrun
    have hx : JB_ROOT_IS_SCALAR x0 = true := hsc (k0, x0) (List.mem_cons_self _ _)
    obtain ⟨jv, htok, hps⟩ := pushScalar_leaf E cfg st.next x0 hx
    have hkey : mapStep E cfg false st (.WJB_KEY (.jbvString k0))
        = .ok ⟨.str k0 :: st.stack, st.patht, st.patht_len, st.next, st.calls⟩ := rfl
    simp only [pairsTokens, htok, List.singleton_append, mapLoop, hkey] at hrun
    rw [value_step_any E cfg f hf hd
      ⟨.str k0 :: st.stack, st.patht, st.patht_len, st.next, st.calls⟩ jv _ _ hps k0 a mt kv
      below (by simp [hst]) h0] at hrun
    cases hcall : E.call f (.str k0 :: (decodeNode E cfg st.next x0).1
        :: pathEntries st.patht st.patht_len) with
    | error e => rw [hcall] at hrun; cases hrun
    | ok rs =>
      rw [hcall] at hrun
      by_cases hn : (mapResults rs).1 = .nil
      · simp [lua_settable, hn] at hrun
      by_cases hnan : (mapResults rs).1 = .nan
      · simp [lua_settable, hnan] at hrun
      have hset : lua_settable (.table a mt kv) (mapResults rs).1 (mapResults rs).2
          = .ok (.table a mt (rawset kv (mapResults rs).1 (mapResults rs).2)) := by
        simp only [lua_settable]
      simp only [hset] at hrun
      obtain ⟨results, more, e1, e2, e3, e4, e5, e6⟩ := ih
        (fun y hy => hsc y (List.mem_cons_of_mem _ hy))
        ⟨.table a mt (rawset kv (mapResults rs).1 (mapResults rs).2) :: below,
          st.patht, st.patht_len, (decodeNode E cfg st.next x0).2,
          st.calls ++ [.str k0 :: (decodeNode E cfg st.next x0).1
            :: pathEntries st.patht st.patht_len]⟩
        a mt _ below st2 rfl h0 hrun
      refine ⟨mapResults rs :: results, (.str k0 :: (decodeNode E cfg st.next x0).1
          :: pathEntries st.patht st.patht_len) :: more, ?_, e2, e3, ?_, ?_, ?_⟩
      · rw [e1]
        rfl
      · rw [e4]
        simp
      · simp [e5]
      · intro j k x hj
        cases j with
        | zero =>
          simp only [List.getElem?_cons_zero, Option.some.injEq, Prod.mk.injEq] at hj
          obtain ⟨rfl, rfl⟩ := hj
          exact ⟨st.next, rs, by simp, hcall, hn, hnan, by simp⟩
        | succ j =>
          simp only [List.getElem?_cons_succ] at hj
          obtain ⟨nj, rs2, g1, g2, g3, g4, g5⟩ := e6 j k x hj
          exact ⟨nj, rs2, by simpa using g1, g2, g3, g4, by simpa using g5⟩

/-- C21 (as the code has it): use of the results of the map during decoding, discard not
set. For a scalar member of an Object, the pair (k', v') that the map returns is what is
assigned in the current container (k' neither nil nor NaN): a rewritten key replaces the
decoded key; over an object of scalar members the table built is the empty table with the
pairs the map returned assigned one after the other. For a scalar element of an Array, the
value v' that the map returns is assigned at the running index plus one, whatever key the map
returned, and the running index advances by one. From the opening of an array of scalars, the
element at position i (from 1) is passed to the map with the index i - 1 and the value
returned is what the table holds at index i. -/
theorem map_results_used (E : Env) (cfg : MapConfig) (f : Nat) (hf : cfg.funcidx = some f)
    (hd : cfg.noresult = false) :
    (∀ (st : MapState) (jv : JsonbValue) (v : LVal) (n1 : Nat) (k : String) (a : Nat)
        (mt : Metatable) (kv : List (LVal × LVal)) (below : List LVal) (rs : List LVal),
        pushScalar E cfg st.next jv = (some v, n1) →
        st.stack = .str k :: .table a mt kv :: below → 0 ≤ st.patht_len →
        E.call f (.str k :: v :: pathEntries st.patht st.patht_len) = .ok rs →
        (mapResults rs).1 ≠ .nil → (mapResults rs).1 ≠ .nan →
        mapStep E cfg false st (.WJB_VALUE jv) =
          .ok ⟨.table a mt (rawset kv (mapResults rs).1 (mapResults rs).2) :: below,
               st.patht, st.patht_len, n1,
               st.calls ++ [.str k :: v :: pathEntries st.patht st.patht_len]⟩)
    ∧ (∀ (st : MapState) (jv : JsonbValue) (v : LVal) (n1 : Nat) (idx : Int) (a : Nat)
        (mt : Metatable) (kv : List (LVal × LVal)) (below : List LVal) (rs : List LVal),
        pushScalar E cfg st.next jv = (some v, n1) →
        st.stack = .int idx :: .table a mt kv :: below → 0 ≤ st.patht_len →
        E.call f (.int idx :: v :: pathEntries st.patht st.patht_len) = .ok rs →
        mapStep E cfg false st (.WJB_ELEM jv) =
          .ok ⟨.int (nextIndex idx)
                :: .table a mt (rawset kv (.int (nextIndex idx)) (mapResults rs).2) :: below,
               st.patht, st.patht_len, n1,
               st.calls ++ [.int idx :: v :: pathEntries st.patht st.patht_len]⟩)
    ∧ (∀ (xs : List Jsonb) (st st2 : MapState) (a : Nat) (mt : Metatable) (below : List LVal),
        (∀ x ∈ xs, JB_ROOT_IS_SCALAR x = true) →
        st.stack = .int 0 :: .table a mt [] :: below → 0 ≤ st.patht_len →
        xs.length ≤ 2147483647 →
        mapLoop E cfg false st (elemsTokens xs) = .ok st2 →
        ∃ kv2 more,
          st2.stack = .int xs.length :: .table a mt kv2 :: below
          ∧ st2.calls = st.calls ++ more ∧ more.length = xs.length
          ∧ ∀ (j : Nat) (x : Jsonb), xs[j]? = some x →
              ∃ nj rs,
                more[j]? = some (.int j :: (decodeNode E cfg nj x).1
                                  :: pathEntries st.patht st.patht_len)
                ∧ E.call f (.int j :: (decodeNode E cfg nj x).1
                              :: pathEntries st.patht st.patht_len) = .ok rs
                ∧ rawget kv2 (.int (j + 1)) = (mapResults rs).2)
    ∧ (∀ (ps : List (String × Jsonb)) (st st2 : MapState) (a : Nat) (mt : Metatable)
        (below : List LVal),
        (∀ p ∈ ps, JB_ROOT_IS_SCALAR p.2 = true) →
        st.stack = .table a mt [] :: below → 0 ≤ st.patht_len →
        mapLoop E cfg false st (pairsTokens ps) = .ok st2 →
        ∃ (results : List (LVal × LVal)) (more : List (List LVal)),
          st2.stack = .table a mt (results.foldl (fun t p => rawset t p.1 p.2) []) :: below
          ∧ st2.calls = st.calls ++ more ∧ results.length = ps.length
          ∧ ∀ (j : Nat) (k : String) (x : Jsonb), ps[j]? = some (k, x) →
              ∃ nj rs,
                more[j]? = some (.str k :: (decodeNode E cfg nj x).1
                                  :: pathEntries st.patht st.patht_len)
                ∧ E.call f (.str k :: (decodeNode E cfg nj x).1
                              :: pathEntries st.patht st.patht_len) = .ok rs
                ∧ (mapResults rs).1 ≠ .nil ∧ (mapResults rs).1 ≠ .nan
                ∧ results[j]? = some (mapResults rs)) := by
  refine ⟨?_, ?_, ?_, ?_⟩
  · intro st jv v n1 k a mt kv below rs hps hst h0 hcall hn hnan
    rw [value_step_any E cfg f hf hd st jv v n1 hps k a mt kv below hst h0, hcall]
    simp only [lua_settable]
  · intro st jv v n1 idx a mt kv below rs hps hst h0 hcall
    rw [elem_step E cfg f hf hd st jv v n1 hps idx a mt kv below hst h0, hcall]
  · intro xs st st2 a mt below hsc hst h0 hlen hrun
    obtain ⟨kv2, more, e1, _, _, e4, e5, _, e7⟩ := scalar_elems_stored E cfg f hf hd xs hsc st 0
      a mt [] below st2 hst h0 le_rfl (by omega) hrun
    refine ⟨kv2, more, by simpa using e1, e4, e5, ?_⟩
    intro j x hj
    obtain ⟨nj, rs, g1, g2, g3⟩ := e7 j x hj
    simp only [zero_add] at g1 g2 g3
    exact ⟨nj, rs, g1, g2, g3⟩
  · intro ps st st2 a mt below hsc hst h0 hrun
    obtain ⟨results, more, e1, _, _, e4, e5, e6⟩ := scalar_pairs_stored E cfg f hf hd ps hsc st
      a mt [] below st2 hst h0 hrun
    exact ⟨results, more, e1, e4, e5, e6⟩

/-- An example of C21 with the map `function(k, v, ...) return "z", v end`: the first element
of an array is stored at index 1 although the map returned the key "z", and the running index
becomes 1. Decoding `[true, false]` gives the table with true at 1 and false at 2; decoding
the object with the member "a" gives the table with the member "z". -/
theorem map_results_used_witness :
    mapStep mapEnv (mapConfig (.function 5)) false
        ⟨[.int 0, .table 11 .array_mt [], .nil, .table 10 .none []], [], 0, 12, []⟩
        (.WJB_ELEM (.jbvBool true))
      = .ok ⟨[.int 1, .table 11 .array_mt [(.int 1, .bool true)], .nil, .table 10 .none []],
             [], 0, 12, [[.int 0, .bool true]]⟩
    ∧ mapRun mapEnv 10 (mapConfig (.function 5)) 2 false
        (JsonbIterator (.array [.bool true, .bool false]))
      = .ok ([.table 11 .array_mt [(.int 1, .bool true), (.int 2, .bool false)]],
          [[.int 0, .bool true], [.int 1, .bool false],
           [.nil, .table 11 .array_mt [(.int 1, .bool true), (.int 2, .bool false)]]])
    ∧ mapRun mapEnv 10 (mapConfig (.function 5)) 1 false
        (JsonbIterator (.object [("a", .bool true)]))
      = .ok ([.table 11 .object_mt [(.str "z", .bool true)]],
          [[.str "a", .bool true], [.nil, .table 11 .object_mt [(.str "z", .bool true)]]]) :=
  ⟨(map_results_used mapEnv (mapConfig (.function 5)) 5 rfl rfl).2.1
      ⟨[.int 0, .table 11 .array_mt [], .nil, .table 10 .none []], [], 0, 12, []⟩
      (.jbvBool true) (.bool true) 12 0 11 .array_mt [] [.nil, .table 10 .none []]
      [.str "z", .bool true] rfl rfl (by decide) rfl,
   rfl, rfl⟩

/-- C21 (the claim at a failing input): decoding `[[], true]` with the map
`function(k, v, ...) if type(v) == "table" then return 5, v else return k, v end end`. The
inner array is the first element; the map returns the key 5 for it, the array is stored at
index 6 and the running index becomes 6. The scalar `true`, at position 2, is then passed to
the map with the index 6 and stored at index 7, not at index 2. -/
theorem element_index_follows_map_key :
    mapRun mapEnv 10 (mapConfig (.function 7)) 2 false
        (JsonbIterator (.array [.array [], .bool true]))
      = .ok ([.table 11 .array_mt [(.int 6, .table 12 .array_mt []), (.int 7, .bool true)]],
          [[.int 0, .table 12 .array_mt []], [.int 6, .bool true],
           [.nil, .table 11 .array_mt
              [(.int 6, .table 12 .array_mt []), (.int 7, .bool true)]]])
    ∧ rawget [(.int 6, .table 12 .array_mt []), (.int 7, .bool true)] (.int 2) = .nil
    ∧ pllua_jsonb_map mapEnv 10 (.array [.array [], .bool true]) (.function 7)
      = .ok [.table 11 .array_mt [(.int 6, .table 12 .array_mt []), (.int 7, .bool true)]] :=
  ⟨rfl, rfl, rfl⟩

theorem eventStream_append {p : StreamPart} {a b : List JsonbIteratorToken}
    (ha : EventStream p a) (hp : p ≠ .doc) (hb : EventStream p b) : EventStream p (a ++ b) := by
  induction ha with
  | array body _ _ => exact absurd rfl hp
  | object body _ _ => exact absurd rfl hp
  | elemsNil => simpa using hb
  | elem v rest _ ih => exact .elem v _ (ih hp hb)
  | elemDoc d rest hd _ _ ihr =>
    rw [List.append_assoc]
    exact .elemDoc d _ hd (ihr hp hb)
  | pairsNil => simpa using hb
  | value k v rest _ ih => exact .value k v _ (ih hp hb)
  | pairDoc k d rest hd _ _ ihr =>
    rw [List.cons_append, List.append_assoc]
    exact .pairDoc k d _ hd (ihr hp hb)

theorem bodyPart_ne_doc (o : Bool) : bodyPart o ≠ .doc := by
  cases o <;> simp [bodyPart]

theorem eventStream_count {p : StreamPart} {ts : List JsonbIteratorToken}
    (h : EventStream p ts) : openContainers ts = 0 := by
  induction h with
  | array body _ ih => simp [openContainers, openContainers_append, ih]
  | object body _ ih => simp [openContainers, openContainers_append, ih]
  | elemsNil => rfl
  | elem v rest _ ih => simp [openContainers, ih]
  | elemDoc d rest _ _ ihd ihr => simp [openContainers_append, ihd, ihr]
  | pairsNil => rfl
  | value k v rest _ ih => simp [openContainers, ih]
  | pairDoc k d rest _ _ ihd ihr => simp [openContainers, openContainers_append, ihd, ihr]

theorem openContainers_begin (o : Bool) (ts : List JsonbIteratorToken) :
    openContainers (beginToken o :: ts) = openContainers ts + 1 := by
  cases o <;> rfl

theorem openStream_count {ks : List Bool} {ts : List JsonbIteratorToken}
    (h : OpenStream ks ts) : openContainers ts = ks.length := by
  induction h with
  | root o body hb =>
    simp [openContainers_begin, eventStream_count hb]
  | inArray o ks outer body _ hb ih =>
    simp only [openContainers_append, openContainers_begin, eventStream_count hb, ih,
      List.length_cons]
    push_cast
    omega
  | inObject o ks outer k body _ hb ih =>
    simp only [openContainers_append, openContainers, openContainers_begin,
      eventStream_count hb, ih, List.length_cons]
    push_cast
    omega

/-- Tokens that follow the grammar of its body may be appended to the innermost container. -/
theorem openStream_extend {o : Bool} {ks : List Bool} {ts b : List JsonbIteratorToken}
    (h : OpenStream (o :: ks) ts) (hb : EventStream (bodyPart o) b) :
    OpenStream (o :: ks) (ts ++ b) := by
  cases h with
  | root _ body hbody =>
    exact .root o _ (eventStream_append hbody (bodyPart_ne_doc o) hb)
  | inArray _ ks2 outer body ho hbody =>
    rw [List.append_assoc, List.cons_append]
    exact .inArray o ks2 outer _ ho (eventStream_append hbody (bodyPart_ne_doc o) hb)
  | inObject _ ks2 outer k body ho hbody =>
    rw [List.append_assoc, List.cons_append, List.cons_append]
    exact .inObject o ks2 outer k _ ho (eventStream_append hbody (bodyPart_ne_doc o) hb)

theorem eventStream_closed (o : Bool) (body : List JsonbIteratorToken)
    (hb : EventStream (bodyPart o) body) :
    EventStream .doc (beginToken o :: (body ++ [endToken o])) := by
  cases o with
  | false => exact .array body hb
  | true => exact .object body hb

/-- The end token of the innermost container closes it: the stream is a document when it was
the root, else a stream whose open containers are those that enclose it. -/
theorem openStream_close {o : Bool} {ks : List Bool} {ts : List JsonbIteratorToken}
    (h : OpenStream (o :: ks) ts) :
    (ks = [] → EventStream .doc (ts ++ [endToken o]))
    ∧ (ks ≠ [] → OpenStream ks (ts ++ [endToken o])) := by
  cases h with
  | root _ body hbody =>
    exact ⟨fun _ => eventStream_closed o body hbody, fun h => absurd rfl h⟩
  | inArray _ ks2 outer body ho hbody =>
    refine ⟨fun h => (by cases h), fun _ => ?_⟩
    rw [List.append_assoc, List.cons_append]
    have hd := eventStream_closed o body hbody
    have he : EventStream (bodyPart false) (beginToken o :: (body ++ [endToken o])) := by
      have := EventStream.elemDoc _ [] hd .elemsNil
      simpa using this
    exact openStream_extend ho he
  | inObject _ ks2 outer k body ho hbody =>
    refine ⟨fun h => (by cases h), fun _ => ?_⟩
    rw [List.append_assoc, List.cons_append, List.cons_append]
    have hd := eventStream_closed o body hbody
    have he : EventStream (bodyPart true)
        (.WJB_KEY k :: beginToken o :: (body ++ [endToken o])) := by
      have := EventStream.pairDoc k _ [] hd .pairsNil
      simpa using this
    exact openStream_extend ho he

theorem eventStream_nulls (n : Nat) :
    EventStream .elems (List.replicate n (JsonbIteratorToken.WJB_ELEM .jbvNull)) := by
  induction n with
  | zero => exact .elemsNil
  | succ n ih => exact .elem _ _ ih

/-- What the loop pushes for a key before its value follows the grammar of the body of the
frame, and leaves the kind of the frame as it is. -/
theorem keyTokens_shape (E : Env) (p key : LVal) (toks : List JsonbIteratorToken) (p2 : LVal)
    (tok : JsonbValue → JsonbIteratorToken) (h : keyTokens E p key = .ok (toks, p2, tok)) :
    lua_isnil p2 = lua_isnil p
    ∧ ((lua_isnil p = false ∧ EventStream .elems toks ∧ tok = JsonbIteratorToken.WJB_ELEM)
      ∨ (lua_isnil p = true ∧ ∃ k, toks = [.WJB_KEY k] ∧ tok = JsonbIteratorToken.WJB_VALUE)) := by
  unfold keyTokens at h
  cases hp : lua_isnil p with
  | false =>
    simp only [hp, Bool.not_false, if_true, Except.ok.injEq, Prod.mk.injEq] at h
    obtain ⟨h1, h2, h3⟩ := h
    subst h1 h2 h3
    exact ⟨rfl, Or.inl ⟨rfl, eventStream_nulls _, rfl⟩⟩
  | true =>
    simp only [hp, Bool.not_true, Bool.false_eq_true, if_false] at h
    cases key with
    | str s =>
      simp only at h
      split at h
      · simp only [Except.ok.injEq, Prod.mk.injEq] at h
        obtain ⟨h1, h2, h3⟩ := h
        subst h1 h2 h3
        exact ⟨hp, Or.inr ⟨rfl, _, rfl, rfl⟩⟩
      · cases h
    | _ => simp at h

theorem endToken_eq (p : LVal) :
    (if lua_isnil p = true then JsonbIteratorToken.WJB_END_OBJECT
      else JsonbIteratorToken.WJB_END_ARRAY) = endToken (lua_isnil p) := by
  cases lua_isnil p <;> rfl

/-- One iteration of the encode loop keeps the invariant, or closes the root and leaves a
document. -/
theorem tosqlStep_invariant (E : Env) (cfg : TosqlConfig) (st st1 : TosqlState)
    (hinv : EncodeInvariant st) (hstep : tosqlStep E cfg st = .ok st1) :
    (EncodeInvariant st1 ∧ 0 < st1.depth)
    ∨ (st1.depth = 0 ∧ st1.frames = [] ∧ EventStream .doc st1.pushed) := by
  obtain ⟨hdepth, hopen⟩ := hinv
  unfold tosqlStep at hstep
  cases hfr : st.frames with
  | nil => rw [hfr] at hstep; cases hstep
  | cons f rest =>
    rw [hfr] at hstep hdepth hopen
    simp only at hstep
    simp only [List.map_cons, List.length_cons] at hopen hdepth
    cases hkey : (if f.index = 0 then none else f.keylist[f.index - 1]?) with
    | none =>
      rw [hkey] at hstep
      simp only [Except.ok.injEq] at hstep
      subst hstep
      simp only [endToken_eq]
      obtain ⟨hc1, hc2⟩ := openStream_close hopen
      cases rest with
      | nil =>
        right
        refine ⟨?_, rfl, hc1 rfl⟩
        simp only [List.length_nil] at hdepth
        show st.depth - 1 = 0
        omega
      | cons g rest2 =>
        left
        refine ⟨⟨?_, hc2 (by simp)⟩, ?_⟩
        · show st.depth - 1 = ((g :: rest2).length : Int)
          omega
        · show 0 < st.depth - 1
          simp only [List.length_cons] at hdepth
          push_cast at hdepth
          omega
    | some key =>
      rw [hkey] at hstep
      simp only at hstep
      cases hget : lua_gettable f.container key with
      | error e => rw [hget] at hstep; cases hstep
      | ok value0 =>
        rw [hget] at hstep
        simp only at hstep
        cases hkt : keyTokens E f.prevkey key with
        | error e => rw [hkt] at hstep; cases hstep
        | ok r =>
          obtain ⟨toks, p2, tok⟩ := r
          rw [hkt] at hstep
          simp only at hstep
          obtain ⟨hkind, hshape⟩ := keyTokens_shape E f.prevkey key toks p2 tok hkt
          cases hmap : tosqlMap E cfg.funcidx
              (if lua_rawequal value0 cfg.nullvalue then LVal.nil else value0) with
          | error e => rw [hmap] at hstep; cases hstep
          | ok value =>
            rw [hmap] at hstep
            simp only at hstep
            have hpos : (0 : Int) < ((rest.length + 1 : Nat) : Int) := by
              push_cast; omega
            by_cases hcont : pllua_is_container value = true
            · simp only [hcont, if_true] at hstep
              cases hpk : pllua_jsonb_pushkeys E value cfg.empty_object cfg.array_thresh
                  cfg.array_frac with
              | error e => rw [hpk] at hstep; cases hstep
              | ok pk =>
                rw [hpk] at hstep
                simp only [Except.ok.injEq] at hstep
                subst hstep
                left
                obtain ⟨_, _, hsh⟩ := pushkeys_shape E _ _ _ _ pk hpk
                have hbeg : pk.tok = beginToken (lua_isnil pk.prevkey) := by
                  rcases hsh with ⟨h1, h2⟩ | ⟨h1, h2⟩ <;> rw [h1, h2] <;> rfl
                refine ⟨⟨?_, ?_⟩, ?_⟩
                · show st.depth + 1 = _
                  simp only [List.length_cons]
                  push_cast
                  push_cast at hdepth
                  omega
                · simp only [List.map_cons, TosqlFrame.isObject, hkind, hbeg]
                  simp only [TosqlFrame.isObject] at hopen
                  rcases hshape with ⟨hk, hel, _⟩ | ⟨hk, k, htoks, _⟩
                  · rw [hk] at hopen ⊢
                    have hext := openStream_extend hopen (by simpa [bodyPart] using hel)
                    have := OpenStream.inArray (lua_isnil pk.prevkey) _ _ [] hext
                      (by cases lua_isnil pk.prevkey <;> simp [bodyPart] <;>
                        first | exact .pairsNil | exact .elemsNil)
                    exact this
                  · rw [hk] at hopen ⊢
                    subst htoks
                    have := OpenStream.inObject (lua_isnil pk.prevkey) _ _ k [] hopen
                      (by cases lua_isnil pk.prevkey <;> simp [bodyPart] <;>
                        first | exact .pairsNil | exact .elemsNil)
                    simpa using this
                · show 0 < st.depth + 1
                  omega
            · simp only [hcont, Bool.false_eq_true, if_false] at hstep
              cases hsc : pllua_jsonb_toscalar E value with
              | error e => rw [hsc] at hstep; cases hstep
              | ok pval =>
                rw [hsc] at hstep
                simp only [Except.ok.injEq] at hstep
                subst hstep
                left
                refine ⟨⟨?_, ?_⟩, ?_⟩
                · show st.depth = _
                  simp only [List.length_cons]
                  exact hdepth
                · simp only [List.map_cons, TosqlFrame.isObject, hkind]
                  simp only [TosqlFrame.isObject] at hopen
                  rw [List.append_assoc]
                  apply openStream_extend hopen
                  rcases hshape with ⟨hk, hel, htok⟩ | ⟨hk, k, htoks, htok⟩
                  · rw [hk, htok]
                    exact eventStream_append hel (bodyPart_ne_doc false) (.elem pval [] .elemsNil)
                  · rw [hk, htoks, htok]
                    exact .value k pval [] .pairsNil
                · show 0 < st.depth
                  omega

theorem openStream_nonempty {ks : List Bool} {ts : List JsonbIteratorToken}
    (h : OpenStream ks ts) : 0 < ks.length := by
  cases h <;> simp

theorem tosqlIterate_done (E : Env) (cfg : TosqlConfig) (n : Nat) (st : TosqlState)
    (h : ¬ st.depth > 0) : tosqlIterate E cfg n st = .ok st := by
  cases n <;> simp [tosqlIterate, h]

/-- Every state the encode loop reaches from a state with the invariant has it, or is the
state after the end of the root. -/
theorem tosqlIterate_invariant (E : Env) (cfg : TosqlConfig) :
    ∀ (n : Nat) (st st1 : TosqlState), EncodeInvariant st →
      tosqlIterate E cfg n st = .ok st1 →
      (EncodeInvariant st1 ∧ 0 < st1.depth)
      ∨ (st1.depth = 0 ∧ st1.frames = [] ∧ EventStream .doc st1.pushed) := by
  intro n
  induction n with
  | zero =>
    intro st st1 hinv h
    simp only [tosqlIterate, Except.ok.injEq] at h
    subst h
    left
    refine ⟨hinv, ?_⟩
    have := openStream_nonempty hinv.2
    rw [hinv.1]
    simp only [List.length_map] at this
    exact_mod_cast this
  | succ n ih =>
    intro st st1 hinv h
    have hpos : st.depth > 0 := by
      have := openStream_nonempty hinv.2
      rw [hinv.1]
      simp only [List.length_map] at this
      exact_mod_cast this
    simp only [tosqlIterate, hpos, if_true] at h
    cases hs : tosqlStep E cfg st with
    | error e => rw [hs] at h; cases h
    | ok st2 =>
      rw [hs] at h
      simp only at h
      rcases tosqlStep_invariant E cfg st st2 hinv hs with ⟨hinv2, _⟩ | ⟨hd, hf, hdoc⟩
      · exact ih st2 st1 hinv2 h
      · rw [tosqlIterate_done E cfg n st2 (by omega)] at h
        cases h
        exact Or.inr ⟨hd, hf, hdoc⟩

theorem tosqlLoop_iterate (E : Env) (cfg : TosqlConfig) :
    ∀ (fuel : Nat) (st st1 : TosqlState), tosqlLoop E cfg fuel st = some (.ok st1) →
      tosqlIterate E cfg fuel st = .ok st1 ∧ ¬ st1.depth > 0 := by
  intro fuel
  induction fuel with
  | zero =>
    intro st st1 h
    simp only [tosqlLoop] at h
    split at h
    · cases h
    · cases h
      exact ⟨rfl, by assumption⟩
  | succ n ih =>
    intro st st1 h
    simp only [tosqlLoop] at h
    by_cases hpos : st.depth > 0
    · simp only [hpos, if_true] at h
      cases hs : tosqlStep E cfg st with
      | error e => rw [hs] at h; cases h
      | ok st2 =>
        rw [hs] at h
        simp only at h
        obtain ⟨h1, h2⟩ := ih st2 st1 h
        exact ⟨by simp only [tosqlIterate, hpos, if_true, hs]; exact h1, h2⟩
    · simp only [hpos, if_false] at h
      cases h
      exact ⟨tosqlIterate_done E cfg _ _ hpos, hpos⟩

/-- C23: the event stream of the encode loop of `pllua_jsonb_tosql`, with or without a map,
from the state in which the loop is entered for a root container. In every state reached
`depth` is the number of frames and the number of containers begun and not ended; while it is
positive the calls of `pushJsonbValue` so far are a stream whose open containers are the
frames, each end token being of the kind of its begin token; `depth` is 0 exactly when the
stream is a document of the grammar. When the loop ends, it ends with no frame left and a
document. Without a map the loop ends after at most `LVal.fuel` iterations. -/
theorem encode_stream_well_formed (E : Env) (cfg : TosqlConfig) (a : Nat) (mt : Metatable)
    (kv : List (LVal × LVal)) (pk : PushKeys) (calls : List (List LVal))
    (hpk : pllua_jsonb_pushkeys E (.table a mt kv) cfg.empty_object cfg.array_thresh
      cfg.array_frac = .ok pk) :
    (∀ (n : Nat) (st : TosqlState),
        tosqlIterate E cfg n
          ⟨1, [⟨.table a mt kv, pk.keylist, pk.prevkey, pk.index⟩], [pk.tok], calls⟩ = .ok st →
        st.depth = st.frames.length
        ∧ st.depth = openContainers st.pushed
        ∧ (0 < st.depth → OpenStream (st.frames.map TosqlFrame.isObject) st.pushed)
        ∧ (st.depth = 0 ↔ EventStream .doc st.pushed))
    ∧ (∀ (fuel : Nat) (st : TosqlState),
        tosqlLoop E cfg fuel
          ⟨1, [⟨.table a mt kv, pk.keylist, pk.prevkey, pk.index⟩], [pk.tok], calls⟩
          = some (.ok st) →
        st.depth = 0 ∧ st.frames = [] ∧ EventStream .doc st.pushed)
    ∧ (cfg.funcidx = none → ∀ fuel : Nat, (LVal.table a mt kv).fuel ≤ fuel →
        ∃ r, tosqlLoop E cfg fuel
          ⟨1, [⟨.table a mt kv, pk.keylist, pk.prevkey, pk.index⟩], [pk.tok], calls⟩
          = some r) := by
  obtain ⟨hidx, hlen, hsh⟩ := pushkeys_shape E _ _ _ _ pk hpk
  have hbeg : pk.tok = beginToken (lua_isnil pk.prevkey) := by
    rcases hsh with ⟨h1, h2⟩ | ⟨h1, h2⟩ <;> rw [h1, h2] <;> rfl
  have hinit : EncodeInvariant
      ⟨1, [⟨.table a mt kv, pk.keylist, pk.prevkey, pk.index⟩], [pk.tok], calls⟩ := by
    refine ⟨rfl, ?_⟩
    simp only [List.map_cons, List.map_nil, TosqlFrame.isObject, hbeg]
    exact .root _ [] (by cases lua_isnil pk.prevkey <;> simp [bodyPart] <;>
      first | exact .pairsNil | exact .elemsNil)
  have hreach := tosqlIterate_invariant E cfg
  refine ⟨?_, ?_, ?_⟩
  · intro n st h
    rcases hreach n _ st hinit h with ⟨⟨h1, h2⟩, h3⟩ | ⟨h1, h2, h3⟩
    · have hcount := openStream_count h2
      simp only [List.length_map] at hcount
      refine ⟨h1, by rw [h1, hcount], fun _ => h2, ?_⟩
      constructor
      · intro h0; omega
      · intro hdoc
        have := eventStream_count hdoc
        rw [hcount] at this
        rw [h1]
        exact_mod_cast this
    · refine ⟨by rw [h1, h2]; rfl, by rw [h1, eventStream_count h3], fun h => by omega, ?_⟩
      exact ⟨fun _ => h3, fun _ => h1⟩
  · intro fuel st h
    obtain ⟨hit, hnot⟩ := tosqlLoop_iterate E cfg fuel _ st h
    rcases hreach fuel _ st hinit hit with ⟨_, h3⟩ | h
    · exact absurd h3 hnot
    · exact h
  · intro hmap fuel hfuel
    obtain ⟨m, hm, hrun⟩ := frame_run E cfg hmap _ a mt kv le_rfl pk.keylist pk.keylist 0
      pk.prevkey [] [pk.tok] 1 calls rfl (by omega)
    have hm2 : m ≤ fuel := by
      have h1 : pk.keylist.length * (1 + entriesFuel kv) ≤ kv.length * (1 + entriesFuel kv) := by
        apply Nat.mul_le_mul_right
        simpa [containerKeys] using hlen
      have h2 : (LVal.table a mt kv).fuel = 1 + kv.length * (1 + entriesFuel kv) := by
        simp [LVal.fuel]
      omega
    rw [hidx, show fuel = (fuel - m) + m by omega, hrun]
    cases frameSpec E (fun key => encodeValue E cfg (rawget kv key)) pk.prevkey pk.keylist with
    | error e => exact ⟨_, rfl⟩
    | ok ts =>
      simp only
      rw [tosqlLoop_done _ _ _ _ (by simp)]
      exact ⟨_, rfl⟩

/-- An example of C23: the calls of `pushJsonbValue` for the table with 10 at 1 and the table
with the member "a" at 2 are a document of the grammar. -/
theorem encode_stream_well_formed_witness :
    EventStream .doc
      [.WJB_BEGIN_ARRAY, .WJB_ELEM (.jbvNumeric ⟨"10"⟩), .WJB_BEGIN_OBJECT,
       .WJB_KEY (.jbvString "a"), .WJB_VALUE (.jbvNumeric ⟨"1"⟩), .WJB_END_OBJECT,
       .WJB_END_ARRAY] :=
  ((encode_stream_well_formed refEnv ⟨none, false, 1000, 1000, .nil⟩ 1 .none
      [(.int 1, .int 10), (.int 2, .table 2 .none [(.str "a", .int 1)])]
      ⟨.WJB_BEGIN_ARRAY, [.int 1, .int 2], .int 0, 1⟩ [] rfl).2.1 10
    ⟨0, [],
      [.WJB_BEGIN_ARRAY, .WJB_ELEM (.jbvNumeric ⟨"10"⟩), .WJB_BEGIN_OBJECT,
       .WJB_KEY (.jbvString "a"), .WJB_VALUE (.jbvNumeric ⟨"1"⟩), .WJB_END_OBJECT,
       .WJB_END_ARRAY], []⟩ rfl).2.2

/-- The pairs of an Object frame, key by key: the pair at the index of a key has that key and
the encoding found for it. -/
theorem encodePairs_getElem (E : Env) (lookup : LVal → Except LuaError Built) :
    ∀ (ks : List LVal) (ps : List (String × Built)), encodePairs E lookup ks = .ok ps →
      ∀ (i : Nat) (key : LVal), ks[i]? = some key →
        ∃ k c, key = .str k ∧ ps[i]? = some (k, c) ∧ lookup key = .ok c := by
  intro ks
  induction ks with
  | nil => intro ps _ i key hi; simp at hi
  | cons key0 ks ih =>
    intro ps h i key hi
    simp only [encodePairs] at h
    cases key0 with
    | str s0 =>
      simp only at h
      split at h
      · cases hl : lookup (.str s0) with
        | error e => rw [hl] at h; cases h
        | ok c0 =>
          rw [hl] at h
          simp only at h
          cases hr : encodePairs E lookup ks with
          | error e => rw [hr] at h; cases h
          | ok rest =>
            rw [hr] at h
            simp only [Except.ok.injEq] at h
            subst h
            cases i with
            | zero =>
              simp only [List.getElem?_cons_zero, Option.some.injEq] at hi
              subst hi
              exact ⟨s0, c0, rfl, by simp, hl⟩
            | succ j =>
              simp only [List.getElem?_cons_succ] at hi
              obtain ⟨k, c, h1, h2, h3⟩ := ih rest hr j key hi
              exact ⟨k, c, h1, by simpa using h2, h3⟩
      · cases h
    | _ => simp at h

/-- The elements of an Array frame, key by key: the element at the position of a key is the
encoding found for it. -/
theorem encodeElems_getElem (E : Env) (lookup : LVal → Except LuaError Built) :
    ∀ (ks : List LVal) (prevkey : LVal) (xs : List Built),
      encodeElems E lookup prevkey ks = .ok xs →
      ∀ (i : Nat) (key : LVal), ks[i]? = some key →
        ∃ c, xs[elemPosition E prevkey ks i]? = some c ∧ lookup key = .ok c := by
  intro ks
  induction ks with
  | nil => intro p xs _ i key hi; simp at hi
  | cons key0 ks ih =>
    intro p xs h i key hi
    simp only [encodeElems] at h
    cases hl : lookup key0 with
    | error e => rw [hl] at h; cases h
    | ok c0 =>
      rw [hl] at h
      simp only at h
      cases hr : encodeElems E lookup (.int (wrapInt32 (lua_tointeger E key0))) ks with
      | error e => rw [hr] at h; cases h
      | ok rest =>
        rw [hr] at h
        simp only [Except.ok.injEq] at h
        subst h
        cases i with
        | zero =>
          simp only [List.getElem?_cons_zero, Option.some.injEq] at hi
          subst hi
          refine ⟨c0, ?_, hl⟩
          simp only [elemPosition]
          rw [List.getElem?_append_right (by simp)]
          simp
        | succ j =>
          simp only [List.getElem?_cons_succ] at hi
          obtain ⟨c, h1, h2⟩ := ih _ rest hr j key hi
          refine ⟨c, ?_, h2⟩
          simp only [elemPosition]
          rw [List.getElem?_append_right (by simp; omega)]
          simp only [List.length_replicate]
          have : gapCount (wrapInt32 (lua_tointeger E key0)) (wrapInt32 (lua_tointeger E p)) + 1
              + elemPosition E (.int (wrapInt32 (lua_tointeger E key0))) ks j
              - gapCount (wrapInt32 (lua_tointeger E key0)) (wrapInt32 (lua_tointeger E p))
              = elemPosition E (.int (wrapInt32 (lua_tointeger E key0))) ks j + 1 := by omega
          rw [this]
          simpa using h1

/-- The members and elements of the encoding of a container: each is the encoding of the
value looked up under its key. -/
theorem encodeValue_members (E : Env) (cfg : TosqlConfig) (a : Nat) (mt : Metatable)
    (kv : List (LVal × LVal)) (pk : PushKeys) (b : Built)
    (hnull : lua_rawequal (.table a mt kv) cfg.nullvalue = false)
    (hpk : pllua_jsonb_pushkeys E (.table a mt kv) cfg.empty_object cfg.array_thresh
      cfg.array_frac = .ok pk)
    (henc : encodeValue E cfg (.table a mt kv) = .ok b) :
    (pk.tok = .WJB_BEGIN_OBJECT →
      ∃ ps, b.toJsonb = .object ps ∧
        ∀ (i : Nat) (key : LVal), pk.keylist[i]? = some key →
          ∃ k c, key = .str k ∧ encodeValue E cfg (rawget kv key) = .ok c
            ∧ ps[i]? = some (k, c.toJsonb))
    ∧ (pk.tok = .WJB_BEGIN_ARRAY →
      ∃ xs, b.toJsonb = .array xs ∧
        ∀ (i : Nat) (key : LVal), pk.keylist[i]? = some key →
          ∃ c, encodeValue E cfg (rawget kv key) = .ok c
            ∧ xs[elemPosition E (.int 0) pk.keylist i]? = some c.toJsonb) := by
  have hl : lookupEncoded (encodeEntries E cfg kv)
      = fun key => encodeValue E cfg (rawget kv key) := by
    funext key; exact lookupEncoded_eq E cfg key kv
  simp only [encodeValue, hnull, hpk, hl, Bool.false_eq_true, if_false] at henc
  obtain ⟨_, _, hsh⟩ := pushkeys_shape E _ _ _ _ pk hpk
  rcases hsh with ⟨htok, hprev⟩ | ⟨htok, hprev⟩
  · refine ⟨fun _ => ?_, fun h => (by rw [htok] at h; cases h)⟩
    rw [hprev] at henc
    simp only [lua_isnil, if_true] at henc
    cases hp : encodePairs E (fun key => encodeValue E cfg (rawget kv key)) pk.keylist with
    | error e => rw [hp] at henc; cases henc
    | ok ps =>
      rw [hp] at henc
      simp only [Except.ok.injEq] at henc
      subst henc
      refine ⟨Built.pairsToJsonb ps, rfl, ?_⟩
      intro i key hi
      obtain ⟨k, c, h1, h2, h3⟩ := encodePairs_getElem E _ _ ps hp i key hi
      refine ⟨k, c, h1, h3, ?_⟩
      rw [pairsToJsonb_eq_map, List.getElem?_map, h2]
      rfl
  · refine ⟨fun h => (by rw [htok] at h; cases h), fun _ => ?_⟩
    rw [hprev] at henc
    simp only [lua_isnil, Bool.false_eq_true, if_false] at henc
    cases hp : encodeElems E (fun key => encodeValue E cfg (rawget kv key)) (.int 0)
        pk.keylist with
    | error e => rw [hp] at henc; cases henc
    | ok xs =>
      rw [hp] at henc
      simp only [Except.ok.injEq] at henc
      subst henc
      refine ⟨Built.elemsToJsonb xs, rfl, ?_⟩
      intro i key hi
      obtain ⟨c, h1, h2⟩ := encodeElems_getElem E _ _ _ xs hp i key hi
      refine ⟨c, h2, ?_⟩
      rw [elemsToJsonb_eq_map, List.getElem?_map, h1]
      rfl

theorem reconstructsElems_null (E : Env) (cfg : MapConfig) (kv : List (LVal × LVal)) :
    ∀ (xs : List Jsonb) (j : Int), ReconstructsElems E cfg xs j kv →
      ∀ i : Nat, xs[i]? = some .null → rawget kv (.int (j + i)) = cfg.nullvalue := by
  intro xs
  induction xs with
  | nil => intro j _ i hi; simp at hi
  | cons x xs ih =>
    intro j h i hi
    simp only [ReconstructsElems] at h
    cases i with
    | zero =>
      simp only [List.getElem?_cons_zero, Option.some.injEq] at hi
      subst hi
      simpa [Reconstructs] using h.1
    | succ i =>
      simp only [List.getElem?_cons_succ] at hi
      have := ih (j + 1) h.2 i hi
      rw [← this]
      congr 2
      push_cast
      omega

theorem reconstructsPairs_null (E : Env) (cfg : MapConfig) (kv : List (LVal × LVal)) :
    ∀ (ps : List (String × Jsonb)), ReconstructsPairs E cfg ps kv →
      ∀ k : String, (k, Jsonb.null) ∈ ps → rawget kv (.str k) = cfg.nullvalue := by
  intro ps
  induction ps with
  | nil => intro _ k hk; simp at hk
  | cons p ps ih =>
    obtain ⟨k0, x0⟩ := p
    intro h k hk
    simp only [ReconstructsPairs] at h
    rcases List.mem_cons.mp hk with he | he
    · simp only [Prod.mk.injEq] at he
      obtain ⟨rfl, rfl⟩ := he
      simpa [Reconstructs] using h.1
    · exact ih h.2 k he

/-- C7 (as the code has it): the null value in both directions when no map is configured, for
a value `s` configured as `null`. Encoding: `pllua_jsonb_tosql` gives the document Null for a
root raw-equal to `s`; for every value it gives the document of the encoding `encodeValue`,
in which a value raw-equal to `s` is Null wherever it stands: in the encoding of a container
the member at the index of a key in the key list, or the element at the position of the key,
is the encoding of the value looked up under the key, and is Null when that value is
raw-equal to `s`. Decoding: `pllua_jsonb_map`, without a map and discard not set, returns a
value that reconstructs the document, in which every Null leaf reads as `s` itself: the root,
the element of an array at its index, the member of an object under its key. -/
theorem null_sentinel (E : Env) (s : LVal) :
    (∀ (c : LVal) (cfg : TosqlConfig) (v : LVal) (fuel : Nat),
        tosqlConfig c = .ok cfg → cfg.funcidx = none → cfg.nullvalue = s →
        (lua_rawequal v s = true → pllua_jsonb_tosql E fuel [v, c] = some (.ok [.null]))
        ∧ (v.fuel ≤ fuel →
            pllua_jsonb_tosql E fuel [v, c] =
              some (match encodeValue E cfg v with
                    | .ok b => .ok [b.toJsonb]
                    | .error e => .error e)))
    ∧ (∀ (cfg : TosqlConfig) (a : Nat) (mt : Metatable) (kv : List (LVal × LVal))
        (pk : PushKeys) (b : Built), cfg.nullvalue = s →
        lua_rawequal (.table a mt kv) s = false →
        pllua_jsonb_pushkeys E (.table a mt kv) cfg.empty_object cfg.array_thresh
          cfg.array_frac = .ok pk →
        encodeValue E cfg (.table a mt kv) = .ok b →
        (pk.tok = .WJB_BEGIN_OBJECT →
          ∃ ps, b.toJsonb = .object ps ∧
            ∀ (i : Nat) (key : LVal), pk.keylist[i]? = some key →
              ∃ k c, key = .str k ∧ encodeValue E cfg (rawget kv key) = .ok c
                ∧ ps[i]? = some (k, c.toJsonb)
                ∧ (lua_rawequal (rawget kv key) s = true → ps[i]? = some (k, .null)))
        ∧ (pk.tok = .WJB_BEGIN_ARRAY →
          ∃ xs, b.toJsonb = .array xs ∧
            ∀ (i : Nat) (key : LVal), pk.keylist[i]? = some key →
              ∃ c, encodeValue E cfg (rawget kv key) = .ok c
                ∧ xs[elemPosition E (.int 0) pk.keylist i]? = some c.toJsonb
                ∧ (lua_rawequal (rawget kv key) s = true →
                    xs[elemPosition E (.int 0) pk.keylist i]? = some .null)))
    ∧ (∀ (heap : Nat) (jb : Jsonb) (arg2 : LVal), (mapConfig arg2).nullvalue = s →
        (mapConfig arg2).funcidx = none → (mapConfig arg2).noresult = false →
        jb.wellFormed E = true → JB_ROOT_COUNT jb ≠ 0 →
        ∃ v, pllua_jsonb_map E heap jb arg2 = .ok [v] ∧ Reconstructs E (mapConfig arg2) jb v)
    ∧ (∀ (cfg : MapConfig), cfg.nullvalue = s →
        (∀ v, Reconstructs E cfg .null v ↔ v = s)
        ∧ (∀ (xs : List Jsonb) (a : Nat) (mt : Metatable) (kv : List (LVal × LVal)),
            Reconstructs E cfg (.array xs) (.table a mt kv) →
            ∀ i : Nat, xs[i]? = some .null → rawget kv (.int ((i : Int) + 1)) = s)
        ∧ (∀ (ps : List (String × Jsonb)) (a : Nat) (mt : Metatable) (kv : List (LVal × LVal)),
            Reconstructs E cfg (.object ps) (.table a mt kv) →
            ∀ k : String, (k, Jsonb.null) ∈ ps → rawget kv (.str k) = s)) := by
  refine ⟨?_, ?_, ?_, ?_⟩
  · intro c cfg v fuel hcfg hmap hnull
    refine ⟨?_, fun hfuel => tosql_eq E cfg hmap v c hcfg fuel hfuel⟩
    intro hv
    unfold pllua_jsonb_tosql
    simp only [List.length_cons, List.length_nil, List.headD_cons, List.drop_succ_cons,
      List.drop_zero, hcfg]
    simp [tosqlRun, tosqlMap, hmap, recordCall, hnull, hv, pllua_is_container,
      pllua_jsonb_toscalar, JsonbValueToJsonb]
  · intro cfg a mt kv pk b hnull hne hpk henc
    obtain ⟨hobj, harr⟩ := encodeValue_members E cfg a mt kv pk b (by rw [hnull]; exact hne)
      hpk henc
    refine ⟨fun htok => ?_, fun htok => ?_⟩
    · obtain ⟨ps, hps, hall⟩ := hobj htok
      refine ⟨ps, hps, ?_⟩
      intro i key hi
      obtain ⟨k, c, h1, h2, h3⟩ := hall i key hi
      refine ⟨k, c, h1, h2, h3, ?_⟩
      intro hv
      rw [encodeValue_null E cfg _ (by rw [hnull]; exact hv)] at h2
      cases h2
      exact h3
    · obtain ⟨xs, hxs, hall⟩ := harr htok
      refine ⟨xs, hxs, ?_⟩
      intro i key hi
      obtain ⟨c, h2, h3⟩ := hall i key hi
      refine ⟨c, h2, h3, ?_⟩
      intro hv
      rw [encodeValue_null E cfg _ (by rw [hnull]; exact hv)] at h2
      cases h2
      exact h3
  · intro heap jb arg2 _ hmap hnr hwf hroot
    refine ⟨(decodeNode E (mapConfig arg2) (heap + 1) jb).1, ?_, ?_⟩
    · rw [map_eq E heap jb arg2 hmap hnr]
      simp [hroot]
    · exact reconstructs_node E (mapConfig arg2) jb (heap + 1) hwf
  · intro cfg hnull
    refine ⟨fun v => by simp [Reconstructs, hnull], ?_, ?_⟩
    · intro xs a mt kv h i hi
      simp only [Reconstructs, LVal.table.injEq] at h
      obtain ⟨a2, mt2, kv2, ⟨_, _, rfl⟩, hel⟩ := h
      have := reconstructsElems_null E cfg kv xs 1 hel i hi
      rw [← hnull, ← this]
      congr 2
      omega
    · intro ps a mt kv h k hk
      simp only [Reconstructs, LVal.table.injEq] at h
      obtain ⟨a2, mt2, kv2, ⟨_, _, rfl⟩, hel⟩ := h
      rw [← hnull]
      exact reconstructsPairs_null E cfg kv ps hel k hk

/-- An example of C7 with the sentinel light userdata 5 and no map: the sentinel as root is
encoded as Null, and the document Null is decoded as the sentinel. -/
theorem null_sentinel_witness :
    pllua_jsonb_tosql refEnv 0
        [.lightuserdata 5, .table 1 .none [(.str "null", .lightuserdata 5)]] = some (.ok [.null])
    ∧ ∃ v, pllua_jsonb_map refEnv 7 (.array [.null, .bool true]) (.lightuserdata 5) = .ok [v]
        ∧ Reconstructs refEnv (mapConfig (.lightuserdata 5)) (.array [.null, .bool true]) v :=
  ⟨((null_sentinel refEnv (.lightuserdata 5)).1
      (.table 1 .none [(.str "null", .lightuserdata 5)])
      { funcidx := none, empty_object := false, array_thresh := 1000, array_frac := 1000,
        nullvalue := .lightuserdata 5 }
      (.lightuserdata 5) 0 rfl rfl rfl).1 rfl,
   (null_sentinel refEnv (.lightuserdata 5)).2.2.1 7 (.array [.null, .bool true])
      (.lightuserdata 5) rfl rfl rfl rfl (by decide)⟩

/-- C7 (the claim at a failing input): with a map configured the sentinel is not encoded as
Null and Null is not decoded as the sentinel. Encoding the sentinel light userdata 5, as the
root or as the element of a table, with the map that turns every value but a table into
"N/A", gives the String "N/A": the map receives nil in place of the sentinel and its result
is encoded. Decoding the array of one Null with the map that replaces every value but a table
by "seen" gives the table that holds "seen", not the sentinel, at index 1. -/
theorem sentinel_passes_through_map :
    pllua_jsonb_tosql mapEnv 10
        [.lightuserdata 5,
         .table 2 .none [(.str "map", .function 3), (.str "null", .lightuserdata 5)]]
      = some (.ok [.string "N/A"])
    ∧ pllua_jsonb_tosql mapEnv 10
        [.table 1 .none [(.int 1, .lightuserdata 5)],
         .table 2 .none [(.str "map", .function 3), (.str "null", .lightuserdata 5)]]
      = some (.ok [.array [.string "N/A"]])
    ∧ pllua_jsonb_map mapEnv 10 (.array [.null])
        (.table 2 .none [(.str "map", .function 9), (.str "null", .lightuserdata 5)])
      = .ok [.table 11 .array_mt [(.int 1, .str "seen")]] :=
  ⟨rfl, rfl, rfl⟩

end Pllua
